import Mathlib

/-!
# The memo of `mini-explorer` (`src/main.go`)

A shallow embedding of the memo: groups, the two interning tables, the join
constructor with its zero-cardinality simplification, the exploration
passes that fire the commute and associate rules, and the textual dump
`memo.String`.

Go's heap of `grp` objects is the list `memo.heap`; a `*grp` is an index
into it (`none` is `nil`).  A Go map is an association list with at most one
entry per key in every state the program builds; `mapGet` reads the first
entry of a key and `mapSet` overwrites it in place.  A run that panics or
exhausts the recursion budget of the model ends in an `Abort`.
-/

namespace MiniExplorer

/-- Address of an allocated `grp` object: its index in `memo.heap`. -/
abbrev Ptr := Nat

/-- `type rel struct { grp *grp; id int; name string }`.  The `id` is only ever
compared, so its machine width plays no part. -/
structure rel where
  grp : Option Ptr
  id : Int
  name : String
deriving DecidableEq, Repr

/-- `type join struct { grp *grp; l *grp; r *grp }` -/
structure join where
  grp : Option Ptr
  l : Option Ptr
  r : Option Ptr
deriving DecidableEq, Repr

/-- An `expr` interface value: a `*rel` or a `*join`.  The pointed-to struct is
never written after the statement that stores it in a group, so the
expression is kept by value. -/
inductive expr where
  | ofRel (r : rel)
  | ofJoin (j : join)
deriving DecidableEq, Repr

/-- `type grp struct { name string; exprs []expr; memo *memo; done bool }`.
The back pointer `memo` is never read by the program and is left out. -/
structure grp where
  name : String
  exprs : List expr
  done : Bool
deriving DecidableEq, Repr

/-- `type memo struct { grps []*grp; internedRels map[rel]*grp;
internedJoins map[join]*grp }` together with the store of group objects. -/
structure memo where
  heap : List grp
  grps : List Ptr
  internedRels : List (rel × Ptr)
  internedJoins : List (join × Ptr)
deriving DecidableEq, Repr

/-- The ways a run stops without returning. -/
inductive Abort where
  | nilDeref
  | indexOutOfRange
  | collision (msg : String)
  | outOfFuel
deriving DecidableEq, Repr

abbrev Run (α : Type) := Except Abort α

/-- Map read `m[k]`: the value and `ok`. -/
def mapGet {κ : Type} [DecidableEq κ] : List (κ × Ptr) → κ → Option Ptr
  | [], _ => none
  | (k', v) :: t, k => if k' = k then some v else mapGet t k

/-- Map write `m[k] = v`. -/
def mapSet {κ : Type} [DecidableEq κ] : List (κ × Ptr) → κ → Ptr → List (κ × Ptr)
  | [], k, v => [(k, v)]
  | (k', v') :: t, k, v => if k' = k then (k, v) :: t else (k', v') :: mapSet t k v

/-- The memo `main` starts from: no group, both tables empty. -/
def memo.empty : memo :=
  { heap := [], grps := [], internedRels := [], internedJoins := [] }

/-- Reading through a `*grp`; `nil` (or an address that holds no group) panics. -/
def deref (m : memo) : Option Ptr → Run grp
  | none => .error .nilDeref
  | some p =>
    match m.heap.get? p with
    | some g => .ok g
    | none => .error .nilDeref

/-- `func (g *grp) add(e expr)`: `g.exprs = append(g.exprs, e)`. -/
def grp.add (m : memo) (g : Option Ptr) (e : expr) : Run memo :=
  match g with
  | none => .error .nilDeref
  | some p =>
    match m.heap.get? p with
    | none => .error .nilDeref
    | some G => .ok { m with heap := m.heap.set p { G with exprs := G.exprs ++ [e] } }

/-- `func (m *memo) addRel(r rel) *grp`.  The table key is `r` as passed; the
expression stored in the new group is `r` with its `grp` set. -/
def memo.addRel (m : memo) (r : rel) : memo × Ptr :=
  match mapGet m.internedRels r with
  | some interned => (m, interned)
  | none =>
    let newGroup : Ptr := m.heap.length
    ({ heap := m.heap ++
          [{ name := r.name, exprs := [expr.ofRel { r with grp := some newGroup }],
             done := false }],
       grps := m.grps ++ [newGroup],
       internedRels := mapSet m.internedRels r newGroup,
       internedJoins := m.internedJoins }, newGroup)

/-- `func (m *memo) findJoin(j join) *grp` -/
def memo.findJoin (m : memo) (j : join) : Option Ptr :=
  mapGet m.internedJoins j

/-- `func (m *memo) constructRel(name string) *grp`.  The lookup key is
`rel{name: name}`; the key written is that value after `r.grp = g`.  The new
group is not appended to `m.grps`. -/
def memo.constructRel (m : memo) (name : String) : memo × Ptr :=
  let r : rel := { grp := none, id := 0, name := name }
  match mapGet m.internedRels r with
  | some g => (m, g)
  | none =>
    let g : Ptr := m.heap.length
    let r' : rel := { r with grp := some g }
    ({ heap := m.heap ++ [{ name := name, exprs := [expr.ofRel r'], done := false }],
       grps := m.grps,
       internedRels := mapSet m.internedRels r' g,
       internedJoins := m.internedJoins }, g)

/-- Lines 186-189: the characters of `l ++ r`, sorted.  A name is a sequence of
Unicode characters: `strings.Split(s, "")` yields one string per character and
`sort.Strings` orders them by their UTF-8 bytes, which is the order of the
code points. -/
def canonName (l r : String) : String :=
  String.mk (List.insertionSort (fun a b : Char => a ≤ b) (l ++ r).data)

/-- The guard of `[SimplifyZeroCardinalityGroup]`. -/
def isAC (l r : String) : Bool :=
  (l == "a" && r == "c") || (l == "c" && r == "a")

/-- The relation `r := rel{name: "E", id: 5}` of `constructJoin`. -/
def relE : rel := { grp := none, id := 5, name := "E" }

/-- `func (m *memo) constructJoin(j join) *grp`.  Both `j.l` and `j.r` are
read on every path (in the guard or in `j.l.name + j.r.name`). -/
def memo.constructJoin (m : memo) (j : join) : Run (memo × Ptr) :=
  match deref m j.l with
  | .error e => .error e
  | .ok L =>
    match deref m j.r with
    | .error e => .error e
    | .ok R =>
      if isAC L.name R.name then
        .ok (m.addRel relE)
      else
        match m.findJoin j with
        | none =>
          let g : Ptr := m.heap.length
          .ok ({ heap := m.heap ++
                    [{ name := canonName L.name R.name,
                       exprs := [expr.ofJoin { j with grp := some g }],
                       done := false }],
                 grps := m.grps ++ [g],
                 internedRels := m.internedRels,
                 internedJoins := mapSet m.internedJoins j g }, g)
        | some g =>
          .ok ({ m with internedJoins := mapSet m.internedJoins j g }, g)

/-- `func (j *join) String() string`: `(l.name.r.name)`; reads both children. -/
def join.toString (m : memo) (j : join) : Run String :=
  match deref m j.l, deref m j.r with
  | .ok L, .ok R => .ok ("(" ++ L.name ++ "." ++ R.name ++ ")")
  | _, _ => .error .nilDeref

/-- The block shared by both rules of `join.explore` (lines 89-100 and
115-127): look the derived join `d` up; a hit on another group panics with
`msg` (given the rendering of `d`), a miss registers `d` for `j.grp` and appends
it there.  `j.String()` and `d.String()` are evaluated for the trace line on
both of these paths, which reads the four child groups. -/
def join.derive (m : memo) (j d : join) (msg : String → String) : Run memo :=
  let trace : Run String :=
    match join.toString m j, join.toString m d with
    | .ok _, .ok s => .ok s
    | _, _ => .error .nilDeref
  match m.findJoin d with
  | some newJ =>
    if some newJ ≠ j.grp then
      match trace with
      | .error e => .error e
      | .ok s => .error (.collision (msg s))
    else .ok m
  | none =>
    match trace with
    | .error e => .error e
    | .ok _ =>
      match j.grp with
      | none => .error .nilDeref
      | some g =>
        grp.add { m with internedJoins := mapSet m.internedJoins d g } (some g)
          (expr.ofJoin { d with grp := some g })

/-- The `[AssociateJoin]` loop of `join.explore` over the expressions `j.l`
held when the loop started. -/
def join.associate (j : join) : List expr → memo → Run memo
  | [], m => .ok m
  | expr.ofRel _ :: rest, m => join.associate j rest m
  | expr.ofJoin ljoin :: rest, m =>
    match m.constructJoin { grp := none, l := ljoin.r, r := j.r } with
    | .error e => .error e
    | .ok (m1, r) =>
      match join.derive m1 j { grp := none, l := ljoin.l, r := some r }
          (fun _ => "associate collision!") with
      | .error e => .error e
      | .ok m2 => join.associate j rest m2

/-- `func (j *join) explore(m *memo)` -/
def join.explore (m : memo) (j : join) : Run memo :=
  match join.derive m j { grp := none, l := j.r, r := j.l }
      (fun s => "commute collision: " ++ s) with
  | .error e => .error e
  | .ok m1 =>
    match deref m1 j.l with
    | .error e => .error e
    | .ok L => join.associate j L.exprs m1

/-- `func (r *rel) explore(m *memo) {}` and the dispatch of `expr.explore`. -/
def expr.explore (m : memo) : expr → Run memo
  | expr.ofRel _ => .ok m
  | expr.ofJoin j => join.explore m j

/-- `p.done = d` on an allocated group. -/
def setDone (m : memo) (p : Ptr) (d : Bool) : memo :=
  match m.heap.get? p with
  | none => m
  | some G => { m with heap := m.heap.set p { G with done := d } }

/-- `for !p.done { p.done = p.explore(m) }`, at most `k` iterations, with
`ex` the exploration of one group. -/
def forceDone (ex : Ptr → memo → Run (memo × Bool)) : Nat → Option Ptr → memo → Run memo
  | 0, _, _ => .error .outOfFuel
  | k + 1, p, m =>
    match p, deref m p with
    | some q, .ok P =>
      if P.done then .ok m
      else
        match ex q m with
        | .error e => .error e
        | .ok (m1, d) => forceDone ex k p (setDone m1 q d)
    | _, _ => .error .nilDeref

/-- First loop of `grp.explore` (lines 20-29), from index `i` for `rem` more
iterations. -/
def exploreChildren (ex : Ptr → memo → Run (memo × Bool)) (k : Nat) (g : Ptr) :
    Nat → Nat → memo → Run memo
  | 0, _, m => .ok m
  | rem + 1, i, m =>
    match deref m (some g) with
    | .error e => .error e
    | .ok G =>
      match G.exprs.get? i with
      | none => .error .indexOutOfRange
      | some (expr.ofRel _) => exploreChildren ex k g rem (i + 1) m
      | some (expr.ofJoin j) =>
        match forceDone ex k j.l m with
        | .error e => .error e
        | .ok m1 =>
          match forceDone ex k j.r m1 with
          | .error e => .error e
          | .ok m2 => exploreChildren ex k g rem (i + 1) m2

/-- Second loop of `grp.explore` (lines 31-33). -/
def exploreExprs (g : Ptr) : Nat → Nat → memo → Run memo
  | 0, _, m => .ok m
  | rem + 1, i, m =>
    match deref m (some g) with
    | .error e => .error e
    | .ok G =>
      match G.exprs.get? i with
      | none => .error .indexOutOfRange
      | some e =>
        match expr.explore m e with
        | .error err => .error err
        | .ok m1 => exploreExprs g rem (i + 1) m1

/-- `func (g *grp) explore(m *memo) (done bool)`; `fuel` bounds the depth of
the recursion through child groups and the iterations of each `for !done`. -/
def grp.explore : Nat → Ptr → memo → Run (memo × Bool)
  | 0, _, _ => .error .outOfFuel
  | fuel + 1, g, m =>
    match deref m (some g) with
    | .error e => .error e
    | .ok G =>
      let numExprs := G.exprs.length
      match exploreChildren (grp.explore fuel) fuel g numExprs 0 m with
      | .error e => .error e
      | .ok m1 =>
        match exploreExprs g numExprs 0 m1 with
        | .error e => .error e
        | .ok m2 =>
          match deref m2 (some g) with
          | .error e => .error e
          | .ok G2 => .ok (m2, numExprs == G2.exprs.length)

/-- The loop of `main`: `for !done { done = g.explore(m) }`, at most `k`
passes. -/
def driver (fuel : Nat) (g : Ptr) : Nat → memo → Run memo
  | 0, _ => .error .outOfFuel
  | k + 1, m =>
    match grp.explore fuel g m with
    | .error e => .error e
    | .ok (m1, d) => if d then .ok m1 else driver fuel g k m1

/-- Memos built from the empty memo by `addRel` on relation values with no
group set. -/
inductive RelBuilt : memo → Prop where
  | empty : RelBuilt memo.empty
  | addRel {m : memo} (r : rel) (hr : r.grp = none) (hm : RelBuilt m) : RelBuilt (m.addRel r).1

/-- What `RelBuilt` maintains: the relation table and the groups describe each
other. -/
structure RelInv (m : memo) : Prop where
  key : ∀ r p, mapGet m.internedRels r = some p →
    r.grp = none ∧ ∃ G, m.heap[p]? = some G ∧ G.exprs = [expr.ofRel { r with grp := some p }]
  owner : ∀ p G, m.heap[p]? = some G →
    ∃ r, mapGet m.internedRels r = some p ∧ G.exprs = [expr.ofRel { r with grp := some p }]

/-- The memo holding the relations `a` (group 0) and `c` (group 1). -/
def memoAC : memo :=
  ((memo.empty.addRel ⟨none, 1, "a"⟩).1.addRel ⟨none, 3, "c"⟩).1

/-- The memo holding the relations `b` (group 0) and `d` (group 1). -/
def memoBD : memo :=
  ((memo.empty.addRel ⟨none, 2, "b"⟩).1.addRel ⟨none, 4, "d"⟩).1

/-- The memo `m'` extends `m`. -/
structure memo.le (m m' : memo) : Prop where
  heap : ∀ (p : Ptr) (G : grp), m.heap[p]? = some G →
    ∃ G', m'.heap[p]? = some G' ∧ G'.name = G.name ∧ G.exprs <+: G'.exprs
  grps : m.grps <+: m'.grps
  rels : ∀ r p, mapGet m.internedRels r = some p → mapGet m'.internedRels r = some p
  joins : ∀ j p, m.findJoin j = some p → m'.findJoin j = some p

/-- A relation between memos that the primitive writes respect. -/
structure StepRel (R : memo → memo → Prop) : Prop where
  refl : ∀ m, R m m
  trans : ∀ {a b c}, R a b → R b c → R a c
  constructJoin : ∀ {m m1 : memo} {j : join} {g : Ptr}, m.constructJoin j = .ok (m1, g) → R m m1
  derive : ∀ {m m' : memo} {j d : join} {msg : String → String},
    join.derive m j d msg = .ok m' → R m m'
  body : ∀ {m m1 : memo} {q : Ptr} {P : grp} (d : Bool), m.heap[q]? = some P →
    P.done = false → R m m1 → R m (setDone m1 q d)

/-- What every memo built by the program satisfies: an expression records the
group that holds it, a registered join signature names two allocated groups,
and the group it is registered for holds it as an expression. -/
structure Inv (m : memo) : Prop where
  own : ∀ (p : Ptr) (G : grp) (j : join), m.heap[p]? = some G → expr.ofJoin j ∈ G.exprs →
    j.grp = some p
  keys : ∀ (j : join) (p : Ptr), m.findJoin j = some p →
    ∃ L R, deref m j.l = .ok L ∧ deref m j.r = .ok R
  reg : ∀ (j : join) (p : Ptr), m.findJoin j = some p →
    ∃ G, m.heap[p]? = some G ∧ expr.ofJoin { j with grp := some p } ∈ G.exprs

/-- Memos reached from the empty memo through `addRel` (relation value with no
group set), `constructJoin` (of two groups) and `explore` calls that return. -/
inductive Reach : memo → Prop where
  | empty : Reach memo.empty
  | addRel {m : memo} (r : rel) (hr : r.grp = none) (hm : Reach m) : Reach (m.addRel r).1
  | constructJoin {m m1 : memo} (l r : Option Ptr) (g : Ptr) (hm : Reach m)
      (h : m.constructJoin ⟨none, l, r⟩ = .ok (m1, g)) : Reach m1
  | explore {m m1 : memo} (fuel : Nat) (g : Ptr) (d : Bool) (hm : Reach m)
      (h : grp.explore fuel g m = .ok (m1, d)) : Reach m1

/-- The memo holding `a`, `c` and the group 2 of `E`. -/
def memoACE : memo := (memoAC.addRel relE).1

/-- The memo holding `b`, `d` and the group 2 of `(b, d)`. -/
def memoBDJ : memo :=
  match memoBD.constructJoin ⟨none, some 0, some 1⟩ with
  | .ok (m, _) => m
  | .error _ => memo.empty

/-- The memo `memoBDJ` after group 2 has been explored to convergence. -/
def memoBDX : memo :=
  match driver 3 2 2 memoBDJ with
  | .ok m => m
  | .error _ => memo.empty

/-- Groups done in `m` are done in `m'`. -/
def DoneLe (m m' : memo) : Prop :=
  ∀ (q : Ptr) (G : grp), m.heap[q]? = some G → G.done = true →
    ∃ G', m'.heap[q]? = some G' ∧ G'.done = true

/-- Both children of a join are done. -/
def ChildrenDone (m : memo) (j : join) : Prop :=
  (∃ q P, j.l = some q ∧ m.heap[q]? = some P ∧ P.done = true) ∧
  (∃ q P, j.r = some q ∧ m.heap[q]? = some P ∧ P.done = true)

/-- The memo `memoBDJ` after the first pass over group 2. -/
def memoBD1 : memo :=
  match grp.explore 3 2 memoBDJ with
  | .ok (m, _) => m
  | .error _ => memo.empty

/-- The name `s` is one of the two names the simplification looks for. -/
def IsAorC (s : String) : Prop := s = "a" ∨ s = "c"

/-- The fresh memo after `addRel` of three relations and
`root = constructJoin(constructJoin(A, B), C)`: `root` is group 4. -/
def run3_0 (iA iB iC : Int) (nA nB nC : String) : memo :=
  { heap := [⟨nA, [expr.ofRel ⟨some 0, iA, nA⟩], false⟩,
      ⟨nB, [expr.ofRel ⟨some 1, iB, nB⟩], false⟩,
      ⟨nC, [expr.ofRel ⟨some 2, iC, nC⟩], false⟩,
      ⟨(canonName nA nB), [expr.ofJoin ⟨some 3, some 0, some 1⟩], false⟩,
      ⟨(canonName (canonName nA nB) nC), [expr.ofJoin ⟨some 4, some 3, some 2⟩], false⟩],
    grps := [0, 1, 2, 3, 4],
    internedRels := [(⟨none, iA, nA⟩, 0), (⟨none, iB, nB⟩, 1), (⟨none, iC, nC⟩, 2)],
    internedJoins := [(⟨none, some 0, some 1⟩, 3),
      (⟨none, some 3, some 2⟩, 4)] }

/-- The memo `run3_0` after the first `root.explore`. -/
def run3_1 (iA iB iC : Int) (nA nB nC : String) : memo :=
  { heap := [⟨nA, [expr.ofRel ⟨some 0, iA, nA⟩], true⟩,
      ⟨nB, [expr.ofRel ⟨some 1, iB, nB⟩], true⟩,
      ⟨nC, [expr.ofRel ⟨some 2, iC, nC⟩], true⟩,
      ⟨(canonName nA nB), [expr.ofJoin ⟨some 3, some 0, some 1⟩,
        expr.ofJoin ⟨some 3, some 1, some 0⟩], true⟩,
      ⟨(canonName (canonName nA nB) nC), [expr.ofJoin ⟨some 4, some 3, some 2⟩,
        expr.ofJoin ⟨some 4, some 2, some 3⟩,
        expr.ofJoin ⟨some 4, some 0, some 5⟩,
        expr.ofJoin ⟨some 4, some 1, some 6⟩], false⟩,
      ⟨(canonName nB nC), [expr.ofJoin ⟨some 5, some 1, some 2⟩], false⟩,
      ⟨(canonName nA nC), [expr.ofJoin ⟨some 6, some 0, some 2⟩], false⟩],
    grps := [0, 1, 2, 3, 4, 5, 6],
    internedRels := [(⟨none, iA, nA⟩, 0), (⟨none, iB, nB⟩, 1), (⟨none, iC, nC⟩, 2)],
    internedJoins := [(⟨none, some 0, some 1⟩, 3),
      (⟨none, some 3, some 2⟩, 4),
      (⟨none, some 1, some 0⟩, 3),
      (⟨none, some 2, some 3⟩, 4),
      (⟨none, some 1, some 2⟩, 5),
      (⟨none, some 0, some 5⟩, 4),
      (⟨none, some 0, some 2⟩, 6),
      (⟨none, some 1, some 6⟩, 4)] }

/-- The memo `run3_0` after the second `root.explore`; the third changes nothing. -/
def run3_2 (iA iB iC : Int) (nA nB nC : String) : memo :=
  { heap := [⟨nA, [expr.ofRel ⟨some 0, iA, nA⟩], true⟩,
      ⟨nB, [expr.ofRel ⟨some 1, iB, nB⟩], true⟩,
      ⟨nC, [expr.ofRel ⟨some 2, iC, nC⟩], true⟩,
      ⟨(canonName nA nB), [expr.ofJoin ⟨some 3, some 0, some 1⟩,
        expr.ofJoin ⟨some 3, some 1, some 0⟩], true⟩,
      ⟨(canonName (canonName nA nB) nC), [expr.ofJoin ⟨some 4, some 3, some 2⟩,
        expr.ofJoin ⟨some 4, some 2, some 3⟩,
        expr.ofJoin ⟨some 4, some 0, some 5⟩,
        expr.ofJoin ⟨some 4, some 1, some 6⟩,
        expr.ofJoin ⟨some 4, some 5, some 0⟩,
        expr.ofJoin ⟨some 4, some 6, some 1⟩], false⟩,
      ⟨(canonName nB nC), [expr.ofJoin ⟨some 5, some 1, some 2⟩,
        expr.ofJoin ⟨some 5, some 2, some 1⟩], true⟩,
      ⟨(canonName nA nC), [expr.ofJoin ⟨some 6, some 0, some 2⟩,
        expr.ofJoin ⟨some 6, some 2, some 0⟩], true⟩],
    grps := [0, 1, 2, 3, 4, 5, 6],
    internedRels := [(⟨none, iA, nA⟩, 0), (⟨none, iB, nB⟩, 1), (⟨none, iC, nC⟩, 2)],
    internedJoins := [(⟨none, some 0, some 1⟩, 3),
      (⟨none, some 3, some 2⟩, 4),
      (⟨none, some 1, some 0⟩, 3),
      (⟨none, some 2, some 3⟩, 4),
      (⟨none, some 1, some 2⟩, 5),
      (⟨none, some 0, some 5⟩, 4),
      (⟨none, some 0, some 2⟩, 6),
      (⟨none, some 1, some 6⟩, 4),
      (⟨none, some 2, some 1⟩, 5),
      (⟨none, some 2, some 0⟩, 6),
      (⟨none, some 5, some 0⟩, 4),
      (⟨none, some 6, some 1⟩, 4)] }

/-- The fresh memo after `addRel` of two relations and `root = constructJoin(A, B)`:
`root` is group 2. -/
def run2_0 (iA iB : Int) (nA nB : String) : memo :=
  { heap := [⟨nA, [expr.ofRel ⟨some 0, iA, nA⟩], false⟩,
      ⟨nB, [expr.ofRel ⟨some 1, iB, nB⟩], false⟩,
      ⟨(canonName nA nB), [expr.ofJoin ⟨some 2, some 0, some 1⟩], false⟩],
    grps := [0, 1, 2],
    internedRels := [(⟨none, iA, nA⟩, 0), (⟨none, iB, nB⟩, 1)],
    internedJoins := [(⟨none, some 0, some 1⟩, 2)] }

/-- The memo `run2_0` after the first `root.explore`; the second changes nothing. -/
def run2_1 (iA iB : Int) (nA nB : String) : memo :=
  { heap := [⟨nA, [expr.ofRel ⟨some 0, iA, nA⟩], true⟩,
      ⟨nB, [expr.ofRel ⟨some 1, iB, nB⟩], true⟩,
      ⟨(canonName nA nB), [expr.ofJoin ⟨some 2, some 0, some 1⟩,
        expr.ofJoin ⟨some 2, some 1, some 0⟩], false⟩],
    grps := [0, 1, 2],
    internedRels := [(⟨none, iA, nA⟩, 0), (⟨none, iB, nB⟩, 1)],
    internedJoins := [(⟨none, some 0, some 1⟩, 2),
      (⟨none, some 1, some 0⟩, 2)] }

/-- The memo of `main` before the loop, for four relations whose names do not
trigger the simplification: `abcd` is group 6. -/
def run4_0 (iA iB iC iD : Int) (nA nB nC nD : String) : memo :=
  { heap := [⟨nA, [expr.ofRel ⟨some 0, iA, nA⟩], false⟩,
      ⟨nB, [expr.ofRel ⟨some 1, iB, nB⟩], false⟩,
      ⟨nC, [expr.ofRel ⟨some 2, iC, nC⟩], false⟩,
      ⟨nD, [expr.ofRel ⟨some 3, iD, nD⟩], false⟩,
      ⟨(canonName nA nB), [expr.ofJoin ⟨some 4, some 0, some 1⟩], false⟩,
      ⟨(canonName (canonName nA nB) nC), [expr.ofJoin ⟨some 5, some 4, some 2⟩], false⟩,
      ⟨(canonName (canonName (canonName nA nB) nC) nD), [expr.ofJoin ⟨some 6, some 5, some 3⟩], false⟩],
    grps := [0, 1, 2, 3, 4, 5, 6],
    internedRels := [(⟨none, iA, nA⟩, 0), (⟨none, iB, nB⟩, 1), (⟨none, iC, nC⟩, 2), (⟨none, iD, nD⟩, 3)],
    internedJoins := [(⟨none, some 0, some 1⟩, 4),
      (⟨none, some 4, some 2⟩, 5),
      (⟨none, some 5, some 3⟩, 6)] }

/-- The memo `run4_0` after the first `abcd.explore`. -/
def run4_1 (iA iB iC iD : Int) (nA nB nC nD : String) : memo :=
  { heap := [⟨nA, [expr.ofRel ⟨some 0, iA, nA⟩], true⟩,
      ⟨nB, [expr.ofRel ⟨some 1, iB, nB⟩], true⟩,
      ⟨nC, [expr.ofRel ⟨some 2, iC, nC⟩], true⟩,
      ⟨nD, [expr.ofRel ⟨some 3, iD, nD⟩], true⟩,
      ⟨(canonName nA nB), [expr.ofJoin ⟨some 4, some 0, some 1⟩,
        expr.ofJoin ⟨some 4, some 1, some 0⟩], true⟩,
      ⟨(canonName (canonName nA nB) nC), [expr.ofJoin ⟨some 5, some 4, some 2⟩,
        expr.ofJoin ⟨some 5, some 2, some 4⟩,
        expr.ofJoin ⟨some 5, some 0, some 7⟩,
        expr.ofJoin ⟨some 5, some 1, some 8⟩,
        expr.ofJoin ⟨some 5, some 7, some 0⟩,
        expr.ofJoin ⟨some 5, some 8, some 1⟩], true⟩,
      ⟨(canonName (canonName (canonName nA nB) nC) nD), [expr.ofJoin ⟨some 6, some 5, some 3⟩,
        expr.ofJoin ⟨some 6, some 3, some 5⟩,
        expr.ofJoin ⟨some 6, some 4, some 9⟩,
        expr.ofJoin ⟨some 6, some 2, some 10⟩,
        expr.ofJoin ⟨some 6, some 0, some 11⟩,
        expr.ofJoin ⟨some 6, some 1, some 12⟩,
        expr.ofJoin ⟨some 6, some 7, some 13⟩,
        expr.ofJoin ⟨some 6, some 8, some 14⟩], false⟩,
      ⟨(canonName nB nC), [expr.ofJoin ⟨some 7, some 1, some 2⟩,
        expr.ofJoin ⟨some 7, some 2, some 1⟩], true⟩,
      ⟨(canonName nA nC), [expr.ofJoin ⟨some 8, some 0, some 2⟩,
        expr.ofJoin ⟨some 8, some 2, some 0⟩], true⟩,
      ⟨(canonName nC nD), [expr.ofJoin ⟨some 9, some 2, some 3⟩], false⟩,
      ⟨(canonName (canonName nA nB) nD), [expr.ofJoin ⟨some 10, some 4, some 3⟩], false⟩,
      ⟨(canonName (canonName nB nC) nD), [expr.ofJoin ⟨some 11, some 7, some 3⟩], false⟩,
      ⟨(canonName (canonName nA nC) nD), [expr.ofJoin ⟨some 12, some 8, some 3⟩], false⟩,
      ⟨(canonName nA nD), [expr.ofJoin ⟨some 13, some 0, some 3⟩], false⟩,
      ⟨(canonName nB nD), [expr.ofJoin ⟨some 14, some 1, some 3⟩], false⟩],
    grps := [0, 1, 2, 3, 4, 5, 6, 7, 8, 9, 10, 11, 12, 13, 14],
    internedRels := [(⟨none, iA, nA⟩, 0), (⟨none, iB, nB⟩, 1), (⟨none, iC, nC⟩, 2), (⟨none, iD, nD⟩, 3)],
    internedJoins := [(⟨none, some 0, some 1⟩, 4),
      (⟨none, some 4, some 2⟩, 5),
      (⟨none, some 5, some 3⟩, 6),
      (⟨none, some 1, some 0⟩, 4),
      (⟨none, some 2, some 4⟩, 5),
      (⟨none, some 1, some 2⟩, 7),
      (⟨none, some 0, some 7⟩, 5),
      (⟨none, some 0, some 2⟩, 8),
      (⟨none, some 1, some 8⟩, 5),
      (⟨none, some 2, some 1⟩, 7),
      (⟨none, some 2, some 0⟩, 8),
      (⟨none, some 7, some 0⟩, 5),
      (⟨none, some 8, some 1⟩, 5),
      (⟨none, some 3, some 5⟩, 6),
      (⟨none, some 2, some 3⟩, 9),
      (⟨none, some 4, some 9⟩, 6),
      (⟨none, some 4, some 3⟩, 10),
      (⟨none, some 2, some 10⟩, 6),
      (⟨none, some 7, some 3⟩, 11),
      (⟨none, some 0, some 11⟩, 6),
      (⟨none, some 8, some 3⟩, 12),
      (⟨none, some 1, some 12⟩, 6),
      (⟨none, some 0, some 3⟩, 13),
      (⟨none, some 7, some 13⟩, 6),
      (⟨none, some 1, some 3⟩, 14),
      (⟨none, some 8, some 14⟩, 6)] }

/-- The memo `run4_0` after the second `abcd.explore`; the third changes nothing. -/
def run4_2 (iA iB iC iD : Int) (nA nB nC nD : String) : memo :=
  { heap := [⟨nA, [expr.ofRel ⟨some 0, iA, nA⟩], true⟩,
      ⟨nB, [expr.ofRel ⟨some 1, iB, nB⟩], true⟩,
      ⟨nC, [expr.ofRel ⟨some 2, iC, nC⟩], true⟩,
      ⟨nD, [expr.ofRel ⟨some 3, iD, nD⟩], true⟩,
      ⟨(canonName nA nB), [expr.ofJoin ⟨some 4, some 0, some 1⟩,
        expr.ofJoin ⟨some 4, some 1, some 0⟩], true⟩,
      ⟨(canonName (canonName nA nB) nC), [expr.ofJoin ⟨some 5, some 4, some 2⟩,
        expr.ofJoin ⟨some 5, some 2, some 4⟩,
        expr.ofJoin ⟨some 5, some 0, some 7⟩,
        expr.ofJoin ⟨some 5, some 1, some 8⟩,
        expr.ofJoin ⟨some 5, some 7, some 0⟩,
        expr.ofJoin ⟨some 5, some 8, some 1⟩], true⟩,
      ⟨(canonName (canonName (canonName nA nB) nC) nD), [expr.ofJoin ⟨some 6, some 5, some 3⟩,
        expr.ofJoin ⟨some 6, some 3, some 5⟩,
        expr.ofJoin ⟨some 6, some 4, some 9⟩,
        expr.ofJoin ⟨some 6, some 2, some 10⟩,
        expr.ofJoin ⟨some 6, some 0, some 11⟩,
        expr.ofJoin ⟨some 6, some 1, some 12⟩,
        expr.ofJoin ⟨some 6, some 7, some 13⟩,
        expr.ofJoin ⟨some 6, some 8, some 14⟩,
        expr.ofJoin ⟨some 6, some 9, some 4⟩,
        expr.ofJoin ⟨some 6, some 10, some 2⟩,
        expr.ofJoin ⟨some 6, some 11, some 0⟩,
        expr.ofJoin ⟨some 6, some 12, some 1⟩,
        expr.ofJoin ⟨some 6, some 13, some 7⟩,
        expr.ofJoin ⟨some 6, some 14, some 8⟩], false⟩,
      ⟨(canonName nB nC), [expr.ofJoin ⟨some 7, some 1, some 2⟩,
        expr.ofJoin ⟨some 7, some 2, some 1⟩], true⟩,
      ⟨(canonName nA nC), [expr.ofJoin ⟨some 8, some 0, some 2⟩,
        expr.ofJoin ⟨some 8, some 2, some 0⟩], true⟩,
      ⟨(canonName nC nD), [expr.ofJoin ⟨some 9, some 2, some 3⟩,
        expr.ofJoin ⟨some 9, some 3, some 2⟩], true⟩,
      ⟨(canonName (canonName nA nB) nD), [expr.ofJoin ⟨some 10, some 4, some 3⟩,
        expr.ofJoin ⟨some 10, some 3, some 4⟩,
        expr.ofJoin ⟨some 10, some 0, some 14⟩,
        expr.ofJoin ⟨some 10, some 1, some 13⟩,
        expr.ofJoin ⟨some 10, some 14, some 0⟩,
        expr.ofJoin ⟨some 10, some 13, some 1⟩], true⟩,
      ⟨(canonName (canonName nB nC) nD), [expr.ofJoin ⟨some 11, some 7, some 3⟩,
        expr.ofJoin ⟨some 11, some 3, some 7⟩,
        expr.ofJoin ⟨some 11, some 1, some 9⟩,
        expr.ofJoin ⟨some 11, some 2, some 14⟩,
        expr.ofJoin ⟨some 11, some 9, some 1⟩,
        expr.ofJoin ⟨some 11, some 14, some 2⟩], true⟩,
      ⟨(canonName (canonName nA nC) nD), [expr.ofJoin ⟨some 12, some 8, some 3⟩,
        expr.ofJoin ⟨some 12, some 3, some 8⟩,
        expr.ofJoin ⟨some 12, some 0, some 9⟩,
        expr.ofJoin ⟨some 12, some 2, some 13⟩,
        expr.ofJoin ⟨some 12, some 9, some 0⟩,
        expr.ofJoin ⟨some 12, some 13, some 2⟩], true⟩,
      ⟨(canonName nA nD), [expr.ofJoin ⟨some 13, some 0, some 3⟩,
        expr.ofJoin ⟨some 13, some 3, some 0⟩], true⟩,
      ⟨(canonName nB nD), [expr.ofJoin ⟨some 14, some 1, some 3⟩,
        expr.ofJoin ⟨some 14, some 3, some 1⟩], true⟩],
    grps := [0, 1, 2, 3, 4, 5, 6, 7, 8, 9, 10, 11, 12, 13, 14],
    internedRels := [(⟨none, iA, nA⟩, 0), (⟨none, iB, nB⟩, 1), (⟨none, iC, nC⟩, 2), (⟨none, iD, nD⟩, 3)],
    internedJoins := [(⟨none, some 0, some 1⟩, 4),
      (⟨none, some 4, some 2⟩, 5),
      (⟨none, some 5, some 3⟩, 6),
      (⟨none, some 1, some 0⟩, 4),
      (⟨none, some 2, some 4⟩, 5),
      (⟨none, some 1, some 2⟩, 7),
      (⟨none, some 0, some 7⟩, 5),
      (⟨none, some 0, some 2⟩, 8),
      (⟨none, some 1, some 8⟩, 5),
      (⟨none, some 2, some 1⟩, 7),
      (⟨none, some 2, some 0⟩, 8),
      (⟨none, some 7, some 0⟩, 5),
      (⟨none, some 8, some 1⟩, 5),
      (⟨none, some 3, some 5⟩, 6),
      (⟨none, some 2, some 3⟩, 9),
      (⟨none, some 4, some 9⟩, 6),
      (⟨none, some 4, some 3⟩, 10),
      (⟨none, some 2, some 10⟩, 6),
      (⟨none, some 7, some 3⟩, 11),
      (⟨none, some 0, some 11⟩, 6),
      (⟨none, some 8, some 3⟩, 12),
      (⟨none, some 1, some 12⟩, 6),
      (⟨none, some 0, some 3⟩, 13),
      (⟨none, some 7, some 13⟩, 6),
      (⟨none, some 1, some 3⟩, 14),
      (⟨none, some 8, some 14⟩, 6),
      (⟨none, some 3, some 2⟩, 9),
      (⟨none, some 3, some 4⟩, 10),
      (⟨none, some 0, some 14⟩, 10),
      (⟨none, some 1, some 13⟩, 10),
      (⟨none, some 3, some 1⟩, 14),
      (⟨none, some 3, some 0⟩, 13),
      (⟨none, some 14, some 0⟩, 10),
      (⟨none, some 13, some 1⟩, 10),
      (⟨none, some 3, some 7⟩, 11),
      (⟨none, some 1, some 9⟩, 11),
      (⟨none, some 2, some 14⟩, 11),
      (⟨none, some 9, some 1⟩, 11),
      (⟨none, some 14, some 2⟩, 11),
      (⟨none, some 3, some 8⟩, 12),
      (⟨none, some 0, some 9⟩, 12),
      (⟨none, some 2, some 13⟩, 12),
      (⟨none, some 9, some 0⟩, 12),
      (⟨none, some 13, some 2⟩, 12),
      (⟨none, some 9, some 4⟩, 6),
      (⟨none, some 10, some 2⟩, 6),
      (⟨none, some 11, some 0⟩, 6),
      (⟨none, some 12, some 1⟩, 6),
      (⟨none, some 13, some 7⟩, 6),
      (⟨none, some 14, some 8⟩, 6)] }

/-- Lines 225-230 of `main` for two relations: `ab = constructJoin(a, b)`. -/
def tree2 (A B : rel) : Run (memo × Ptr) :=
  let (m, a) := memo.empty.addRel A
  let (m, b) := m.addRel B
  m.constructJoin ⟨none, some a, some b⟩

/-- Lines 225-231 of `main` for three relations:
`abc = constructJoin(constructJoin(a, b), c)`; returns the groups of the three
relations as well. -/
def tree3 (A B C : rel) : Run (memo × (Ptr × Ptr × Ptr) × Ptr) :=
  let (m, a) := memo.empty.addRel A
  let (m, b) := m.addRel B
  let (m, c) := m.addRel C
  match m.constructJoin ⟨none, some a, some b⟩ with
  | .error e => .error e
  | .ok (m, ab) =>
    match m.constructJoin ⟨none, some ab, some c⟩ with
    | .error e => .error e
    | .ok (m, abc) => .ok (m, (a, b, c), abc)

/-- Lines 225-232 of `main`: the four relations are interned, then
`ab = constructJoin(a, b)`, `abc = constructJoin(ab, c)`,
`abcd = constructJoin(abc, d)`. -/
def mainTree (A B C D : rel) : Run (memo × Ptr) :=
  let (m, a) := memo.empty.addRel A
  let (m, b) := m.addRel B
  let (m, c) := m.addRel C
  let (m, d) := m.addRel D
  match m.constructJoin ⟨none, some a, some b⟩ with
  | .error e => .error e
  | .ok (m, ab) =>
    match m.constructJoin ⟨none, some ab, some c⟩ with
    | .error e => .error e
    | .ok (m, abc) => m.constructJoin ⟨none, some abc, some d⟩

/-- The memo of `main` when the loop starts: relations `a`, `b`, `c`, `d` and the
groups `ab`, `abc`, `abcd` (group 6). -/
def mainMemo : memo :=
  match mainTree ⟨none, 1, "a"⟩ ⟨none, 2, "b"⟩ ⟨none, 3, "c"⟩ ⟨none, 4, "d"⟩ with
  | .ok (m, _) => m
  | .error _ => memo.empty

/-- The memo of `main` after the first `abcd.explore(m)`. -/
def mainMemo1 : memo :=
  match grp.explore 5 6 mainMemo with
  | .ok (m, _) => m
  | .error _ => memo.empty

/-- The memo of `main` after the second `abcd.explore(m)`. -/
def mainMemo2 : memo :=
  match grp.explore 5 6 mainMemo1 with
  | .ok (m, _) => m
  | .error _ => memo.empty

/-- The join tree `(b.d).(d.b)` over the relations `b` and `d`:
`bd = constructJoin(b, d)` is group 2, `db = constructJoin(d, b)` is group 3 and
the root `constructJoin(bd, db)` is group 4. -/
def memoDup : memo :=
  match memoBD.constructJoin ⟨none, some 0, some 1⟩ with
  | .error _ => memo.empty
  | .ok (m, bd) =>
    match m.constructJoin ⟨none, some 1, some 0⟩ with
    | .error _ => memo.empty
    | .ok (m, db) =>
      match m.constructJoin ⟨none, some bd, some db⟩ with
      | .error _ => memo.empty
      | .ok (m, _) => m

/-- A property of memos kept by the primitive writes as the program issues
them: `constructJoin` of two groups, a rule firing on a derived join with no
group set, and the write of a `done` flag. -/
structure Kept (P : memo → Prop) : Prop where
  constructJoin : ∀ {m m1 : memo} {l r : Option Ptr} {g : Ptr}, P m →
    m.constructJoin ⟨none, l, r⟩ = .ok (m1, g) → P m1
  derive : ∀ {m m' : memo} {j : join} {l r : Option Ptr} {msg : String → String}, P m →
    join.derive m j ⟨none, l, r⟩ msg = .ok m' → P m'
  setDone : ∀ (m : memo) (p : Ptr) (d : Bool), P m → P (setDone m p d)

/-- The name of the group `G` is the canonical name of its first expression:
the relation's name, or the sorted characters of the names of the two children
of the join. -/
def NameOk (m : memo) (G : grp) : Prop :=
  ∃ e rest, G.exprs = e :: rest ∧
    match e with
    | expr.ofRel r => G.name = r.name
    | expr.ofJoin j => ∃ L R, deref m j.l = .ok L ∧ deref m j.r = .ok R ∧
        G.name = canonName L.name R.name

/-- What the tables and the groups of a memo built by the program say about
each other, beyond `Inv`: a registered relation names an allocated group, a
join expression held by a group is registered for that group under its ordered
pair of children, no group holds an expression twice, every group is named
after its first expression, and the group list is the list of all allocated
groups in the order of their creation. -/
structure Wf (m : memo) : Prop where
  rels : ∀ (r : rel) (p : Ptr), mapGet m.internedRels r = some p → ∃ G, m.heap[p]? = some G
  expReg : ∀ (p : Ptr) (G : grp) (j : join), m.heap[p]? = some G → expr.ofJoin j ∈ G.exprs →
    m.findJoin ⟨none, j.l, j.r⟩ = some p
  nodup : ∀ (p : Ptr) (G : grp), m.heap[p]? = some G → G.exprs.Nodup
  names : ∀ (p : Ptr) (G : grp), m.heap[p]? = some G → NameOk m G
  grps : m.grps = List.range m.heap.length

/-- The group `G` is the only one changed between `m` and `m'`, and only by
appending; the groups added to the group list are new one-expression groups. -/
structure Frame (G : Ptr) (m m' : memo) : Prop where
  other : ∀ (p : Ptr) (X : grp), p ≠ G → m.heap[p]? = some X → m'.heap[p]? = some X
  own : ∀ X : grp, m.heap[G]? = some X →
    ∃ X', m'.heap[G]? = some X' ∧ X'.name = X.name ∧ X'.done = X.done ∧ X.exprs <+: X'.exprs
  added : ∃ added : List Ptr, m'.grps = m.grps ++ added ∧
    ∀ p ∈ added, m.heap.length ≤ p ∧ ∃ X, m'.heap[p]? = some X ∧ X.done = false ∧
      ((X.name = "E" ∧ X.exprs = [expr.ofRel { relE with grp := some p }]) ∨
       (∃ l r, X.exprs = [expr.ofJoin ⟨some p, l, r⟩]))
  len : m.heap.length ≤ m'.heap.length
/-- Every key of the join table is an ordered pair of children with no group
set, the form `findJoin` is called with. -/
def KeysNone (m : memo) : Prop := ∀ (j : join) (p : Ptr), m.findJoin j = some p → j.grp = none

/-- The memo holding `b`, `d`, the group 2 of `(b, d)` and the group 3 of
`(d, b)`. -/
def memoBDD : memo :=
  match memoBDJ.constructJoin ⟨none, some 1, some 0⟩ with
  | .ok (m, _) => m
  | .error _ => memo.empty

/-- The memo holding the relations `x`, `y`, `xy` and the group 3 of `(x, y)`. -/
def memoXY : memo :=
  match (((memo.empty.addRel ⟨none, 1, "x"⟩).1.addRel ⟨none, 2, "y"⟩).1.addRel
      ⟨none, 3, "xy"⟩).1.constructJoin ⟨none, some 0, some 1⟩ with
  | .ok (m, _) => m
  | .error _ => memo.empty

/-- The names of the groups of the group list, in order. -/
def memo.names (m : memo) : List String :=
  m.grps.filterMap (fun p => m.heap[p]?.map grp.name)

/-- The memo `memoBDJ` after the two rules fired once on `(b, d)`. -/
def memoBDC : memo :=
  match join.explore memoBDJ ⟨some 2, some 0, some 1⟩ with
  | .ok m => m
  | .error _ => memo.empty

/-- The memo holding `b`, `c`, `d`, the group 3 of `(b, c)` and the group 4
of `(bc, d)`. -/
def memoBCD : memo := run3_0 2 3 4 "b" "c" "d"

/-- The memo `memoBCD` after the two rules fired once on `(bc, d)`. -/
def memoBCD1 : memo :=
  match join.explore memoBCD ⟨some 4, some 3, some 2⟩ with
  | .ok m => m
  | .error _ => memo.empty

/-- Walking the expressions `es` of `j.l` in order from the memo `m`, the
associate rule of `join.explore` on `j` reaches a join `(LL, LR)`, every earlier
one having been handled, for which `(LL, constructJoin(LR, j.r))` is registered
to a group other than `j.grp` when it is looked up. -/
inductive AssocCollides (j : join) : List expr → memo → Prop where
  | here {m m1 : memo} {ljoin : join} {rest : List expr} {r p : Ptr}
      (hc : m.constructJoin ⟨none, ljoin.r, j.r⟩ = .ok (m1, r))
      (hf : m1.findJoin ⟨none, ljoin.l, some r⟩ = some p) (hne : some p ≠ j.grp) :
      AssocCollides j (expr.ofJoin ljoin :: rest) m
  | skip {m : memo} {r : rel} {rest : List expr} (h : AssocCollides j rest m) :
      AssocCollides j (expr.ofRel r :: rest) m
  | later {m m1 m2 : memo} {ljoin : join} {rest : List expr} {r : Ptr}
      (hc : m.constructJoin ⟨none, ljoin.r, j.r⟩ = .ok (m1, r))
      (hd : join.derive m1 j ⟨none, ljoin.l, some r⟩ (fun _ => "associate collision!") = .ok m2)
      (h : AssocCollides j rest m2) : AssocCollides j (expr.ofJoin ljoin :: rest) m

/-- The two ways `join.explore` on `j = (L, R)` of group `G` meets a
consistency violation: the commuted pair `(R, L)` is registered to a group
other than `G`, or the associate rule, run over the expressions of `L` after
the commute rule has fired, meets one. -/
def JoinCollides (m : memo) (j : join) : Prop :=
  (∃ p, m.findJoin ⟨none, j.r, j.l⟩ = some p ∧ some p ≠ j.grp) ∨
  (∃ m1 L, join.derive m j ⟨none, j.r, j.l⟩ (fun s => "commute collision: " ++ s) = .ok m1 ∧
    deref m1 j.l = .ok L ∧ AssocCollides j L.exprs m1)

/-- `func (r *rel) String() string` and the dispatch of `expr.String`. -/
def expr.toString (m : memo) : expr → Run String
  | expr.ofRel r => .ok r.name
  | expr.ofJoin j => join.toString m j

/-- The loop of `grp.String` from index `i` with the buffer `buf`: a space
before every expression but the first, then the rendering of the expression. -/
def grp.toStringLoop (m : memo) : List expr → Nat → String → Run String
  | [], _, buf => .ok buf
  | e :: rest, i, buf =>
    match expr.toString m e with
    | .error err => .error err
    | .ok s => grp.toStringLoop m rest (i + 1) ((if i > 0 then buf ++ " " else buf) ++ s)

/-- `func (g *grp) String() string` -/
def grp.toString (m : memo) (G : grp) : Run String :=
  grp.toStringLoop m G.exprs 0 ""

/-- The verb `%4s`: the string right-aligned in a field of four characters. -/
def pad4 (s : String) : String :=
  String.mk (List.replicate (4 - s.length) ' ') ++ s

/-- `fmt.Sprintf("%4s: %s", g.name, g.String())` for the group at `p`. -/
def memo.lineOf (m : memo) (p : Ptr) : Run String :=
  match deref m (some p) with
  | .error e => .error e
  | .ok G =>
    match grp.toString m G with
    | .error e => .error e
    | .ok s => .ok (pad4 G.name ++ ": " ++ s)

/-- The first loop of `memo.String`: one line per entry of the group list. -/
def memo.linesLoop (m : memo) : List Ptr → List String → Run (List String)
  | [], lines => .ok lines
  | p :: ps, lines =>
    match m.lineOf p with
    | .error e => .error e
    | .ok l => memo.linesLoop m ps (lines ++ [l])

/-- The order `sort.Strings` sorts by, on the characters of two strings: the
lexicographic order of the UTF-8 bytes, which is that of the code points. -/
def lexLe : List Char → List Char → Bool
  | [], _ => true
  | _ :: _, [] => false
  | a :: as, b :: bs =>
    if a.toNat < b.toNat then true
    else if b.toNat < a.toNat then false
    else lexLe as bs

/-- The string `a` is not after `b` in the order of `sort.Strings`. -/
abbrev strLe (a b : String) : Prop := lexLe a.data b.data = true

/-- `sort.Strings(lines)`: the lines in ascending order.  The order is total,
so the result does not depend on the sorting algorithm. -/
def sortStrings (lines : List String) : List String :=
  List.insertionSort strLe lines

/-- The second loop of `memo.String`: every line followed by a line feed. -/
def writeLines : List String → String → String
  | [], buf => buf
  | l :: rest, buf => writeLines rest (buf ++ l ++ "\n")

/-- `func (m *memo) String() string` -/
def memo.toString (m : memo) : Run String :=
  match memo.linesLoop m m.grps [] with
  | .error e => .error e
  | .ok lines => .ok (writeLines (sortStrings lines) "")

/-- The strings of `rs` with one space between neighbours. -/
def spaceJoined : List String → String
  | [] => ""
  | [s] => s
  | s :: t => s ++ " " ++ spaceJoined t

/-- The renderings of the expressions `es`, in order. -/
def renderings (m : memo) : List expr → Run (List String)
  | [] => .ok []
  | e :: rest =>
    match expr.toString m e with
    | .error err => .error err
    | .ok s =>
      match renderings m rest with
      | .error err => .error err
      | .ok ss => .ok (s :: ss)

/-- The line of the group at `p`, empty when it cannot be rendered. -/
def memo.lineD (m : memo) (p : Ptr) : String :=
  match m.lineOf p with
  | .ok l => l
  | .error _ => ""

/-- Memos the program passes through: the memos of `Reach` and the ones in the
middle of an exploration pass, after any number of its primitive writes. -/
inductive Mid : memo → Prop where
  | reach {m : memo} (h : Reach m) : Mid m
  | constructJoin {m m1 : memo} {l r : Option Ptr} {g : Ptr} (hm : Mid m)
      (h : m.constructJoin ⟨none, l, r⟩ = .ok (m1, g)) : Mid m1
  | derive {m m1 : memo} {j : join} {l r : Option Ptr} {msg : String → String} (hm : Mid m)
      (h : join.derive m j ⟨none, l, r⟩ msg = .ok m1) : Mid m1
  | setDone {m : memo} (p : Ptr) (d : Bool) (hm : Mid m) : Mid (setDone m p d)

/-- One step of `sigs`: the base relations under the group `G`, given those
under the groups allocated before it.  A relation group stands for itself; a
group created for a join covers what its two children cover. -/
def sigStep (acc : List (Finset Ptr)) (G : grp) : List (Finset Ptr) :=
  acc ++ [match G.exprs.head? with
    | some (expr.ofRel _) => {acc.length}
    | some (expr.ofJoin j) =>
      match j.l, j.r with
      | some l, some r => acc.getD l ∅ ∪ acc.getD r ∅
      | _, _ => ∅
    | none => ∅]

/-- The base relations under every group of a store, in order of allocation. -/
def sigs (h : List grp) : List (Finset Ptr) := h.foldl sigStep []

/-- The set of base relations (by the address of their group) that the group
at `p` joins. -/
def memo.sig (m : memo) (p : Ptr) : Finset Ptr := (sigs m.heap).getD p ∅

/-- The loop `for !p.done { p.done = p.explore(m) }` on `p` ends in `m'`, for
some budget of the model. -/
def Forced (p : Option Ptr) (m m' : memo) : Prop :=
  ∃ a b, forceDone (grp.explore a) b p m = .ok m'

/-- The call `g.explore(m)` returns `d` and leaves `m'`, for some budget. -/
def Explored (g : Ptr) (m m' : memo) (d : Bool) : Prop :=
  ∃ fuel, grp.explore fuel g m = .ok (m', d)

/-- The first loop of `g.explore` over `rem` expressions from index `i` ends in
`m'`, for some budget. -/
def Childrened (g rem i : Nat) (m m' : memo) : Prop :=
  ∃ a b, exploreChildren (grp.explore a) b g rem i m = .ok m'

/-- Successive calls `g.explore(m)` on a group whose `done` flag is not set,
all returning `false` but the last, which returns `true` and leaves `m'`. -/
inductive Conv (g : Ptr) : memo → memo → Prop where
  | last {m m' : memo} {G : grp} (hG : m.heap[g]? = some G) (hd : G.done = false)
      (h : Explored g m m' true) : Conv g m m'
  | more {m m1 m' : memo} {G : grp} (hG : m.heap[g]? = some G) (hd : G.done = false)
      (h : Explored g m m1 false) (hc : Conv g m1 m') : Conv g m m'

/-- What the exploration of a join tree over distinct base relations keeps:
the memo is well formed, no group is named `s` (one of `a` and `c`, so the
simplification never fires), groups are told apart by the set of base relations
they join, the two children of every join expression split the set of its
group, and a group whose `done` flag is set holds every split of its set into
two groups that are `done` themselves. -/
structure Good (s : String) (m : memo) : Prop where
  inv : Inv m
  wf : Wf m
  noName : ∀ (p : Ptr) (G : grp), m.heap[p]? = some G → G.name ≠ s
  ne : ∀ (p : Ptr) (G : grp), m.heap[p]? = some G → (m.sig p).Nonempty
  bound : ∀ (p : Ptr) (G : grp), m.heap[p]? = some G → ∀ a ∈ m.sig p, a < m.heap.length
  inj : ∀ (p q : Ptr) (G H : grp), m.heap[p]? = some G → m.heap[q]? = some H →
    m.sig p = m.sig q → p = q
  part : ∀ (p : Ptr) (G : grp) (j : join), m.heap[p]? = some G → expr.ofJoin j ∈ G.exprs →
    ∃ l r, j.l = some l ∧ j.r = some r ∧ Disjoint (m.sig l) (m.sig r) ∧
      m.sig l ∪ m.sig r = m.sig p
  atom : ∀ (p : Ptr) (G : grp) (r : rel), m.heap[p]? = some G → expr.ofRel r ∈ G.exprs →
    m.sig p = {p}
  complete : ∀ (p : Ptr) (G : grp), m.heap[p]? = some G → G.done = true →
    ∀ A : Finset Ptr, A.Nonempty → A ⊂ m.sig p →
      ∃ l r L R, m.heap[l]? = some L ∧ m.heap[r]? = some R ∧ m.sig l = A ∧
        m.sig r = m.sig p \ A ∧ expr.ofJoin ⟨some p, some l, some r⟩ ∈ G.exprs ∧
        L.done = true ∧ R.done = true

/-- The request `constructJoin(x, r)` is safe in `m`: a group that joins the
base relations of `x` and `r` together has the pair `(x, r)` registered. -/
def ReqSafe (m : memo) (x r : Ptr) : Prop :=
  ∀ (t : Ptr) (T : grp), m.heap[t]? = some T → m.sig t = m.sig x ∪ m.sig r →
    m.findJoin ⟨none, some x, some r⟩ = some t

/-- No group of `m` joins exactly the base relations `A`. -/
def Absent (m : memo) (A : Finset Ptr) : Prop :=
  ∀ (t : Ptr) (T : grp), m.heap[t]? = some T → m.sig t ≠ A

/-- Every group allocated between `m` and `m'` was created for a request
`(x, r)` of `RQ` whose set no group of `m` joined; it holds that pair alone and
its `done` flag is not set. -/
def NewGrps (RQ : Ptr → Ptr → Ptr → Prop) (m m' : memo) : Prop :=
  ∀ (p : Ptr) (X : grp), m.heap.length ≤ p → m'.heap[p]? = some X →
    ∃ y x r, RQ y x r ∧ X.exprs = [expr.ofJoin ⟨some p, some x, some r⟩] ∧ X.done = false ∧
      Absent m (m.sig x ∪ m.sig r)

/-- Every expression the group `g` gained between `m` and `m'` is the commuted
form of a pair of `CM` or the associated form `(y, constructJoin(x, r))` of a
request of `RQ`. -/
def NewExprs (g : Ptr) (CM : Ptr → Ptr → Prop) (RQ : Ptr → Ptr → Ptr → Prop)
    (m m' : memo) : Prop :=
  ∀ (G G' : grp), m.heap[g]? = some G → m'.heap[g]? = some G' → ∀ e ∈ G'.exprs,
    e ∈ G.exprs ∨ (∃ l r, CM l r ∧ e = expr.ofJoin ⟨some g, some r, some l⟩) ∨
      ∃ y x r t, RQ y x r ∧ e = expr.ofJoin ⟨some g, some y, some t⟩ ∧
        m'.sig t = m.sig x ∪ m.sig r

/-- The ordered pairs `(l, r)` the group `g` holds at the indices from `lo` up
to `hi`. -/
def Pairs (m : memo) (g : Ptr) (lo hi : Nat) (l r : Ptr) : Prop :=
  ∃ i G, lo ≤ i ∧ i < hi ∧ m.heap[g]? = some G ∧
    G.exprs[i]? = some (expr.ofJoin ⟨some g, some l, some r⟩)

/-- The requests of the associate rule for those pairs: `(y, x)` is an
expression of the left child and `r` the right child; the rule asks for
`constructJoin(x, r)`. -/
def Reqs (m : memo) (g : Ptr) (lo hi : Nat) (y x r : Ptr) : Prop :=
  ∃ l L, Pairs m g lo hi l r ∧ m.heap[l]? = some L ∧
    expr.ofJoin ⟨some l, some y, some x⟩ ∈ L.exprs

/-- The group at `p` has its `done` flag set. -/
def DoneAt (m : memo) (p : Ptr) : Prop := ∃ G, m.heap[p]? = some G ∧ G.done = true

/-- Every group of `m` that joins a proper part of the base relations of `N`
is done, or it is a group of `m0`, unchanged since, that holds the single pair
`(w, B)` with `w` done. -/
def PendFrom (m0 m : memo) (N B : Ptr) : Prop :=
  ∀ (t : Ptr) (T : grp), m.heap[t]? = some T → m.sig t ⊂ m.sig N →
    T.done = true ∨ (m0.heap[t]? = some T ∧
      ∃ w, T.exprs = [expr.ofJoin ⟨some t, some w, some B⟩] ∧ DoneAt m w)

/-- The memo `m'` arises from `m` by work on the groups that join base
relations of `N` only: other groups are unchanged, the groups allocated since
join proper parts of the base relations of `N`, and no `done` flag is reset. -/
structure Sub (N : Ptr) (m m' : memo) : Prop where
  le : m.le m'
  keep : ∀ (t : Ptr) (T : grp), m.heap[t]? = some T → ¬ (m.sig t ⊆ m.sig N) →
    m'.heap[t]? = some T
  fresh : ∀ p : Ptr, m.heap.length ≤ p → p < m'.heap.length → m'.sig p ⊂ m.sig N
  done : DoneLe m m'

/-- The state in which the loop `for !N.done` is entered for a group created
by the associate rule: `N` holds the single pair `(X, A)`, both children are
done, and every group below `N` is done or holds a single pair `(w, A)`. -/
def CorePre (s : String) (m : memo) (N X A : Ptr) : Prop :=
  Good s m ∧
  (∃ nm, m.heap[N]? = some ⟨nm, [expr.ofJoin ⟨some N, some X, some A⟩], false⟩) ∧
  DoneAt m X ∧ DoneAt m A ∧ PendFrom m m N A

/-- The loop `for !N.done { N.done = N.explore(m) }` returns for every such
group that joins fewer than `c` base relations, and leaves a good memo. -/
def ForceSpec (s : String) (c : Nat) : Prop :=
  ∀ (m : memo) (N X A : Ptr), (m.sig N).card < c → CorePre s m N X A →
    ∃ m', Forced (some N) m m' ∧ Good s m' ∧ Sub N m m' ∧ DoneAt m' N

/-- Every nonempty proper part of the base relations of `N` is joined by a
group of `m`. -/
def AllExist (m : memo) (N : Ptr) : Prop :=
  ∀ A : Finset Ptr, A.Nonempty → A ⊂ m.sig N → ∃ t T, m.heap[t]? = some T ∧ m.sig t = A

/-- The state before a late pass over `N`: every group below `N` exists, and
is done or a child of `N` that holds a single pair `(w, B)`. -/
structure Late (s : String) (N B : Ptr) (m : memo) (G : grp) : Prop where
  good : Good s m
  hG : m.heap[N]? = some G
  nd : G.done = false
  hasJoin : ∃ l0 r0, expr.ofJoin ⟨some N, some l0, some r0⟩ ∈ G.exprs
  hB : DoneAt m B
  pend : PendFrom m m N B
  child : ∀ (t : Ptr) (T : grp), m.heap[t]? = some T → m.sig t ⊂ m.sig N → T.done = false →
    ∃ l r, expr.ofJoin ⟨some N, some l, some r⟩ ∈ G.exprs ∧ (t = l ∨ t = r)
  all : AllExist m N

/-- Some group of `m` joins exactly the base relations `S`. -/
def Joined (m : memo) (S : Finset Ptr) : Prop := ∃ t T, m.heap[t]? = some T ∧ m.sig t = S

/-- The state after the first pass over a group `N` that held the single pair
`(X, A)`: `N` has gained the commuted pair `(A, X)` and the associated pairs,
whose right children join the base relations of `A` with part of those of
`X`; every group below `N` is done, or holds a single pair `(w, A)` and is a
child of `N`. -/
structure AfterFirst (s : String) (N X A : Ptr) (m : memo) (G : grp) : Prop where
  good : Good s m
  hG : m.heap[N]? = some G
  nd : G.done = false
  mem0 : expr.ofJoin ⟨some N, some X, some A⟩ ∈ G.exprs
  memAX : expr.ofJoin ⟨some N, some A, some X⟩ ∈ G.exprs
  doneX : DoneAt m X
  doneA : DoneAt m A
  pend : PendFrom m m N A
  child : ∀ (t : Ptr) (T : grp), m.heap[t]? = some T → m.sig t ⊂ m.sig N → T.done = false →
    ∃ l r, expr.ofJoin ⟨some N, some l, some r⟩ ∈ G.exprs ∧ (t = l ∨ t = r)
  form : ∀ l r, expr.ofJoin ⟨some N, some l, some r⟩ ∈ G.exprs →
    (l = A ∧ r = X) ∨ m.sig A ⊆ m.sig r
  exist : ∀ U : Finset Ptr, U.Nonempty → U ⊂ m.sig X → Joined m (U ∪ m.sig A)

/-- A join tree over base relations; a leaf is the position of a relation in
the list of relations that were interned. -/
inductive JTree where
  | leaf (i : Nat)
  | node (l r : JTree)
deriving DecidableEq, Repr

/-- The leaves of a join tree, from left to right. -/
def JTree.leaves : JTree → List Nat
  | JTree.leaf i => [i]
  | JTree.node l r => l.leaves ++ r.leaves

/-- The calls `m.addRel(r)` for the relations of a list, in order, as at the
start of `main`; the groups returned are collected. -/
def internRels : List rel → memo → memo × List Ptr
  | [], m => (m, [])
  | r :: rs, m =>
    let res := internRels rs (m.addRel r).1
    (res.1, (m.addRel r).2 :: res.2)

/-- The nested calls `m.constructJoin(join{l: ..., r: ...})` that build a join
tree over the groups `ps` of the base relations: the left operand is evaluated
first, as in `main`, where `ab` is built before `abc` and `abc` before `abcd`. -/
def buildTree (ps : List Ptr) : JTree → memo → Run (memo × Ptr)
  | JTree.leaf i, m =>
    match ps[i]? with
    | some p => .ok (m, p)
    | none => .error .indexOutOfRange
  | JTree.node l r, m =>
    match buildTree ps l m with
    | .error e => .error e
    | .ok (m1, pl) =>
      match buildTree ps r m1 with
      | .error e => .error e
      | .ok (m2, pr) => m2.constructJoin ⟨none, some pl, some pr⟩

/-- The group `p` of `m` and the groups below it are a join tree `t` that no
pass has visited: every node holds its single expression and is not done, and
every group that joins a proper part of the base relations of a node joins
base relations of one child only. -/
def IsTree (m : memo) : JTree → Ptr → Prop
  | JTree.leaf _, p => ∃ nm r, m.heap[p]? = some ⟨nm, [expr.ofRel r], false⟩
  | JTree.node tl tr, p => ∃ nm l r,
      m.heap[p]? = some ⟨nm, [expr.ofJoin ⟨some p, some l, some r⟩], false⟩ ∧
      IsTree m tl l ∧ IsTree m tr r ∧
      ∀ (t : Ptr) (T : grp), m.heap[t]? = some T → m.sig t ⊂ m.sig p →
        m.sig t ⊆ m.sig l ∨ m.sig t ⊆ m.sig r

/-- Every group of `m` holds a single base relation and is not done. -/
def AllAtoms (m : memo) : Prop :=
  ∀ (p : Ptr) (G : grp), m.heap[p]? = some G → ∃ nm r, G = ⟨nm, [expr.ofRel r], false⟩

/-- The memo of the tree `(w.(x.y)).(w.x)` over the relations `w`, `x`, `y`:
the groups 0 to 2 of the relations, then `xy`, `wxy`, `wx` and the root,
group 6. -/
def memoRep : memo :=
  match buildTree (internRels [⟨none, 1, "w"⟩, ⟨none, 2, "x"⟩, ⟨none, 3, "y"⟩] memo.empty).2
      (JTree.node (JTree.node (JTree.leaf 0) (JTree.node (JTree.leaf 1) (JTree.leaf 2)))
        (JTree.node (JTree.leaf 0) (JTree.leaf 1)))
      (internRels [⟨none, 1, "w"⟩, ⟨none, 2, "x"⟩, ⟨none, 3, "y"⟩] memo.empty).1 with
  | .ok (m, _) => m
  | .error _ => memo.empty

/-- The memo of the tree `(w.x).(w.(x.y))`, the mirror image of the tree of
`memoRep`: the groups 0 to 2 of the relations, then `wx`, `xy`, `wxy` and the
root, group 6. -/
def memoMir : memo :=
  match buildTree (internRels [⟨none, 1, "w"⟩, ⟨none, 2, "x"⟩, ⟨none, 3, "y"⟩] memo.empty).2
      (JTree.node (JTree.node (JTree.leaf 0) (JTree.leaf 1))
        (JTree.node (JTree.leaf 0) (JTree.node (JTree.leaf 1) (JTree.leaf 2))))
      (internRels [⟨none, 1, "w"⟩, ⟨none, 2, "x"⟩, ⟨none, 3, "y"⟩] memo.empty).1 with
  | .ok (m, _) => m
  | .error _ => memo.empty

/-- Whether a run returned a value. -/
def isOk {α : Type} : Run α → Bool
  | .ok _ => true
  | .error _ => false

/-! ## Association lists as maps -/

theorem mapGet_mapSet_self {κ : Type} [DecidableEq κ] (t : List (κ × Ptr)) (k : κ) (v : Ptr) :
    mapGet (mapSet t k v) k = some v := by
  induction t with
  | nil => simp [mapSet, mapGet]
  | cons a t ih =>
    obtain ⟨k', v'⟩ := a
    by_cases h : k' = k
    · simp [mapSet, mapGet, h]
    · simp [mapSet, mapGet, h, ih]

theorem mapGet_mapSet_ne {κ : Type} [DecidableEq κ] (t : List (κ × Ptr)) (k k' : κ) (v : Ptr)
    (h : k ≠ k') : mapGet (mapSet t k v) k' = mapGet t k' := by
  induction t with
  | nil => simp [mapSet, mapGet, h]
  | cons a t ih =>
    obtain ⟨k0, v0⟩ := a
    by_cases h0 : k0 = k
    · subst h0
      simp [mapSet, mapGet, h]
    · simp only [mapSet, h0, if_false, mapGet, ih]

theorem mapSet_of_mapGet {κ : Type} [DecidableEq κ] (t : List (κ × Ptr)) (k : κ) (v : Ptr)
    (h : mapGet t k = some v) : mapSet t k v = t := by
  induction t with
  | nil => simp [mapGet] at h
  | cons a t ih =>
    obtain ⟨k0, v0⟩ := a
    by_cases h0 : k0 = k
    · subst h0
      simp [mapGet] at h
      simp [mapSet, h]
    · simp only [mapGet, h0, if_false] at h
      simp [mapSet, h0, ih h]

theorem addRel_twice_eq (m : memo) (r : rel) : (m.addRel r).1.addRel r = m.addRel r := by
  cases h : mapGet m.internedRels r with
  | some g => simp [memo.addRel, h]
  | none => simp [memo.addRel, h, mapGet_mapSet_self]

/-- C1: calling `addRel r` twice returns the identical group both times and the
second call leaves the whole memo (group list and relation table included)
unchanged; on the first call the group list gains exactly one singleton group
holding `r` when `r` was not yet interned, and nothing when it was. -/
theorem addRel_twice (m : memo) (r : rel) :
    ((m.addRel r).1.addRel r).2 = (m.addRel r).2 ∧
    ((m.addRel r).1.addRel r).1 = (m.addRel r).1 ∧
    (match mapGet m.internedRels r with
     | some g => m.addRel r = (m, g)
     | none =>
       (m.addRel r).2 = m.heap.length ∧
       (m.addRel r).1.grps = m.grps ++ [m.heap.length] ∧
       (m.addRel r).1.heap = m.heap ++
         [{ name := r.name, exprs := [expr.ofRel { r with grp := some m.heap.length }],
            done := false }]) := by
  cases h : mapGet m.internedRels r with
  | some g => simp [memo.addRel, h]
  | none => simp [memo.addRel, h, mapGet_mapSet_self]

/-- C2 (the code at the failing input): on the empty memo the second
`constructRel "a"` does not find the group registered by the first, returns a
different group and allocates a second group named `a`. -/
theorem constructRel_twice_differs :
    (memo.empty.constructRel "a").2 = 0 ∧
    ((memo.empty.constructRel "a").1.constructRel "a").2 = 1 ∧
    ((memo.empty.constructRel "a").1.constructRel "a").1.heap.map grp.name = ["a", "a"] ∧
    mapGet (memo.empty.constructRel "a").1.internedRels { grp := none, id := 0, name := "a" }
      = none := by
  decide

/-! ## The store -/

theorem getElem?_snoc {α : Type} (l : List α) (x y : α) (p : Nat) :
    (l ++ [x])[p]? = some y ↔ l[p]? = some y ∨ (p = l.length ∧ x = y) := by
  rcases Nat.lt_trichotomy p l.length with h | h | h
  · rw [List.getElem?_append_left h]
    constructor
    · exact Or.inl
    · rintro (h1 | ⟨h1, _⟩)
      · exact h1
      · omega
  · subst h
    simp
  · rw [List.getElem?_eq_none (by simp; omega), List.getElem?_eq_none (by omega)]
    constructor
    · intro h1; cases h1
    · rintro (h1 | ⟨h1, _⟩)
      · cases h1
      · omega

theorem relBuilt_relInv {m : memo} (h : RelBuilt m) : RelInv m := by
  induction h with
  | empty => exact ⟨by simp [memo.empty, mapGet], by simp [memo.empty]⟩
  | @addRel m r hr _ ih =>
    cases hget : mapGet m.internedRels r with
    | some g => simpa [memo.addRel, hget] using ih
    | none =>
      simp only [memo.addRel, hget]
      constructor
      · intro r' p hp
        by_cases hrr : r = r'
        · subst hrr
          rw [mapGet_mapSet_self] at hp
          cases hp
          exact ⟨hr, _, (getElem?_snoc _ _ _ _).mpr (Or.inr ⟨rfl, rfl⟩), rfl⟩
        · rw [mapGet_mapSet_ne _ _ _ _ hrr] at hp
          obtain ⟨h1, G, hG, hE⟩ := ih.key r' p hp
          exact ⟨h1, G, (getElem?_snoc _ _ _ _).mpr (Or.inl hG), hE⟩
      · intro p G hG
        rcases (getElem?_snoc _ _ _ _).mp hG with hG1 | ⟨hp, hG1⟩
        · obtain ⟨r', h1, h2⟩ := ih.owner p G hG1
          refine ⟨r', ?_, h2⟩
          have hne : r ≠ r' := by
            rintro rfl
            rw [hget] at h1
            cases h1
          rw [mapGet_mapSet_ne _ _ _ _ hne]
          exact h1
        · subst hp
          subst hG1
          exact ⟨r, mapGet_mapSet_self _ _ _, rfl⟩

/-- C3 (counterexample): two relation values with the same name and different
ids are interned to two different groups, both named `a`. -/
theorem addRel_same_name_two_groups :
    (¬ ∀ (m : memo) (r1 r2 : rel), r1.grp = none → r2.grp = none → r1.name = r2.name →
        ((m.addRel r1).1.addRel r2).2 = (m.addRel r1).2) ∧
    ((memo.empty.addRel ⟨none, 1, "a"⟩).1.addRel ⟨none, 2, "a"⟩).1.heap.map grp.name
      = ["a", "a"] := by
  refine ⟨?_, by decide⟩
  intro h
  have := h memo.empty { grp := none, id := 1, name := "a" } { grp := none, id := 2, name := "a" }
    rfl rfl rfl
  revert this
  decide

/-- C3 (amended): two relation values with the same name and the same id (no
group set) get the same group from `addRel`, and a memo built through `addRel`
never holds two relation groups for the same name and id. -/
theorem addRel_same_name_id (m : memo) (r1 r2 : rel) (h1 : r1.grp = none) (h2 : r2.grp = none)
    (hname : r1.name = r2.name) (hid : r1.id = r2.id) :
    ((m.addRel r1).1.addRel r2).2 = (m.addRel r1).2 ∧
    (RelBuilt m → ∀ (p q : Ptr) (G H : grp) (s t : rel), m.heap[p]? = some G → m.heap[q]? = some H →
      expr.ofRel s ∈ G.exprs → expr.ofRel t ∈ H.exprs → s.name = t.name → s.id = t.id → p = q) := by
  have heq : r1 = r2 := by
    cases r1; cases r2; simp_all
  subst heq
  refine ⟨by rw [addRel_twice_eq], ?_⟩
  intro hb p q G H s t hG hH hs ht hn hi
  obtain ⟨rp, hp1, hp2⟩ := (relBuilt_relInv hb).owner p G hG
  obtain ⟨rq, hq1, hq2⟩ := (relBuilt_relInv hb).owner q H hH
  rw [hp2] at hs
  rw [hq2] at ht
  simp only [List.mem_singleton, expr.ofRel.injEq] at hs ht
  have hpn := ((relBuilt_relInv hb).key rp p hp1).1
  have hqn := ((relBuilt_relInv hb).key rq q hq1).1
  have : rp = rq := by
    cases rp; cases rq; subst hs; subst ht; simp_all
  subst this
  rw [hp1] at hq1
  exact Option.some.inj hq1

/-- Witness for `addRel_same_name_id` on the memo holding `a` and `b`. -/
theorem addRel_same_name_id_witness :
    (((memo.empty.addRel ⟨none, 1, "a"⟩).1.addRel ⟨none, 2, "b"⟩).1.addRel ⟨none, 2, "b"⟩).2 = 1 :=
  ((addRel_same_name_id (memo.empty.addRel ⟨none, 1, "a"⟩).1 ⟨none, 2, "b"⟩ ⟨none, 2, "b"⟩
    rfl rfl rfl rfl).1).trans (by decide)

/-! ## `constructJoin` -/

theorem deref_some {m : memo} {p : Ptr} {G : grp} (h : m.heap[p]? = some G) :
    deref m (some p) = .ok G := by
  simp [deref, h]

theorem deref_ok_iff {m : memo} {p : Option Ptr} {G : grp} :
    deref m p = .ok G ↔ ∃ q, p = some q ∧ m.heap[q]? = some G := by
  cases p with
  | none => simp [deref]
  | some q =>
    cases h : m.heap[q]? with
    | none => simp [deref, h]
    | some G' => simp [deref, h]

theorem isAC_iff (l r : String) :
    isAC l r = true ↔ (l = "a" ∧ r = "c") ∨ (l = "c" ∧ r = "a") := by
  simp [isAC]

/-- C4: when the two group names are `a` and `c` in either order,
`constructJoin` is exactly `addRel` of the relation `E` (id 5): no join
signature is registered, every existing group is left as it was, and the
group list is unchanged or grows by the one singleton group of `E`. -/
theorem constructJoin_annihilating (m : memo) (j : join) (L R : grp)
    (hl : deref m j.l = .ok L) (hr : deref m j.r = .ok R)
    (hn : (L.name = "a" ∧ R.name = "c") ∨ (L.name = "c" ∧ R.name = "a")) :
    m.constructJoin j = .ok (m.addRel relE) ∧
    (m.addRel relE).1.internedJoins = m.internedJoins ∧
    (∀ (p : Ptr) (G : grp), m.heap[p]? = some G → (m.addRel relE).1.heap[p]? = some G) ∧
    ((m.addRel relE).1.grps = m.grps ∧ (m.addRel relE).1.heap = m.heap ∨
     (m.addRel relE).1.grps = m.grps ++ [(m.addRel relE).2] ∧
     (m.addRel relE).1.heap = m.heap ++
       [{ name := "E", exprs := [expr.ofRel { relE with grp := some (m.addRel relE).2 }],
          done := false }]) := by
  have hac : isAC L.name R.name = true := (isAC_iff _ _).mpr hn
  refine ⟨by simp [memo.constructJoin, hl, hr, hac], ?_⟩
  cases h : mapGet m.internedRels relE with
  | some g => simp [memo.addRel, h]
  | none =>
    simp only [memo.addRel, h, true_and]
    refine ⟨fun p G hG => (getElem?_snoc _ _ _ _).mpr (Or.inl hG), ?_⟩
    exact Or.inr rfl

/-- Witness for `constructJoin_annihilating`: `constructJoin(c, a)` on the memo
holding `a` and `c`. -/
theorem constructJoin_annihilating_witness :
    memoAC.constructJoin ⟨none, some 1, some 0⟩ = .ok (memoAC.addRel relE) :=
  (constructJoin_annihilating memoAC ⟨none, some 1, some 0⟩
    ⟨"c", [expr.ofRel ⟨some 1, 3, "c"⟩], false⟩ ⟨"a", [expr.ofRel ⟨some 0, 1, "a"⟩], false⟩
    rfl rfl (Or.inr ⟨rfl, rfl⟩)).1

theorem deref_snoc {m m1 : memo} {x : grp} (hh : m1.heap = m.heap ++ [x]) {p : Option Ptr}
    {G : grp} (h : deref m p = .ok G) : deref m1 p = .ok G := by
  obtain ⟨q, rfl, hq⟩ := deref_ok_iff.mp h
  exact deref_ok_iff.mpr ⟨q, rfl, by rw [hh]; exact (getElem?_snoc _ _ _ _).mpr (Or.inl hq)⟩

theorem deref_congr {m m1 : memo} (hh : m1.heap = m.heap) (p : Option Ptr) :
    deref m1 p = deref m p := by
  cases p with
  | none => rfl
  | some q => simp [deref, hh]

/-- The two outcomes of `addRel`. -/
theorem addRel_cases (m : memo) (r : rel) :
    (∃ g, mapGet m.internedRels r = some g ∧ m.addRel r = (m, g)) ∨
    (mapGet m.internedRels r = none ∧ (m.addRel r).2 = m.heap.length ∧
      (m.addRel r).1.heap = m.heap ++
        [{ name := r.name, exprs := [expr.ofRel { r with grp := some m.heap.length }],
           done := false }] ∧
      (m.addRel r).1.grps = m.grps ++ [m.heap.length] ∧
      (m.addRel r).1.internedRels = mapSet m.internedRels r m.heap.length ∧
      (m.addRel r).1.internedJoins = m.internedJoins) := by
  cases h : mapGet m.internedRels r with
  | some g => exact Or.inl ⟨g, rfl, by simp [memo.addRel, h]⟩
  | none => exact Or.inr ⟨rfl, by simp [memo.addRel, h]⟩

/-- The three outcomes of a `constructJoin` that returns. -/
theorem constructJoin_cases {m m1 : memo} {j : join} {g : Ptr}
    (h : m.constructJoin j = .ok (m1, g)) :
    ∃ L R, deref m j.l = .ok L ∧ deref m j.r = .ok R ∧
      ((isAC L.name R.name = true ∧ m.addRel relE = (m1, g)) ∨
       (isAC L.name R.name = false ∧ m.findJoin j = some g ∧ m1 = m) ∨
       (isAC L.name R.name = false ∧ m.findJoin j = none ∧ g = m.heap.length ∧
         m1.heap = m.heap ++ [{ name := canonName L.name R.name,
                                exprs := [expr.ofJoin { j with grp := some m.heap.length }],
                                done := false }] ∧
         m1.grps = m.grps ++ [m.heap.length] ∧ m1.internedRels = m.internedRels ∧
         m1.internedJoins = mapSet m.internedJoins j m.heap.length)) := by
  unfold memo.constructJoin at h
  cases hl : deref m j.l with
  | error e => simp [hl] at h
  | ok L =>
  cases hr : deref m j.r with
  | error e => simp [hl, hr] at h
  | ok R =>
  simp only [hl, hr] at h
  refine ⟨L, R, rfl, rfl, ?_⟩
  cases hac : isAC L.name R.name with
  | true =>
    simp only [hac, if_true, Except.ok.injEq] at h
    exact Or.inl ⟨rfl, h⟩
  | false =>
    simp only [hac, Bool.false_eq_true, if_false] at h
    cases hf : m.findJoin j with
    | some g0 =>
      simp only [hf, Except.ok.injEq, Prod.mk.injEq] at h
      obtain ⟨h1, h2⟩ := h
      subst h2
      refine Or.inr (Or.inl ⟨rfl, rfl, ?_⟩)
      rw [← h1, mapSet_of_mapGet _ _ _ hf]
    | none =>
      simp only [hf, Except.ok.injEq, Prod.mk.injEq] at h
      obtain ⟨h1, h2⟩ := h
      subst h2
      subst h1
      exact Or.inr (Or.inr ⟨rfl, rfl, rfl, rfl, rfl, rfl, rfl⟩)

/-- C5 (counterexample): `(a, c)` is not registered on the memo holding `a` and
`c`, yet `constructJoin(a, c)` appends a group that holds the relation `E`
instead of the join `(a, c)`, and `findJoin(a, c)` is still nil afterwards. -/
theorem constructJoin_ac_registers_nothing :
    memoAC.findJoin ⟨none, some 0, some 1⟩ = none ∧
    (memoAC.constructJoin ⟨none, some 0, some 1⟩).map
        (fun x => (x.2, x.1.findJoin ⟨none, some 0, some 1⟩, x.1.heap.map grp.exprs))
      = .ok (2, none, [[expr.ofRel ⟨some 0, 1, "a"⟩], [expr.ofRel ⟨some 1, 3, "c"⟩],
          [expr.ofRel ⟨some 2, 5, "E"⟩]]) := by
  exact ⟨rfl, rfl⟩

/-- C5 (amended): `constructJoin` is idempotent for all groups `l`, `r`: a
second call returns the same group and leaves the memo unchanged.  When the
names of `l` and `r` are not `a` and `c` in either order: if the ordered
signature was registered the registered group is returned and the memo is
unchanged, otherwise exactly one new group holding the single expression
`(l, r)` is appended and `findJoin(l, r)` returns it afterwards. -/
theorem constructJoin_idempotent (m : memo) (j : join) (m1 : memo) (g : Ptr)
    (h : m.constructJoin j = .ok (m1, g)) :
    m1.constructJoin j = .ok (m1, g) ∧
    (∀ L R : grp, deref m j.l = .ok L → deref m j.r = .ok R → isAC L.name R.name = false →
      match m.findJoin j with
      | some g0 => g = g0 ∧ m1 = m
      | none =>
        g = m.heap.length ∧
        m1.heap = m.heap ++ [{ name := canonName L.name R.name,
                               exprs := [expr.ofJoin { j with grp := some g }],
                               done := false }] ∧
        m1.grps = m.grps ++ [g] ∧ m1.internedRels = m.internedRels ∧
        m1.findJoin j = some g ∧
        ∀ j' : join, j' ≠ j → m1.findJoin j' = m.findJoin j') := by
  obtain ⟨L, R, hl, hr, hc⟩ := constructJoin_cases h
  rcases hc with ⟨hac, hE⟩ | ⟨hac, hf, rfl⟩ | ⟨hac, hf, rfl, hheap, hgrps, hrels, hjoins⟩
  · refine ⟨?_, fun L' R' hl' hr' hac' => ?_⟩
    · have h1 : m1 = (m.addRel relE).1 := by rw [hE]
      have hl1 : deref m1 j.l = .ok L := by
        rcases addRel_cases m relE with ⟨g0, _, hg⟩ | ⟨_, _, hh, _⟩
        · rw [h1, hg]; exact hl
        · exact deref_snoc (h1 ▸ hh) hl
      have hr1 : deref m1 j.r = .ok R := by
        rcases addRel_cases m relE with ⟨g0, _, hg⟩ | ⟨_, _, hh, _⟩
        · rw [h1, hg]; exact hr
        · exact deref_snoc (h1 ▸ hh) hr
      simp only [memo.constructJoin, hl1, hr1, hac, if_true, Except.ok.injEq]
      rw [h1, addRel_twice_eq, hE]
    · rw [hl] at hl'
      rw [hr] at hr'
      cases hl'
      cases hr'
      rw [hac] at hac'
      cases hac'
  · refine ⟨h, fun L' R' _ _ _ => ?_⟩
    rw [hf]
    exact ⟨rfl, rfl⟩
  · have hfj : m1.findJoin j = some m.heap.length := by
      unfold memo.findJoin
      rw [hjoins]
      exact mapGet_mapSet_self _ _ _
    refine ⟨?_, fun L' R' hl' hr' _ => ?_⟩
    · have hl1 := deref_snoc hheap hl
      have hr1 := deref_snoc hheap hr
      simp only [memo.constructJoin, hl1, hr1, hac, Bool.false_eq_true, if_false, hfj]
      rw [mapSet_of_mapGet _ _ _ hfj]
    · rw [hl] at hl'
      rw [hr] at hr'
      cases hl'
      cases hr'
      rw [hf]
      refine ⟨rfl, hheap, hgrps, hrels, hfj, fun j' hj' => ?_⟩
      unfold memo.findJoin
      rw [hjoins]
      exact mapGet_mapSet_ne _ _ _ _ (Ne.symm hj')

/-- Witness for `constructJoin_idempotent`: `constructJoin(b, d)` creates group
2 and a second call returns it again. -/
theorem constructJoin_idempotent_witness :
    ∃ m1, memoBD.constructJoin ⟨none, some 0, some 1⟩ = .ok (m1, 2) ∧
      m1.constructJoin ⟨none, some 0, some 1⟩ = .ok (m1, 2) :=
  ⟨_, rfl, (constructJoin_idempotent memoBD ⟨none, some 0, some 1⟩ _ 2 rfl).1⟩

/-! ## The canonical name -/

theorem canonName_data (l r : String) :
    (canonName l r).data = List.insertionSort (fun a b : Char => a ≤ b) (l.data ++ r.data) := by
  simp [canonName]

theorem canonName_comm (l r : String) : canonName l r = canonName r l := by
  apply String.ext
  rw [canonName_data, canonName_data]
  refine List.eq_of_perm_of_sorted ?_ (List.sorted_insertionSort _ _) (List.sorted_insertionSort _ _)
  exact ((List.perm_insertionSort _ _).trans List.perm_append_comm).trans
    (List.perm_insertionSort _ _).symm

/-- C6: the name `constructJoin` gives a newly created join group is the
characters of `l.name` followed by `r.name` in non-decreasing order: it is
sorted, a permutation of those characters, and the same for `(l, r)` and
`(r, l)`. -/
theorem constructJoin_name (m : memo) (j : join) (L R : grp)
    (hl : deref m j.l = .ok L) (hr : deref m j.r = .ok R)
    (hac : isAC L.name R.name = false) (hf : m.findJoin j = none) :
    ∃ m1 g G, m.constructJoin j = .ok (m1, g) ∧ m1.heap[g]? = some G ∧
      G.name = canonName L.name R.name ∧
      G.name.data = List.insertionSort (fun a b : Char => a ≤ b) (L.name.data ++ R.name.data) ∧
      List.Sorted (fun a b : Char => a ≤ b) G.name.data ∧
      List.Perm G.name.data (L.name.data ++ R.name.data) ∧
      (∀ x y : String, canonName x y = canonName y x) := by
  refine ⟨_, _, (⟨canonName L.name R.name, [expr.ofJoin ⟨some m.heap.length, j.l, j.r⟩],
      false⟩ : grp),
    by simp only [memo.constructJoin, hl, hr, hac, hf]; rfl, ?_, rfl,
    canonName_data _ _, ?_, ?_, canonName_comm⟩
  · simp
  · show List.Sorted _ (canonName L.name R.name).data
    rw [canonName_data]
    exact List.sorted_insertionSort _ _
  · show List.Perm (canonName L.name R.name).data _
    rw [canonName_data]
    exact List.perm_insertionSort _ _

/-- Witness for `constructJoin_name`: joining the groups `d` and `b` creates a
group named `bd`. -/
theorem constructJoin_name_witness :
    ∃ m1 g G, memoBD.constructJoin ⟨none, some 1, some 0⟩ = .ok (m1, g) ∧
      m1.heap[g]? = some G ∧ G.name = "bd" := by
  obtain ⟨m1, g, G, h1, h2, h3, _⟩ := constructJoin_name memoBD ⟨none, some 1, some 0⟩
    ⟨"d", [expr.ofRel ⟨some 1, 4, "d"⟩], false⟩ ⟨"b", [expr.ofRel ⟨some 0, 2, "b"⟩], false⟩
    rfl rfl rfl rfl
  exact ⟨m1, g, G, h1, h2, h3.trans (by decide)⟩

/-! ## Extension of a memo

Every operation only extends the memo: groups keep their address and name,
expression lists grow at the end, table entries stay. -/

theorem memo.le_refl (m : memo) : m.le m :=
  ⟨fun _ G h => ⟨G, h, rfl, List.prefix_refl _⟩, List.prefix_refl _, fun _ _ h => h,
    fun _ _ h => h⟩

theorem memo.le_trans {a b c : memo} (h1 : a.le b) (h2 : b.le c) : a.le c := by
  refine ⟨fun p G h => ?_, h1.grps.trans h2.grps, fun r p h => h2.rels r p (h1.rels r p h),
    fun j p h => h2.joins j p (h1.joins j p h)⟩
  obtain ⟨G1, hG1, hn1, hp1⟩ := h1.heap p G h
  obtain ⟨G2, hG2, hn2, hp2⟩ := h2.heap p G1 hG1
  exact ⟨G2, hG2, hn2.trans hn1, hp1.trans hp2⟩

theorem memo.le.len {m m' : memo} (h : m.le m') : m.heap.length ≤ m'.heap.length := by
  by_contra hc
  have hlt : m'.heap.length < m.heap.length := not_le.mp hc
  obtain ⟨G, hG⟩ : ∃ G, m.heap[m'.heap.length]? = some G :=
    ⟨m.heap[m'.heap.length], List.getElem?_eq_getElem hlt⟩
  obtain ⟨G', hG', _⟩ := h.heap _ G hG
  rw [List.getElem?_eq_none (Nat.le_refl _)] at hG'
  cases hG'

theorem memo.le.deref {m m' : memo} (h : m.le m') {p : Option Ptr} {G : grp}
    (hd : deref m p = .ok G) : ∃ G', deref m' p = .ok G' ∧ G'.name = G.name ∧
      G.exprs <+: G'.exprs := by
  obtain ⟨q, rfl, hq⟩ := deref_ok_iff.mp hd
  obtain ⟨G', hG', hn, hp⟩ := h.heap q G hq
  exact ⟨G', deref_some hG', hn, hp⟩

/-- Extension by one new group at the end of the store. -/
theorem memo.le_of_snoc {m m' : memo} {x : grp} (hh : m'.heap = m.heap ++ [x])
    (hg : m.grps <+: m'.grps)
    (hr : ∀ r p, mapGet m.internedRels r = some p → mapGet m'.internedRels r = some p)
    (hj : ∀ j p, m.findJoin j = some p → m'.findJoin j = some p) : m.le m' :=
  ⟨fun p G h => ⟨G, by rw [hh]; exact (getElem?_snoc _ _ _ _).mpr (Or.inl h), rfl,
    List.prefix_refl _⟩, hg, hr, hj⟩

theorem mapGet_mapSet_of_none {κ : Type} [DecidableEq κ] (t : List (κ × Ptr)) (k k' : κ)
    (v p : Ptr) (hk : mapGet t k = none) (h : mapGet t k' = some p) :
    mapGet (mapSet t k v) k' = some p := by
  have hne : k ≠ k' := by
    rintro rfl
    rw [hk] at h
    cases h
  rw [mapGet_mapSet_ne _ _ _ _ hne]
  exact h

theorem memo.le_addRel (m : memo) (r : rel) : m.le (m.addRel r).1 := by
  rcases addRel_cases m r with ⟨g, _, hg⟩ | ⟨hn, _, hh, hgr, hrel, hjo⟩
  · rw [hg]
    exact memo.le_refl m
  · refine memo.le_of_snoc hh (by rw [hgr]; exact List.prefix_append _ _) ?_ ?_
    · intro r' p h
      rw [hrel]
      exact mapGet_mapSet_of_none _ _ _ _ _ hn h
    · intro j p h
      unfold memo.findJoin at h ⊢
      rw [hjo]
      exact h

theorem memo.le_constructJoin {m m1 : memo} {j : join} {g : Ptr}
    (h : m.constructJoin j = .ok (m1, g)) : m.le m1 := by
  obtain ⟨L, R, _, _, hc⟩ := constructJoin_cases h
  rcases hc with ⟨_, hE⟩ | ⟨_, _, rfl⟩ | ⟨_, hf, _, hheap, hgrps, hrels, hjoins⟩
  · have := memo.le_addRel m relE
    rw [hE] at this
    exact this
  · exact memo.le_refl _
  · refine memo.le_of_snoc hheap (by rw [hgrps]; exact List.prefix_append _ _) ?_ ?_
    · intro r p hr
      rw [hrels]
      exact hr
    · intro j' p hj'
      unfold memo.findJoin at hj' hf ⊢
      rw [hjoins]
      exact mapGet_mapSet_of_none _ _ _ _ _ hf hj'

theorem getElem?_set_cases {α : Type} (l : List α) (p q : Nat) (x y : α)
    (h : (l.set p x)[q]? = some y) : (q = p ∧ x = y ∧ p < l.length) ∨ (q ≠ p ∧ l[q]? = some y) := by
  rw [List.getElem?_set] at h
  by_cases hpq : p = q
  · subst hpq
    by_cases hlt : p < l.length
    · simp [hlt] at h
      exact Or.inl ⟨rfl, h, hlt⟩
    · simp [hlt] at h
  · simp [hpq] at h
    exact Or.inr ⟨fun h' => hpq h'.symm, h⟩

/-- Replacing the group at `g` by one with the same name and a longer
expression list extends the memo. -/
theorem memo.le_of_set {m m' : memo} {g : Ptr} {G G' : grp} (hG : m.heap[g]? = some G)
    (hh : m'.heap = m.heap.set g G') (hn : G'.name = G.name) (he : G.exprs <+: G'.exprs)
    (hg : m'.grps = m.grps)
    (hr : ∀ r p, mapGet m.internedRels r = some p → mapGet m'.internedRels r = some p)
    (hj : ∀ j p, m.findJoin j = some p → m'.findJoin j = some p) : m.le m' := by
  refine ⟨fun p H h => ?_, by rw [hg], hr, hj⟩
  by_cases hp : p = g
  · subst hp
    rw [hG] at h
    cases h
    refine ⟨G', ?_, hn, he⟩
    rw [hh, List.getElem?_set]
    have hlt : p < m.heap.length := (List.getElem?_eq_some.mp hG).1
    simp [hlt]
  · refine ⟨H, ?_, rfl, List.prefix_refl _⟩
    rw [hh, List.getElem?_set]
    simp [Ne.symm hp, h]

/-- The outcome of an append that returns. -/
theorem grp_add_cases {m m' : memo} {g : Option Ptr} {e : expr} (h : grp.add m g e = .ok m') :
    ∃ p G, g = some p ∧ m.heap[p]? = some G ∧
      m'.heap = m.heap.set p { G with exprs := G.exprs ++ [e] } ∧ m'.grps = m.grps ∧
      m'.internedRels = m.internedRels ∧ m'.internedJoins = m.internedJoins := by
  cases g with
  | none => simp [grp.add] at h
  | some p =>
    cases hp : m.heap[p]? with
    | none => simp [grp.add, hp] at h
    | some G =>
      simp only [grp.add, List.get?_eq_getElem?, hp, Except.ok.injEq] at h
      subst h
      exact ⟨p, G, rfl, hp, rfl, rfl, rfl, rfl⟩

/-- The two outcomes of a rule firing that returns: the derived join was
already registered for the group of `j`, or it is registered and appended. -/
theorem derive_cases {m m' : memo} {j d : join} {msg : String → String}
    (h : join.derive m j d msg = .ok m') :
    (∃ p, m.findJoin d = some p ∧ j.grp = some p ∧ m' = m) ∨
    (m.findJoin d = none ∧
      (∃ A B C D, deref m j.l = .ok A ∧ deref m j.r = .ok B ∧ deref m d.l = .ok C ∧
        deref m d.r = .ok D) ∧
      ∃ g G, j.grp = some g ∧ m.heap[g]? = some G ∧
        m'.heap = m.heap.set g
          { G with exprs := G.exprs ++ [expr.ofJoin { d with grp := some g }] } ∧
        m'.grps = m.grps ∧ m'.internedRels = m.internedRels ∧
        m'.internedJoins = mapSet m.internedJoins d g) := by
  unfold join.derive at h
  cases hf : m.findJoin d with
  | some newJ =>
    simp only [hf] at h
    by_cases hne : some newJ = j.grp
    · simp only [hne, ne_eq, not_true_eq_false, if_false, Except.ok.injEq] at h
      exact Or.inl ⟨newJ, rfl, hne.symm, h.symm⟩
    · simp only [ne_eq, hne, not_false_eq_true, if_true] at h
      split at h <;> cases h
  | none =>
    simp only [hf] at h
    refine Or.inr ⟨rfl, ?_⟩
    cases hA : deref m j.l with
    | error e => simp [join.toString, hA] at h
    | ok A =>
    cases hB : deref m j.r with
    | error e => simp [join.toString, hA, hB] at h
    | ok B =>
    cases hC : deref m d.l with
    | error e => simp [join.toString, hA, hB, hC] at h
    | ok C =>
    cases hD : deref m d.r with
    | error e => simp [join.toString, hA, hB, hC, hD] at h
    | ok D =>
    refine ⟨⟨A, B, C, D, rfl, rfl, rfl, rfl⟩, ?_⟩
    simp only [join.toString, hA, hB, hC, hD] at h
    cases hg : j.grp with
    | none => simp [hg] at h
    | some g =>
      simp only [hg] at h
      obtain ⟨p, G, hp, hG, hheap, hgrps, hrels, hjoins⟩ := grp_add_cases h
      cases hp
      exact ⟨g, G, rfl, hG, hheap, hgrps, hrels, hjoins⟩

theorem memo.le_derive {m m' : memo} {j d : join} {msg : String → String}
    (h : join.derive m j d msg = .ok m') : m.le m' := by
  rcases derive_cases h with ⟨p, _, _, rfl⟩ | ⟨hf, _, g, G, _, hG, hheap, hgrps, hrels, hjoins⟩
  · exact memo.le_refl _
  · refine memo.le_of_set hG hheap rfl (List.prefix_append _ _) hgrps ?_ ?_
    · intro r p hr
      rw [hrels]
      exact hr
    · intro j' p hj'
      unfold memo.findJoin at hj' hf ⊢
      rw [hjoins]
      exact mapGet_mapSet_of_none _ _ _ _ _ hf hj'

theorem memo.le_setDone (m : memo) (p : Ptr) (d : Bool) : m.le (setDone m p d) := by
  unfold setDone
  cases hp : m.heap[p]? with
  | none =>
    simp only [List.get?_eq_getElem?, hp]
    exact memo.le_refl _
  | some G =>
    simp only [List.get?_eq_getElem?, hp]
    exact memo.le_of_set hp rfl rfl (List.prefix_refl _) rfl (fun _ _ h => h) (fun _ _ h => h)

/-! ## Relations kept by every step

A relation between the memo before and the memo after that is reflexive,
transitive and holds across the three primitive writes (`constructJoin`, a
rule firing, and `p.done = p.explore(m)` on a group that was not done) holds
across every exploration. -/

theorem StepRel.associate {R : memo → memo → Prop} (hR : StepRel R) (j : join)
    (es : List expr) : ∀ {m m' : memo}, join.associate j es m = .ok m' → R m m' := by
  induction es with
  | nil =>
    intro m m' h
    simp only [join.associate, Except.ok.injEq] at h
    subst h
    exact hR.refl _
  | cons e rest ih =>
    intro m m' h
    cases e with
    | ofRel r => exact ih (by simpa [join.associate] using h)
    | ofJoin ljoin =>
      simp only [join.associate] at h
      cases hc : m.constructJoin { grp := none, l := ljoin.r, r := j.r } with
      | error e => simp [hc] at h
      | ok res =>
        obtain ⟨m1, r⟩ := res
        simp only [hc] at h
        cases hd : join.derive m1 j { grp := none, l := ljoin.l, r := some r }
            (fun _ => "associate collision!") with
        | error e => simp [hd] at h
        | ok m2 =>
          simp only [hd] at h
          exact hR.trans (hR.constructJoin hc) (hR.trans (hR.derive hd) (ih h))

theorem StepRel.joinExplore {R : memo → memo → Prop} (hR : StepRel R) {m m' : memo} {j : join}
    (h : join.explore m j = .ok m') : R m m' := by
  unfold join.explore at h
  cases hd : join.derive m j { grp := none, l := j.r, r := j.l }
      (fun s => "commute collision: " ++ s) with
  | error e => simp [hd] at h
  | ok m1 =>
    simp only [hd] at h
    cases hl : deref m1 j.l with
    | error e => simp [hl] at h
    | ok L =>
      simp only [hl] at h
      exact hR.trans (hR.derive hd) (hR.associate j _ h)

theorem StepRel.exprExplore {R : memo → memo → Prop} (hR : StepRel R) {m m' : memo} {e : expr}
    (h : expr.explore m e = .ok m') : R m m' := by
  cases e with
  | ofRel r =>
    simp only [expr.explore, Except.ok.injEq] at h
    subst h
    exact hR.refl _
  | ofJoin j => exact hR.joinExplore h

/-- One iteration of `for !p.done { p.done = p.explore(m) }` that runs the
body. -/
theorem forceDone_succ {ex : Ptr → memo → Run (memo × Bool)} {k : Nat} {p : Option Ptr}
    {m m' : memo} (h : forceDone ex (k + 1) p m = .ok m') :
    ∃ q P, p = some q ∧ m.heap[q]? = some P ∧
      ((P.done = true ∧ m' = m) ∨
       (P.done = false ∧ ∃ m1 d, ex q m = .ok (m1, d) ∧
          forceDone ex k p (MiniExplorer.setDone m1 q d) = .ok m')) := by
  unfold forceDone at h
  cases p with
  | none => simp at h
  | some q =>
    cases hd : deref m (some q) with
    | error e => simp [hd] at h
    | ok P =>
      obtain ⟨q', hq', hP⟩ := deref_ok_iff.mp hd
      cases hq'
      refine ⟨q, P, rfl, hP, ?_⟩
      simp only [hd] at h
      cases hdone : P.done with
      | true =>
        simp only [hdone, if_true, Except.ok.injEq] at h
        exact Or.inl ⟨rfl, h.symm⟩
      | false =>
        simp only [hdone, Bool.false_eq_true, if_false] at h
        cases hex : ex q m with
        | error e => simp [hex] at h
        | ok res =>
          obtain ⟨m1, d⟩ := res
          simp only [hex] at h
          exact Or.inr ⟨rfl, m1, d, rfl, h⟩

theorem StepRel.forceDone {R : memo → memo → Prop} (hR : StepRel R)
    {ex : Ptr → memo → Run (memo × Bool)}
    (hex : ∀ {q m m' d}, ex q m = .ok (m', d) → R m m') :
    ∀ (k : Nat) {p : Option Ptr} {m m' : memo}, forceDone ex k p m = .ok m' → R m m' := by
  intro k
  induction k with
  | zero =>
    intro p m m' h
    simp [MiniExplorer.forceDone] at h
  | succ k ih =>
    intro p m m' h
    obtain ⟨q, P, rfl, hP, hc⟩ := forceDone_succ h
    rcases hc with ⟨_, rfl⟩ | ⟨hdone, m1, d, h1, h2⟩
    · exact hR.refl _
    · exact hR.trans (hR.body d hP hdone (hex h1)) (ih h2)

/-- One iteration of the first loop of `grp.explore`. -/
theorem exploreChildren_succ {ex : Ptr → memo → Run (memo × Bool)} {k g rem i : Nat}
    {m m' : memo} (h : exploreChildren ex k g (rem + 1) i m = .ok m') :
    ∃ G e, m.heap[g]? = some G ∧ G.exprs[i]? = some e ∧
      ((∃ r, e = expr.ofRel r ∧ exploreChildren ex k g rem (i + 1) m = .ok m') ∨
       (∃ j m1 m2, e = expr.ofJoin j ∧ forceDone ex k j.l m = .ok m1 ∧
          forceDone ex k j.r m1 = .ok m2 ∧ exploreChildren ex k g rem (i + 1) m2 = .ok m')) := by
  unfold exploreChildren at h
  cases hd : deref m (some g) with
  | error e => simp [hd] at h
  | ok G =>
    obtain ⟨q', hq', hG⟩ := deref_ok_iff.mp hd
    cases hq'
    simp only [hd, List.get?_eq_getElem?] at h
    cases he : G.exprs[i]? with
    | none => simp [he] at h
    | some e =>
      refine ⟨G, e, hG, he, ?_⟩
      simp only [he] at h
      cases e with
      | ofRel r => exact Or.inl ⟨r, rfl, h⟩
      | ofJoin j =>
        simp only at h
        cases h1 : forceDone ex k j.l m with
        | error e => simp [h1] at h
        | ok m1 =>
          simp only [h1] at h
          cases h2 : forceDone ex k j.r m1 with
          | error e => simp [h2] at h
          | ok m2 =>
            simp only [h2] at h
            exact Or.inr ⟨j, m1, m2, rfl, h1, h2, h⟩

theorem StepRel.exploreChildren {R : memo → memo → Prop} (hR : StepRel R)
    {ex : Ptr → memo → Run (memo × Bool)}
    (hex : ∀ {q m m' d}, ex q m = .ok (m', d) → R m m') (k g : Nat) :
    ∀ (rem i : Nat) {m m' : memo}, exploreChildren ex k g rem i m = .ok m' → R m m' := by
  intro rem
  induction rem with
  | zero =>
    intro i m m' h
    simp only [MiniExplorer.exploreChildren, Except.ok.injEq] at h
    subst h
    exact hR.refl _
  | succ rem ih =>
    intro i m m' h
    obtain ⟨G, e, _, _, hc⟩ := exploreChildren_succ h
    rcases hc with ⟨r, _, h1⟩ | ⟨j, m1, m2, _, h1, h2, h3⟩
    · exact ih _ h1
    · exact hR.trans (hR.forceDone hex k h1) (hR.trans (hR.forceDone hex k h2) (ih _ h3))

/-- One iteration of the second loop of `grp.explore`. -/
theorem exploreExprs_succ {g rem i : Nat} {m m' : memo}
    (h : exploreExprs g (rem + 1) i m = .ok m') :
    ∃ G e m1, m.heap[g]? = some G ∧ G.exprs[i]? = some e ∧ expr.explore m e = .ok m1 ∧
      exploreExprs g rem (i + 1) m1 = .ok m' := by
  unfold exploreExprs at h
  cases hd : deref m (some g) with
  | error e => simp [hd] at h
  | ok G =>
    obtain ⟨q', hq', hG⟩ := deref_ok_iff.mp hd
    cases hq'
    simp only [hd, List.get?_eq_getElem?] at h
    cases he : G.exprs[i]? with
    | none => simp [he] at h
    | some e =>
      simp only [he] at h
      cases h1 : expr.explore m e with
      | error err => simp [h1] at h
      | ok m1 =>
        simp only [h1] at h
        exact ⟨G, e, m1, hG, he, h1, h⟩

theorem StepRel.exploreExprs {R : memo → memo → Prop} (hR : StepRel R) (g : Nat) :
    ∀ (rem i : Nat) {m m' : memo}, exploreExprs g rem i m = .ok m' → R m m' := by
  intro rem
  induction rem with
  | zero =>
    intro i m m' h
    simp only [MiniExplorer.exploreExprs, Except.ok.injEq] at h
    subst h
    exact hR.refl _
  | succ rem ih =>
    intro i m m' h
    obtain ⟨G, e, m1, _, _, h1, h2⟩ := exploreExprs_succ h
    exact hR.trans (hR.exprExplore h1) (ih _ h2)

/-- The parts of a `grp.explore` that returns. -/
theorem explore_succ {fuel g : Nat} {m m' : memo} {d : Bool}
    (h : grp.explore (fuel + 1) g m = .ok (m', d)) :
    ∃ G m1 G2, m.heap[g]? = some G ∧
      exploreChildren (grp.explore fuel) fuel g G.exprs.length 0 m = .ok m1 ∧
      exploreExprs g G.exprs.length 0 m1 = .ok m' ∧ m'.heap[g]? = some G2 ∧
      d = (G.exprs.length == G2.exprs.length) := by
  unfold grp.explore at h
  cases hd : deref m (some g) with
  | error e => simp [hd] at h
  | ok G =>
    obtain ⟨q', hq', hG⟩ := deref_ok_iff.mp hd
    cases hq'
    simp only [hd] at h
    cases h1 : exploreChildren (grp.explore fuel) fuel g G.exprs.length 0 m with
    | error e => simp [h1] at h
    | ok m1 =>
      simp only [h1] at h
      cases h2 : exploreExprs g G.exprs.length 0 m1 with
      | error e => simp [h2] at h
      | ok m2 =>
        simp only [h2] at h
        cases h3 : deref m2 (some g) with
        | error e => simp [h3] at h
        | ok G2 =>
          obtain ⟨q', hq', hG2⟩ := deref_ok_iff.mp h3
          cases hq'
          simp only [h3, Except.ok.injEq, Prod.mk.injEq] at h
          obtain ⟨rfl, rfl⟩ := h
          exact ⟨G, m1, G2, hG, h1, h2, hG2, rfl⟩

theorem StepRel.explore {R : memo → memo → Prop} (hR : StepRel R) :
    ∀ (fuel : Nat) {g : Ptr} {m m' : memo} {d : Bool},
      grp.explore fuel g m = .ok (m', d) → R m m' := by
  intro fuel
  induction fuel with
  | zero =>
    intro g m m' d h
    simp [grp.explore] at h
  | succ fuel ih =>
    intro g m m' d h
    obtain ⟨G, m1, G2, _, h1, h2, _, _⟩ := explore_succ h
    exact hR.trans (hR.exploreChildren (fun h => ih h) fuel g _ _ h1) (hR.exploreExprs g _ _ h2)

theorem StepRel.driver {R : memo → memo → Prop} (hR : StepRel R) (fuel : Nat) (g : Ptr) :
    ∀ (k : Nat) {m m' : memo}, driver fuel g k m = .ok m' → R m m' := by
  intro k
  induction k with
  | zero =>
    intro m m' h
    simp [MiniExplorer.driver] at h
  | succ k ih =>
    intro m m' h
    unfold MiniExplorer.driver at h
    cases h1 : grp.explore fuel g m with
    | error e => simp [h1] at h
    | ok res =>
      obtain ⟨m1, d⟩ := res
      simp only [h1] at h
      cases d with
      | true =>
        simp only [if_true, Except.ok.injEq] at h
        subst h
        exact hR.explore fuel h1
      | false =>
        simp only [Bool.false_eq_true, if_false] at h
        exact hR.trans (hR.explore fuel h1) (ih h)

/-- Extension is kept by every step. -/
theorem memo.le_stepRel : StepRel memo.le :=
  ⟨memo.le_refl, memo.le_trans, memo.le_constructJoin, memo.le_derive,
    fun d _ _ h => memo.le_trans h (memo.le_setDone _ _ d)⟩

/-! ## Well-formed memos -/

theorem inv_empty : Inv memo.empty :=
  ⟨by simp [memo.empty], by simp [memo.empty, memo.findJoin, mapGet],
    by simp [memo.empty, memo.findJoin, mapGet]⟩

/-- An extension is well formed when its groups own their expressions and
its new table entries are well formed. -/
theorem inv_of_le {m m' : memo} (hle : m.le m') (hI : Inv m)
    (hown : ∀ (p : Ptr) (G : grp) (j : join), m'.heap[p]? = some G →
      expr.ofJoin j ∈ G.exprs → j.grp = some p)
    (hnew : ∀ (j : join) (p : Ptr), m'.findJoin j = some p → m.findJoin j = some p ∨
      ((∃ L R, deref m' j.l = .ok L ∧ deref m' j.r = .ok R) ∧
        ∃ G, m'.heap[p]? = some G ∧ expr.ofJoin { j with grp := some p } ∈ G.exprs)) :
    Inv m' := by
  refine ⟨hown, fun j p h => ?_, fun j p h => ?_⟩
  · rcases hnew j p h with h0 | ⟨h1, _⟩
    · obtain ⟨L, R, hL, hR⟩ := hI.keys j p h0
      obtain ⟨L', hL', _⟩ := hle.deref hL
      obtain ⟨R', hR', _⟩ := hle.deref hR
      exact ⟨L', R', hL', hR'⟩
    · exact h1
  · rcases hnew j p h with h0 | ⟨_, h1⟩
    · obtain ⟨G, hG, hmem⟩ := hI.reg j p h0
      obtain ⟨G', hG', _, hpre⟩ := hle.heap p G hG
      exact ⟨G', hG', hpre.subset hmem⟩
    · exact h1

theorem findJoin_mapSet {m m' : memo} {d : join} {g : Ptr}
    (hj : m'.internedJoins = mapSet m.internedJoins d g) (j : join) (p : Ptr)
    (h : m'.findJoin j = some p) : m.findJoin j = some p ∨ (j = d ∧ p = g) := by
  unfold memo.findJoin at h ⊢
  rw [hj] at h
  by_cases hjd : d = j
  · subst hjd
    rw [mapGet_mapSet_self] at h
    exact Or.inr ⟨rfl, (Option.some.inj h).symm⟩
  · rw [mapGet_mapSet_ne _ _ _ _ hjd] at h
    exact Or.inl h

theorem inv_addRel {m : memo} (hI : Inv m) (r : rel) : Inv (m.addRel r).1 := by
  rcases addRel_cases m r with ⟨g, _, hg⟩ | ⟨hn, _, hh, hgr, hrel, hjo⟩
  · rw [hg]
    exact hI
  · refine inv_of_le (memo.le_addRel m r) hI (fun p G j hG hj => ?_) (fun j p h => ?_)
    · rw [hh] at hG
      rcases (getElem?_snoc _ _ _ _).mp hG with h1 | ⟨_, h1⟩
      · exact hI.own p G j h1 hj
      · subst h1
        simp at hj
    · left
      unfold memo.findJoin at h ⊢
      rw [hjo] at h
      exact h

theorem inv_constructJoin {m m1 : memo} {j : join} {g : Ptr}
    (h : m.constructJoin j = .ok (m1, g)) (hI : Inv m) : Inv m1 := by
  obtain ⟨L, R, hL, hR, hc⟩ := constructJoin_cases h
  rcases hc with ⟨_, hE⟩ | ⟨_, _, rfl⟩ | ⟨_, hf, _, hheap, hgrps, hrels, hjoins⟩
  · have := inv_addRel hI relE
    rw [hE] at this
    exact this
  · exact hI
  · refine inv_of_le (memo.le_constructJoin h) hI (fun p G j' hG hj' => ?_) (fun j' p h' => ?_)
    · rw [hheap] at hG
      rcases (getElem?_snoc _ _ _ _).mp hG with h1 | ⟨h0, h1⟩
      · exact hI.own p G j' h1 hj'
      · subst h1
        simp only [List.mem_singleton, expr.ofJoin.injEq] at hj'
        subst hj'
        rw [h0]
    · rcases findJoin_mapSet hjoins j' p h' with h0 | ⟨rfl, rfl⟩
      · exact Or.inl h0
      · refine Or.inr ⟨⟨L, R, deref_snoc hheap hL, deref_snoc hheap hR⟩,
          (⟨canonName L.name R.name, [expr.ofJoin ⟨some m.heap.length, j'.l, j'.r⟩], false⟩ : grp),
          ?_, ?_⟩
        · rw [hheap]
          exact (getElem?_snoc _ _ _ _).mpr (Or.inr ⟨rfl, rfl⟩)
        · simp

theorem inv_derive {m m' : memo} {j d : join} {msg : String → String}
    (h : join.derive m j d msg = .ok m') (hI : Inv m) : Inv m' := by
  have hle := memo.le_derive h
  rcases derive_cases h with ⟨p, _, _, rfl⟩ |
    ⟨hf, ⟨A, B, C, D, hA, hB, hC, hD⟩, g, G, hg, hG, hheap, hgrps, hrels, hjoins⟩
  · exact hI
  · have hlt : g < m.heap.length := (List.getElem?_eq_some.mp hG).1
    have hnewG : m'.heap[g]? = some
        { G with exprs := G.exprs ++ [expr.ofJoin { d with grp := some g }] } := by
      rw [hheap, List.getElem?_set]
      simp [hlt]
    refine inv_of_le hle hI (fun p H j' hH hj' => ?_) (fun j' p h' => ?_)
    · rw [hheap] at hH
      rcases getElem?_set_cases _ _ _ _ _ hH with ⟨rfl, h1, _⟩ | ⟨_, h1⟩
      · subst h1
        simp only [List.mem_append, List.mem_singleton, expr.ofJoin.injEq] at hj'
        rcases hj' with h2 | h2
        · exact hI.own p G j' hG h2
        · subst h2
          rfl
      · exact hI.own p H j' h1 hj'
    · rcases findJoin_mapSet hjoins j' p h' with h0 | ⟨rfl, rfl⟩
      · exact Or.inl h0
      · obtain ⟨C', hC', _⟩ := hle.deref hC
        obtain ⟨D', hD', _⟩ := hle.deref hD
        exact Or.inr ⟨⟨C', D', hC', hD'⟩, _, hnewG, by simp⟩

theorem inv_setDone {m : memo} (hI : Inv m) (p : Ptr) (d : Bool) : Inv (setDone m p d) := by
  refine inv_of_le (memo.le_setDone m p d) hI (fun q H j hH hj => ?_) (fun j q h => Or.inl ?_)
  · unfold MiniExplorer.setDone at hH
    cases hp : m.heap[p]? with
    | none =>
      simp only [List.get?_eq_getElem?, hp] at hH
      exact hI.own q H j hH hj
    | some G =>
      simp only [List.get?_eq_getElem?, hp] at hH
      rcases getElem?_set_cases _ _ _ _ _ hH with ⟨rfl, h1, _⟩ | ⟨_, h1⟩
      · subst h1
        exact hI.own q G j hp hj
      · exact hI.own q H j h1 hj
  · unfold MiniExplorer.setDone at h
    cases hp : m.heap[p]? with
    | none =>
      simp only [List.get?_eq_getElem?, hp] at h
      exact h
    | some G =>
      simp only [List.get?_eq_getElem?, hp] at h
      exact h

/-- Well-formedness is kept by every step. -/
theorem inv_stepRel : StepRel (fun m m' => Inv m → Inv m') :=
  ⟨fun _ h => h, fun h1 h2 h => h2 (h1 h), fun h hI => inv_constructJoin h hI,
    fun h hI => inv_derive h hI, fun d _ _ h hI => inv_setDone (h hI) _ d⟩

theorem reach_inv {m : memo} (h : Reach m) : Inv m := by
  induction h with
  | empty => exact inv_empty
  | addRel r _ _ ih => exact inv_addRel ih r
  | constructJoin l r g _ h ih => exact inv_constructJoin h ih
  | explore fuel g d _ h ih => exact inv_stepRel.explore fuel h ih

/-! ## What a rule firing leaves behind -/

/-- After a rule firing that returns, the derived signature is registered for
the group of `j`. -/
theorem derive_registered {m m' : memo} {j d : join} {msg : String → String}
    (h : join.derive m j d msg = .ok m') : ∃ p, j.grp = some p ∧ m'.findJoin d = some p := by
  rcases derive_cases h with ⟨p, hf, hg, rfl⟩ | ⟨_, _, g, G, hg, _, _, _, _, hjoins⟩
  · exact ⟨p, hg, hf⟩
  · refine ⟨g, hg, ?_⟩
    unfold memo.findJoin
    rw [hjoins]
    exact mapGet_mapSet_self _ _ _

/-- After `join.explore` returns, the commuted signature is registered for the
group of `j`. -/
theorem joinExplore_commuted {m m' : memo} {j : join} (h : join.explore m j = .ok m') :
    ∃ p, j.grp = some p ∧ m'.findJoin ⟨none, j.r, j.l⟩ = some p := by
  unfold join.explore at h
  cases hd : join.derive m j { grp := none, l := j.r, r := j.l }
      (fun s => "commute collision: " ++ s) with
  | error e => simp [hd] at h
  | ok m1 =>
    simp only [hd] at h
    cases hl : deref m1 j.l with
    | error e => simp [hl] at h
    | ok L =>
      simp only [hl] at h
      obtain ⟨p, hp, hf⟩ := derive_registered hd
      exact ⟨p, hp, (memo.le_stepRel.associate j _ h).joins _ _ hf⟩

theorem exploreExprs_commuted (g : Ptr) : ∀ (rem i : Nat) {m m' : memo},
    exploreExprs g rem i m = .ok m' → ∀ (i' : Nat) (G : grp) (j : join), i ≤ i' → i' < i + rem →
      m.heap[g]? = some G → G.exprs[i']? = some (expr.ofJoin j) →
      ∃ p, j.grp = some p ∧ m'.findJoin ⟨none, j.r, j.l⟩ = some p := by
  intro rem
  induction rem with
  | zero =>
    intro i m m' _ i' G j h1 h2
    omega
  | succ rem ih =>
    intro i m m' h i' G j h1 h2 hG hj
    obtain ⟨G0, e, m1, hG0, he, hstep, hrest⟩ := exploreExprs_succ h
    rw [hG] at hG0
    cases hG0
    by_cases hi : i' = i
    · subst hi
      rw [hj] at he
      cases he
      obtain ⟨p, hp, hf⟩ := joinExplore_commuted hstep
      exact ⟨p, hp, (memo.le_stepRel.exploreExprs g _ _ hrest).joins _ _ hf⟩
    · obtain ⟨G1, hG1, _, hpre⟩ := (memo.le_stepRel.exprExplore hstep).heap g G hG
      have hj1 : G1.exprs[i']? = some (expr.ofJoin j) := by
        obtain ⟨t, ht⟩ := hpre
        rw [← ht]
        have hlt : i' < G.exprs.length := (List.getElem?_eq_some.mp hj).1
        rw [List.getElem?_append_left hlt]
        exact hj
      exact ih (i + 1) hrest i' G1 j (by omega) (by omega) hG1 hj1

/-- After `g.explore(m)` returns, the commuted signature of every join that `g`
held at entry is registered for the group recorded in that join. -/
theorem explore_commuted {fuel : Nat} {g : Ptr} {m m' : memo} {d : Bool}
    (h : grp.explore fuel g m = .ok (m', d)) (G : grp) (j : join) (hG : m.heap[g]? = some G)
    (hj : expr.ofJoin j ∈ G.exprs) :
    ∃ p, j.grp = some p ∧ m'.findJoin ⟨none, j.r, j.l⟩ = some p := by
  cases fuel with
  | zero => simp [grp.explore] at h
  | succ fuel =>
    obtain ⟨G0, m1, G2, hG0, h1, h2, _, _⟩ := explore_succ h
    rw [hG] at hG0
    cases hG0
    obtain ⟨i, hi⟩ := List.getElem?_of_mem hj
    have hlt : i < G.exprs.length := (List.getElem?_eq_some.mp hi).1
    obtain ⟨G1, hG1, _, hpre⟩ :=
      (memo.le_stepRel.exploreChildren (fun h => memo.le_stepRel.explore _ h) fuel g _ _ h1).heap
        g G hG
    have hj1 : G1.exprs[i]? = some (expr.ofJoin j) := by
      obtain ⟨t, ht⟩ := hpre
      rw [← ht, List.getElem?_append_left hlt]
      exact hi
    exact exploreExprs_commuted g _ _ h2 i G1 j (Nat.zero_le _) (by omega) hG1 hj1

/-- C7 (counterexample): on the memo holding `a` and `c`, the group that
`constructJoin(a, c)` returns is the group of `E`; its first `explore` returns
true and `findJoin(c, a)` is nil. -/
theorem symmetric_join_fails_ac :
    Reach memoAC ∧
    memoAC.constructJoin ⟨none, some 0, some 1⟩ = .ok (memoACE, 2) ∧
      grp.explore 1 2 memoACE = .ok (memoACE, true) ∧ driver 1 2 1 memoACE = .ok memoACE ∧
      memoACE.findJoin ⟨none, some 1, some 0⟩ = none :=
  ⟨Reach.addRel _ rfl (Reach.addRel _ rfl Reach.empty), rfl, rfl, rfl, rfl⟩

/-- C7 (amended): in a reached memo, for groups `X`, `Y` whose names are not
`a` and `c` in either order, once `G = constructJoin(X, Y)` has been explored
by repeated `G.explore` calls until one returns true, `findJoin(Y, X)` returns
`G`. -/
theorem symmetric_join (m : memo) (hm : Reach m) (X Y : Ptr) (LX LY : grp)
    (hX : m.heap[X]? = some LX) (hY : m.heap[Y]? = some LY)
    (hac : isAC LX.name LY.name = false) (m1 : memo) (G : Ptr)
    (hc : m.constructJoin ⟨none, some X, some Y⟩ = .ok (m1, G))
    (fuel k : Nat) (m2 : memo) (hd : driver fuel G k m1 = .ok m2) :
    m2.findJoin ⟨none, some Y, some X⟩ = some G := by
  have hI := (reach_inv hm)
  have hmem : ∃ GG, m1.heap[G]? = some GG ∧
      expr.ofJoin ⟨some G, some X, some Y⟩ ∈ GG.exprs := by
    obtain ⟨L, R, hL, hR, hcases⟩ := constructJoin_cases hc
    rw [deref_some hX] at hL
    rw [deref_some hY] at hR
    cases hL
    cases hR
    rcases hcases with ⟨h1, _⟩ | ⟨_, hf, rfl⟩ | ⟨_, _, rfl, hheap, _⟩
    · rw [hac] at h1
      cases h1
    · exact hI.reg _ _ hf
    · refine ⟨(⟨canonName LX.name LY.name,
        [expr.ofJoin ⟨some m.heap.length, some X, some Y⟩], false⟩ : grp), ?_, ?_⟩
      · rw [hheap]
        exact (getElem?_snoc _ _ _ _).mpr (Or.inr ⟨rfl, rfl⟩)
      · simp
  obtain ⟨GG, hGG, hj⟩ := hmem
  cases k with
  | zero => simp [driver] at hd
  | succ k =>
    unfold driver at hd
    cases h1 : grp.explore fuel G m1 with
    | error e => simp [h1] at hd
    | ok res =>
      obtain ⟨m', d⟩ := res
      simp only [h1] at hd
      obtain ⟨p, hp, hf⟩ := explore_commuted h1 GG _ hGG hj
      simp only [Option.some.injEq] at hp
      subst hp
      cases d with
      | true =>
        simp only [if_true, Except.ok.injEq] at hd
        subst hd
        exact hf
      | false =>
        simp only [Bool.false_eq_true, if_false] at hd
        exact (memo.le_stepRel.driver fuel _ k hd).joins _ _ hf

theorem reach_memoBD : Reach memoBD :=
  Reach.addRel _ rfl (Reach.addRel _ rfl Reach.empty)

/-- Witness for `symmetric_join`: on the memo holding `b` and `d`, the group 2
of `(b, d)` converges in two passes and `findJoin(d, b)` is group 2. -/
theorem symmetric_join_witness :
    memoBD.constructJoin ⟨none, some 0, some 1⟩ = .ok (memoBDJ, 2) ∧
      driver 3 2 2 memoBDJ = .ok memoBDX ∧ memoBDX.findJoin ⟨none, some 1, some 0⟩ = some 2 :=
  ⟨rfl, rfl,
    symmetric_join memoBD reach_memoBD 0 1 ⟨"b", [expr.ofRel ⟨some 0, 2, "b"⟩], false⟩
      ⟨"d", [expr.ofRel ⟨some 1, 4, "d"⟩], false⟩ rfl rfl rfl memoBDJ 2 rfl 3 2 memoBDX rfl⟩

/-! ## The `done` flags -/

theorem setDone_heap_ne (m : memo) {p q : Ptr} (d : Bool) (h : q ≠ p) :
    (setDone m p d).heap[q]? = m.heap[q]? := by
  unfold setDone
  cases hp : m.heap[p]? with
  | none => simp only [List.get?_eq_getElem?, hp]
  | some G =>
    simp only [List.get?_eq_getElem?, hp]
    rw [List.getElem?_set]
    simp [Ne.symm h]

theorem setDone_heap_self (m : memo) {p : Ptr} {G : grp} (d : Bool) (h : m.heap[p]? = some G) :
    (setDone m p d).heap[p]? = some { G with done := d } := by
  unfold setDone
  simp only [List.get?_eq_getElem?, h]
  rw [List.getElem?_set]
  simp [(List.getElem?_eq_some.mp h).1]

theorem doneLe_constructJoin {m m1 : memo} {j : join} {g : Ptr}
    (h : m.constructJoin j = .ok (m1, g)) : DoneLe m m1 := by
  intro q G hG hd
  obtain ⟨L, R, _, _, hc⟩ := constructJoin_cases h
  rcases hc with ⟨_, hE⟩ | ⟨_, _, rfl⟩ | ⟨_, _, _, hheap, _⟩
  · rcases addRel_cases _ relE with ⟨g0, _, hg⟩ | ⟨_, _, hh, _⟩
    · rw [hE] at hg
      cases hg
      exact ⟨G, hG, hd⟩
    · rw [hE] at hh
      exact ⟨G, by rw [hh]; exact (getElem?_snoc _ _ _ _).mpr (Or.inl hG), hd⟩
  · exact ⟨G, hG, hd⟩
  · exact ⟨G, by rw [hheap]; exact (getElem?_snoc _ _ _ _).mpr (Or.inl hG), hd⟩

theorem doneLe_derive {m m' : memo} {j d : join} {msg : String → String}
    (h : join.derive m j d msg = .ok m') : DoneLe m m' := by
  intro q G hG hd
  rcases derive_cases h with ⟨p, _, _, rfl⟩ | ⟨_, _, g, G0, _, hG0, hheap, _⟩
  · exact ⟨G, hG, hd⟩
  · by_cases hq : q = g
    · subst hq
      rw [hG0] at hG
      cases hG
      refine ⟨(⟨G.name, G.exprs ++ [expr.ofJoin ⟨some q, d.l, d.r⟩], G.done⟩ : grp), ?_, hd⟩
      rw [hheap, List.getElem?_set]
      simp [(List.getElem?_eq_some.mp hG0).1]
    · refine ⟨G, ?_, hd⟩
      rw [hheap, List.getElem?_set]
      simp [Ne.symm hq, hG]

/-- A group that is done stays done across every step: the only write to a
flag, `p.done = p.explore(m)`, is made on a group that was not done when the
call started. -/
theorem doneLe_stepRel : StepRel DoneLe := by
  refine ⟨fun m q G h1 h2 => ⟨G, h1, h2⟩, fun h1 h2 q G hG hd => ?_, doneLe_constructJoin,
    doneLe_derive, ?_⟩
  · obtain ⟨G1, hG1, hd1⟩ := h1 q G hG hd
    exact h2 q G1 hG1 hd1
  · intro m m1 p P d hP hdone h q G hG hd
    have hne : q ≠ p := by
      rintro rfl
      rw [hP] at hG
      cases hG
      rw [hdone] at hd
      cases hd
    obtain ⟨G1, hG1, hd1⟩ := h q G hG hd
    exact ⟨G1, by rw [setDone_heap_ne _ _ hne]; exact hG1, hd1⟩

/-- When `for !p.done { ... }` exits, `p` is done. -/
theorem forceDone_done {ex : Ptr → memo → Run (memo × Bool)} :
    ∀ (k : Nat) {p : Option Ptr} {m m' : memo}, forceDone ex k p m = .ok m' →
      k ≠ 0 ∧ ∃ q P, p = some q ∧ m'.heap[q]? = some P ∧ P.done = true := by
  intro k
  induction k with
  | zero =>
    intro p m m' h
    simp [forceDone] at h
  | succ k ih =>
    intro p m m' h
    obtain ⟨q, P, rfl, hP, hc⟩ := forceDone_succ h
    rcases hc with ⟨hdone, rfl⟩ | ⟨_, m1, d, _, h2⟩
    · exact ⟨Nat.succ_ne_zero _, q, P, rfl, hP, hdone⟩
    · exact ⟨Nat.succ_ne_zero _, (ih h2).2⟩

/-- The loop `for !p.done { ... }` on a group that is done does nothing. -/
theorem forceDone_of_done (ex : Ptr → memo → Run (memo × Bool)) {k : Nat} (hk : k ≠ 0)
    {q : Ptr} {m : memo} {P : grp} (hP : m.heap[q]? = some P) (hd : P.done = true) :
    forceDone ex k (some q) m = .ok m := by
  cases k with
  | zero => exact absurd rfl hk
  | succ k => simp [forceDone, deref_some hP, hd]

theorem ChildrenDone.mono {m m' : memo} {j : join} (h : ChildrenDone m j) (hd : DoneLe m m') :
    ChildrenDone m' j := by
  obtain ⟨⟨q, P, hq, hP, hdone⟩, ⟨q', P', hq', hP', hdone'⟩⟩ := h
  obtain ⟨G, hG, hGd⟩ := hd q P hP hdone
  obtain ⟨G', hG', hGd'⟩ := hd q' P' hP' hdone'
  exact ⟨⟨q, G, hq, hG, hGd⟩, ⟨q', G', hq', hG', hGd'⟩⟩

theorem getElem?_of_prefix {α : Type} {l l' : List α} (h : l <+: l') {i : Nat} {x : α}
    (hx : l[i]? = some x) : l'[i]? = some x := by
  obtain ⟨t, rfl⟩ := h
  rw [List.getElem?_append_left (List.getElem?_eq_some.mp hx).1]
  exact hx

/-- After the first loop of `grp.explore`, the children of every join expression
it visited are done (and the loop budget was not zero if it met a join). -/
theorem exploreChildren_done {ex : Ptr → memo → Run (memo × Bool)}
    (hle : ∀ {q m m' d}, ex q m = .ok (m', d) → m.le m')
    (hdl : ∀ {q m m' d}, ex q m = .ok (m', d) → DoneLe m m') (k g : Nat) :
    ∀ (rem i : Nat) {m m' : memo}, exploreChildren ex k g rem i m = .ok m' →
      ∀ (i' : Nat) (G' : grp) (j : join), i ≤ i' → i' < i + rem → m'.heap[g]? = some G' →
        G'.exprs[i']? = some (expr.ofJoin j) → k ≠ 0 ∧ ChildrenDone m' j := by
  intro rem
  induction rem with
  | zero =>
    intro i m m' _ i' G' j h1 h2
    omega
  | succ rem ih =>
    intro i m m' h i' G' j h1 h2 hG' hj
    obtain ⟨G, e, hG, he, hc⟩ := exploreChildren_succ h
    by_cases hi : i' = i
    · subst hi
      have hmm' : m.le m' := memo.le_stepRel.exploreChildren hle k g _ _ h
      obtain ⟨G1, hG1, _, hpre⟩ := hmm'.heap g G hG
      rw [hG'] at hG1
      cases hG1
      have := getElem?_of_prefix hpre he
      rw [hj] at this
      cases this
      rcases hc with ⟨r, hr, _⟩ | ⟨j', m1, m2, hj', hf1, hf2, hrest⟩
      · cases hr
      · cases hj'
        obtain ⟨hk, q, P, hq, hP, hd⟩ := forceDone_done k hf1
        obtain ⟨_, q', P', hq', hP', hd'⟩ := forceDone_done k hf2
        obtain ⟨P2, hP2, hd2⟩ := doneLe_stepRel.forceDone hdl k hf2 q P hP hd
        have hcd : ChildrenDone m2 j := ⟨⟨q, P2, hq, hP2, hd2⟩, ⟨q', P', hq', hP', hd'⟩⟩
        exact ⟨hk, hcd.mono (doneLe_stepRel.exploreChildren hdl k g _ _ hrest)⟩
    · rcases hc with ⟨r, _, hrest⟩ | ⟨j', m1, m2, _, _, _, hrest⟩
      · exact ih (i + 1) hrest i' G' j (by omega) (by omega) hG' hj
      · exact ih (i + 1) hrest i' G' j (by omega) (by omega) hG' hj

/-- The first loop of `grp.explore` does nothing when the children of every join
expression it visits are done. -/
theorem exploreChildren_of_done (ex : Ptr → memo → Run (memo × Bool)) (k g : Nat) {m : memo}
    {G : grp} (hG : m.heap[g]? = some G) :
    ∀ (rem i : Nat), i + rem ≤ G.exprs.length →
      (∀ (i' : Nat) (j : join), i ≤ i' → i' < i + rem → G.exprs[i']? = some (expr.ofJoin j) →
        k ≠ 0 ∧ ChildrenDone m j) →
      exploreChildren ex k g rem i m = .ok m := by
  intro rem
  induction rem with
  | zero =>
    intro i _ _
    rfl
  | succ rem ih =>
    intro i hlen hall
    have hlt : i < G.exprs.length := by omega
    have he : G.exprs[i]? = some G.exprs[i] := List.getElem?_eq_getElem hlt
    have hrest := ih (i + 1) (by omega) (fun i' j h1 h2 => hall i' j (by omega) (by omega))
    unfold exploreChildren
    simp only [deref_some hG, List.get?_eq_getElem?, he]
    cases hcase : G.exprs[i] with
    | ofRel r => exact hrest
    | ofJoin j =>
      rw [hcase] at he
      obtain ⟨hk, ⟨q, P, hq, hP, hd⟩, ⟨q', P', hq', hP', hd'⟩⟩ := hall i j (le_refl _) (by omega) he
      simp only [hq, hq', forceDone_of_done ex hk hP hd, forceDone_of_done ex hk hP' hd']
      exact hrest

/-! ## A pass that adds nothing changes nothing -/

theorem memo.le.length_le {m m' : memo} (h : m.le m') {g : Ptr} {G G' : grp}
    (hG : m.heap[g]? = some G) (hG' : m'.heap[g]? = some G') :
    G.exprs.length ≤ G'.exprs.length := by
  obtain ⟨G1, hG1, _, hpre⟩ := h.heap g G hG
  rw [hG'] at hG1
  cases hG1
  exact hpre.length_le

/-- A rule firing that does not lengthen the group of `j` found the derived
signature registered and wrote nothing. -/
theorem derive_fix {m m' : memo} {j d : join} {msg : String → String} {g : Ptr} {G G' : grp}
    (h : join.derive m j d msg = .ok m') (hg : j.grp = some g) (hG : m.heap[g]? = some G)
    (hG' : m'.heap[g]? = some G') (hlen : G'.exprs.length ≤ G.exprs.length) :
    m' = m ∧ m.findJoin d = some g := by
  rcases derive_cases h with ⟨p, hf, hp, rfl⟩ | ⟨_, _, g0, G0, hg0, hG0, hheap, _⟩
  · rw [hg] at hp
    cases hp
    exact ⟨rfl, hf⟩
  · rw [hg] at hg0
    cases hg0
    rw [hG] at hG0
    cases hG0
    rw [hheap, List.getElem?_set] at hG'
    simp only [(List.getElem?_eq_some.mp hG).1, if_true, Option.some.injEq] at hG'
    subst hG'
    simp at hlen

theorem deref_lt {m : memo} {q : Ptr} {G : grp} (h : deref m (some q) = .ok G) :
    q < m.heap.length := by
  obtain ⟨q', hq', hG⟩ := deref_ok_iff.mp h
  cases hq'
  exact (List.getElem?_eq_some.mp hG).1

/-- An `[AssociateJoin]` loop that does not lengthen the group of `j` writes
nothing: every `constructJoin` found its group and every derived signature was
registered. -/
theorem associate_fix (j : join) {g : Ptr} (hg : j.grp = some g) (es : List expr) :
    ∀ {m m' : memo} {G G' : grp}, Inv m → join.associate j es m = .ok m' →
      m.heap[g]? = some G → m'.heap[g]? = some G' → G'.exprs.length ≤ G.exprs.length →
      m' = m := by
  induction es with
  | nil =>
    intro m m' G G' _ h _ _ _
    simp only [join.associate, Except.ok.injEq] at h
    exact h.symm
  | cons e rest ih =>
    intro m m' G G' hI h hG hG' hlen
    cases e with
    | ofRel r => exact ih hI (by simpa [join.associate] using h) hG hG' hlen
    | ofJoin ljoin =>
      simp only [join.associate] at h
      cases hc : m.constructJoin { grp := none, l := ljoin.r, r := j.r } with
      | error e => simp [hc] at h
      | ok res =>
        obtain ⟨ma, r⟩ := res
        simp only [hc] at h
        cases hd : join.derive ma j { grp := none, l := ljoin.l, r := some r }
            (fun _ => "associate collision!") with
        | error e => simp [hd] at h
        | ok mb =>
          simp only [hd] at h
          have le1 := memo.le_constructJoin hc
          have le2 := memo.le_derive hd
          have le3 := memo.le_stepRel.associate j rest h
          obtain ⟨Ga, hGa, _, _⟩ := le1.heap g G hG
          obtain ⟨Gb, hGb, _, _⟩ := le2.heap g Ga hGa
          have l1 := le1.length_le hG hGa
          have l2 := le2.length_le hGa hGb
          have l3 := le3.length_le hGb hG'
          obtain ⟨hba, hfa⟩ := derive_fix hd hg hGa hGb (by omega)
          subst hba
          have hma : mb = m := by
            obtain ⟨L, R, hL, hR, hcases⟩ := constructJoin_cases hc
            rcases hcases with ⟨_, hE⟩ | ⟨_, _, hm⟩ | ⟨_, _, hr, _, _, _, hjoins⟩
            · rcases addRel_cases m relE with ⟨g0, _, hg0⟩ | ⟨_, hr, _, _, _, hjo⟩
              · rw [hE] at hg0
                cases hg0
                rfl
              · exfalso
                rw [hE] at hr hjo
                simp only at hr hjo
                have hfm : m.findJoin { grp := none, l := ljoin.l, r := some r } = some g := by
                  unfold memo.findJoin at hfa ⊢
                  rw [hjo] at hfa
                  exact hfa
                obtain ⟨_, R', _, hR'⟩ := hI.keys _ _ hfm
                have := deref_lt hR'
                rw [hr] at this
                exact Nat.lt_irrefl _ this
            · exact hm
            · exfalso
              rcases findJoin_mapSet hjoins _ _ hfa with hfm | ⟨hdj, _⟩
              · obtain ⟨_, R', _, hR'⟩ := hI.keys _ _ hfm
                have := deref_lt hR'
                rw [hr] at this
                exact Nat.lt_irrefl _ this
              · simp only [join.mk.injEq, true_and] at hdj
                have hjr : j.r = some r := hdj.2.symm
                simp only [hjr] at hR
                have := deref_lt hR
                rw [hr] at this
                exact Nat.lt_irrefl _ this
          subst hma
          exact ih hI h hG hG' hlen

/-- A `join.explore` that does not lengthen the group of `j` writes nothing. -/
theorem joinExplore_fix {m m' : memo} {j : join} {g : Ptr} {G G' : grp} (hI : Inv m)
    (h : join.explore m j = .ok m') (hg : j.grp = some g) (hG : m.heap[g]? = some G)
    (hG' : m'.heap[g]? = some G') (hlen : G'.exprs.length ≤ G.exprs.length) : m' = m := by
  unfold join.explore at h
  cases hd : join.derive m j { grp := none, l := j.r, r := j.l }
      (fun s => "commute collision: " ++ s) with
  | error e => simp [hd] at h
  | ok m1 =>
    simp only [hd] at h
    cases hl : deref m1 j.l with
    | error e => simp [hl] at h
    | ok L =>
      simp only [hl] at h
      have le1 := memo.le_derive hd
      have le2 := memo.le_stepRel.associate j _ h
      obtain ⟨G1, hG1, _, _⟩ := le1.heap g G hG
      have l1 := le1.length_le hG hG1
      have l2 := le2.length_le hG1 hG'
      obtain ⟨h1, _⟩ := derive_fix hd hg hG hG1 (by omega)
      subst h1
      exact associate_fix j hg _ hI h hG hG' hlen

/-- A second loop of `grp.explore` that does not lengthen `g` writes nothing. -/
theorem exploreExprs_fix (g : Ptr) : ∀ (rem i : Nat) {m m' : memo} {G G' : grp}, Inv m →
    exploreExprs g rem i m = .ok m' → m.heap[g]? = some G → m'.heap[g]? = some G' →
    G'.exprs.length ≤ G.exprs.length → m' = m := by
  intro rem
  induction rem with
  | zero =>
    intro i m m' G G' _ h _ _ _
    simp only [exploreExprs, Except.ok.injEq] at h
    exact h.symm
  | succ rem ih =>
    intro i m m' G G' hI h hG hG' hlen
    obtain ⟨G0, e, m1, hG0, he, hstep, hrest⟩ := exploreExprs_succ h
    rw [hG] at hG0
    cases hG0
    have le1 := memo.le_stepRel.exprExplore hstep
    have le2 := memo.le_stepRel.exploreExprs g _ _ hrest
    obtain ⟨G1, hG1, _, _⟩ := le1.heap g G hG
    have l1 := le1.length_le hG hG1
    have l2 := le2.length_le hG1 hG'
    have hm1 : m1 = m := by
      cases e with
      | ofRel r =>
        simp only [expr.explore, Except.ok.injEq] at hstep
        exact hstep.symm
      | ofJoin j =>
        have hg : j.grp = some g := hI.own g G j hG (List.getElem?_mem he)
        exact joinExplore_fix hI hstep hg hG hG1 (by omega)
    subst hm1
    exact ih (i + 1) hI hrest hG hG' hlen

/-- C10: in a reached memo, if `g.explore(m)` returns true then calling it again
returns true and leaves the memo (group list and every expression list
included) unchanged. -/
theorem explore_stable (m : memo) (hm : Reach m) (fuel : Nat) (g : Ptr) (m' : memo)
    (h : grp.explore fuel g m = .ok (m', true)) : grp.explore fuel g m' = .ok (m', true) := by
  cases fuel with
  | zero => simp [grp.explore] at h
  | succ n =>
    obtain ⟨G, m1, G2, hG, h1, h2, hG2, hd⟩ := explore_succ h
    have hN : G.exprs.length = G2.exprs.length := by simpa using hd.symm
    have hex : ∀ {q : Ptr} {a b : memo} {d : Bool}, grp.explore n q a = .ok (b, d) → a.le b :=
      fun h => memo.le_stepRel.explore n h
    have hexd : ∀ {q : Ptr} {a b : memo} {d : Bool}, grp.explore n q a = .ok (b, d) →
        DoneLe a b := fun h => doneLe_stepRel.explore n h
    have le1 := memo.le_stepRel.exploreChildren hex n g _ _ h1
    have le2 := memo.le_stepRel.exploreExprs g _ _ h2
    have hI1 : Inv m1 :=
      inv_stepRel.exploreChildren (fun h => inv_stepRel.explore n h) n g _ _ h1 (reach_inv hm)
    obtain ⟨G1, hG1, _, _⟩ := le1.heap g G hG
    have l1 := le1.length_le hG hG1
    have l2 := le2.length_le hG1 hG2
    have hfix : m' = m1 := exploreExprs_fix g _ _ hI1 h2 hG1 hG2 (by omega)
    subst hfix
    have hG12 : G1 = G2 := Option.some.inj (hG1.symm.trans hG2)
    subst hG12
    have hchildren : exploreChildren (grp.explore n) n g G1.exprs.length 0 m' = .ok m' := by
      refine exploreChildren_of_done _ n g hG1 _ 0 (by omega) (fun i' j hi1 hi2 hj => ?_)
      exact exploreChildren_done hex hexd n g _ 0 h1 i' G1 j hi1 (by omega) hG1 hj
    unfold grp.explore
    simp only [deref_some hG1, hchildren]
    rw [hN] at h2
    simp only [h2, deref_some hG1, beq_self_eq_true]

/-- Witness for `explore_stable`: the second pass over the group of `(b, d)`
returns true, and so does a third. -/
theorem explore_stable_witness :
    grp.explore 3 2 memoBD1 = .ok (memoBDX, true) ∧
    grp.explore 3 2 memoBDX = .ok (memoBDX, true) :=
  ⟨rfl, explore_stable memoBD1
    (Reach.explore 3 2 false (Reach.constructJoin (some 0) (some 1) 2 reach_memoBD
      (show memoBD.constructJoin ⟨none, some 0, some 1⟩ = .ok (memoBDJ, 2) from rfl))
      (show grp.explore 3 2 memoBDJ = .ok (memoBD1, false) from rfl))
    3 2 memoBDX rfl⟩

/-! ## Left-deep join trees over relations with symbolic names -/

theorem canonName_eq_singleton {x y : String} {ch : Char}
    (h : canonName x y = String.mk [ch]) : x = String.mk [ch] ∨ y = String.mk [ch] := by
  have hd : (canonName x y).data = [ch] := by rw [h]
  rw [canonName_data] at hd
  have hp : List.Perm (x.data ++ y.data) [ch] := by
    rw [← hd]
    exact (List.perm_insertionSort _ _).symm
  have he : x.data ++ y.data = [ch] := List.perm_singleton.mp hp
  cases hx : x.data with
  | nil =>
    rw [hx] at he
    right
    exact String.ext he
  | cons c t =>
    rw [hx] at he
    simp only [List.cons_append, List.cons.injEq, List.append_eq_nil] at he
    left
    apply String.ext
    rw [hx, he.1, he.2.1]

theorem canonName_ne {s x y : String} (hs : IsAorC s) (hx : x ≠ s) (hy : y ≠ s) :
    (canonName x y = s) = False := by
  refine eq_false (fun h => ?_)
  rcases hs with rfl | rfl
  · rcases @canonName_eq_singleton _ _ 'a' h with h1 | h1
    · exact hx h1
    · exact hy h1
  · rcases @canonName_eq_singleton _ _ 'c' h with h1 | h1
    · exact hx h1
    · exact hy h1

theorem isAC_of_ne {s x y : String} (hs : IsAorC s) (hx : x ≠ s) (hy : y ≠ s) :
    isAC x y = false := by
  cases h : isAC x y with
  | false => rfl
  | true =>
    exfalso
    rcases (isAC_iff x y).mp h with ⟨h1, h2⟩ | ⟨h1, h2⟩
    · rcases hs with rfl | rfl
      · exact hx h1
      · exact hy h2
    · rcases hs with rfl | rfl
      · exact hy h2
      · exact hx h1

/-- Names that do not include both `a` and `c` all differ from one of the
two. -/
theorem exists_isAorC_ne (names : List String) (h : ¬ ("a" ∈ names ∧ "c" ∈ names)) :
    ∃ s, IsAorC s ∧ ∀ n ∈ names, n ≠ s := by
  by_cases ha : "a" ∈ names
  · refine ⟨"c", Or.inr rfl, fun n hn hc => h ⟨ha, ?_⟩⟩
    rw [← hc]
    exact hn
  · refine ⟨"a", Or.inl rfl, fun n hn hc => ha ?_⟩
    rw [← hc]
    exact hn

theorem run3_pass1 (iA iB iC : Int) (nA nB nC s : String) (hs : IsAorC s)
    (hA : nA ≠ s) (hB : nB ≠ s) (hC : nC ≠ s) :
    grp.explore 4 4 (run3_0 iA iB iC nA nB nC) = .ok (run3_1 iA iB iC nA nB nC, false) := by
  simp [grp.explore, exploreChildren, exploreExprs, forceDone, expr.explore, join.explore,
    join.associate, join.derive, join.toString, memo.constructJoin, memo.findJoin, mapGet, mapSet, deref,
    grp.add, setDone, run3_0, run3_1, isAC_of_ne hs, canonName_ne hs, hA, hB, hC]

theorem run3_pass2 (iA iB iC : Int) (nA nB nC s : String) (hs : IsAorC s)
    (hA : nA ≠ s) (hB : nB ≠ s) (hC : nC ≠ s) :
    grp.explore 4 4 (run3_1 iA iB iC nA nB nC) = .ok (run3_2 iA iB iC nA nB nC, false) := by
  simp [grp.explore, exploreChildren, exploreExprs, forceDone, expr.explore, join.explore,
    join.associate, join.derive, join.toString, memo.constructJoin, memo.findJoin, mapGet, mapSet, deref,
    grp.add, setDone, run3_1, run3_2, isAC_of_ne hs, canonName_ne hs, hA, hB, hC]

theorem run3_pass3 (iA iB iC : Int) (nA nB nC s : String) (hs : IsAorC s)
    (hA : nA ≠ s) (hB : nB ≠ s) (hC : nC ≠ s) :
    grp.explore 4 4 (run3_2 iA iB iC nA nB nC) = .ok (run3_2 iA iB iC nA nB nC, true) := by
  simp [grp.explore, exploreChildren, exploreExprs, forceDone, expr.explore, join.explore,
    join.associate, join.derive, join.toString, memo.constructJoin, memo.findJoin, mapGet, mapSet, deref,
    grp.add, setDone, run3_2, isAC_of_ne hs, canonName_ne hs, hA, hB, hC]

theorem run2_pass1 (iA iB : Int) (nA nB : String) :
    grp.explore 3 2 (run2_0 iA iB nA nB) = .ok (run2_1 iA iB nA nB, false) := by
  simp [grp.explore, exploreChildren, exploreExprs, forceDone, expr.explore, join.explore,
    join.associate, join.derive, join.toString, memo.constructJoin, memo.findJoin, mapGet, mapSet, deref,
    grp.add, setDone, run2_0, run2_1]

theorem run2_pass2 (iA iB : Int) (nA nB : String) :
    grp.explore 3 2 (run2_1 iA iB nA nB) = .ok (run2_1 iA iB nA nB, true) := by
  simp [grp.explore, exploreChildren, exploreExprs, forceDone, expr.explore, join.explore,
    join.associate, join.derive, join.toString, memo.constructJoin, memo.findJoin, mapGet, mapSet, deref,
    grp.add, setDone, run2_1]

set_option maxHeartbeats 4000000 in
set_option maxRecDepth 100000 in
theorem run4_pass1 (iA iB iC iD : Int) (nA nB nC nD s : String) (hs : IsAorC s)
    (hA : nA ≠ s) (hB : nB ≠ s) (hC : nC ≠ s) (hD : nD ≠ s) :
    grp.explore 5 6 (run4_0 iA iB iC iD nA nB nC nD) =
      .ok (run4_1 iA iB iC iD nA nB nC nD, false) := by
  simp [grp.explore, exploreChildren, exploreExprs, forceDone, expr.explore, join.explore,
    join.associate, join.derive, join.toString, memo.constructJoin, memo.findJoin, mapGet, mapSet, deref,
    grp.add, setDone, run4_0, run4_1, isAC_of_ne hs, canonName_ne hs, hA, hB, hC, hD]

set_option maxHeartbeats 4000000 in
set_option maxRecDepth 100000 in
theorem run4_pass2 (iA iB iC iD : Int) (nA nB nC nD s : String) (hs : IsAorC s)
    (hA : nA ≠ s) (hB : nB ≠ s) (hC : nC ≠ s) (hD : nD ≠ s) :
    grp.explore 5 6 (run4_1 iA iB iC iD nA nB nC nD) =
      .ok (run4_2 iA iB iC iD nA nB nC nD, false) := by
  simp [grp.explore, exploreChildren, exploreExprs, forceDone, expr.explore, join.explore,
    join.associate, join.derive, join.toString, memo.constructJoin, memo.findJoin, mapGet, mapSet, deref,
    grp.add, setDone, run4_1, run4_2, isAC_of_ne hs, canonName_ne hs, hA, hB, hC, hD]

set_option maxHeartbeats 4000000 in
set_option maxRecDepth 100000 in
theorem run4_pass3 (iA iB iC iD : Int) (nA nB nC nD s : String) (hs : IsAorC s)
    (hA : nA ≠ s) (hB : nB ≠ s) (hC : nC ≠ s) (hD : nD ≠ s) :
    grp.explore 5 6 (run4_2 iA iB iC iD nA nB nC nD) =
      .ok (run4_2 iA iB iC iD nA nB nC nD, true) := by
  simp [grp.explore, exploreChildren, exploreExprs, forceDone, expr.explore, join.explore,
    join.associate, join.derive, join.toString, memo.constructJoin, memo.findJoin, mapGet, mapSet, deref,
    grp.add, setDone, run4_2, run4_2, isAC_of_ne hs, canonName_ne hs, hA, hB, hC, hD]

theorem tree2_eq (iA iB : Int) (nA nB s : String) (hs : IsAorC s)
    (hA : nA ≠ s) (hB : nB ≠ s) (hAB : nA ≠ nB) :
    tree2 ⟨none, iA, nA⟩ ⟨none, iB, nB⟩ = .ok (run2_0 iA iB nA nB, 2) := by
  simp [tree2, memo.addRel, memo.empty, memo.constructJoin, memo.findJoin, mapGet, mapSet, deref,
    run2_0, isAC_of_ne hs, canonName_ne hs, hA, hB, hAB]

theorem tree3_eq (iA iB iC : Int) (nA nB nC s : String) (hs : IsAorC s)
    (hA : nA ≠ s) (hB : nB ≠ s) (hC : nC ≠ s) (hAB : nA ≠ nB) (hAC : nA ≠ nC) (hBC : nB ≠ nC) :
    tree3 ⟨none, iA, nA⟩ ⟨none, iB, nB⟩ ⟨none, iC, nC⟩ =
      .ok (run3_0 iA iB iC nA nB nC, (0, 1, 2), 4) := by
  have h1 : canonName nA nB ≠ s := fun h => (canonName_ne hs hA hB).mp h
  simp [h1, tree3, memo.addRel, memo.empty, memo.constructJoin, memo.findJoin, mapGet, mapSet, deref,
    run3_0, isAC_of_ne hs, canonName_ne hs, hA, hB, hC, hAB, hAC, hBC]

theorem mainTree_eq (iA iB iC iD : Int) (nA nB nC nD s : String) (hs : IsAorC s)
    (hA : nA ≠ s) (hB : nB ≠ s) (hC : nC ≠ s) (hD : nD ≠ s)
    (hAB : nA ≠ nB) (hAC : nA ≠ nC) (hAD : nA ≠ nD) (hBC : nB ≠ nC) (hBD : nB ≠ nD)
    (hCD : nC ≠ nD) :
    mainTree ⟨none, iA, nA⟩ ⟨none, iB, nB⟩ ⟨none, iC, nC⟩ ⟨none, iD, nD⟩ =
      .ok (run4_0 iA iB iC iD nA nB nC nD, 6) := by
  have h1 : canonName nA nB ≠ s := fun h => (canonName_ne hs hA hB).mp h
  have h2 : canonName (canonName nA nB) nC ≠ s := fun h => (canonName_ne hs h1 hC).mp h
  simp [h1, h2, mainTree, memo.addRel, memo.empty, memo.constructJoin, memo.findJoin, mapGet, mapSet,
    deref, run4_0, isAC_of_ne hs, canonName_ne hs, hA, hB, hC, hD, hAB, hAC, hAD, hBC, hBD, hCD]

theorem run2_driver (iA iB : Int) (nA nB : String) :
    driver 3 2 2 (run2_0 iA iB nA nB) = .ok (run2_1 iA iB nA nB) := by
  simp [driver, run2_pass1 iA iB nA nB, run2_pass2 iA iB nA nB]

theorem run3_driver (iA iB iC : Int) (nA nB nC s : String) (hs : IsAorC s)
    (hA : nA ≠ s) (hB : nB ≠ s) (hC : nC ≠ s) :
    driver 4 4 3 (run3_0 iA iB iC nA nB nC) = .ok (run3_2 iA iB iC nA nB nC) := by
  simp [driver, run3_pass1 iA iB iC nA nB nC s hs hA hB hC,
    run3_pass2 iA iB iC nA nB nC s hs hA hB hC, run3_pass3 iA iB iC nA nB nC s hs hA hB hC]

theorem run4_driver (iA iB iC iD : Int) (nA nB nC nD s : String) (hs : IsAorC s)
    (hA : nA ≠ s) (hB : nB ≠ s) (hC : nC ≠ s) (hD : nD ≠ s) :
    driver 5 6 3 (run4_0 iA iB iC iD nA nB nC nD) = .ok (run4_2 iA iB iC iD nA nB nC nD) := by
  simp [driver, run4_pass1 iA iB iC iD nA nB nC nD s hs hA hB hC hD,
    run4_pass2 iA iB iC iD nA nB nC nD s hs hA hB hC hD,
    run4_pass3 iA iB iC iD nA nB nC nD s hs hA hB hC hD]

theorem canonName_length (x y : String) : (canonName x y).length = x.length + y.length := by
  show (canonName x y).data.length = x.data.length + y.data.length
  rw [canonName_data, (List.perm_insertionSort _ _).length_eq, List.length_append]

theorem data_of_length_one {x : String} (h : x.length = 1) : ∃ c, x.data = [c] :=
  List.length_eq_one.mp h

/-- Two sorted concatenations differ when a one-character name taking part in
the first is neither of the one-character names of the second. -/
theorem canonName_ne_of_not_mem {x y u v : String} (hx : x.length = 1) (hu : u.length = 1)
    (hv : v.length = 1) (hxu : x ≠ u) (hxv : x ≠ v) : canonName x y ≠ canonName u v := by
  intro h
  obtain ⟨a, ha⟩ := data_of_length_one hx
  obtain ⟨b, hb⟩ := data_of_length_one hu
  obtain ⟨c, hc⟩ := data_of_length_one hv
  have hd : (canonName x y).data = (canonName u v).data := by rw [h]
  rw [canonName_data, canonName_data] at hd
  have hp : List.Perm (x.data ++ y.data) (u.data ++ v.data) :=
    (List.perm_insertionSort _ _).symm.trans
      ((List.Perm.of_eq hd).trans (List.perm_insertionSort _ _))
  have hmem : a ∈ u.data ++ v.data := hp.subset (by rw [ha]; simp)
  rw [hb, hc] at hmem
  simp only [List.singleton_append, List.mem_cons, List.mem_singleton, List.not_mem_nil,
    or_false] at hmem
  rcases hmem with h1 | h1
  · exact hxu (String.ext (by rw [ha, hb, h1]))
  · exact hxv (String.ext (by rw [ha, hc, h1]))

theorem ne_of_length_ne {x y : String} (h : x.length ≠ y.length) : x ≠ y := by
  rintro rfl
  exact h rfl

theorem run3_names_nodup (iA iB iC : Int) (nA nB nC : String) (hAB : nA ≠ nB) (hAC : nA ≠ nC)
    (hBC : nB ≠ nC) (lA : nA.length = 1) (lB : nB.length = 1) (lC : nC.length = 1) :
    ((run3_2 iA iB iC nA nB nC).heap.map grp.name).Nodup := by
  have lAB := canonName_length nA nB
  have lBC := canonName_length nB nC
  have lAC := canonName_length nA nC
  have lABC := canonName_length (canonName nA nB) nC
  have e1 : canonName nA nB ≠ canonName nB nC := canonName_ne_of_not_mem lA lB lC hAB hAC
  have e2 : canonName nA nB ≠ canonName nA nC := by
    rw [canonName_comm nA nB]
    exact canonName_ne_of_not_mem lB lA lC (Ne.symm hAB) hBC
  have e3 : canonName nB nC ≠ canonName nA nC := canonName_ne_of_not_mem lB lA lC (Ne.symm hAB) hBC
  simp only [run3_2, List.map_cons, List.map_nil, List.nodup_cons, List.mem_cons,
    List.mem_singleton, List.not_mem_nil, or_false, not_or, List.nodup_nil, and_true]
  repeat' apply And.intro
  all_goals first
    | exact hAB | exact hAC | exact hBC | exact e1 | exact e2 | exact e3 | exact not_false
    | (apply ne_of_length_ne; omega)

/-- C8 (counterexample): for the relations named `x`, `y` and `xy` the tree
`((A.B).C)` converges, and the group of `C` and the group of `(A.B)` are two
distinct groups with the same name `xy`. -/
theorem assoc_names_clash :
    tree3 ⟨none, 1, "x"⟩ ⟨none, 2, "y"⟩ ⟨none, 3, "xy"⟩ =
      .ok (run3_0 1 2 3 "x" "y" "xy", (0, 1, 2), 4) ∧
    driver 4 4 3 (run3_0 1 2 3 "x" "y" "xy") = .ok (run3_2 1 2 3 "x" "y" "xy") ∧
    (run3_2 1 2 3 "x" "y" "xy").heap[2]?.map grp.name = some "xy" ∧
    (run3_2 1 2 3 "x" "y" "xy").heap[3]?.map grp.name = some "xy" ∧
    ¬ ((run3_2 1 2 3 "x" "y" "xy").heap.map grp.name).Nodup := by
  refine ⟨rfl, rfl, by decide, by decide, by decide⟩

/-- C8 (amended): for three relations `A`, `B`, `C` with pairwise distinct names
that do not include both `a` and `c`, on a fresh memo with
`root = constructJoin(constructJoin(A, B), C)` the loop of `root.explore` calls
reaches a call that returns true within three calls, without a collision;
afterwards `findJoin(B, C)` is a group `BC`,
`findJoin(A, BC)` is `root`, `root` holds the expression `(A.BC)`, and the memo
holds seven groups, whose names are pairwise distinct when the three names are
single characters. -/
theorem assoc_reachable (iA iB iC : Int) (nA nB nC : String)
    (hAB : nA ≠ nB) (hAC : nA ≠ nC) (hBC : nB ≠ nC)
    (hac : ¬ ("a" ∈ [nA, nB, nC] ∧ "c" ∈ [nA, nB, nC])) :
    ∃ (m0 m3 : memo) (A B C root BC : Ptr),
      tree3 ⟨none, iA, nA⟩ ⟨none, iB, nB⟩ ⟨none, iC, nC⟩ = .ok (m0, (A, B, C), root) ∧
      driver 4 root 3 m0 = .ok m3 ∧
      m3.findJoin ⟨none, some B, some C⟩ = some BC ∧
      m3.findJoin ⟨none, some A, some BC⟩ = some root ∧
      (∃ G, m3.heap[root]? = some G ∧ expr.ofJoin ⟨some root, some A, some BC⟩ ∈ G.exprs) ∧
      m3.heap.length = 7 ∧ m3.grps = [0, 1, 2, 3, 4, 5, 6] ∧
      (nA.length = 1 → nB.length = 1 → nC.length = 1 → (m3.heap.map grp.name).Nodup) := by
  obtain ⟨s, hs, hall⟩ := exists_isAorC_ne [nA, nB, nC] hac
  have hA : nA ≠ s := hall nA (by simp)
  have hB : nB ≠ s := hall nB (by simp)
  have hC : nC ≠ s := hall nC (by simp)
  refine ⟨run3_0 iA iB iC nA nB nC, run3_2 iA iB iC nA nB nC, 0, 1, 2, 4, 5,
    tree3_eq iA iB iC nA nB nC s hs hA hB hC hAB hAC hBC,
    run3_driver iA iB iC nA nB nC s hs hA hB hC, ?_, ?_, ?_, ?_, ?_, ?_⟩
  · simp [run3_2, memo.findJoin, mapGet]
  · simp [run3_2, memo.findJoin, mapGet]
  · simp [run3_2]
  · simp [run3_2]
  · simp [run3_2]
  · exact run3_names_nodup iA iB iC nA nB nC hAB hAC hBC

/-- Witness for `assoc_reachable`: the relations `b`, `c`, `d`. -/
theorem assoc_reachable_witness :
    ∃ (m0 m3 : memo) (root BC : Ptr),
      tree3 ⟨none, 2, "b"⟩ ⟨none, 3, "c"⟩ ⟨none, 4, "d"⟩ = .ok (m0, (0, 1, 2), root) ∧
      driver 4 root 3 m0 = .ok m3 ∧ m3.findJoin ⟨none, some 0, some BC⟩ = some root := by
  obtain ⟨m0, m3, A, B, C, root, BC, h1, h2, _, h4, _⟩ :=
    assoc_reachable 2 3 4 "b" "c" "d" (by decide) (by decide) (by decide) (by decide)
  have h0 : tree3 ⟨none, 2, "b"⟩ ⟨none, 3, "c"⟩ ⟨none, 4, "d"⟩ =
      .ok (run3_0 2 3 4 "b" "c" "d", (0, 1, 2), 4) := rfl
  rw [h0] at h1
  simp only [Except.ok.injEq, Prod.mk.injEq] at h1
  obtain ⟨rfl, ⟨rfl, rfl, rfl⟩, rfl⟩ := h1
  exact ⟨_, m3, _, BC, h0, h2, h4⟩

/-! ## The recursion budget

A run that ends otherwise than by exhausting its budget ends the same way
under every larger budget. -/

theorem error_ne_outOfFuel {α β : Type} {e : Abort}
    (h : (Except.error e : Run α) ≠ .error .outOfFuel) :
    (Except.error e : Run β) ≠ .error .outOfFuel := by
  intro h'
  cases h'
  exact h rfl

theorem forceDone_succ_eq (ex : Ptr → memo → Run (memo × Bool)) (k : Nat) (p : Option Ptr)
    (m : memo) :
    forceDone ex (k + 1) p m =
      (match p, deref m p with
      | some q, .ok P =>
        if P.done then .ok m
        else
          match ex q m with
          | .error e => .error e
          | .ok (m1, d) => forceDone ex k p (setDone m1 q d)
      | _, _ => .error .nilDeref) := rfl

theorem forceDone_fuel {ex ex' : Ptr → memo → Run (memo × Bool)}
    (hex : ∀ q m, ex q m ≠ .error .outOfFuel → ex' q m = ex q m) :
    ∀ (k : Nat) (p : Option Ptr) (m : memo), forceDone ex k p m ≠ .error .outOfFuel →
      forceDone ex' (k + 1) p m = forceDone ex k p m := by
  intro k
  induction k with
  | zero =>
    intro p m h
    exact absurd rfl h
  | succ k ih =>
    intro p m h
    rw [forceDone_succ_eq] at h
    rw [forceDone_succ_eq ex' (k + 1), forceDone_succ_eq ex k]
    cases p with
    | none => rfl
    | some q =>
      cases hd : deref m (some q) with
      | error e => rfl
      | ok P =>
        simp only [hd] at h ⊢
        cases hdone : P.done with
        | true => simp only [hdone, if_true]
        | false =>
          simp only [hdone, Bool.false_eq_true, if_false] at h ⊢
          cases hq : ex q m with
          | error e =>
            simp only [hq] at h
            have : ex' q m = .error e := by
              rw [hex q m (by rw [hq]; exact error_ne_outOfFuel h), hq]
            simp only [this]
          | ok res =>
            obtain ⟨m1, d⟩ := res
            simp only [hq] at h
            have : ex' q m = .ok (m1, d) := by
              rw [hex q m (by rw [hq]; exact fun h' => nomatch h'), hq]
            simp only [this]
            exact ih _ _ h

theorem exploreChildren_succ_eq (ex : Ptr → memo → Run (memo × Bool)) (k g rem i : Nat)
    (m : memo) :
    exploreChildren ex k g (rem + 1) i m =
      (match deref m (some g) with
      | .error e => .error e
      | .ok G =>
        match G.exprs.get? i with
        | none => .error .indexOutOfRange
        | some (expr.ofRel _) => exploreChildren ex k g rem (i + 1) m
        | some (expr.ofJoin j) =>
          match forceDone ex k j.l m with
          | .error e => .error e
          | .ok m1 =>
            match forceDone ex k j.r m1 with
            | .error e => .error e
            | .ok m2 => exploreChildren ex k g rem (i + 1) m2) := rfl

theorem exploreChildren_fuel {ex ex' : Ptr → memo → Run (memo × Bool)}
    (hex : ∀ q m, ex q m ≠ .error .outOfFuel → ex' q m = ex q m) (k g : Nat) :
    ∀ (rem i : Nat) (m : memo), exploreChildren ex k g rem i m ≠ .error .outOfFuel →
      exploreChildren ex' (k + 1) g rem i m = exploreChildren ex k g rem i m := by
  intro rem
  induction rem with
  | zero =>
    intro i m _
    rfl
  | succ rem ih =>
    intro i m h
    rw [exploreChildren_succ_eq] at h
    rw [exploreChildren_succ_eq ex' (k + 1), exploreChildren_succ_eq ex k]
    cases hd : deref m (some g) with
    | error e => rfl
    | ok G =>
      simp only [hd] at h ⊢
      cases he : G.exprs.get? i with
      | none => rfl
      | some e =>
        simp only [he] at h ⊢
        cases e with
        | ofRel r => exact ih _ _ h
        | ofJoin j =>
          simp only at h ⊢
          cases h1 : forceDone ex k j.l m with
          | error e =>
            simp only [h1] at h
            rw [forceDone_fuel hex k j.l m (by rw [h1]; exact h), h1]
          | ok m1 =>
            simp only [h1] at h
            rw [forceDone_fuel hex k j.l m (by rw [h1]; exact fun h' => nomatch h'), h1]
            simp only
            cases h2 : forceDone ex k j.r m1 with
            | error e =>
              simp only [h2] at h
              rw [forceDone_fuel hex k j.r m1 (by rw [h2]; exact h), h2]
            | ok m2 =>
              simp only [h2] at h
              rw [forceDone_fuel hex k j.r m1 (by rw [h2]; exact fun h' => nomatch h'), h2]
              exact ih _ _ h

theorem explore_succ_eq (fuel : Nat) (g : Ptr) (m : memo) :
    grp.explore (fuel + 1) g m =
      (match deref m (some g) with
      | .error e => .error e
      | .ok G =>
        match exploreChildren (grp.explore fuel) fuel g G.exprs.length 0 m with
        | .error e => .error e
        | .ok m1 =>
          match exploreExprs g G.exprs.length 0 m1 with
          | .error e => .error e
          | .ok m2 =>
            match deref m2 (some g) with
            | .error e => .error e
            | .ok G2 => .ok (m2, G.exprs.length == G2.exprs.length)) := rfl

/-- One more unit of budget does not change a `grp.explore` that ended
otherwise than by exhausting its budget. -/
theorem explore_fuel_succ : ∀ (fuel : Nat) (g : Ptr) (m : memo),
    grp.explore fuel g m ≠ .error .outOfFuel →
      grp.explore (fuel + 1) g m = grp.explore fuel g m := by
  intro fuel
  induction fuel with
  | zero =>
    intro g m h
    exact absurd rfl h
  | succ n ih =>
    intro g m h
    rw [explore_succ_eq] at h
    rw [explore_succ_eq (n + 1), explore_succ_eq n]
    cases hd : deref m (some g) with
    | error e => rfl
    | ok G =>
      simp only [hd] at h ⊢
      cases h1 : exploreChildren (grp.explore n) n g G.exprs.length 0 m with
      | error e =>
        simp only [h1] at h
        rw [exploreChildren_fuel ih n g _ _ m (by rw [h1]; exact error_ne_outOfFuel h), h1]
      | ok m1 =>
        rw [exploreChildren_fuel ih n g _ _ m (by rw [h1]; exact fun h' => nomatch h'), h1]

theorem explore_fuel_le {n n' : Nat} (hle : n ≤ n') (g : Ptr) (m : memo)
    (h : grp.explore n g m ≠ .error .outOfFuel) : grp.explore n' g m = grp.explore n g m := by
  induction hle with
  | refl => rfl
  | step _ ih => rw [explore_fuel_succ _ g m (by rw [ih]; exact h), ih]

/-- A `grp.explore` never returns under one budget and ends differently under
another: if it aborts with a collision under some budget, it returns under
none. -/
theorem explore_never_ok {n : Nat} {g : Ptr} {m : memo} {msg : String}
    (h : grp.explore n g m = .error (.collision msg)) (n' : Nat) (r : memo × Bool) :
    grp.explore n' g m ≠ .ok r := by
  intro h'
  rcases Nat.le_total n n' with hle | hle
  · have := explore_fuel_le hle g m (by rw [h]; exact fun h' => nomatch h')
    rw [h', h] at this
    cases this
  · have := explore_fuel_le hle g m (by rw [h']; exact fun h' => nomatch h')
    rw [h', h] at this
    cases this

/-- A `grp.explore` that returns under one budget returns the same under any
other budget it does not exhaust. -/
theorem explore_ok_unique {n n' : Nat} {g : Ptr} {m : memo} {r r' : memo × Bool}
    (h : grp.explore n g m = .ok r) (h' : grp.explore n' g m = .ok r') : r' = r := by
  rcases Nat.le_total n n' with hle | hle
  · have := explore_fuel_le hle g m (by rw [h]; exact fun h' => nomatch h')
    rw [h', h] at this
    exact Except.ok.inj this
  · have := explore_fuel_le hle g m (by rw [h']; exact fun h' => nomatch h')
    rw [h', h] at this
    exact (Except.ok.inj this).symm

theorem driver_succ {fuel : Nat} {g : Ptr} {k : Nat} {m m' : memo}
    (h : driver fuel g (k + 1) m = .ok m') :
    ∃ m1 d, grp.explore fuel g m = .ok (m1, d) ∧
      ((d = true ∧ m' = m1) ∨ (d = false ∧ driver fuel g k m1 = .ok m')) := by
  unfold driver at h
  cases h1 : grp.explore fuel g m with
  | error e => simp [h1] at h
  | ok res =>
    obtain ⟨m1, d⟩ := res
    simp only [h1] at h
    refine ⟨m1, d, rfl, ?_⟩
    cases d with
    | true =>
      simp only [if_true, Except.ok.injEq] at h
      exact Or.inl ⟨rfl, h.symm⟩
    | false =>
      simp only [Bool.false_eq_true, if_false] at h
      exact Or.inr ⟨rfl, h⟩

set_option maxRecDepth 1000000 in
theorem main_passes :
    mainTree ⟨none, 1, "a"⟩ ⟨none, 2, "b"⟩ ⟨none, 3, "c"⟩ ⟨none, 4, "d"⟩ = .ok (mainMemo, 6) ∧
    grp.explore 5 6 mainMemo = .ok (mainMemo1, false) ∧
    grp.explore 5 6 mainMemo1 = .ok (mainMemo2, false) ∧
    grp.explore 5 6 mainMemo2 = .error (.collision "associate collision!") ∧
    driver 5 6 3 mainMemo = .error (.collision "associate collision!") :=
  ⟨rfl, rfl, rfl, rfl, rfl⟩

theorem main_never_returns (fuel k : Nat) (m' : memo) : driver fuel 6 k mainMemo ≠ .ok m' := by
  obtain ⟨_, p1, p2, p3, _⟩ := main_passes
  intro h
  cases k with
  | zero => simp [driver] at h
  | succ k =>
    obtain ⟨m1, d, e1, hc⟩ := driver_succ h
    have := explore_ok_unique p1 e1
    simp only [Prod.mk.injEq] at this
    obtain ⟨rfl, rfl⟩ := this
    rcases hc with ⟨hd, _⟩ | ⟨_, h⟩
    · cases hd
    cases k with
    | zero => simp [driver] at h
    | succ k =>
      obtain ⟨m2, d, e2, hc⟩ := driver_succ h
      have := explore_ok_unique p2 e2
      simp only [Prod.mk.injEq] at this
      obtain ⟨rfl, rfl⟩ := this
      rcases hc with ⟨hd, _⟩ | ⟨_, h⟩
      · cases hd
      cases k with
      | zero => simp [driver] at h
      | succ k =>
        obtain ⟨m3, d, e3, _⟩ := driver_succ h
        exact explore_never_ok p3 fuel (m3, d) e3

theorem dup_passes : grp.explore 4 4 memoDup = .error (.collision "commute collision: (d.b)") :=
  rfl

theorem dup_never_returns (fuel k : Nat) (m' : memo) : driver fuel 4 k memoDup ≠ .ok m' := by
  intro h
  cases k with
  | zero => simp [driver] at h
  | succ k =>
    obtain ⟨m1, d, e1, _⟩ := driver_succ h
    exact explore_never_ok dup_passes fuel (m1, d) e1

set_option maxRecDepth 1000000 in
theorem rep_passes :
    buildTree (internRels [⟨none, 1, "w"⟩, ⟨none, 2, "x"⟩, ⟨none, 3, "y"⟩] memo.empty).2
      (JTree.node (JTree.node (JTree.leaf 0) (JTree.node (JTree.leaf 1) (JTree.leaf 2)))
        (JTree.node (JTree.leaf 0) (JTree.leaf 1)))
      (internRels [⟨none, 1, "w"⟩, ⟨none, 2, "x"⟩, ⟨none, 3, "y"⟩] memo.empty).1 =
        .ok (memoRep, 6) ∧
    grp.explore 5 6 memoRep = .error (.collision "commute collision: (w.x)") :=
  ⟨rfl, rfl⟩

theorem rep_never_returns (fuel k : Nat) (m' : memo) : driver fuel 6 k memoRep ≠ .ok m' := by
  intro h
  cases k with
  | zero => simp [driver] at h
  | succ k =>
    obtain ⟨m1, d, e1, _⟩ := driver_succ h
    exact explore_never_ok rep_passes.2 fuel (m1, d) e1

theorem ok_of_isOk {α : Type} {r : Run α} (h : isOk r = true) : ∃ a, r = .ok a := by
  cases r with
  | ok a => exact ⟨a, rfl⟩
  | error e => simp [isOk] at h

set_option maxRecDepth 1000000 in
/-- Whether a tree with a repeated leaf fails depends on the order in which the
passes reach its groups: on the mirror image `(w.x).(w.(x.y))` of the tree of
`rep_passes`, where the group of `(w.x)` is the left child and is explored
first, the loop ends with the fourth call, which returns true. -/
theorem mir_converges :
    buildTree (internRels [⟨none, 1, "w"⟩, ⟨none, 2, "x"⟩, ⟨none, 3, "y"⟩] memo.empty).2
      (JTree.node (JTree.node (JTree.leaf 0) (JTree.leaf 1))
        (JTree.node (JTree.leaf 0) (JTree.node (JTree.leaf 1) (JTree.leaf 2))))
      (internRels [⟨none, 1, "w"⟩, ⟨none, 2, "x"⟩, ⟨none, 3, "y"⟩] memo.empty).1 =
        .ok (memoMir, 6) ∧
    ∃ m', driver 6 6 4 memoMir = .ok m' :=
  ⟨rfl, ok_of_isOk rfl⟩

/-- The memos `mainMemo` and `memoDup` are what `buildTree` makes of the tree of
`main` and of the tree `(b.d).(d.b)`. -/
theorem trees_of_main :
    buildTree (internRels [⟨none, 1, "a"⟩, ⟨none, 2, "b"⟩, ⟨none, 3, "c"⟩, ⟨none, 4, "d"⟩]
        memo.empty).2
      (JTree.node (JTree.node (JTree.node (JTree.leaf 0) (JTree.leaf 1)) (JTree.leaf 2))
        (JTree.leaf 3))
      (internRels [⟨none, 1, "a"⟩, ⟨none, 2, "b"⟩, ⟨none, 3, "c"⟩, ⟨none, 4, "d"⟩]
        memo.empty).1 = .ok (mainMemo, 6) ∧
    buildTree (internRels [⟨none, 2, "b"⟩, ⟨none, 4, "d"⟩] memo.empty).2
      (JTree.node (JTree.node (JTree.leaf 0) (JTree.leaf 1))
        (JTree.node (JTree.leaf 1) (JTree.leaf 0)))
      (internRels [⟨none, 2, "b"⟩, ⟨none, 4, "d"⟩] memo.empty).1 = .ok (memoDup, 4) :=
  ⟨rfl, rfl⟩

/-- C9 (counterexample): on the tree of `main` (relations `a`, `b`, `c`, `d`,
`abcd = ((a.b).c).d`) the first two calls of `abcd.explore` return false and the
third aborts with an associate collision; under no budget does the loop reach
a call that returns true.  On the tree `(b.d).(d.b)` the first call already
aborts with a commute collision.  Both memos are what `buildTree` makes of these
trees.  A relation that is a leaf twice is enough for a failure, also where no
pair of groups is joined in both orders: on the tree `(w.(x.y)).(w.x)` the first
call aborts with a commute collision, and under no budget does the loop reach a
call that returns true. -/
theorem main_aborts :
    mainTree ⟨none, 1, "a"⟩ ⟨none, 2, "b"⟩ ⟨none, 3, "c"⟩ ⟨none, 4, "d"⟩ = .ok (mainMemo, 6) ∧
    grp.explore 5 6 mainMemo = .ok (mainMemo1, false) ∧
    grp.explore 5 6 mainMemo1 = .ok (mainMemo2, false) ∧
    grp.explore 5 6 mainMemo2 = .error (.collision "associate collision!") ∧
    driver 5 6 3 mainMemo = .error (.collision "associate collision!") ∧
    (∀ (fuel k : Nat) (m' : memo), driver fuel 6 k mainMemo ≠ .ok m') ∧
    grp.explore 4 4 memoDup = .error (.collision "commute collision: (d.b)") ∧
    (∀ (fuel k : Nat) (m' : memo), driver fuel 4 k memoDup ≠ .ok m') ∧
    buildTree (internRels [⟨none, 1, "a"⟩, ⟨none, 2, "b"⟩, ⟨none, 3, "c"⟩, ⟨none, 4, "d"⟩]
        memo.empty).2
      (JTree.node (JTree.node (JTree.node (JTree.leaf 0) (JTree.leaf 1)) (JTree.leaf 2))
        (JTree.leaf 3))
      (internRels [⟨none, 1, "a"⟩, ⟨none, 2, "b"⟩, ⟨none, 3, "c"⟩, ⟨none, 4, "d"⟩]
        memo.empty).1 = .ok (mainMemo, 6) ∧
    buildTree (internRels [⟨none, 2, "b"⟩, ⟨none, 4, "d"⟩] memo.empty).2
      (JTree.node (JTree.node (JTree.leaf 0) (JTree.leaf 1))
        (JTree.node (JTree.leaf 1) (JTree.leaf 0)))
      (internRels [⟨none, 2, "b"⟩, ⟨none, 4, "d"⟩] memo.empty).1 = .ok (memoDup, 4) ∧
    buildTree (internRels [⟨none, 1, "w"⟩, ⟨none, 2, "x"⟩, ⟨none, 3, "y"⟩] memo.empty).2
      (JTree.node (JTree.node (JTree.leaf 0) (JTree.node (JTree.leaf 1) (JTree.leaf 2)))
        (JTree.node (JTree.leaf 0) (JTree.leaf 1)))
      (internRels [⟨none, 1, "w"⟩, ⟨none, 2, "x"⟩, ⟨none, 3, "y"⟩] memo.empty).1 =
        .ok (memoRep, 6) ∧
    grp.explore 5 6 memoRep = .error (.collision "commute collision: (w.x)") ∧
    (∀ (fuel k : Nat) (m' : memo), driver fuel 6 k memoRep ≠ .ok m') :=
  ⟨main_passes.1, main_passes.2.1, main_passes.2.2.1, main_passes.2.2.2.1,
    main_passes.2.2.2.2, main_never_returns, dup_passes, dup_never_returns,
    trees_of_main.1, trees_of_main.2, rep_passes.1, rep_passes.2, rep_never_returns⟩

/-- The left-deep join trees of the shape of `main` over two, three or four
base relations with pairwise distinct names that do not include both `a` and
`c`, built on a fresh memo: the loop `for !done { done = root.explore(m) }` ends
with a call that returns true, within two calls for two relations and within
three for three and four. -/
theorem main_shape_terminates (iA iB iC iD : Int) (nA nB nC nD : String)
    (hAB : nA ≠ nB) (hAC : nA ≠ nC) (hAD : nA ≠ nD) (hBC : nB ≠ nC) (hBD : nB ≠ nD)
    (hCD : nC ≠ nD) (hac : ¬ ("a" ∈ [nA, nB, nC, nD] ∧ "c" ∈ [nA, nB, nC, nD])) :
    (∃ m0 root m', tree2 ⟨none, iA, nA⟩ ⟨none, iB, nB⟩ = .ok (m0, root) ∧
      driver 3 root 2 m0 = .ok m') ∧
    (∃ m0 gs root m', tree3 ⟨none, iA, nA⟩ ⟨none, iB, nB⟩ ⟨none, iC, nC⟩ = .ok (m0, gs, root) ∧
      driver 4 root 3 m0 = .ok m') ∧
    (∃ m0 root m',
      mainTree ⟨none, iA, nA⟩ ⟨none, iB, nB⟩ ⟨none, iC, nC⟩ ⟨none, iD, nD⟩ = .ok (m0, root) ∧
      driver 5 root 3 m0 = .ok m') := by
  obtain ⟨s, hs, hall⟩ := exists_isAorC_ne [nA, nB, nC, nD] hac
  have hA : nA ≠ s := hall nA (by simp)
  have hB : nB ≠ s := hall nB (by simp)
  have hC : nC ≠ s := hall nC (by simp)
  have hD : nD ≠ s := hall nD (by simp)
  exact ⟨⟨_, _, _, tree2_eq iA iB nA nB s hs hA hB hAB, run2_driver iA iB nA nB⟩,
    ⟨_, _, _, _, tree3_eq iA iB iC nA nB nC s hs hA hB hC hAB hAC hBC,
      run3_driver iA iB iC nA nB nC s hs hA hB hC⟩,
    ⟨_, _, _, mainTree_eq iA iB iC iD nA nB nC nD s hs hA hB hC hD hAB hAC hAD hBC hBD hCD,
      run4_driver iA iB iC iD nA nB nC nD s hs hA hB hC hD⟩⟩

/-- Witness for `main_shape_terminates`: the tree of `main` over the
relations `w`, `x`, `y`, `z` converges at the third call. -/
theorem main_shape_terminates_witness :
    ∃ m0 root m',
      mainTree ⟨none, 1, "w"⟩ ⟨none, 2, "x"⟩ ⟨none, 3, "y"⟩ ⟨none, 4, "z"⟩ = .ok (m0, root) ∧
      driver 5 root 3 m0 = .ok m' :=
  (main_shape_terminates 1 2 3 4 "w" "x" "y" "z" (by decide) (by decide) (by decide)
    (by decide) (by decide) (by decide) (by decide)).2.2

/-! ## The scenario of `main` -/

set_option maxRecDepth 1000000 in
/-- C11 (failing input): on the memo of `main` (relations `a`, `b`, `c`, `d`,
then `ab`, `abc`, `abcd` = group 6) the loop `for !done { done = abcd.explore(m) }`
never reaches `done = true`: the first two passes return `false` and the third
panics with `associate collision!`, for every budget of the model.  In the memo
the second pass leaves, the group named `ab` holds `(a.b)` and `(b.a)`, every
group name has its characters in sorted order, and the two groups 15 and 16 are
both named `acd`: `(c.ad)` is registered to group 16, and group 15 derives it
in the third pass. -/
theorem main_example_aborts :
    mainTree ⟨none, 1, "a"⟩ ⟨none, 2, "b"⟩ ⟨none, 3, "c"⟩ ⟨none, 4, "d"⟩ = .ok (mainMemo, 6) ∧
    grp.explore 5 6 mainMemo = .ok (mainMemo1, false) ∧
    grp.explore 5 6 mainMemo1 = .ok (mainMemo2, false) ∧
    grp.explore 5 6 mainMemo2 = .error (.collision "associate collision!") ∧
    (∀ (fuel k : Nat) (m' : memo), driver fuel 6 k mainMemo ≠ .ok m') ∧
    mainMemo2.heap[4]? = some ⟨"ab", [expr.ofJoin ⟨some 4, some 0, some 1⟩,
      expr.ofJoin ⟨some 4, some 1, some 0⟩], true⟩ ∧
    mainMemo2.heap[15]? = some ⟨"acd", [expr.ofJoin ⟨some 15, some 0, some 9⟩], false⟩ ∧
    mainMemo2.heap[16]? = some ⟨"acd", [expr.ofJoin ⟨some 16, some 2, some 13⟩], false⟩ ∧
    mainMemo2.findJoin ⟨none, some 2, some 13⟩ = some 16 ∧
    mainMemo2.heap.map grp.name = ["a", "b", "c", "d", "ab", "abc", "abcd", "bc", "E", "cd",
      "abd", "bcd", "Ed", "ad", "bd", "acd", "acd"] ∧
    (∀ G ∈ mainMemo2.heap, List.Sorted (fun a b : Char => a ≤ b) G.name.data) :=
  ⟨main_passes.1, main_passes.2.1, main_passes.2.2.1, main_passes.2.2.2.1,
    main_never_returns, rfl, rfl, rfl, rfl, by decide, by decide⟩

/-! ## The result of a pass -/

/-- C13: when `g.explore(m)` returns, its result is `true` exactly when the
expression list of `g` after the call equals the list before the call; the list
before is a prefix of the list after, so this is the same as the two lengths
being equal. -/
theorem explore_result_iff (fuel : Nat) (g : Ptr) (m m' : memo) (d : Bool)
    (h : grp.explore fuel g m = .ok (m', d)) :
    ∃ G G', m.heap[g]? = some G ∧ m'.heap[g]? = some G' ∧ G.exprs <+: G'.exprs ∧
      (d = true ↔ G'.exprs = G.exprs) ∧ (d = true ↔ G'.exprs.length = G.exprs.length) := by
  have hle : m.le m' := memo.le_stepRel.explore fuel h
  cases fuel with
  | zero => simp [grp.explore] at h
  | succ fuel =>
    obtain ⟨G, m1, G2, hG, _, _, hG2, hd⟩ := explore_succ h
    obtain ⟨G', hG', _, hpre⟩ := hle.heap g G hG
    rw [hG2] at hG'
    cases hG'
    have hlen : d = true ↔ G2.exprs.length = G.exprs.length := by
      rw [hd]
      simp only [beq_iff_eq]
      exact eq_comm
    refine ⟨G, G2, hG, hG2, hpre, ?_, hlen⟩
    rw [hlen]
    constructor
    · intro hl
      exact (hpre.eq_of_length hl.symm).symm
    · intro he
      rw [he]

/-- The pass over group 2 of `memoBD1` returns `true` and leaves its two
expressions as they were. -/
theorem explore_result_iff_witness :
    ∃ G G', memoBD1.heap[2]? = some G ∧ memoBDX.heap[2]? = some G' ∧ G.exprs <+: G'.exprs ∧
      (true = true ↔ G'.exprs = G.exprs) ∧ (true = true ↔ G'.exprs.length = G.exprs.length) :=
  explore_result_iff 3 2 memoBD1 memoBDX true rfl

/-! ## Monotone growth -/

/-- C18: `addRel`, `constructJoin`, `join.explore` and `grp.explore` only
extend the memo (`memo.le`): the group list before is a prefix of the group
list after, every group keeps its name and its expression list before is a
prefix of its list after, and every relation or join signature registered
before is registered to the same group after. -/
theorem operations_extend :
    (∀ (m : memo) (r : rel), m.le (m.addRel r).1) ∧
    (∀ (m m1 : memo) (j : join) (g : Ptr), m.constructJoin j = .ok (m1, g) → m.le m1) ∧
    (∀ (m m' : memo) (j : join), join.explore m j = .ok m' → m.le m') ∧
    (∀ (fuel : Nat) (g : Ptr) (m m' : memo) (d : Bool),
      grp.explore fuel g m = .ok (m', d) → m.le m') :=
  ⟨memo.le_addRel, fun _ _ _ _ h => memo.le_constructJoin h,
    fun _ _ _ h => memo.le_stepRel.joinExplore h,
    fun fuel _ _ _ _ h => memo.le_stepRel.explore fuel h⟩

/-- The first pass over the join of `b` and `d` extends the memo. -/
theorem operations_extend_witness :
    memoBD.le memoBDJ ∧ memoBDJ.le memoBD1 :=
  ⟨operations_extend.2.1 memoBD memoBDJ ⟨none, some 0, some 1⟩ 2 rfl,
    operations_extend.2.2.2 3 2 memoBDJ memoBD1 false rfl⟩

/-! ## Properties kept by every step

A property of memos kept by the primitive writes, in the form the program
issues them, is kept by every exploration. -/

theorem kept_associate {P : memo → Prop} (hP : Kept P) (j : join) (es : List expr) :
    ∀ {m m' : memo}, P m → join.associate j es m = .ok m' → P m' := by
  induction es with
  | nil =>
    intro m m' hm h
    simp only [join.associate, Except.ok.injEq] at h
    subst h
    exact hm
  | cons e rest ih =>
    intro m m' hm h
    cases e with
    | ofRel r => exact ih hm (by simpa [join.associate] using h)
    | ofJoin ljoin =>
      simp only [join.associate] at h
      cases hc : m.constructJoin { grp := none, l := ljoin.r, r := j.r } with
      | error e => simp [hc] at h
      | ok res =>
        obtain ⟨m1, r⟩ := res
        simp only [hc] at h
        cases hd : join.derive m1 j { grp := none, l := ljoin.l, r := some r }
            (fun _ => "associate collision!") with
        | error e => simp [hd] at h
        | ok m2 =>
          simp only [hd] at h
          exact ih (hP.derive (hP.constructJoin hm hc) hd) h

theorem kept_joinExplore {P : memo → Prop} (hP : Kept P) {m m' : memo} {j : join} (hm : P m)
    (h : join.explore m j = .ok m') : P m' := by
  unfold join.explore at h
  cases hd : join.derive m j { grp := none, l := j.r, r := j.l }
      (fun s => "commute collision: " ++ s) with
  | error e => simp [hd] at h
  | ok m1 =>
    simp only [hd] at h
    cases hl : deref m1 j.l with
    | error e => simp [hl] at h
    | ok L =>
      simp only [hl] at h
      exact kept_associate hP j _ (hP.derive hm hd) h

theorem kept_exprExplore {P : memo → Prop} (hP : Kept P) {m m' : memo} {e : expr} (hm : P m)
    (h : expr.explore m e = .ok m') : P m' := by
  cases e with
  | ofRel r =>
    simp only [expr.explore, Except.ok.injEq] at h
    subst h
    exact hm
  | ofJoin j => exact kept_joinExplore hP hm h

theorem kept_forceDone {P : memo → Prop} (hP : Kept P) {ex : Ptr → memo → Run (memo × Bool)}
    (hex : ∀ {q m m' d}, P m → ex q m = .ok (m', d) → P m') :
    ∀ (k : Nat) {p : Option Ptr} {m m' : memo}, P m → forceDone ex k p m = .ok m' → P m' := by
  intro k
  induction k with
  | zero =>
    intro p m m' _ h
    simp [MiniExplorer.forceDone] at h
  | succ k ih =>
    intro p m m' hm h
    obtain ⟨q, P, rfl, hP', hc⟩ := forceDone_succ h
    rcases hc with ⟨_, rfl⟩ | ⟨_, m1, d, h1, h2⟩
    · exact hm
    · exact ih (hP.setDone _ _ _ (hex hm h1)) h2

theorem kept_exploreChildren {P : memo → Prop} (hP : Kept P)
    {ex : Ptr → memo → Run (memo × Bool)}
    (hex : ∀ {q m m' d}, P m → ex q m = .ok (m', d) → P m') (k g : Nat) :
    ∀ (rem i : Nat) {m m' : memo}, P m → exploreChildren ex k g rem i m = .ok m' → P m' := by
  intro rem
  induction rem with
  | zero =>
    intro i m m' hm h
    simp only [MiniExplorer.exploreChildren, Except.ok.injEq] at h
    subst h
    exact hm
  | succ rem ih =>
    intro i m m' hm h
    obtain ⟨G, e, _, _, hc⟩ := exploreChildren_succ h
    rcases hc with ⟨r, _, h1⟩ | ⟨j, m1, m2, _, h1, h2, h3⟩
    · exact ih _ hm h1
    · exact ih _ (kept_forceDone hP hex k (kept_forceDone hP hex k hm h1) h2) h3

theorem kept_exploreExprs {P : memo → Prop} (hP : Kept P) (g : Nat) :
    ∀ (rem i : Nat) {m m' : memo}, P m → exploreExprs g rem i m = .ok m' → P m' := by
  intro rem
  induction rem with
  | zero =>
    intro i m m' hm h
    simp only [MiniExplorer.exploreExprs, Except.ok.injEq] at h
    subst h
    exact hm
  | succ rem ih =>
    intro i m m' hm h
    obtain ⟨G, e, m1, _, _, h1, h2⟩ := exploreExprs_succ h
    exact ih _ (kept_exprExplore hP hm h1) h2

theorem kept_explore {P : memo → Prop} (hP : Kept P) :
    ∀ (fuel : Nat) {g : Ptr} {m m' : memo} {d : Bool}, P m →
      grp.explore fuel g m = .ok (m', d) → P m' := by
  intro fuel
  induction fuel with
  | zero =>
    intro g m m' d _ h
    simp [grp.explore] at h
  | succ fuel ih =>
    intro g m m' d hm h
    obtain ⟨G, m1, G2, _, h1, h2, _, _⟩ := explore_succ h
    exact kept_exploreExprs hP g _ _
      (kept_exploreChildren hP (fun hm h => ih hm h) fuel g _ _ hm h1) h2
/-! ## Tables and groups agree -/

theorem nameOk_mono {m m' : memo} (hle : m.le m') {G G' : grp} (hn : G'.name = G.name)
    (hp : G.exprs <+: G'.exprs) (h : NameOk m G) : NameOk m' G' := by
  obtain ⟨e, rest, he, hm⟩ := h
  obtain ⟨t, ht⟩ := hp
  refine ⟨e, rest ++ t, by rw [← ht, he]; rfl, ?_⟩
  cases e with
  | ofRel r => exact hn.trans hm
  | ofJoin j =>
    obtain ⟨L, R, hL, hR, hname⟩ := hm
    obtain ⟨L', hL', hLn, _⟩ := hle.deref hL
    obtain ⟨R', hR', hRn, _⟩ := hle.deref hR
    exact ⟨L', R', hL', hR', by rw [hn, hname, hLn, hRn]⟩

theorem wf_empty : Wf memo.empty :=
  ⟨fun r p h => by simp [memo.empty, mapGet] at h,
   fun p G j h => by simp [memo.empty] at h,
   fun p G h => by simp [memo.empty] at h,
   fun p G h => by simp [memo.empty] at h,
   rfl⟩

/-- A memo that extends a well-formed memo is well formed when every group it
changed got one newly registered join appended and every group it added holds
one expression, registered if it is a join. -/
theorem wf_of_le {m m' : memo} (hle : m.le m') (hW : Wf m)
    (hrels : ∀ (r : rel) (p : Ptr), mapGet m'.internedRels r = some p →
      ∃ G, m'.heap[p]? = some G)
    (hgrps : m'.grps = List.range m'.heap.length)
    (hgs : ∀ (p : Ptr) (G' : grp), m'.heap[p]? = some G' →
      (∃ G, m.heap[p]? = some G ∧ (G'.exprs = G.exprs ∨
        ∃ l r, m.findJoin ⟨none, l, r⟩ = none ∧ m'.findJoin ⟨none, l, r⟩ = some p ∧
          G'.exprs = G.exprs ++ [expr.ofJoin ⟨some p, l, r⟩])) ∨
      (NameOk m' G' ∧ ((∃ r, G'.exprs = [expr.ofRel r]) ∨
        ∃ l r, G'.exprs = [expr.ofJoin ⟨some p, l, r⟩] ∧
          m'.findJoin ⟨none, l, r⟩ = some p))) : Wf m' := by
  refine ⟨hrels, ?_, ?_, ?_, hgrps⟩
  · intro p G' j hG' hj
    rcases hgs p G' hG' with ⟨G, hG, he | ⟨l, r, _, hf', he⟩⟩ | ⟨_, ⟨r, he⟩ | ⟨l, r, he, hf'⟩⟩
    · rw [he] at hj
      exact hle.joins _ _ (hW.expReg p G j hG hj)
    · rw [he, List.mem_append, List.mem_singleton] at hj
      rcases hj with hj | hj
      · exact hle.joins _ _ (hW.expReg p G j hG hj)
      · cases hj
        exact hf'
    · rw [he] at hj
      simp at hj
    · rw [he, List.mem_singleton] at hj
      cases hj
      exact hf'
  · intro p G' hG'
    rcases hgs p G' hG' with ⟨G, hG, he | ⟨l, r, hf, _, he⟩⟩ | ⟨_, ⟨r, he⟩ | ⟨l, r, he, _⟩⟩
    · rw [he]
      exact hW.nodup p G hG
    · rw [he]
      refine List.Nodup.append (hW.nodup p G hG) (List.nodup_singleton _) ?_
      intro x hx hx'
      rw [List.mem_singleton] at hx'
      subst hx'
      have := hW.expReg p G _ hG hx
      rw [hf] at this
      cases this
    · rw [he]
      exact List.nodup_singleton _
    · rw [he]
      exact List.nodup_singleton _
  · intro p G' hG'
    rcases hgs p G' hG' with ⟨G, hG, he⟩ | ⟨hn, _⟩
    · obtain ⟨G'', hG'', hname, hpre⟩ := hle.heap p G hG
      rw [hG'] at hG''
      cases hG''
      exact nameOk_mono hle hname hpre (hW.names p G hG)
    · exact hn

theorem wf_addRel {m : memo} (hW : Wf m) (r : rel) : Wf (m.addRel r).1 := by
  rcases addRel_cases m r with ⟨g, _, he⟩ | ⟨hnone, _, hheap, hgrps, hrels, hjoins⟩
  · rw [he]
    exact hW
  · refine wf_of_le (memo.le_addRel m r) hW ?_ ?_ ?_
    · intro r' p h
      rw [hrels] at h
      by_cases hr : r = r'
      · subst hr
        rw [mapGet_mapSet_self] at h
        cases h
        exact ⟨_, by rw [hheap]; exact (getElem?_snoc _ _ _ _).mpr (Or.inr ⟨rfl, rfl⟩)⟩
      · rw [mapGet_mapSet_ne _ _ _ _ hr] at h
        obtain ⟨G, hG⟩ := hW.rels r' p h
        exact ⟨G, by rw [hheap]; exact (getElem?_snoc _ _ _ _).mpr (Or.inl hG)⟩
    · rw [hgrps, hheap, hW.grps, List.length_append, List.length_singleton, List.range_succ]
    · intro p G' hG'
      rw [hheap] at hG'
      rcases (getElem?_snoc _ _ _ _).mp hG' with hG | ⟨_, hx⟩
      · exact Or.inl ⟨G', hG, Or.inl rfl⟩
      · subst hx
        exact Or.inr ⟨⟨_, [], rfl, rfl⟩, Or.inl ⟨_, rfl⟩⟩

theorem wf_constructJoin {m m1 : memo} {l r : Option Ptr} {g : Ptr} (hW : Wf m)
    (h : m.constructJoin ⟨none, l, r⟩ = .ok (m1, g)) : Wf m1 := by
  obtain ⟨L, R, hL, hR, hc⟩ := constructJoin_cases h
  rcases hc with ⟨_, he⟩ | ⟨_, _, he⟩ | ⟨_, hf, _, hheap, hgrps, hrels, hjoins⟩
  · have := wf_addRel hW relE
    rw [he] at this
    exact this
  · rw [he]
    exact hW
  · have hfind : m1.findJoin ⟨none, l, r⟩ = some m.heap.length := by
      unfold memo.findJoin
      rw [hjoins]
      exact mapGet_mapSet_self _ _ _
    refine wf_of_le (memo.le_constructJoin h) hW ?_ ?_ ?_
    · intro r' p hp
      rw [hrels] at hp
      obtain ⟨G, hG⟩ := hW.rels r' p hp
      exact ⟨G, by rw [hheap]; exact (getElem?_snoc _ _ _ _).mpr (Or.inl hG)⟩
    · rw [hgrps, hheap, hW.grps, List.length_append, List.length_singleton, List.range_succ]
    · intro p G' hG'
      rw [hheap] at hG'
      rcases (getElem?_snoc _ _ _ _).mp hG' with hG | ⟨hp, hx⟩
      · exact Or.inl ⟨G', hG, Or.inl rfl⟩
      · subst hx
        subst hp
        refine Or.inr ⟨⟨_, [], rfl, L, R, deref_snoc hheap hL, deref_snoc hheap hR, rfl⟩,
          Or.inr ⟨l, r, rfl, hfind⟩⟩

theorem wf_derive {m m' : memo} {j : join} {l r : Option Ptr} {msg : String → String}
    (hW : Wf m) (h : join.derive m j ⟨none, l, r⟩ msg = .ok m') : Wf m' := by
  rcases derive_cases h with ⟨p, _, _, he⟩ | ⟨hf, _, g, G, hg, hG, hheap, hgrps, hrels, hjoins⟩
  · rw [he]
    exact hW
  · have hfind : m'.findJoin ⟨none, l, r⟩ = some g := by
      unfold memo.findJoin
      rw [hjoins]
      exact mapGet_mapSet_self _ _ _
    have hlen : m'.heap.length = m.heap.length := by rw [hheap, List.length_set]
    refine wf_of_le (memo.le_derive h) hW ?_ ?_ ?_
    · intro r' p hp
      rw [hrels] at hp
      obtain ⟨X, hX⟩ := hW.rels r' p hp
      obtain ⟨X', hX', _⟩ := (memo.le_derive h).heap p X hX
      exact ⟨X', hX'⟩
    · rw [hgrps, hlen, hW.grps]
    · intro p G' hG'
      rw [hheap] at hG'
      rcases getElem?_set_cases _ _ _ _ _ hG' with ⟨hp, hx, _⟩ | ⟨_, hG0⟩
      · subst hx
        subst hp
        exact Or.inl ⟨G, hG, Or.inr ⟨l, r, hf, hfind, rfl⟩⟩
      · exact Or.inl ⟨G', hG0, Or.inl rfl⟩

theorem wf_setDone {m : memo} (hW : Wf m) (p : Ptr) (d : Bool) : Wf (setDone m p d) := by
  cases hp : m.heap[p]? with
  | none =>
    have : setDone m p d = m := by simp [setDone, hp]
    rw [this]
    exact hW
  | some P =>
    have hs : setDone m p d = { m with heap := m.heap.set p { P with done := d } } := by
      simp [setDone, hp]
    refine wf_of_le (memo.le_setDone m p d) hW ?_ ?_ ?_
    · intro r' q hq
      rw [hs] at hq
      obtain ⟨X, hX⟩ := hW.rels r' q hq
      obtain ⟨X', hX', _⟩ := (memo.le_setDone m p d).heap q X hX
      exact ⟨X', hX'⟩
    · rw [hs]
      simp only [List.length_set]
      exact hW.grps
    · intro q G' hG'
      by_cases hq : q = p
      · subst hq
        rw [setDone_heap_self m d hp] at hG'
        cases hG'
        exact Or.inl ⟨P, hp, Or.inl rfl⟩
      · rw [setDone_heap_ne m d hq] at hG'
        exact Or.inl ⟨G', hG', Or.inl rfl⟩

theorem wf_kept : Kept Wf :=
  ⟨fun hW h => wf_constructJoin hW h, fun hW h => wf_derive hW h, fun _ p d hW => wf_setDone hW p d⟩

theorem reach_wf {m : memo} (h : Reach m) : Wf m := by
  induction h with
  | empty => exact wf_empty
  | addRel r _ _ ih => exact wf_addRel ih r
  | constructJoin l r g _ h ih => exact wf_constructJoin ih h
  | explore fuel g d _ h ih => exact kept_explore wf_kept fuel ih h
theorem keysNone_kept : Kept KeysNone := by
  refine ⟨?_, ?_, ?_⟩
  · intro m m1 l r g hK h j p hj
    obtain ⟨L, R, _, _, hc⟩ := constructJoin_cases h
    rcases hc with ⟨_, he⟩ | ⟨_, _, he⟩ | ⟨_, _, _, _, _, _, hjoins⟩
    · rcases addRel_cases m relE with ⟨g', _, he'⟩ | ⟨_, _, _, _, _, hj'⟩
      · rw [he] at he'
        cases he'
        exact hK j p hj
      · rw [he] at hj'
        exact hK j p (by unfold memo.findJoin at hj ⊢; rw [← hj']; exact hj)
    · subst he
      exact hK j p hj
    · rcases findJoin_mapSet hjoins j p hj with h0 | ⟨h0, _⟩
      · exact hK j p h0
      · rw [h0]
  · intro m m' j l r msg hK h j' p hj
    rcases derive_cases h with ⟨_, _, _, he⟩ | ⟨_, _, g, G, _, _, _, _, _, hjoins⟩
    · subst he
      exact hK j' p hj
    · rcases findJoin_mapSet hjoins j' p hj with h0 | ⟨h0, _⟩
      · exact hK j' p h0
      · rw [h0]
  · intro m p d hK j q hj
    have : (setDone m p d).internedJoins = m.internedJoins := by
      unfold setDone
      split <;> rfl
    exact hK j q (by unfold memo.findJoin at hj ⊢; rw [← this]; exact hj)

theorem reach_keysNone {m : memo} (h : Reach m) : KeysNone m := by
  induction h with
  | empty =>
    intro j p hj
    simp [memo.empty, memo.findJoin, mapGet] at hj
  | @addRel m r _ _ ih =>
    intro j p hj
    rcases addRel_cases m r with ⟨g', _, he'⟩ | ⟨_, _, _, _, _, hj'⟩
    · rw [he'] at hj
      exact ih j p hj
    · exact ih j p (by unfold memo.findJoin at hj ⊢; rw [← hj']; exact hj)
  | constructJoin l r g _ h ih => exact keysNone_kept.constructJoin ih h
  | explore fuel g d _ h ih => exact kept_explore keysNone_kept fuel ih h

theorem reach_memoBDX : Reach memoBDX :=
  Reach.explore 3 2 true
    (Reach.explore 3 2 false (Reach.constructJoin (some 0) (some 1) 2 reach_memoBD rfl)
      (rfl : grp.explore 3 2 memoBDJ = .ok (memoBD1, false)))
    (rfl : grp.explore 3 2 memoBD1 = .ok (memoBDX, true))

/-! ## Invariants of the memos the program reaches -/

/-- C14 (counterexample): two groups of the group list can have the same name.
`constructJoin(b, d)` and `constructJoin(d, b)` make two groups named `bd`, and
the relation `xy` and the join of `x` and `y` are two groups named `xy`. -/
theorem names_not_unique :
    Reach memoBDD ∧ memoBDD.grps = [0, 1, 2, 3] ∧ memoBDD.names = ["b", "d", "bd", "bd"] ∧
    ¬ memoBDD.names.Nodup ∧
    Reach memoXY ∧ memoXY.names = ["x", "y", "xy", "xy"] ∧ ¬ memoXY.names.Nodup ∧
    ¬ ∀ m : memo, Reach m → m.names.Nodup := by
  have h1 : Reach memoBDD :=
    Reach.constructJoin (some 1) (some 0) 3
      (Reach.constructJoin (some 0) (some 1) 2 reach_memoBD rfl)
      (rfl : memoBDJ.constructJoin ⟨none, some 1, some 0⟩ = .ok (memoBDD, 3))
  have h2 : Reach memoXY :=
    @Reach.constructJoin _ memoXY (some 0) (some 1) 3
      (Reach.addRel ⟨none, 3, "xy"⟩ rfl
        (Reach.addRel ⟨none, 2, "y"⟩ rfl (Reach.addRel ⟨none, 1, "x"⟩ rfl Reach.empty))) rfl
  have n1 : memoBDD.names = ["b", "d", "bd", "bd"] := by decide
  have n2 : memoXY.names = ["x", "y", "xy", "xy"] := by decide
  have d1 : ¬ memoBDD.names.Nodup := by rw [n1]; decide
  have d2 : ¬ memoXY.names.Nodup := by rw [n2]; decide
  exact ⟨h1, by decide, n1, d1, h2, n2, d2, fun h => d1 (h _ h1)⟩

/-- C14 (amended): in every memo reached through `addRel`, `constructJoin` and
`explore` the group list holds every allocated group exactly once, in the order
of creation, and the name of a group is the canonical name of its first
expression: the name of the relation, or the sorted characters of the names of
the two children of the join. -/
theorem group_names_canonical (m : memo) (hm : Reach m) :
    m.grps = List.range m.heap.length ∧ m.grps.Nodup ∧
    (∀ (p : Ptr) (G : grp), m.heap[p]? = some G → NameOk m G) ∧
    (∀ (p : Ptr) (G : grp) (j : join) (rest : List expr), m.heap[p]? = some G →
      G.exprs = expr.ofJoin j :: rest →
      ∃ L R, deref m j.l = .ok L ∧ deref m j.r = .ok R ∧ G.name = canonName L.name R.name ∧
        List.Sorted (fun a b : Char => a ≤ b) G.name.data ∧
        List.Perm G.name.data (L.name.data ++ R.name.data)) := by
  have hW := reach_wf hm
  refine ⟨hW.grps, by rw [hW.grps]; exact List.nodup_range _, hW.names, ?_⟩
  intro p G j rest hG he
  obtain ⟨e, rest', he', hn⟩ := hW.names p G hG
  rw [he] at he'
  cases he'
  obtain ⟨L, R, hL, hR, hname⟩ := hn
  refine ⟨L, R, hL, hR, hname, ?_, ?_⟩
  · rw [hname, canonName_data]
    exact List.sorted_insertionSort _ _
  · rw [hname, canonName_data]
    exact List.perm_insertionSort _ _

/-- On the memo with `(b, d)` and `(d, b)` both groups are named after their
first expression. -/
theorem group_names_canonical_witness :
    Reach memoBDX ∧ memoBDX.grps = List.range memoBDX.heap.length ∧ memoBDX.grps.Nodup ∧
    (∀ (p : Ptr) (G : grp), memoBDX.heap[p]? = some G → NameOk memoBDX G) :=
  ⟨reach_memoBDX, (group_names_canonical memoBDX reach_memoBDX).1,
    (group_names_canonical memoBDX reach_memoBDX).2.1,
    (group_names_canonical memoBDX reach_memoBDX).2.2.1⟩

/-- C19: in every memo reached from the empty memo through `addRel`,
`constructJoin` and `explore`, no group holds an expression twice: its
expression list has no duplicate, no ordered pair of children is the pair of two
of its join expressions, and no relation occurs at two positions. -/
theorem no_duplicate_expression (m : memo) (hm : Reach m) (p : Ptr) (G : grp)
    (hG : m.heap[p]? = some G) :
    G.exprs.Nodup ∧
    (∀ (i i' : Nat) (j j' : join), G.exprs[i]? = some (expr.ofJoin j) →
      G.exprs[i']? = some (expr.ofJoin j') → j.l = j'.l → j.r = j'.r → i = i') ∧
    (∀ (i i' : Nat) (r : rel), G.exprs[i]? = some (expr.ofRel r) →
      G.exprs[i']? = some (expr.ofRel r) → i = i') := by
  have hW := reach_wf hm
  have hI := reach_inv hm
  have hnd := hW.nodup p G hG
  have key : ∀ (i i' : Nat) (e : expr), G.exprs[i]? = some e → G.exprs[i']? = some e →
      i = i' := by
    intro i i' e h1 h2
    obtain ⟨hi, h1'⟩ := List.getElem?_eq_some.mp h1
    obtain ⟨hi', h2'⟩ := List.getElem?_eq_some.mp h2
    exact (List.Nodup.getElem_inj_iff hnd).mp (h1'.trans h2'.symm)
  refine ⟨hnd, ?_, fun i i' r h1 h2 => key i i' _ h1 h2⟩
  intro i i' j j' h1 h2 hl hr
  have o1 := hI.own p G j hG (List.getElem?_mem h1)
  have o2 := hI.own p G j' hG (List.getElem?_mem h2)
  have : j = j' := by
    cases j
    cases j'
    simp only at o1 o2 hl hr
    rw [o1, o2, hl, hr]
  subst this
  exact key i i' _ h1 h2

/-- The group of `(b, d)` after exploration holds `(b, d)` and `(d, b)`, once
each. -/
theorem no_duplicate_expression_witness :
    memoBDX.heap[2]? = some ⟨"bd", [expr.ofJoin ⟨some 2, some 0, some 1⟩,
      expr.ofJoin ⟨some 2, some 1, some 0⟩], false⟩ ∧
    [expr.ofJoin ⟨some 2, some 0, some 1⟩, expr.ofJoin ⟨some 2, some 1, some 0⟩].Nodup :=
  ⟨rfl, (no_duplicate_expression memoBDX reach_memoBDX 2 _ rfl).1⟩

/-- C20: in every memo reached from the empty memo through `addRel`,
`constructJoin` and `explore`, the join table maps the ordered pair `(l, r)` to
the group `g` exactly when the expression list of `g` holds a join of `l` and
`r`; every key of the table is such a pair, every join held by a group records
that group as its owner, and an ordered pair is an expression of at most one
group. -/
theorem table_group_agreement (m : memo) (hm : Reach m) :
    (∀ (l r : Option Ptr) (g : Ptr), m.findJoin ⟨none, l, r⟩ = some g ↔
      ∃ G j, m.heap[g]? = some G ∧ expr.ofJoin j ∈ G.exprs ∧ j.l = l ∧ j.r = r) ∧
    (∀ (j : join) (g : Ptr), m.findJoin j = some g → j.grp = none) ∧
    (∀ (p : Ptr) (G : grp) (j : join), m.heap[p]? = some G → expr.ofJoin j ∈ G.exprs →
      j.grp = some p) ∧
    (∀ (p q : Ptr) (G H : grp) (j j' : join), m.heap[p]? = some G → m.heap[q]? = some H →
      expr.ofJoin j ∈ G.exprs → expr.ofJoin j' ∈ H.exprs → j.l = j'.l → j.r = j'.r → p = q) := by
  have hW := reach_wf hm
  have hI := reach_inv hm
  refine ⟨?_, reach_keysNone hm, hI.own, ?_⟩
  · intro l r g
    constructor
    · intro h
      obtain ⟨G, hG, hmem⟩ := hI.reg _ g h
      exact ⟨G, _, hG, hmem, rfl, rfl⟩
    · rintro ⟨G, j, hG, hmem, rfl, rfl⟩
      exact hW.expReg g G j hG hmem
  · intro p q G H j j' hG hH hj hj' hl hr
    have h1 := hW.expReg p G j hG hj
    have h2 := hW.expReg q H j' hH hj'
    rw [hl, hr, h2] at h1
    exact (Option.some.inj h1).symm

/-- After exploration the pair `(d, b)` is registered for group 2 and held by
it. -/
theorem table_group_agreement_witness :
    memoBDX.findJoin ⟨none, some 1, some 0⟩ = some 2 ∧
    ∃ G j, memoBDX.heap[2]? = some G ∧ expr.ofJoin j ∈ G.exprs ∧ j.l = some 1 ∧ j.r = some 0 :=
  ⟨rfl, ((table_group_agreement memoBDX reach_memoBDX).1 (some 1) (some 0) 2).mp rfl⟩

/-! ## The frame of a rule firing -/

theorem frame_refl (G : Ptr) (m : memo) : Frame G m m :=
  ⟨fun _ _ _ h => h, fun X h => ⟨X, h, rfl, rfl, List.prefix_refl _⟩,
    ⟨[], by simp, fun p hp => by simp at hp⟩, Nat.le_refl _⟩

theorem frame_trans {G : Ptr} {a b c : memo} (hG : G < a.heap.length) (h1 : Frame G a b)
    (h2 : Frame G b c) : Frame G a c := by
  refine ⟨fun p X hp hX => h2.other p X hp (h1.other p X hp hX), ?_, ?_,
    Nat.le_trans h1.len h2.len⟩
  · intro X hX
    obtain ⟨X1, hX1, hn1, hd1, hp1⟩ := h1.own X hX
    obtain ⟨X2, hX2, hn2, hd2, hp2⟩ := h2.own X1 hX1
    exact ⟨X2, hX2, hn2.trans hn1, hd2.trans hd1, hp1.trans hp2⟩
  · obtain ⟨ad1, hg1, hp1⟩ := h1.added
    obtain ⟨ad2, hg2, hp2⟩ := h2.added
    refine ⟨ad1 ++ ad2, by rw [hg2, hg1, List.append_assoc], ?_⟩
    intro p hp
    rcases List.mem_append.mp hp with hp | hp
    · obtain ⟨hlen, X, hX, hrest⟩ := hp1 p hp
      have hne : p ≠ G := fun h => by
        rw [h] at hlen
        exact Nat.lt_irrefl _ (Nat.lt_of_lt_of_le hG hlen)
      exact ⟨hlen, X, h2.other p X hne hX, hrest⟩
    · obtain ⟨hlen, hrest⟩ := hp2 p hp
      exact ⟨Nat.le_trans h1.len hlen, hrest⟩

theorem frame_snoc (G : Ptr) {m m1 : memo} {X : grp} (hheap : m1.heap = m.heap ++ [X])
    (hgrps : m1.grps = m.grps ++ [m.heap.length]) (hd : X.done = false)
    (hX : (X.name = "E" ∧ X.exprs = [expr.ofRel { relE with grp := some m.heap.length }]) ∨
      (∃ l r, X.exprs = [expr.ofJoin ⟨some m.heap.length, l, r⟩])) : Frame G m m1 := by
  have hold : ∀ (p : Ptr) (Y : grp), m.heap[p]? = some Y → m1.heap[p]? = some Y := by
    intro p Y hY
    rw [hheap]
    exact (getElem?_snoc _ _ _ _).mpr (Or.inl hY)
  refine ⟨fun p Y _ hY => hold p Y hY,
    fun Y hY => ⟨Y, hold G Y hY, rfl, rfl, List.prefix_refl _⟩, ?_, ?_⟩
  · refine ⟨[m.heap.length], hgrps, ?_⟩
    intro p hp
    rw [List.mem_singleton] at hp
    subst hp
    exact ⟨Nat.le_refl _, X, by rw [hheap]; exact (getElem?_snoc _ _ _ _).mpr (Or.inr ⟨rfl, rfl⟩),
      hd, hX⟩
  · rw [hheap, List.length_append]
    exact Nat.le_add_right _ _

theorem frame_constructJoin (G : Ptr) {m m1 : memo} {j : join} {g : Ptr}
    (h : m.constructJoin j = .ok (m1, g)) : Frame G m m1 := by
  obtain ⟨L, R, _, _, hc⟩ := constructJoin_cases h
  rcases hc with ⟨_, he⟩ | ⟨_, _, he⟩ | ⟨_, _, _, hheap, hgrps, _, _⟩
  · rcases addRel_cases m relE with ⟨g', _, he'⟩ | ⟨_, _, hheap, hgrps, _, _⟩
    · rw [he] at he'
      rw [(Prod.mk.inj he').1]
      exact frame_refl G m
    · rw [he] at hheap hgrps
      exact frame_snoc G hheap hgrps rfl (Or.inl ⟨rfl, rfl⟩)
  · rw [he]
    exact frame_refl G m
  · exact frame_snoc G hheap hgrps rfl (Or.inr ⟨j.l, j.r, rfl⟩)

theorem frame_derive {G : Ptr} {m m' : memo} {j d : join} {msg : String → String}
    (hg : j.grp = some G) (h : join.derive m j d msg = .ok m') : Frame G m m' := by
  rcases derive_cases h with ⟨_, _, _, he⟩ | ⟨_, _, g, X, hg', hX, hheap, hgrps, _, _⟩
  · rw [he]
    exact frame_refl G m
  · rw [hg] at hg'
    cases hg'
    refine ⟨?_, ?_, ⟨[], by simp [hgrps], fun p hp => by simp at hp⟩, ?_⟩
    · intro p Y hp hY
      rw [hheap, List.getElem?_set_ne (Ne.symm hp)]
      exact hY
    · intro Y hY
      rw [hX] at hY
      cases hY
      refine ⟨⟨X.name, X.exprs ++ [expr.ofJoin ⟨some G, d.l, d.r⟩], X.done⟩, ?_, rfl, rfl,
        List.prefix_append _ _⟩
      rw [hheap, List.getElem?_set_self (List.getElem?_eq_some.mp hX).1]
    · rw [hheap, List.length_set]

theorem frame_associate {G : Ptr} (j : join) (hg : j.grp = some G) (es : List expr) :
    ∀ {m m' : memo}, G < m.heap.length → join.associate j es m = .ok m' → Frame G m m' := by
  induction es with
  | nil =>
    intro m m' _ h
    simp only [join.associate, Except.ok.injEq] at h
    subst h
    exact frame_refl G m
  | cons e rest ih =>
    intro m m' hG h
    cases e with
    | ofRel r => exact ih hG (by simpa [join.associate] using h)
    | ofJoin ljoin =>
      simp only [join.associate] at h
      cases hc : m.constructJoin { grp := none, l := ljoin.r, r := j.r } with
      | error e => simp [hc] at h
      | ok res =>
        obtain ⟨m1, r⟩ := res
        simp only [hc] at h
        cases hd : join.derive m1 j { grp := none, l := ljoin.l, r := some r }
            (fun _ => "associate collision!") with
        | error e => simp [hd] at h
        | ok m2 =>
          simp only [hd] at h
          have f1 := frame_constructJoin G hc
          have f2 := frame_derive hg hd
          have hG1 := Nat.lt_of_lt_of_le hG f1.len
          have hG2 := Nat.lt_of_lt_of_le hG1 f2.len
          exact frame_trans hG f1 (frame_trans hG1 f2 (ih hG2 h))

theorem frame_joinExplore {G : Ptr} {m m' : memo} {j : join} (hg : j.grp = some G)
    (hG : G < m.heap.length) (h : join.explore m j = .ok m') : Frame G m m' := by
  unfold join.explore at h
  cases hd : join.derive m j { grp := none, l := j.r, r := j.l }
      (fun s => "commute collision: " ++ s) with
  | error e => simp [hd] at h
  | ok m1 =>
    simp only [hd] at h
    cases hl : deref m1 j.l with
    | error e => simp [hl] at h
    | ok L =>
      simp only [hl] at h
      have f1 := frame_derive hg hd
      exact frame_trans hG f1 (frame_associate j hg _ (Nat.lt_of_lt_of_le hG f1.len) h)

/-- C17: a `join.explore` on a join owned by the allocated group `G` that
returns leaves every other group that existed as it was, extends the expression
list of `G` at its end (name and `done` flag unchanged), and appends to the
group list only new groups that hold one expression: the relation `E` of
`addRel`, or the join a `constructJoin` was called for. -/
theorem joinExplore_frame (m m' : memo) (j : join) (G : Ptr) (X : grp) (hg : j.grp = some G)
    (hX : m.heap[G]? = some X) (h : join.explore m j = .ok m') : Frame G m m' :=
  frame_joinExplore hg (List.getElem?_eq_some.mp hX).1 h

/-- The rules fired on `(b, d)` of group 2 append `(d, b)` to group 2 and
change nothing else. -/
theorem joinExplore_frame_witness : Frame 2 memoBDJ memoBDC :=
  joinExplore_frame memoBDJ memoBDC ⟨some 2, some 0, some 1⟩ 2
    ⟨"bd", [expr.ofJoin ⟨some 2, some 0, some 1⟩], false⟩ rfl rfl rfl

/-! ## What a `join.explore` that returns has established -/

theorem mid_inv {m : memo} (h : Mid m) : Inv m := by
  induction h with
  | reach h => exact reach_inv h
  | constructJoin _ h ih => exact inv_constructJoin h ih
  | derive _ h ih => exact inv_derive h ih
  | setDone p d _ ih => exact inv_setDone ih p d

theorem mid_wf {m : memo} (h : Mid m) : Wf m := by
  induction h with
  | reach h => exact reach_wf h
  | constructJoin _ h ih => exact wf_constructJoin ih h
  | derive _ h ih => exact wf_derive ih h
  | setDone p d _ ih => exact wf_setDone ih p d

/-- Every memo inside an exploration that starts from a memo of `Mid` is one of
`Mid`. -/
theorem mid_kept : Kept Mid :=
  ⟨fun hm h => Mid.constructJoin hm h, fun hm h => Mid.derive hm h,
    fun _ p d hm => Mid.setDone p d hm⟩

/-- A group `constructJoin` returned is returned again, with no write, on every
memo that extends the one it left. -/
theorem constructJoin_stable {m m1 m' : memo} {j : join} {g : Ptr}
    (h : m.constructJoin j = .ok (m1, g)) (hle : m1.le m') : m'.constructJoin j = .ok (m', g) := by
  obtain ⟨L, R, hL, hR, hc⟩ := constructJoin_cases h
  have hle0 : m.le m' := memo.le_trans (memo.le_constructJoin h) hle
  obtain ⟨L', hL', hLn, _⟩ := hle0.deref hL
  obtain ⟨R', hR', hRn, _⟩ := hle0.deref hR
  have hfound : ∀ hac : isAC L.name R.name = false, m1.findJoin j = some g →
      m'.constructJoin j = .ok (m', g) := by
    intro hac hf
    have hf' := hle.joins j g hf
    have hset : mapSet m'.internedJoins j g = m'.internedJoins :=
      mapSet_of_mapGet _ _ _ hf'
    simp [memo.constructJoin, hL', hR', hLn, hRn, hac, hf', hset]
  rcases hc with ⟨hac, he⟩ | ⟨hac, hf, he⟩ | ⟨hac, _, hg, _, _, _, hjoins⟩
  · have hr1 : mapGet m1.internedRels relE = some g := by
      rcases addRel_cases m relE with ⟨g', hg', he'⟩ | ⟨_, h2, _, _, hrels, _⟩
      · rw [he] at he'
        obtain ⟨e1, e2⟩ := Prod.mk.inj he'
        rw [e1, e2]
        exact hg'
      · rw [he] at h2 hrels
        simp only at h2 hrels
        rw [hrels, h2]
        exact mapGet_mapSet_self _ _ _
    have hr' := hle.rels relE g hr1
    simp [memo.constructJoin, hL', hR', hLn, hRn, hac, memo.addRel, hr']
  · rw [he] at hle
    exact hfound hac (by rw [he]; exact hf)
  · refine hfound hac ?_
    unfold memo.findJoin
    rw [hjoins, hg]
    exact mapGet_mapSet_self _ _ _

theorem associate_post {G : Ptr} (j : join) (hg : j.grp = some G) (es : List expr) :
    ∀ {m m' : memo}, join.associate j es m = .ok m' → ∀ ljoin : join, expr.ofJoin ljoin ∈ es →
      ∃ R', m'.constructJoin ⟨none, ljoin.r, j.r⟩ = .ok (m', R') ∧
        m'.findJoin ⟨none, ljoin.l, some R'⟩ = some G := by
  induction es with
  | nil =>
    intro m m' _ ljoin hmem
    simp at hmem
  | cons e rest ih =>
    intro m m' h ljoin hmem
    cases e with
    | ofRel r =>
      have h' : join.associate j rest m = .ok m' := by simpa [join.associate] using h
      rcases List.mem_cons.mp hmem with hm | hm
      · cases hm
      · exact ih h' ljoin hm
    | ofJoin lj =>
      simp only [join.associate] at h
      cases hc : m.constructJoin { grp := none, l := lj.r, r := j.r } with
      | error e => simp [hc] at h
      | ok res =>
        obtain ⟨m1, r⟩ := res
        simp only [hc] at h
        cases hd : join.derive m1 j { grp := none, l := lj.l, r := some r }
            (fun _ => "associate collision!") with
        | error e => simp [hd] at h
        | ok m2 =>
          simp only [hd] at h
          rcases List.mem_cons.mp hmem with hm | hm
          · cases hm
            have hle2 : m2.le m' := memo.le_stepRel.associate j rest h
            have hle1 : m1.le m' := memo.le_trans (memo.le_derive hd) hle2
            obtain ⟨p, hp, hreg⟩ := derive_registered hd
            rw [hg] at hp
            cases hp
            exact ⟨r, constructJoin_stable hc hle1, hle2.joins _ _ hreg⟩
          · exact ih h ljoin hm

/-- C16: after a `join.explore` on `j = (L, R)` of group `G` that returns, on a
memo the program passes through (`Mid`): the commuted pair `(R, L)` is registered for `G` and
held by `G` exactly once; for every join `(LL, LR)` that `L` held at entry,
`constructJoin(LR, R)` yields a group `R'` (with no further write) such that
`(LL, R')` is registered for `G` and held by `G` exactly once.  In each rule
firing a derived join found for `G` adds nothing, and one not found is appended
to `G` once. -/
theorem joinExplore_post (m m' : memo) (hm : Mid m) (j : join) (G : Ptr)
    (hg : j.grp = some G) (h : join.explore m j = .ok m') :
    (∃ X, m'.heap[G]? = some X ∧
      m'.findJoin ⟨none, j.r, j.l⟩ = some G ∧
      X.exprs.count (expr.ofJoin ⟨some G, j.r, j.l⟩) = 1 ∧
      ∀ (L : grp) (ljoin : join), deref m j.l = .ok L → expr.ofJoin ljoin ∈ L.exprs →
        ∃ R', m'.constructJoin ⟨none, ljoin.r, j.r⟩ = .ok (m', R') ∧
          m'.findJoin ⟨none, ljoin.l, some R'⟩ = some G ∧
          X.exprs.count (expr.ofJoin ⟨some G, ljoin.l, some R'⟩) = 1) ∧
    (∀ (m0 m1 : memo) (d : join) (msg : String → String), join.derive m0 j d msg = .ok m1 →
      (m0.findJoin d = some G ∧ m1 = m0) ∨
      (m0.findJoin d = none ∧ ∃ X0, m0.heap[G]? = some X0 ∧
        m1.heap = m0.heap.set G
          { X0 with exprs := X0.exprs ++ [expr.ofJoin { d with grp := some G }] })) := by
  have hI' : Inv m' := inv_stepRel.joinExplore h (mid_inv hm)
  have hW' : Wf m' := kept_joinExplore wf_kept (mid_wf hm) h
  obtain ⟨p, hp, hcomm⟩ := joinExplore_commuted h
  rw [hg] at hp
  cases hp
  obtain ⟨X, hX, hmemc⟩ := hI'.reg _ _ hcomm
  have hnd := hW'.nodup G X hX
  refine ⟨⟨X, hX, hcomm, List.count_eq_one_of_mem hnd hmemc, ?_⟩, ?_⟩
  · intro L ljoin hL hmem
    unfold join.explore at h
    cases hd : join.derive m j { grp := none, l := j.r, r := j.l }
        (fun s => "commute collision: " ++ s) with
    | error e => simp [hd] at h
    | ok m1 =>
      simp only [hd] at h
      cases hl : deref m1 j.l with
      | error e => simp [hl] at h
      | ok L1 =>
        simp only [hl] at h
        obtain ⟨L1', hL1', _, hpre⟩ := (memo.le_derive hd).deref hL
        rw [hl] at hL1'
        cases hL1'
        obtain ⟨R', hc, hf⟩ := associate_post j hg L1.exprs h ljoin (hpre.subset hmem)
        obtain ⟨X', hX', hmem'⟩ := hI'.reg _ _ hf
        rw [hX] at hX'
        cases hX'
        exact ⟨R', hc, hf, List.count_eq_one_of_mem hnd hmem'⟩
  · intro m0 m1 d msg hd
    rcases derive_cases hd with ⟨p, hf, hp, he⟩ | ⟨hf, _, g, X0, hg', hX0, hheap, _⟩
    · rw [hg] at hp
      cases hp
      exact Or.inl ⟨hf, he⟩
    · rw [hg] at hg'
      cases hg'
      exact Or.inr ⟨hf, X0, hX0, hheap⟩

theorem reach_memoBCD : Reach memoBCD :=
  @Reach.constructJoin _ memoBCD (some 3) (some 2) 4
    (Reach.constructJoin (some 0) (some 1) 3
      (Reach.addRel ⟨none, 4, "d"⟩ rfl
        (Reach.addRel ⟨none, 3, "c"⟩ rfl (Reach.addRel ⟨none, 2, "b"⟩ rfl Reach.empty))) rfl) rfl

/-- The rules fired on `(bc, d)` of group 4 leave `(d, bc)` and `(b, cd)`
registered for group 4, with `cd` the new group 5. -/
theorem joinExplore_post_witness :
    memoBCD1.findJoin ⟨none, some 2, some 3⟩ = some 4 ∧
    memoBCD1.findJoin ⟨none, some 0, some 5⟩ = some 4 ∧
    ∃ X, memoBCD1.heap[4]? = some X ∧
      X.exprs.count (expr.ofJoin ⟨some 4, some 2, some 3⟩) = 1 :=
  ⟨rfl, rfl,
    (joinExplore_post memoBCD memoBCD1 (Mid.reach reach_memoBCD) ⟨some 4, some 3, some 2⟩ 4 rfl
      rfl).1.imp
      (fun _ hx => ⟨hx.1, hx.2.2.1⟩)⟩

/-! ## Consistency violations -/

theorem kids_valid {m : memo} (hI : Inv m) (hW : Wf m) {p : Ptr} {X : grp} {j : join}
    (hX : m.heap[p]? = some X) (hj : expr.ofJoin j ∈ X.exprs) :
    ∃ L R, deref m j.l = .ok L ∧ deref m j.r = .ok R :=
  hI.keys ⟨none, j.l, j.r⟩ p (hW.expReg p X j hX hj)

/-- A rule firing whose five groups are allocated either meets a collision or
returns. -/
theorem derive_total {m : memo} {j d : join} (msg : String → String) {G : Ptr} {X A B C D : grp}
    (hg : j.grp = some G) (hX : m.heap[G]? = some X) (hA : deref m j.l = .ok A)
    (hB : deref m j.r = .ok B) (hC : deref m d.l = .ok C) (hD : deref m d.r = .ok D) :
    ((∃ p, m.findJoin d = some p ∧ some p ≠ j.grp) ∧
      join.derive m j d msg = .error (.collision (msg ("(" ++ C.name ++ "." ++ D.name ++ ")")))) ∨
    ((¬ ∃ p, m.findJoin d = some p ∧ some p ≠ j.grp) ∧ ∃ m', join.derive m j d msg = .ok m') := by
  cases hf : m.findJoin d with
  | some p =>
    by_cases hne : some p = j.grp
    · refine Or.inr ⟨?_, m, ?_⟩
      · rintro ⟨p', hp', hne'⟩
        cases hp'
        exact hne' hne
      · have hnn : ¬ (some p ≠ j.grp) := not_not.mpr hne
        simp only [join.derive, hf, if_neg hnn]
    · refine Or.inl ⟨⟨p, rfl, hne⟩, ?_⟩
      simp [join.derive, join.toString, hf, hne, hA, hB, hC, hD]
  | none =>
    refine Or.inr ⟨?_, ?_⟩
    · rintro ⟨p', hp', _⟩
      cases hp'
    · simp [join.derive, join.toString, hf, hA, hB, hC, hD, hg, grp.add, hX]

theorem constructJoin_total {m : memo} {j : join} {L R : grp} (hL : deref m j.l = .ok L)
    (hR : deref m j.r = .ok R) : ∃ m1 g, m.constructJoin j = .ok (m1, g) := by
  unfold memo.constructJoin
  simp only [hL, hR]
  split
  · exact ⟨_, _, rfl⟩
  · split <;> exact ⟨_, _, rfl⟩

theorem constructJoin_valid {m m1 : memo} {j : join} {g : Ptr} (hI : Inv m) (hW : Wf m)
    (h : m.constructJoin j = .ok (m1, g)) : ∃ Y, m1.heap[g]? = some Y := by
  obtain ⟨L, R, _, _, hc⟩ := constructJoin_cases h
  rcases hc with ⟨_, he⟩ | ⟨_, hf, he⟩ | ⟨_, _, hg, hheap, _⟩
  · rcases addRel_cases m relE with ⟨g', hg', he'⟩ | ⟨_, h2, hheap, _⟩
    · rw [he] at he'
      obtain ⟨e1, e2⟩ := Prod.mk.inj he'
      rw [e1, e2]
      exact hW.rels relE g' hg'
    · rw [he] at h2 hheap
      simp only at h2 hheap
      exact ⟨_, by rw [hheap, h2]; exact (getElem?_snoc _ _ _ _).mpr (Or.inr ⟨rfl, rfl⟩)⟩
  · rw [he]
    obtain ⟨Y, hY, _⟩ := hI.reg j g hf
    exact ⟨Y, hY⟩
  · exact ⟨_, by rw [hheap, hg]; exact (getElem?_snoc _ _ _ _).mpr (Or.inr ⟨rfl, rfl⟩)⟩

/-- The associate loop on a well-formed memo either returns, and then met no
collision, or panics with `associate collision!`, and then met one. -/
theorem associate_total {G : Ptr} (j : join) (hg : j.grp = some G) (es : List expr) :
    ∀ {m : memo} {X A B : grp}, Inv m → Wf m → m.heap[G]? = some X → deref m j.l = .ok A →
      deref m j.r = .ok B →
      (∀ lj : join, expr.ofJoin lj ∈ es → ∃ L R, deref m lj.l = .ok L ∧ deref m lj.r = .ok R) →
      ((∃ m', join.associate j es m = .ok m') ∧ ¬ AssocCollides j es m) ∨
      (join.associate j es m = .error (.collision "associate collision!") ∧
        AssocCollides j es m) := by
  induction es with
  | nil =>
    intro m X A B _ _ _ _ _ _
    exact Or.inl ⟨⟨m, rfl⟩, fun h => by cases h⟩
  | cons e rest ih =>
    intro m X A B hI hW hX hA hB hkids
    cases e with
    | ofRel r =>
      have hrest := ih hI hW hX hA hB (fun lj h => hkids lj (List.mem_cons_of_mem _ h))
      have he : join.associate j (expr.ofRel r :: rest) m = join.associate j rest m := by
        simp [join.associate]
      rw [he]
      rcases hrest with ⟨hok, hn⟩ | ⟨herr, hc⟩
      · refine Or.inl ⟨hok, fun h => ?_⟩
        cases h with
        | skip h' => exact hn h'
      · exact Or.inr ⟨herr, AssocCollides.skip hc⟩
    | ofJoin lj =>
      obtain ⟨LL, LR, hLL, hLR⟩ := hkids lj (List.mem_cons_self _ _)
      obtain ⟨m1, r, hc⟩ := constructJoin_total (j := ⟨none, lj.r, j.r⟩) hLR hB
      have hle1 := memo.le_constructJoin hc
      have hI1 := inv_constructJoin hc hI
      have hW1 := wf_constructJoin hW hc
      obtain ⟨Y, hY⟩ := constructJoin_valid hI hW hc
      obtain ⟨X1, hX1, _⟩ := hle1.heap G X hX
      obtain ⟨A1, hA1, _⟩ := hle1.deref hA
      obtain ⟨B1, hB1, _⟩ := hle1.deref hB
      obtain ⟨LL1, hLL1, _⟩ := hle1.deref hLL
      rcases derive_total (d := ⟨none, lj.l, some r⟩) (fun _ => "associate collision!") hg hX1
        hA1 hB1 hLL1 (deref_some hY) with ⟨⟨p, hf, hne⟩, herr⟩ | ⟨hnc, m2, hd⟩
      · refine Or.inr ⟨?_, AssocCollides.here hc hf hne⟩
        simp [join.associate, hc, herr]
      · have hle2 := memo.le_derive hd
        have hI2 := inv_derive hd hI1
        have hW2 := wf_derive hW1 hd
        obtain ⟨X2, hX2, _⟩ := hle2.heap G X1 hX1
        obtain ⟨A2, hA2, _⟩ := hle2.deref hA1
        obtain ⟨B2, hB2, _⟩ := hle2.deref hB1
        have hkids2 : ∀ lj' : join, expr.ofJoin lj' ∈ rest →
            ∃ L R, deref m2 lj'.l = .ok L ∧ deref m2 lj'.r = .ok R := by
          intro lj' h'
          obtain ⟨L, R, hL, hR⟩ := hkids lj' (List.mem_cons_of_mem _ h')
          obtain ⟨L', hL', _⟩ := (memo.le_trans hle1 hle2).deref hL
          obtain ⟨R', hR', _⟩ := (memo.le_trans hle1 hle2).deref hR
          exact ⟨L', R', hL', hR'⟩
        have he : join.associate j (expr.ofJoin lj :: rest) m = join.associate j rest m2 := by
          simp [join.associate, hc, hd]
        rw [he]
        rcases ih hI2 hW2 hX2 hA2 hB2 hkids2 with ⟨hok, hn⟩ | ⟨herr, hcol⟩
        · refine Or.inl ⟨hok, fun h => ?_⟩
          cases h with
          | here hc' hf' hne' =>
            rw [hc] at hc'
            cases hc'
            exact hnc ⟨_, hf', hne'⟩
          | later hc' hd' h' =>
            rw [hc] at hc'
            cases hc'
            rw [hd] at hd'
            cases hd'
            exact hn h'
        · exact Or.inr ⟨herr, AssocCollides.later hc hd hcol⟩

/-- A `join.explore` on a join held by a group of a well-formed memo either
returns, and then met no collision, or panics with a collision message, and
then met one. -/
theorem joinExplore_total {m : memo} (hI : Inv m) (hW : Wf m) {G : Ptr} {X : grp} {j : join}
    (hX : m.heap[G]? = some X) (hj : expr.ofJoin j ∈ X.exprs) :
    ((∃ m', join.explore m j = .ok m') ∧ ¬ JoinCollides m j) ∨
    ((join.explore m j = .error (.collision "associate collision!") ∨
      ∃ s, join.explore m j = .error (.collision ("commute collision: " ++ s))) ∧
      JoinCollides m j) := by
  have hg := hI.own G X j hX hj
  obtain ⟨A, B, hA, hB⟩ := kids_valid hI hW hX hj
  rcases derive_total (d := ⟨none, j.r, j.l⟩) (fun s => "commute collision: " ++ s) hg hX
    hA hB hB hA with ⟨hcol, herr⟩ | ⟨hnc, m1, hd⟩
  · exact Or.inr ⟨Or.inr ⟨"(" ++ B.name ++ "." ++ A.name ++ ")", by simp [join.explore, herr]⟩,
      Or.inl hcol⟩
  · have hle1 := memo.le_derive hd
    have hI1 := inv_derive hd hI
    have hW1 := wf_derive hW hd
    obtain ⟨X1, hX1, _⟩ := hle1.heap G X hX
    obtain ⟨A1, hA1, _⟩ := hle1.deref hA
    obtain ⟨B1, hB1, _⟩ := hle1.deref hB
    obtain ⟨q, hq, hA1'⟩ := deref_ok_iff.mp hA1
    have hkids : ∀ lj : join, expr.ofJoin lj ∈ A1.exprs →
        ∃ L R, deref m1 lj.l = .ok L ∧ deref m1 lj.r = .ok R :=
      fun lj h => kids_valid hI1 hW1 hA1' h
    have he : join.explore m j = join.associate j A1.exprs m1 := by
      simp [join.explore, hd, hA1]
    rw [he]
    rcases associate_total j hg A1.exprs hI1 hW1 hX1 hA1 hB1 hkids with ⟨hok, hn⟩ | ⟨herr, hcol⟩
    · refine Or.inl ⟨hok, fun h => ?_⟩
      rcases h with hc | ⟨m1', L, hd', hL, hc⟩
      · exact hnc hc
      · rw [hd] at hd'
        cases hd'
        rw [hA1] at hL
        cases hL
        exact hn hc
    · exact Or.inr ⟨Or.inl herr, Or.inr ⟨m1, A1, hd, hA1, hcol⟩⟩
theorem reach_memoBDD : Reach memoBDD :=
  @Reach.constructJoin _ memoBDD (some 1) (some 0) 3
    (Reach.constructJoin (some 0) (some 1) 2 reach_memoBD rfl) rfl

theorem reach_memoDup : Reach memoDup :=
  @Reach.constructJoin _ memoDup (some 2) (some 3) 4 reach_memoBDD rfl

/-- C12: on a memo the program passes through (`Mid`), `join.explore` on a join
`j = (L, R)` held by group `G` aborts exactly when it meets a consistency violation
(`JoinCollides`: the commuted pair is registered to another group, or the
associate rule finds `(LL, constructJoin(LR, R))` registered to another group
when it looks it up), the abort is a collision panic, and in every other case it
returns.  An abort is passed on by both loops of `grp.explore`, by the loop
that forces a child to `done`, and by `grp.explore` itself. -/
theorem joinExplore_fails_iff (m : memo) (hm : Mid m) (G : Ptr) (X : grp) (j : join)
    (hX : m.heap[G]? = some X) (hj : expr.ofJoin j ∈ X.exprs) :
    ((∃ e, join.explore m j = .error e) ↔ JoinCollides m j) ∧
    ((∃ m', join.explore m j = .ok m') ↔ ¬ JoinCollides m j) ∧
    (∀ e, join.explore m j = .error e →
      e = .collision "associate collision!" ∨ ∃ s, e = .collision ("commute collision: " ++ s)) ∧
    (∀ (g rem i : Nat) (m0 : memo) (G0 : grp) (e : expr) (err : Abort),
      m0.heap[g]? = some G0 → G0.exprs[i]? = some e → expr.explore m0 e = .error err →
      exploreExprs g (rem + 1) i m0 = .error err) ∧
    (∀ (g rem i : Nat) (m0 m1 : memo) (G0 : grp) (e : expr),
      m0.heap[g]? = some G0 → G0.exprs[i]? = some e → expr.explore m0 e = .ok m1 →
      exploreExprs g (rem + 1) i m0 = exploreExprs g rem (i + 1) m1) ∧
    (∀ (fuel : Nat) (g : Ptr) (m0 : memo) (G0 : grp) (err : Abort), m0.heap[g]? = some G0 →
      (exploreChildren (grp.explore fuel) fuel g G0.exprs.length 0 m0 = .error err ∨
        ∃ m1, exploreChildren (grp.explore fuel) fuel g G0.exprs.length 0 m0 = .ok m1 ∧
          exploreExprs g G0.exprs.length 0 m1 = .error err) →
      grp.explore (fuel + 1) g m0 = .error err) ∧
    (∀ (ex : Ptr → memo → Run (memo × Bool)) (k : Nat) (q : Ptr) (m0 : memo) (P : grp)
      (err : Abort), m0.heap[q]? = some P → P.done = false → ex q m0 = .error err →
      forceDone ex (k + 1) (some q) m0 = .error err) ∧
    (∀ (ex : Ptr → memo → Run (memo × Bool)) (k g rem i : Nat) (m0 : memo) (G0 : grp)
      (j0 : join) (err : Abort), m0.heap[g]? = some G0 → G0.exprs[i]? = some (expr.ofJoin j0) →
      (forceDone ex k j0.l m0 = .error err ∨
        ∃ m1, forceDone ex k j0.l m0 = .ok m1 ∧ forceDone ex k j0.r m1 = .error err) →
      exploreChildren ex k g (rem + 1) i m0 = .error err) := by
  have ht := joinExplore_total (mid_inv hm) (mid_wf hm) hX hj
  refine ⟨?_, ?_, ?_, ?_, ?_, ?_, ?_, ?_⟩
  · constructor
    · rintro ⟨e, he⟩
      rcases ht with ⟨⟨m', hok⟩, _⟩ | ⟨_, hc⟩
      · rw [he] at hok
        cases hok
      · exact hc
    · intro hc
      rcases ht with ⟨_, hn⟩ | ⟨herr | ⟨s, herr⟩, _⟩
      · exact absurd hc hn
      · exact ⟨_, herr⟩
      · exact ⟨_, herr⟩
  · constructor
    · rintro ⟨m', hok⟩
      rcases ht with ⟨_, hn⟩ | ⟨herr | ⟨s, herr⟩, _⟩
      · exact hn
      · rw [hok] at herr
        cases herr
      · rw [hok] at herr
        cases herr
    · intro hn
      rcases ht with ⟨hok, _⟩ | ⟨_, hc⟩
      · exact hok
      · exact absurd hc hn
  · intro e he
    rcases ht with ⟨⟨m', hok⟩, _⟩ | ⟨herr | ⟨s, herr⟩, _⟩
    · rw [he] at hok
      cases hok
    · rw [he] at herr
      exact Or.inl (Except.error.inj herr)
    · rw [he] at herr
      exact Or.inr ⟨s, Except.error.inj herr⟩
  · intro g rem i m0 G0 e err hG0 he herr
    simp [exploreExprs, deref, hG0, he, herr]
  · intro g rem i m0 m1 G0 e hG0 he hok
    simp [exploreExprs, deref, hG0, he, hok]
  · intro fuel g m0 G0 err hG0 h
    rw [explore_succ_eq]
    rcases h with h | ⟨m1, h1, h2⟩
    · simp [deref, hG0, h]
    · simp [deref, hG0, h1, h2]
  · intro ex k q m0 P err hP hd herr
    rw [forceDone_succ_eq]
    simp [deref, hP, hd, herr]
  · intro ex k g rem i m0 G0 j0 err hG0 hj0 h
    rw [exploreChildren_succ_eq]
    rcases h with h | ⟨m1, h1, h2⟩
    · simp [deref, hG0, hj0, h]
    · simp [deref, hG0, hj0, h1, h2]

/-- On the tree `(b.d).(d.b)` the rules fired on `(b, d)` of group 2 find
`(d, b)` registered to group 3. -/
theorem joinExplore_fails_iff_witness :
    join.explore memoDup ⟨some 2, some 0, some 1⟩ =
      .error (.collision "commute collision: (d.b)") ∧
    JoinCollides memoDup ⟨some 2, some 0, some 1⟩ :=
  ⟨rfl, (joinExplore_fails_iff memoDup (Mid.reach reach_memoDup) 2
      ⟨"bd", [expr.ofJoin ⟨some 2, some 0, some 1⟩], false⟩ ⟨some 2, some 0, some 1⟩ rfl
      (List.mem_singleton.mpr rfl)).1.mp ⟨_, rfl⟩⟩

/-! ## The dump of a memo -/

theorem lexLe_cons (a b : Char) (as bs : List Char) :
    lexLe (a :: as) (b :: bs) = true ↔
      a.toNat < b.toNat ∨ (a.toNat = b.toNat ∧ lexLe as bs = true) := by
  have hdef : lexLe (a :: as) (b :: bs) =
      (if a.toNat < b.toNat then true else if b.toNat < a.toNat then false else lexLe as bs) :=
    rfl
  rw [hdef]
  by_cases h1 : a.toNat < b.toNat
  · simp [h1]
  · by_cases h2 : b.toNat < a.toNat
    · simp only [h1, h2, if_true, if_false]
      constructor
      · intro h
        cases h
      · rintro (h | ⟨h, _⟩)
        · exact h.elim
        · omega
    · simp only [h1, h2, if_false]
      constructor
      · intro h
        exact Or.inr ⟨by omega, h⟩
      · rintro (h | ⟨_, h⟩)
        · exact h.elim
        · exact h

theorem lexLe_total : ∀ a b : List Char, lexLe a b = true ∨ lexLe b a = true
  | [], _ => Or.inl (by simp [lexLe])
  | _ :: _, [] => Or.inr (by simp [lexLe])
  | a :: as, b :: bs => by
    rw [lexLe_cons, lexLe_cons]
    rcases lexLe_total as bs with h | h
    · rcases Nat.lt_trichotomy a.toNat b.toNat with h1 | h1 | h1
      · exact Or.inl (Or.inl h1)
      · exact Or.inl (Or.inr ⟨h1, h⟩)
      · exact Or.inr (Or.inl h1)
    · rcases Nat.lt_trichotomy a.toNat b.toNat with h1 | h1 | h1
      · exact Or.inl (Or.inl h1)
      · exact Or.inr (Or.inr ⟨h1.symm, h⟩)
      · exact Or.inr (Or.inl h1)

theorem lexLe_trans : ∀ a b c : List Char, lexLe a b = true → lexLe b c = true →
    lexLe a c = true
  | [], _, _, _, _ => by simp [lexLe]
  | _ :: _, [], _, h, _ => by simp [lexLe] at h
  | _ :: _, _ :: _, [], _, h => by simp [lexLe] at h
  | a :: as, b :: bs, c :: cs, h1, h2 => by
    rw [lexLe_cons] at h1 h2 ⊢
    rcases h1 with h1 | ⟨h1, h1'⟩
    · rcases h2 with h2 | ⟨h2, _⟩
      · exact Or.inl (by omega)
      · exact Or.inl (by omega)
    · rcases h2 with h2 | ⟨h2, h2'⟩
      · exact Or.inl (by omega)
      · exact Or.inr ⟨by omega, lexLe_trans as bs cs h1' h2'⟩

theorem lexLe_antisymm : ∀ a b : List Char, lexLe a b = true → lexLe b a = true → a = b
  | [], [], _, _ => rfl
  | [], _ :: _, _, h => by simp [lexLe] at h
  | _ :: _, [], h, _ => by simp [lexLe] at h
  | a :: as, b :: bs, h1, h2 => by
    rw [lexLe_cons] at h1 h2
    rcases h1 with h1 | ⟨h1, h1'⟩
    · rcases h2 with h2 | ⟨h2, _⟩ <;> omega
    · rcases h2 with h2 | ⟨_, h2'⟩
      · omega
      · have hab : a = b := by
          rw [← Char.ofNat_toNat a, ← Char.ofNat_toNat b, h1]
        rw [hab, lexLe_antisymm as bs h1' h2']

theorem strLe_isTotal : IsTotal String strLe := ⟨fun a b => lexLe_total a.data b.data⟩

theorem strLe_isTrans : IsTrans String strLe := ⟨fun a b c => lexLe_trans a.data b.data c.data⟩

theorem strLe_isAntisymm : IsAntisymm String strLe :=
  ⟨fun a b h1 h2 => String.ext (lexLe_antisymm a.data b.data h1 h2)⟩

theorem spaceJoined_cons_cons (x s : String) (t : List String) :
    spaceJoined ((x ++ " " ++ s) :: t) = x ++ " " ++ spaceJoined (s :: t) := by
  cases t with
  | nil => rfl
  | cons u t => simp [spaceJoined, String.append_assoc]

theorem toStringLoop_pos (m : memo) : ∀ (es : List expr) (i : Nat) (buf : String), 0 < i →
    grp.toStringLoop m es i buf =
      (match renderings m es with
       | .error e => .error e
       | .ok rs => .ok (spaceJoined (buf :: rs)))
  | [], _, _, _ => rfl
  | e :: rest, i, buf, hi => by
    unfold grp.toStringLoop renderings
    cases he : expr.toString m e with
    | error err => rfl
    | ok s =>
      simp only [hi, if_true]
      rw [toStringLoop_pos m rest (i + 1) _ (Nat.succ_pos i)]
      cases renderings m rest with
      | error err => rfl
      | ok rs =>
        simp only [spaceJoined_cons_cons]
        rfl

theorem grp_toString_eq (m : memo) (G : grp) :
    grp.toString m G =
      (match renderings m G.exprs with
       | .error e => .error e
       | .ok rs => .ok (spaceJoined rs)) := by
  unfold grp.toString
  cases hes : G.exprs with
  | nil => rfl
  | cons e rest =>
    unfold grp.toStringLoop renderings
    cases he : expr.toString m e with
    | error err => rfl
    | ok s =>
      simp only [Nat.lt_irrefl, if_false, String.empty_append]
      rw [toStringLoop_pos m rest 1 _ Nat.one_pos]
      cases renderings m rest <;> rfl

theorem sortStrings_sorted (lines : List String) : List.Sorted strLe (sortStrings lines) :=
  @List.sorted_insertionSort _ strLe _ strLe_isTotal strLe_isTrans lines

theorem sortStrings_perm (lines : List String) : List.Perm (sortStrings lines) lines :=
  List.perm_insertionSort _ _

theorem sortStrings_congr {l l' : List String} (h : List.Perm l l') :
    sortStrings l = sortStrings l' :=
  @List.eq_of_perm_of_sorted _ strLe strLe_isAntisymm _ _
    ((sortStrings_perm l).trans (h.trans (sortStrings_perm l').symm))
    (sortStrings_sorted l) (sortStrings_sorted l')
theorem deref_error {m : memo} {p : Option Ptr} {e : Abort} (h : deref m p = .error e) :
    e = .nilDeref := by
  unfold deref at h
  split at h
  · exact (Except.error.inj h).symm
  · split at h
    · cases h
    · exact (Except.error.inj h).symm

theorem join_toString_error {m : memo} {j : join} {e : Abort}
    (h : join.toString m j = .error e) : e = .nilDeref := by
  unfold join.toString at h
  split at h
  · cases h
  · exact (Except.error.inj h).symm

theorem renderings_error {m : memo} : ∀ {es : List expr} {e : Abort},
    renderings m es = .error e → e = .nilDeref
  | [], _, h => by cases h
  | x :: rest, e, h => by
    unfold renderings at h
    cases hx : expr.toString m x with
    | error err =>
      rw [hx] at h
      cases Except.error.inj h
      cases x with
      | ofRel r => cases hx
      | ofJoin j => exact join_toString_error hx
    | ok s =>
      rw [hx] at h
      cases hr : renderings m rest with
      | error err =>
        rw [hr] at h
        cases Except.error.inj h
        exact renderings_error hr
      | ok ss =>
        rw [hr] at h
        cases h

theorem lineOf_ok_iff {m : memo} {p : Ptr} {l : String} :
    m.lineOf p = .ok l ↔ ∃ G rs, m.heap[p]? = some G ∧ renderings m G.exprs = .ok rs ∧
      l = pad4 G.name ++ ": " ++ spaceJoined rs := by
  unfold memo.lineOf
  cases hd : deref m (some p) with
  | error e =>
    constructor
    · intro h
      cases h
    · rintro ⟨G, rs, hG, _, _⟩
      rw [deref_some hG] at hd
      cases hd
  | ok G =>
    obtain ⟨q, hq, hG⟩ := deref_ok_iff.mp hd
    cases hq
    simp only [grp_toString_eq]
    cases hr : renderings m G.exprs with
    | error e =>
      constructor
      · intro h
        cases h
      · rintro ⟨G', rs, hG', hr', _⟩
        rw [hG] at hG'
        cases hG'
        rw [hr] at hr'
        cases hr'
    | ok rs =>
      constructor
      · intro h
        exact ⟨G, rs, hG, hr, (Except.ok.inj h).symm⟩
      · rintro ⟨G', rs', hG', hr', hl⟩
        rw [hG] at hG'
        cases hG'
        rw [hr] at hr'
        cases hr'
        rw [hl]

theorem lineOf_error {m : memo} {p : Ptr} {e : Abort} (h : m.lineOf p = .error e) :
    e = .nilDeref := by
  unfold memo.lineOf at h
  cases hd : deref m (some p) with
  | error e' =>
    rw [hd] at h
    cases Except.error.inj h
    exact deref_error hd
  | ok G =>
    rw [hd] at h
    simp only [grp_toString_eq] at h
    cases hr : renderings m G.exprs with
    | error e' =>
      rw [hr] at h
      cases Except.error.inj h
      exact renderings_error hr
    | ok rs =>
      rw [hr] at h
      cases h

theorem linesLoop_ok (m : memo) : ∀ (ps : List Ptr) (acc : List String),
    (∀ p ∈ ps, ∃ l, m.lineOf p = .ok l) →
    memo.linesLoop m ps acc = .ok (acc ++ ps.map m.lineD)
  | [], acc, _ => by simp [memo.linesLoop]
  | p :: ps, acc, h => by
    obtain ⟨l, hl⟩ := h p (List.mem_cons_self _ _)
    have hD : m.lineD p = l := by simp [memo.lineD, hl]
    unfold memo.linesLoop
    simp only [hl]
    rw [linesLoop_ok m ps _ (fun q hq => h q (List.mem_cons_of_mem _ hq))]
    simp [hD]

theorem linesLoop_error (m : memo) : ∀ (ps : List Ptr) (acc : List String),
    (∃ p ∈ ps, ∀ l, m.lineOf p ≠ .ok l) → memo.linesLoop m ps acc = .error .nilDeref
  | [], _, h => by
    obtain ⟨p, hp, _⟩ := h
    simp at hp
  | p :: ps, acc, h => by
    unfold memo.linesLoop
    cases hl : m.lineOf p with
    | error e =>
      cases lineOf_error hl
      rfl
    | ok l =>
      simp only
      refine linesLoop_error m ps _ ?_
      obtain ⟨q, hq, hne⟩ := h
      rcases List.mem_cons.mp hq with hq | hq
      · subst hq
        exact absurd hl (hne l)
      · exact ⟨q, hq, hne⟩

theorem toStringLoop_congr {m m' : memo} (hh : m'.heap = m.heap) :
    ∀ (es : List expr) (i : Nat) (buf : String),
      grp.toStringLoop m' es i buf = grp.toStringLoop m es i buf
  | [], _, _ => rfl
  | e :: rest, i, buf => by
    have he : expr.toString m' e = expr.toString m e := by
      cases e with
      | ofRel r => rfl
      | ofJoin j => simp only [expr.toString, join.toString, deref_congr hh]
    unfold grp.toStringLoop
    rw [he]
    cases expr.toString m e with
    | error err => rfl
    | ok s => exact toStringLoop_congr hh rest _ _

theorem lineOf_congr {m m' : memo} (hh : m'.heap = m.heap) (p : Ptr) :
    m'.lineOf p = m.lineOf p := by
  unfold memo.lineOf grp.toString
  rw [deref_congr hh]
  cases deref m (some p) with
  | error e => rfl
  | ok G => simp only [toStringLoop_congr hh]

theorem toString_perm {m m' : memo} (hh : m'.heap = m.heap) (hp : List.Perm m.grps m'.grps) :
    m'.toString = m.toString := by
  have hD : m'.lineD = m.lineD := by
    funext p
    simp only [memo.lineD, lineOf_congr hh]
  unfold memo.toString
  by_cases hall : ∀ p ∈ m.grps, ∃ l, m.lineOf p = .ok l
  · have hall' : ∀ p ∈ m'.grps, ∃ l, m'.lineOf p = .ok l := by
      intro p hp'
      rw [lineOf_congr hh]
      exact hall p (hp.mem_iff.mpr hp')
    rw [linesLoop_ok m _ _ hall, linesLoop_ok m' _ _ hall', hD]
    simp only [List.nil_append]
    rw [sortStrings_congr ((hp.map m.lineD).symm)]
  · have hex : ∃ p ∈ m.grps, ∀ l, m.lineOf p ≠ .ok l := by
      by_contra hcon
      apply hall
      intro p hp'
      by_contra hno
      exact hcon ⟨p, hp', fun l hl => hno ⟨l, hl⟩⟩
    have hex' : ∃ p ∈ m'.grps, ∀ l, m'.lineOf p ≠ .ok l := by
      obtain ⟨p, hp', hne⟩ := hex
      exact ⟨p, hp.mem_iff.mp hp', fun l => by rw [lineOf_congr hh]; exact hne l⟩
    rw [linesLoop_error m _ _ hex, linesLoop_error m' _ _ hex']

theorem renderings_total {m : memo} : ∀ (es : List expr),
    (∀ j : join, expr.ofJoin j ∈ es → ∃ L R, deref m j.l = .ok L ∧ deref m j.r = .ok R) →
    ∃ rs, renderings m es = .ok rs
  | [], _ => ⟨[], rfl⟩
  | e :: rest, h => by
    obtain ⟨rs, hrs⟩ := renderings_total rest (fun j hj => h j (List.mem_cons_of_mem _ hj))
    have he : ∃ s, expr.toString m e = .ok s := by
      cases e with
      | ofRel r => exact ⟨r.name, rfl⟩
      | ofJoin j =>
        obtain ⟨L, R, hL, hR⟩ := h j (List.mem_cons_self _ _)
        exact ⟨"(" ++ L.name ++ "." ++ R.name ++ ")",
          by simp [expr.toString, join.toString, hL, hR]⟩
    obtain ⟨s, hs⟩ := he
    exact ⟨s :: rs, by simp [renderings, hs, hrs]⟩

theorem toString_total {m : memo} (hm : Reach m) : ∃ s, m.toString = .ok s := by
  have hW := reach_wf hm
  have hI := reach_inv hm
  have hall : ∀ p ∈ m.grps, ∃ l, m.lineOf p = .ok l := by
    intro p hp
    rw [hW.grps, List.mem_range] at hp
    have hG : m.heap[p]? = some m.heap[p] := List.getElem?_eq_getElem hp
    obtain ⟨rs, hrs⟩ := renderings_total (m := m) (m.heap[p]).exprs
      (fun j hj => kids_valid hI hW hG hj)
    exact ⟨_, lineOf_ok_iff.mpr ⟨_, rs, hG, hrs, rfl⟩⟩
  exact ⟨_, by unfold memo.toString; rw [linesLoop_ok m _ _ hall]⟩
theorem forall2_lineD (m : memo) : ∀ ps : List Ptr, (∀ p ∈ ps, ∃ l, m.lineOf p = .ok l) →
    List.Forall₂ (fun p l => m.lineOf p = .ok l) ps (ps.map m.lineD)
  | [], _ => List.Forall₂.nil
  | p :: ps, h => by
    obtain ⟨l, hl⟩ := h p (List.mem_cons_self _ _)
    have hD : m.lineD p = l := by simp [memo.lineD, hl]
    exact List.Forall₂.cons (by rw [hD]; exact hl)
      (forall2_lineD m ps (fun q hq => h q (List.mem_cons_of_mem _ hq)))

theorem toString_lines {m : memo} {s : String} (h : m.toString = .ok s) :
    (∀ p ∈ m.grps, ∃ l, m.lineOf p = .ok l) ∧
      s = writeLines (sortStrings (m.grps.map m.lineD)) "" := by
  have hall : ∀ p ∈ m.grps, ∃ l, m.lineOf p = .ok l := by
    by_contra hcon
    have hex : ∃ p ∈ m.grps, ∀ l, m.lineOf p ≠ .ok l := by
      by_contra hcon'
      apply hcon
      intro p hp'
      by_contra hno
      exact hcon' ⟨p, hp', fun l hl => hno ⟨l, hl⟩⟩
    unfold memo.toString at h
    rw [linesLoop_error m _ _ hex] at h
    cases h
  refine ⟨hall, ?_⟩
  unfold memo.toString at h
  rw [linesLoop_ok m _ _ hall] at h
  exact (Except.ok.inj h).symm

set_option maxRecDepth 100000 in
/-- C15 (counterexample): the first dump `main` prints has the line of `b`
before the line of `ab`, and those of `c` and `d` before those of `ab`, `abc`
and `abcd`: the lines are not in ascending order of the group names. -/
theorem dump_not_in_name_order :
    mainMemo.toString =
      .ok "   a: a\n   b: b\n   c: c\n   d: d\n  ab: (a.b)\n abc: (ab.c)\nabcd: (abc.d)\n" ∧
    mainMemo.toString = .ok (writeLines [pad4 "a" ++ ": a", pad4 "b" ++ ": b", pad4 "c" ++ ": c",
      pad4 "d" ++ ": d", pad4 "ab" ++ ": (a.b)", pad4 "abc" ++ ": (ab.c)",
      pad4 "abcd" ++ ": (abc.d)"] "") ∧
    strLe "ab" "b" ∧ ¬ strLe "b" "ab" ∧
    ¬ List.Sorted strLe ["a", "b", "c", "d", "ab", "abc", "abcd"] := by
  refine ⟨rfl, rfl, ?_, ?_, ?_⟩ <;> decide

/-- C15 (amended): when `memo.String()` returns, its output is one line per
entry of the group list, each line followed by a line feed; the line of a group
is its name right-aligned in four columns, then `: `, then the renderings of
its expressions in insertion order with one space between neighbours; the
lines appear in ascending order of the whole line text.  The output does not
depend on the order of the group list, and on every memo the program reaches
`memo.String()` returns. -/
theorem dump_lines :
    (∀ (m : memo) (s : String), m.toString = .ok s →
      ∃ lines, List.Forall₂ (fun p l => ∃ G rs, m.heap[p]? = some G ∧
          renderings m G.exprs = .ok rs ∧ l = pad4 G.name ++ ": " ++ spaceJoined rs)
          m.grps lines ∧
        s = writeLines (sortStrings lines) "" ∧ List.Perm (sortStrings lines) lines ∧
        List.Sorted strLe (sortStrings lines)) ∧
    (∀ m m' : memo, m'.heap = m.heap → List.Perm m.grps m'.grps → m'.toString = m.toString) ∧
    (∀ m : memo, Reach m → ∃ s, m.toString = .ok s) := by
  refine ⟨?_, fun m m' hh hp => toString_perm hh hp, fun m hm => toString_total hm⟩
  intro m s h
  obtain ⟨hall, hs⟩ := toString_lines h
  refine ⟨m.grps.map m.lineD, ?_, hs, sortStrings_perm _, sortStrings_sorted _⟩
  exact (forall2_lineD m m.grps hall).imp (fun _ _ hl => lineOf_ok_iff.mp hl)

/-- The dump of the memo holding `b`, `d` and `(b, d)` has three lines. -/
theorem dump_lines_witness :
    ∃ lines, List.Forall₂ (fun p l => ∃ G rs, memoBDJ.heap[p]? = some G ∧
        renderings memoBDJ G.exprs = .ok rs ∧ l = pad4 G.name ++ ": " ++ spaceJoined rs)
        memoBDJ.grps lines ∧
      "   b: b\n   d: d\n  bd: (b.d)\n" = writeLines (sortStrings lines) "" ∧
      List.Perm (sortStrings lines) lines ∧ List.Sorted strLe (sortStrings lines) :=
  dump_lines.1 memoBDJ _ rfl

/-! ## Termination of the passes over a join tree of distinct relations

The rest of the file proves that the loop of `main` ends for every join tree
whose leaves are distinct base relations, as long as the simplification cannot
fire.  A group is identified with the set `memo.sig` of the base relations it
joins; on a `Good` memo two groups never join the same set, the children of a
join expression split the set of its group, and a group that is done holds
every split of its set.

The argument follows the passes of `grp.explore` over a group `N` that holds a
single pair `(X, A)` whose children are done:

* the first pass adds the commuted pair `(A, X)` and, for every split `(y, x)`
  of `X`, the pair `(y, constructJoin(x, A))`; a group it creates holds the
  single pair `(x, A)`;
* the second pass first runs the loop `for !done` on these groups (induction on
  the number of base relations) and then creates, from the pair `(A, X)`, the
  groups `(a, X)` for the splits `(b, a)` of `A`;
* from the third pass on every set below `N` is joined by a group, so no group
  is created and the expression list of `N`, which holds no pair twice, can
  only grow up to the number of ordered pairs of groups; the pass that adds
  nothing leaves `N` closed under both rules, and a closed group holds every
  split.

For the root of a tree that no pass has visited, the first loop of the first
pass runs the same argument on the two subtrees. -/

/-! ## The base relations under a group -/

theorem foldl_sigStep_length (h : List grp) : ∀ acc : List (Finset Ptr),
    (h.foldl sigStep acc).length = acc.length + h.length := by
  induction h with
  | nil => intro acc; simp
  | cons G t ih =>
    intro acc
    rw [List.foldl_cons, ih]
    simp only [sigStep, List.length_append, List.length_singleton, List.length_cons, List.length_nil]
    omega

theorem foldl_sigStep_extends (h : List grp) : ∀ acc : List (Finset Ptr),
    acc <+: h.foldl sigStep acc := by
  induction h with
  | nil => intro acc; exact List.prefix_refl _
  | cons G t ih =>
    intro acc
    simp only [List.foldl_cons]
    exact (List.prefix_append _ _).trans (ih _)

theorem sigs_length (h : List grp) : (sigs h).length = h.length := by
  simp [sigs, foldl_sigStep_length]

theorem sigs_snoc (h : List grp) (X : grp) : sigs (h ++ [X]) = sigStep (sigs h) X := by
  simp [sigs, List.foldl_append]

theorem sig_snoc_old {m m1 : memo} {X : grp} (hh : m1.heap = m.heap ++ [X]) {p : Ptr}
    (hp : p < m.heap.length) : m1.sig p = m.sig p := by
  unfold memo.sig
  rw [hh, sigs_snoc, sigStep]
  have : p < (sigs m.heap).length := by rw [sigs_length]; exact hp
  simp [List.getD_eq_getElem?_getD, List.getElem?_append_left this]

theorem sig_snoc_new {m m1 : memo} {X : grp} (hh : m1.heap = m.heap ++ [X]) :
    m1.sig m.heap.length =
      (match X.exprs.head? with
       | some (expr.ofRel _) => {m.heap.length}
       | some (expr.ofJoin j) =>
         match j.l, j.r with
         | some l, some r => m.sig l ∪ m.sig r
         | _, _ => ∅
       | none => ∅) := by
  unfold memo.sig
  rw [hh, sigs_snoc, sigStep]
  have : (sigs m.heap).length = m.heap.length := sigs_length _
  simp [List.getD_eq_getElem?_getD, this]

theorem sigStep_congr (acc : List (Finset Ptr)) {G H : grp}
    (h : G.exprs.head? = H.exprs.head?) : sigStep acc G = sigStep acc H := by
  simp only [sigStep, h]

theorem foldl_sigStep_congr {h h' : List grp}
    (hf : List.Forall₂ (fun a b : grp => a.exprs.head? = b.exprs.head?) h h') :
    ∀ acc, h.foldl sigStep acc = h'.foldl sigStep acc := by
  induction hf with
  | nil => intro acc; rfl
  | cons hab _ ih =>
    intro acc
    simp only [List.foldl_cons]
    rw [sigStep_congr acc hab]
    exact ih _

/-- Writing a group back with the same first expression changes no set. -/
theorem sig_set {m m' : memo} {g : Ptr} {G G' : grp} (hG : m.heap[g]? = some G)
    (hh : m'.heap = m.heap.set g G') (he : G'.exprs.head? = G.exprs.head?) (p : Ptr) :
    m'.sig p = m.sig p := by
  unfold memo.sig sigs
  rw [hh]
  congr 1
  symm
  apply foldl_sigStep_congr
  rw [List.forall₂_iff_get]
  refine ⟨by simp, ?_⟩
  intro i h1 h2
  simp only [List.get_eq_getElem]
  by_cases hi : i = g
  · subst hi
    rw [List.getElem_set_self]
    have : m.heap[i] = G := by
      have := List.getElem?_eq_getElem h1
      rw [hG] at this
      exact (Option.some.inj this).symm
    rw [this, he]
  · rw [List.getElem_set_ne (Ne.symm hi)]

theorem sig_of_heap_eq {m m' : memo} (hh : m'.heap = m.heap) (p : Ptr) : m'.sig p = m.sig p := by
  unfold memo.sig
  rw [hh]

theorem sig_unalloc {m : memo} {p : Ptr} (hp : m.heap.length ≤ p) : m.sig p = ∅ := by
  unfold memo.sig
  have : (sigs m.heap).length ≤ p := by rw [sigs_length]; exact hp
  simp [List.getD_eq_getElem?_getD, List.getElem?_eq_none this]

/-! ## Runs for some budget -/

theorem explore_mono {n n' : Nat} {g : Ptr} {m : memo} {r : memo × Bool}
    (h : grp.explore n g m = .ok r) (hle : n ≤ n') : grp.explore n' g m = .ok r := by
  rw [explore_fuel_le hle g m (by rw [h]; exact fun h' => by cases h'), h]

theorem forceDone_mono {ex ex' : Ptr → memo → Run (memo × Bool)}
    (hex : ∀ q m r, ex q m = .ok r → ex' q m = .ok r) :
    ∀ (k k' : Nat) (p : Option Ptr) (m m' : memo), k ≤ k' → forceDone ex k p m = .ok m' →
      forceDone ex' k' p m = .ok m' := by
  intro k
  induction k with
  | zero =>
    intro k' p m m' _ h
    simp [forceDone] at h
  | succ k ih =>
    intro k' p m m' hle h
    obtain ⟨k'', rfl⟩ : ∃ k'', k' = k'' + 1 := ⟨k' - 1, by omega⟩
    obtain ⟨q, P, rfl, hP, hc⟩ := forceDone_succ h
    rw [forceDone_succ_eq]
    simp only [deref_some hP]
    rcases hc with ⟨hd, rfl⟩ | ⟨hd, m1, d, h1, h2⟩
    · simp [hd]
    · simp only [hd, Bool.false_eq_true, if_false, hex _ _ _ h1]
      exact ih k'' _ _ _ (by omega) h2

theorem exploreChildren_mono {ex ex' : Ptr → memo → Run (memo × Bool)}
    (hex : ∀ q m r, ex q m = .ok r → ex' q m = .ok r) {k k' : Nat} (hk : k ≤ k') (g : Nat) :
    ∀ (rem i : Nat) (m m' : memo), exploreChildren ex k g rem i m = .ok m' →
      exploreChildren ex' k' g rem i m = .ok m' := by
  intro rem
  induction rem with
  | zero =>
    intro i m m' h
    simpa [exploreChildren] using h
  | succ rem ih =>
    intro i m m' h
    obtain ⟨G, e, hG, he, hc⟩ := exploreChildren_succ h
    rw [exploreChildren_succ_eq]
    simp only [deref_some hG, List.get?_eq_getElem?, he]
    rcases hc with ⟨r, rfl, h1⟩ | ⟨j, m1, m2, rfl, h1, h2, h3⟩
    · exact ih _ _ _ h1
    · simp only [forceDone_mono hex k k' _ _ _ hk h1, forceDone_mono hex k k' _ _ _ hk h2]
      exact ih _ _ _ h3

theorem forced_done {m : memo} {q : Ptr} {P : grp} (hP : m.heap[q]? = some P)
    (hd : P.done = true) : Forced (some q) m m :=
  ⟨0, 1, forceDone_of_done _ (by decide) hP hd⟩

theorem forced_step {m m1 m' : memo} {q : Ptr} {P : grp} {d : Bool} (hP : m.heap[q]? = some P)
    (hd : P.done = false) (h1 : Explored q m m1 d) (h2 : Forced (some q) (setDone m1 q d) m') :
    Forced (some q) m m' := by
  obtain ⟨f1, h1⟩ := h1
  obtain ⟨a, b, h2⟩ := h2
  refine ⟨max f1 a, b + 1, ?_⟩
  rw [forceDone_succ_eq]
  simp only [deref_some hP, hd, Bool.false_eq_true, if_false,
    explore_mono h1 (le_max_left f1 a)]
  exact forceDone_mono (fun q m r h => explore_mono h (le_max_right f1 a)) b b _ _ _
    (Nat.le_refl _) h2

theorem childrened_zero (g i : Nat) (m : memo) : Childrened g 0 i m m :=
  ⟨0, 0, rfl⟩

theorem childrened_rel {g rem i : Nat} {m m' : memo} {G : grp} {r : rel}
    (hG : m.heap[g]? = some G) (he : G.exprs[i]? = some (expr.ofRel r))
    (h : Childrened g rem (i + 1) m m') : Childrened g (rem + 1) i m m' := by
  obtain ⟨a, b, h⟩ := h
  refine ⟨a, b, ?_⟩
  rw [exploreChildren_succ_eq]
  simp only [deref_some hG, List.get?_eq_getElem?, he]
  exact h

theorem childrened_join {g rem i : Nat} {m m1 m2 m' : memo} {G : grp} {j : join}
    (hG : m.heap[g]? = some G) (he : G.exprs[i]? = some (expr.ofJoin j))
    (h1 : Forced j.l m m1) (h2 : Forced j.r m1 m2) (h : Childrened g rem (i + 1) m2 m') :
    Childrened g (rem + 1) i m m' := by
  obtain ⟨a1, b1, h1⟩ := h1
  obtain ⟨a2, b2, h2⟩ := h2
  obtain ⟨a3, b3, h⟩ := h
  have hex : ∀ a, a ≤ max a1 (max a2 a3) → ∀ q m r, grp.explore a q m = .ok r →
      grp.explore (max a1 (max a2 a3)) q m = .ok r := fun a ha q m r h => explore_mono h ha
  refine ⟨max a1 (max a2 a3), max b1 (max b2 b3), ?_⟩
  rw [exploreChildren_succ_eq]
  simp only [deref_some hG, List.get?_eq_getElem?, he]
  rw [forceDone_mono (hex a1 (le_max_left _ _)) b1 _ _ _ _ (le_max_left _ _) h1]
  simp only
  rw [forceDone_mono (hex a2 ((le_max_left _ _).trans (le_max_right _ _))) b2 _ _ _ _
    ((le_max_left _ _).trans (le_max_right _ _)) h2]
  simp only
  exact exploreChildren_mono (hex a3 ((le_max_right _ _).trans (le_max_right _ _)))
    ((le_max_right _ _).trans (le_max_right _ _)) g _ _ _ _ h

theorem explored_intro {g : Ptr} {m m1 m2 : memo} {G G2 : grp} (hG : m.heap[g]? = some G)
    (h1 : Childrened g G.exprs.length 0 m m1)
    (h2 : exploreExprs g G.exprs.length 0 m1 = .ok m2) (hG2 : m2.heap[g]? = some G2) :
    Explored g m m2 (G.exprs.length == G2.exprs.length) := by
  obtain ⟨a, b, h1⟩ := h1
  refine ⟨max a b + 1, ?_⟩
  rw [explore_succ_eq]
  simp only [deref_some hG]
  rw [exploreChildren_mono (fun q m r h => explore_mono h (le_max_left a b))
    (le_max_right a b) g _ _ _ _ h1]
  simp only [h2, deref_some hG2]

theorem setDone_same {m : memo} {p : Ptr} {P : grp} (hP : m.heap[p]? = some P) :
    setDone m p P.done = m := by
  unfold setDone
  simp only [List.get?_eq_getElem?, hP]
  have : m.heap.set p { P with done := P.done } = m.heap := by
    apply List.ext_getElem? 
    intro i
    by_cases hi : i = p
    · subst hi
      rw [List.getElem?_set_self (List.getElem?_eq_some.mp hP).1, hP]
    · rw [List.getElem?_set_ne (Ne.symm hi)]
  rw [this]

theorem conv_heap {g : Ptr} {m m' : memo} (h : Conv g m m') : ∃ G, m.heap[g]? = some G ∧
    G.done = false := by
  cases h with
  | last hG hd _ => exact ⟨_, hG, hd⟩
  | more hG hd _ _ => exact ⟨_, hG, hd⟩

theorem forced_of_conv {g : Ptr} {m m' : memo} (h : Conv g m m') :
    Forced (some g) m (setDone m' g true) := by
  induction h with
  | @last m m' G hG hd h =>
    refine forced_step hG hd h ?_
    obtain ⟨fuel, hf⟩ := h
    obtain ⟨G', hG', _⟩ := (memo.le_stepRel.explore fuel hf).heap g G hG
    exact forced_done (setDone_heap_self m' true hG') rfl
  | @more m m1 m' G hG hd h hc ih =>
    refine forced_step hG hd h ?_
    obtain ⟨G1, hG1, hd1⟩ := conv_heap hc
    have := setDone_same hG1
    rw [hd1] at this
    rw [this]
    exact ih

theorem driver_of_conv {g : Ptr} {m m' : memo} (h : Conv g m m') :
    ∃ fuel k, driver fuel g k m = .ok m' := by
  induction h with
  | @last m m' G hG hd h =>
    obtain ⟨fuel, hf⟩ := h
    exact ⟨fuel, 1, by simp [driver, hf]⟩
  | @more m m1 m' G hG hd h hc ih =>
    obtain ⟨f1, hf⟩ := h
    obtain ⟨f2, k, hk⟩ := ih
    refine ⟨max f1 f2, k + 1, ?_⟩
    have hmono : ∀ (k : Nat) (m m' : memo), driver f2 g k m = .ok m' →
        driver (max f1 f2) g k m = .ok m' := by
      intro k
      induction k with
      | zero => intro m m' h; simp [driver] at h
      | succ k ihk =>
        intro m m' h
        obtain ⟨m1, d, h1, hc⟩ := driver_succ h
        unfold driver
        rw [explore_mono h1 (le_max_right f1 f2)]
        rcases hc with ⟨rfl, rfl⟩ | ⟨rfl, h2⟩
        · simp
        · simp only [Bool.false_eq_true, if_false]
          exact ihk _ _ h2
    unfold driver
    rw [explore_mono hf (le_max_left f1 f2)]
    simp only [Bool.false_eq_true, if_false]
    exact hmono k _ _ hk

/-! ## Groups as sets of base relations -/

/-- The shape of a join expression held by a group of a good memo. -/
theorem Good.expr_shape {s : String} {m : memo} (h : Good s m) {p : Ptr} {G : grp} {j : join}
    (hG : m.heap[p]? = some G) (hj : expr.ofJoin j ∈ G.exprs) :
    ∃ l r L R, j = ⟨some p, some l, some r⟩ ∧ m.heap[l]? = some L ∧ m.heap[r]? = some R ∧
      Disjoint (m.sig l) (m.sig r) ∧ m.sig l ∪ m.sig r = m.sig p := by
  obtain ⟨l, r, hl, hr, hd, hu⟩ := h.part p G j hG hj
  have ho := h.inv.own p G j hG hj
  obtain ⟨L, R, hL, hR⟩ := kids_valid h.inv h.wf hG hj
  rw [hl] at hL
  rw [hr] at hR
  obtain ⟨_, h1, hL'⟩ := deref_ok_iff.mp hL
  obtain ⟨_, h2, hR'⟩ := deref_ok_iff.mp hR
  cases h1
  cases h2
  refine ⟨l, r, L, R, ?_, hL', hR', hd, hu⟩
  cases j
  simp only at ho hl hr
  rw [ho, hl, hr]

theorem ssubset_union_left {A B : Finset Ptr} (hB : B.Nonempty) (hd : Disjoint A B) :
    A ⊂ A ∪ B := by
  refine Finset.ssubset_iff_subset_ne.mpr ⟨Finset.subset_union_left, ?_⟩
  intro h
  obtain ⟨x, hx⟩ := hB
  have : x ∈ A := by rw [h]; exact Finset.mem_union_right _ hx
  exact (Finset.disjoint_left.mp hd this) hx

theorem ssubset_union_right {A B : Finset Ptr} (hA : A.Nonempty) (hd : Disjoint A B) :
    B ⊂ A ∪ B := by
  rw [Finset.union_comm]
  exact ssubset_union_left hA hd.symm

theorem union_sdiff_of_disjoint {A B : Finset Ptr} (hd : Disjoint A B) : (A ∪ B) \ A = B := by
  ext x
  simp only [Finset.mem_sdiff, Finset.mem_union]
  constructor
  · rintro ⟨h1 | h1, h2⟩
    · exact absurd h1 h2
    · exact h1
  · intro hx
    exact ⟨Or.inr hx, fun h => (Finset.disjoint_left.mp hd h) hx⟩

theorem union_left_cancel {A B C : Finset Ptr} (h1 : Disjoint A C) (h2 : Disjoint B C)
    (h : A ∪ C = B ∪ C) : A = B := by
  ext x
  constructor
  · intro hx
    have : x ∈ B ∪ C := by rw [← h]; exact Finset.mem_union_left _ hx
    rcases Finset.mem_union.mp this with h' | h'
    · exact h'
    · exact absurd h' (Finset.disjoint_left.mp h1 hx)
  · intro hx
    have : x ∈ A ∪ C := by rw [h]; exact Finset.mem_union_left _ hx
    rcases Finset.mem_union.mp this with h' | h'
    · exact h'
    · exact absurd h' (Finset.disjoint_left.mp h2 hx)

/-- A registered pair splits the set of its group. -/
theorem Good.reg_sig {s : String} {m : memo} (h : Good s m) {l r p : Ptr}
    (hf : m.findJoin ⟨none, some l, some r⟩ = some p) :
    ∃ G L R, m.heap[p]? = some G ∧ m.heap[l]? = some L ∧ m.heap[r]? = some R ∧
      expr.ofJoin ⟨some p, some l, some r⟩ ∈ G.exprs ∧
      Disjoint (m.sig l) (m.sig r) ∧ m.sig l ∪ m.sig r = m.sig p := by
  obtain ⟨G, hG, hmem⟩ := h.inv.reg _ _ hf
  obtain ⟨l', r', L, R, hj, hL, hR, hd, hu⟩ := h.expr_shape hG hmem
  simp only [join.mk.injEq, Option.some.injEq, true_and] at hj
  obtain ⟨rfl, rfl⟩ := hj
  exact ⟨G, L, R, hG, hL, hR, hmem, hd, hu⟩

/-- A group whose `done` flag is set has every split of its set registered. -/
theorem Good.found {s : String} {m : memo} (h : Good s m) {x r t : Ptr} {X R T : grp}
    (hX : m.heap[x]? = some X) (hR : m.heap[r]? = some R) (hT : m.heap[t]? = some T)
    (hdone : T.done = true) (hd : Disjoint (m.sig x) (m.sig r))
    (hu : m.sig x ∪ m.sig r = m.sig t) : m.findJoin ⟨none, some x, some r⟩ = some t := by
  have hss : m.sig x ⊂ m.sig t := by
    rw [← hu]
    exact ssubset_union_left (h.ne r R hR) hd
  obtain ⟨l', r', L', R', hL', hR', hsl, hsr, hmem, _, _⟩ :=
    h.complete t T hT hdone (m.sig x) (h.ne x X hX) hss
  have e1 : l' = x := h.inj l' x L' X hL' hX hsl
  have e2 : r' = r := by
    refine h.inj r' r R' R hR' hR ?_
    rw [hsr, ← hu, union_sdiff_of_disjoint hd]
  subst e1
  subst e2
  exact h.wf.expReg t T _ hT hmem

/-- At most one group joins a given set of base relations, so a registered
pair whose children split the set of `g` is registered for `g`. -/
theorem Good.reg_unique {s : String} {m : memo} (h : Good s m) {l r p g : Ptr} {G : grp}
    (hG : m.heap[g]? = some G) (hu : m.sig l ∪ m.sig r = m.sig g)
    (hf : m.findJoin ⟨none, some l, some r⟩ = some p) : p = g := by
  obtain ⟨P, _, _, hP, _, _, _, _, hu'⟩ := h.reg_sig hf
  exact h.inj p g P G hP hG (by rw [← hu', hu])

/-! ## The primitive writes keep a memo good -/

theorem good_of_heap_same {s : String} {m m' : memo} (h : Good s m) (hI : Inv m') (hW : Wf m')
    (hh : ∀ p : Ptr, m'.heap[p]? = m.heap[p]?) (hlen : m'.heap.length = m.heap.length)
    (hs : ∀ p : Ptr, m'.sig p = m.sig p) : Good s m' := by
  refine ⟨hI, hW, ?_, ?_, ?_, ?_, ?_, ?_, ?_⟩
  · intro p G hG
    rw [hh] at hG
    exact h.noName p G hG
  · intro p G hG
    rw [hh] at hG
    rw [hs]
    exact h.ne p G hG
  · intro p G hG a ha
    rw [hh] at hG
    rw [hs] at ha
    rw [hlen]
    exact h.bound p G hG a ha
  · intro p q G H hG hH he
    rw [hh] at hG hH
    rw [hs, hs] at he
    exact h.inj p q G H hG hH he
  · intro p G j hG hj
    rw [hh] at hG
    simp only [hs]
    exact h.part p G j hG hj
  · intro p G r hG hr
    rw [hh] at hG
    rw [hs]
    exact h.atom p G r hG hr
  · intro p G hG hd A hA hss
    rw [hh] at hG
    rw [hs] at hss
    obtain ⟨l, r, L, R, hL, hR, h1, h2, h3, h4, h5⟩ := h.complete p G hG hd A hA hss
    exact ⟨l, r, L, R, by rw [hh]; exact hL, by rw [hh]; exact hR, by rw [hs]; exact h1,
      by rw [hs, hs]; exact h2, h3, h4, h5⟩

/-- A memo that differs from a good one in one group, which kept its name, its
`done` flag and its first expression and gained join expressions that split its
set, is good. -/
theorem good_of_set {s : String} {m m' : memo} (h : Good s m) (hI : Inv m') (hW : Wf m')
    {g : Ptr} {G G' : grp} (hG : m.heap[g]? = some G) (hh : m'.heap = m.heap.set g G')
    (hn : G'.name = G.name) (hd : G'.done = G.done) (hpre : G.exprs <+: G'.exprs)
    (hnew : ∀ e ∈ G'.exprs, e ∈ G.exprs ∨ ∃ l r, e = expr.ofJoin ⟨some g, some l, some r⟩ ∧
      Disjoint (m.sig l) (m.sig r) ∧ m.sig l ∪ m.sig r = m.sig g) : Good s m' := by
  have hne : G.exprs ≠ [] := by
    obtain ⟨e, rest, he, _⟩ := h.wf.names g G hG
    rw [he]
    exact List.cons_ne_nil _ _
  have hhead : G'.exprs.head? = G.exprs.head? := by
    obtain ⟨t, ht⟩ := hpre
    rw [← ht]
    cases hG0 : G.exprs with
    | nil => exact absurd hG0 hne
    | cons a b => rfl
  have hs : ∀ p : Ptr, m'.sig p = m.sig p := sig_set hG hh hhead
  have hlen : m'.heap.length = m.heap.length := by rw [hh, List.length_set]
  have hget : ∀ (p : Ptr) (X : grp), m'.heap[p]? = some X → (p = g ∧ X = G') ∨ (p ≠ g ∧ m.heap[p]? = some X) := by
    intro p X hX
    rw [hh] at hX
    rcases getElem?_set_cases _ _ _ _ _ hX with ⟨h1, h2, _⟩ | ⟨h1, h2⟩
    · exact Or.inl ⟨h1, h2.symm⟩
    · exact Or.inr ⟨h1, h2⟩
  have hold : ∀ (p : Ptr) (X : grp), m'.heap[p]? = some X → ∃ X0, m.heap[p]? = some X0 ∧ X.name = X0.name ∧
      X.done = X0.done ∧ X0.exprs <+: X.exprs := by
    intro p X hX
    rcases hget p X hX with ⟨rfl, rfl⟩ | ⟨_, h0⟩
    · exact ⟨G, hG, hn, hd, hpre⟩
    · exact ⟨X, h0, rfl, rfl, List.prefix_refl _⟩
  have hfwd : ∀ (p : Ptr) (X0 : grp), m.heap[p]? = some X0 → ∃ X, m'.heap[p]? = some X ∧ X.done = X0.done ∧
      X0.exprs <+: X.exprs := by
    intro p X0 hX0
    by_cases hp : p = g
    · subst hp
      rw [hG] at hX0
      cases hX0
      exact ⟨G', by rw [hh, List.getElem?_set_self (List.getElem?_eq_some.mp hG).1], hd, hpre⟩
    · exact ⟨X0, by rw [hh, List.getElem?_set_ne (Ne.symm hp)]; exact hX0, rfl,
        List.prefix_refl _⟩
  refine ⟨hI, hW, ?_, ?_, ?_, ?_, ?_, ?_, ?_⟩
  · intro p X hX
    obtain ⟨X0, hX0, hnm, _, _⟩ := hold p X hX
    rw [hnm]
    exact h.noName p X0 hX0
  · intro p X hX
    obtain ⟨X0, hX0, _⟩ := hold p X hX
    rw [hs]
    exact h.ne p X0 hX0
  · intro p X hX a ha
    obtain ⟨X0, hX0, _⟩ := hold p X hX
    rw [hs] at ha
    rw [hlen]
    exact h.bound p X0 hX0 a ha
  · intro p q X Y hX hY he
    obtain ⟨X0, hX0, _⟩ := hold p X hX
    obtain ⟨Y0, hY0, _⟩ := hold q Y hY
    rw [hs, hs] at he
    exact h.inj p q X0 Y0 hX0 hY0 he
  · intro p X j hX hj
    simp only [hs]
    rcases hget p X hX with ⟨rfl, rfl⟩ | ⟨_, h0⟩
    · rcases hnew _ hj with h1 | ⟨l, r, he, hdj, hu⟩
      · exact h.part p G j hG h1
      · cases he
        exact ⟨l, r, rfl, rfl, hdj, hu⟩
    · exact h.part p X j h0 hj
  · intro p X r hX hr
    rw [hs]
    rcases hget p X hX with ⟨rfl, rfl⟩ | ⟨_, h0⟩
    · rcases hnew _ hr with h1 | ⟨l, r', he, _⟩
      · exact h.atom p G r hG h1
      · cases he
    · exact h.atom p X r h0 hr
  · intro p X hX hdone A hA hss
    obtain ⟨X0, hX0, _, hd0, hp0⟩ := hold p X hX
    rw [hs] at hss
    rw [hd0] at hdone
    obtain ⟨l, r, L, R, hL, hR, h1, h2, h3, h4, h5⟩ := h.complete p X0 hX0 hdone A hA hss
    obtain ⟨L', hL', hdL, _⟩ := hfwd l L hL
    obtain ⟨R', hR', hdR, _⟩ := hfwd r R hR
    exact ⟨l, r, L', R', hL', hR', by rw [hs]; exact h1, by rw [hs, hs]; exact h2,
      hp0.subset h3, by rw [hdL]; exact h4, by rw [hdR]; exact h5⟩

/-- A rule firing that appends a pair splitting the set of `j.grp` keeps the
memo good. -/
theorem good_derive {s : String} {m m' : memo} (h : Good s m) {j : join} {g l r : Ptr}
    {G : grp} {msg : String → String} (hg : j.grp = some g) (hG : m.heap[g]? = some G)
    (hdj : Disjoint (m.sig l) (m.sig r)) (hu : m.sig l ∪ m.sig r = m.sig g)
    (hd : join.derive m j ⟨none, some l, some r⟩ msg = .ok m') : Good s m' := by
  rcases derive_cases hd with ⟨p, _, _, he⟩ | ⟨_, _, g', G0, hg', hG0, hheap, _⟩
  · rw [he]
    exact h
  · rw [hg] at hg'
    cases hg'
    rw [hG] at hG0
    cases hG0
    refine good_of_set h (inv_derive hd h.inv) (wf_derive h.wf hd) hG hheap rfl rfl
      (List.prefix_append _ _) ?_
    intro e he
    rcases List.mem_append.mp he with h1 | h1
    · exact Or.inl h1
    · rw [List.mem_singleton] at h1
      exact Or.inr ⟨l, r, h1, hdj, hu⟩

/-- A rule firing on a join held by its group, deriving a pair that splits the
set of the group, returns. -/
theorem derive_ok {s : String} {m : memo} (h : Good s m) {j : join} {g l r : Ptr}
    {G L R : grp} (msg : String → String) (hG : m.heap[g]? = some G)
    (hj : expr.ofJoin j ∈ G.exprs) (hL : m.heap[l]? = some L) (hR : m.heap[r]? = some R)
    (hu : m.sig l ∪ m.sig r = m.sig g) :
    ∃ m', join.derive m j ⟨none, some l, some r⟩ msg = .ok m' := by
  have hg := h.inv.own g G j hG hj
  obtain ⟨A, B, hA, hB⟩ := kids_valid h.inv h.wf hG hj
  rcases derive_total (d := ⟨none, some l, some r⟩) msg hg hG hA hB (deref_some hL)
    (deref_some hR) with ⟨⟨p, hf, hne⟩, _⟩ | ⟨_, hok⟩
  · exfalso
    apply hne
    rw [hg, h.reg_unique hG hu hf]
  · exact hok

theorem good_setDone_true {s : String} {m : memo} (h : Good s m) {p : Ptr} {P : grp}
    (hP : m.heap[p]? = some P)
    (hc : ∀ A : Finset Ptr, A.Nonempty → A ⊂ m.sig p →
      ∃ l r L R, m.heap[l]? = some L ∧ m.heap[r]? = some R ∧ m.sig l = A ∧
        m.sig r = m.sig p \ A ∧ expr.ofJoin ⟨some p, some l, some r⟩ ∈ P.exprs ∧
        L.done = true ∧ R.done = true) : Good s (setDone m p true) := by
  have hheap : (setDone m p true).heap = m.heap.set p { P with done := true } := by
    simp [setDone, hP]
  have hs : ∀ q : Ptr, (setDone m p true).sig q = m.sig q := sig_set hP hheap rfl
  have hlen : (setDone m p true).heap.length = m.heap.length := by
    rw [hheap, List.length_set]
  have hget : ∀ (q : Ptr) (X : grp), (setDone m p true).heap[q]? = some X →
      ∃ X0, m.heap[q]? = some X0 ∧ X.name = X0.name ∧ X.exprs = X0.exprs ∧
        (X.done = X0.done ∨ (q = p ∧ X0 = P)) := by
    intro q X hX
    by_cases hq : q = p
    · subst hq
      rw [setDone_heap_self m true hP] at hX
      cases hX
      exact ⟨P, hP, rfl, rfl, Or.inr ⟨rfl, rfl⟩⟩
    · rw [setDone_heap_ne m true hq] at hX
      exact ⟨X, hX, rfl, rfl, Or.inl rfl⟩
  have hfwd : ∀ (q : Ptr) (X0 : grp), m.heap[q]? = some X0 → X0.done = true →
      ∃ X, (setDone m p true).heap[q]? = some X ∧ X.done = true := by
    intro q X0 hX0 hd0
    by_cases hq : q = p
    · subst hq
      rw [hP] at hX0
      cases hX0
      exact ⟨_, setDone_heap_self m true hP, rfl⟩
    · exact ⟨X0, by rw [setDone_heap_ne m true hq]; exact hX0, hd0⟩
  refine ⟨inv_setDone h.inv p true, wf_setDone h.wf p true, ?_, ?_, ?_, ?_, ?_, ?_, ?_⟩
  · intro q X hX
    obtain ⟨X0, hX0, hn, _⟩ := hget q X hX
    rw [hn]
    exact h.noName q X0 hX0
  · intro q X hX
    obtain ⟨X0, hX0, _⟩ := hget q X hX
    rw [hs]
    exact h.ne q X0 hX0
  · intro q X hX a ha
    obtain ⟨X0, hX0, _⟩ := hget q X hX
    rw [hs] at ha
    rw [hlen]
    exact h.bound q X0 hX0 a ha
  · intro q q' X Y hX hY he
    obtain ⟨X0, hX0, _⟩ := hget q X hX
    obtain ⟨Y0, hY0, _⟩ := hget q' Y hY
    rw [hs, hs] at he
    exact h.inj q q' X0 Y0 hX0 hY0 he
  · intro q X j hX hj
    obtain ⟨X0, hX0, _, he, _⟩ := hget q X hX
    simp only [hs]
    rw [he] at hj
    exact h.part q X0 j hX0 hj
  · intro q X r hX hr
    obtain ⟨X0, hX0, _, he, _⟩ := hget q X hX
    rw [hs]
    rw [he] at hr
    exact h.atom q X0 r hX0 hr
  · intro q X hX hdone A hA hss
    obtain ⟨X0, hX0, _, he, hd0⟩ := hget q X hX
    rw [hs] at hss
    have key : ∃ l r L R, m.heap[l]? = some L ∧ m.heap[r]? = some R ∧ m.sig l = A ∧
        m.sig r = m.sig q \ A ∧ expr.ofJoin ⟨some q, some l, some r⟩ ∈ X0.exprs ∧
        L.done = true ∧ R.done = true := by
      rcases hd0 with hd0 | ⟨rfl, rfl⟩
      · rw [hd0] at hdone
        exact h.complete q X0 hX0 hdone A hA hss
      · exact hc A hA hss
    obtain ⟨l, r, L, R, hL, hR, h1, h2, h3, h4, h5⟩ := key
    obtain ⟨L', hL', hdL⟩ := hfwd l L hL h4
    obtain ⟨R', hR', hdR⟩ := hfwd r R hR h5
    exact ⟨l, r, L', R', hL', hR', by rw [hs]; exact h1, by rw [hs, hs]; exact h2,
      by rw [he]; exact h3, hdL, hdR⟩

/-- A store that gained one group, not `done`, whose set no group had, is good
when the new group is a relation group or holds one join of two earlier groups
with disjoint sets. -/
theorem good_of_snoc {s : String} {m m1 : memo} (h : Good s m) (hI : Inv m1) (hW : Wf m1)
    {X : grp} (hh : m1.heap = m.heap ++ [X]) (hn : X.name ≠ s) (hd : X.done = false)
    (hX : (∃ r, X.exprs = [expr.ofRel r]) ∨
      ∃ l r L R, X.exprs = [expr.ofJoin ⟨some m.heap.length, some l, some r⟩] ∧
        m.heap[l]? = some L ∧ m.heap[r]? = some R ∧ Disjoint (m.sig l) (m.sig r) ∧
        ∀ (t : Ptr) (T : grp), m.heap[t]? = some T → m.sig t ≠ m.sig l ∪ m.sig r) :
    Good s m1 := by
  have hlen : m1.heap.length = m.heap.length + 1 := by
    rw [hh, List.length_append, List.length_singleton]
  have hold : ∀ (p : Ptr) (Y : grp), m.heap[p]? = some Y → m1.heap[p]? = some Y := by
    intro p Y hY
    rw [hh]
    exact (getElem?_snoc _ _ _ _).mpr (Or.inl hY)
  have hget : ∀ (p : Ptr) (Y : grp), m1.heap[p]? = some Y →
      m.heap[p]? = some Y ∨ (p = m.heap.length ∧ X = Y) := by
    intro p Y hY
    rw [hh] at hY
    exact (getElem?_snoc _ _ _ _).mp hY
  have hso : ∀ (p : Ptr) (Y : grp), m.heap[p]? = some Y → m1.sig p = m.sig p :=
    fun p Y hY => sig_snoc_old hh (List.getElem?_eq_some.mp hY).1
  have hsn := sig_snoc_new hh
  have hnewsig : (∃ r, X.exprs = [expr.ofRel r] ∧ m1.sig m.heap.length = {m.heap.length}) ∨
      ∃ l r L R, X.exprs = [expr.ofJoin ⟨some m.heap.length, some l, some r⟩] ∧
        m.heap[l]? = some L ∧ m.heap[r]? = some R ∧ Disjoint (m.sig l) (m.sig r) ∧
        (∀ (t : Ptr) (T : grp), m.heap[t]? = some T → m.sig t ≠ m.sig l ∪ m.sig r) ∧
        m1.sig m.heap.length = m.sig l ∪ m.sig r := by
    rcases hX with ⟨r, hr⟩ | ⟨l, r, L, R, he, hL, hR, hdj, hno⟩
    · refine Or.inl ⟨r, hr, ?_⟩
      rw [hsn, hr]
      rfl
    · refine Or.inr ⟨l, r, L, R, he, hL, hR, hdj, hno, ?_⟩
      rw [hsn, he]
      rfl
  have hne_new : (m1.sig m.heap.length).Nonempty := by
    rcases hnewsig with ⟨r, _, hs⟩ | ⟨l, r, L, R, _, hL, _, _, _, hs⟩
    · rw [hs]
      exact Finset.singleton_nonempty _
    · rw [hs]
      exact (h.ne l L hL).mono Finset.subset_union_left
  have hnew_ne_old : ∀ (p : Ptr) (Y : grp), m.heap[p]? = some Y →
      m.sig p ≠ m1.sig m.heap.length := by
    intro p Y hY he
    rcases hnewsig with ⟨r, _, hs⟩ | ⟨l, r, L, R, _, _, _, _, hno, hs⟩
    · have := h.bound p Y hY m.heap.length (by rw [he, hs]; exact Finset.mem_singleton_self _)
      exact Nat.lt_irrefl _ this
    · exact hno p Y hY (he.trans hs)
  refine ⟨hI, hW, ?_, ?_, ?_, ?_, ?_, ?_, ?_⟩
  · intro p Y hY
    rcases hget p Y hY with h0 | ⟨_, rfl⟩
    · exact h.noName p Y h0
    · exact hn
  · intro p Y hY
    rcases hget p Y hY with h0 | ⟨rfl, rfl⟩
    · rw [hso p Y h0]
      exact h.ne p Y h0
    · exact hne_new
  · intro p Y hY a ha
    rw [hlen]
    rcases hget p Y hY with h0 | ⟨rfl, rfl⟩
    · rw [hso p Y h0] at ha
      exact Nat.lt_succ_of_lt (h.bound p Y h0 a ha)
    · rcases hnewsig with ⟨r, _, hs⟩ | ⟨l, r, L, R, _, hL, hR, _, _, hs⟩
      · rw [hs, Finset.mem_singleton] at ha
        rw [ha]
        exact Nat.lt_succ_self _
      · rw [hs, Finset.mem_union] at ha
        rcases ha with ha | ha
        · exact Nat.lt_succ_of_lt (h.bound l L hL a ha)
        · exact Nat.lt_succ_of_lt (h.bound r R hR a ha)
  · intro p q Y Z hY hZ he
    rcases hget p Y hY with h0 | ⟨rfl, rfl⟩
    · rcases hget q Z hZ with h1 | ⟨rfl, rfl⟩
      · rw [hso p Y h0, hso q Z h1] at he
        exact h.inj p q Y Z h0 h1 he
      · rw [hso p Y h0] at he
        exact absurd he (hnew_ne_old p Y h0)
    · rcases hget q Z hZ with h1 | ⟨rfl, _⟩
      · rw [hso q Z h1] at he
        exact absurd he.symm (hnew_ne_old q Z h1)
      · rfl
  · intro p Y j hY hj
    rcases hget p Y hY with h0 | ⟨rfl, rfl⟩
    · obtain ⟨l, r, L, R, hje, hL, hR, hdj, hu⟩ := h.expr_shape h0 hj
      refine ⟨l, r, by rw [hje], by rw [hje], ?_, ?_⟩
      · rw [hso l L hL, hso r R hR]
        exact hdj
      · rw [hso l L hL, hso r R hR, hso p Y h0]
        exact hu
    · rcases hnewsig with ⟨r, hr, _⟩ | ⟨l, r, L, R, he, hL, hR, hdj, _, hs⟩
      · rw [hr] at hj
        simp at hj
      · rw [he, List.mem_singleton] at hj
        cases hj
        refine ⟨l, r, rfl, rfl, ?_, ?_⟩
        · rw [hso l L hL, hso r R hR]
          exact hdj
        · rw [hso l L hL, hso r R hR, hs]
  · intro p Y r hY hr
    rcases hget p Y hY with h0 | ⟨rfl, rfl⟩
    · rw [hso p Y h0]
      exact h.atom p Y r h0 hr
    · rcases hnewsig with ⟨r', _, hs⟩ | ⟨l, r', L, R, he, _⟩
      · exact hs
      · rw [he] at hr
        simp at hr
  · intro p Y hY hdone A hA hss
    rcases hget p Y hY with h0 | ⟨rfl, rfl⟩
    · rw [hso p Y h0] at hss
      obtain ⟨l, r, L, R, hL, hR, h1, h2, h3, h4, h5⟩ := h.complete p Y h0 hdone A hA hss
      exact ⟨l, r, L, R, hold l L hL, hold r R hR, by rw [hso l L hL]; exact h1,
        by rw [hso r R hR, hso p Y h0]; exact h2, h3, h4, h5⟩
    · rw [hd] at hdone
      cases hdone

/-- `constructJoin` on two groups with disjoint sets, when a group that joins
their union has the pair registered: it returns, the memo stays good, and the
group returned joins the union; it is either the registered one, with no
write, or a new group that holds the pair alone. -/
theorem good_constructJoin {s : String} (hs : IsAorC s) {m : memo} (h : Good s m) {l r : Ptr}
    {L R : grp} (hL : m.heap[l]? = some L) (hR : m.heap[r]? = some R)
    (hdj : Disjoint (m.sig l) (m.sig r))
    (hsafe : ∀ (t : Ptr) (T : grp), m.heap[t]? = some T → m.sig t = m.sig l ∪ m.sig r →
      m.findJoin ⟨none, some l, some r⟩ = some t) :
    ∃ m1 g, m.constructJoin ⟨none, some l, some r⟩ = .ok (m1, g) ∧ Good s m1 ∧
      m1.sig g = m.sig l ∪ m.sig r ∧
      ((m1 = m ∧ m.findJoin ⟨none, some l, some r⟩ = some g) ∨
       (g = m.heap.length ∧
        m1.heap = m.heap ++ [⟨canonName L.name R.name,
          [expr.ofJoin ⟨some m.heap.length, some l, some r⟩], false⟩] ∧
        ∀ (t : Ptr) (T : grp), m.heap[t]? = some T → m.sig t ≠ m.sig l ∪ m.sig r)) := by
  obtain ⟨m1, g, hc⟩ := constructJoin_total (j := ⟨none, some l, some r⟩) (deref_some hL)
    (deref_some hR)
  refine ⟨m1, g, hc, ?_⟩
  obtain ⟨L', R', hL', hR', hcase⟩ := constructJoin_cases hc
  rw [deref_some hL] at hL'
  rw [deref_some hR] at hR'
  cases hL'
  cases hR'
  have hac : isAC L.name R.name = false := isAC_of_ne hs (h.noName l L hL) (h.noName r R hR)
  rcases hcase with ⟨hac', _⟩ | ⟨_, hf, he⟩ | ⟨_, hf, hg, hheap, _⟩
  · rw [hac] at hac'
    cases hac'
  · subst he
    obtain ⟨_, _, _, _, _, _, _, _, hu⟩ := h.reg_sig hf
    exact ⟨h, hu.symm, Or.inl ⟨rfl, hf⟩⟩
  · have hno : ∀ (t : Ptr) (T : grp), m.heap[t]? = some T → m.sig t ≠ m.sig l ∪ m.sig r := by
      intro t T hT he
      rw [hsafe t T hT he] at hf
      cases hf
    simp only at hheap
    have hgood : Good s m1 := good_of_snoc h (inv_constructJoin hc h.inv)
      (wf_constructJoin h.wf hc) hheap
      (by
        simp only
        intro hcn
        have := canonName_ne hs (h.noName l L hL) (h.noName r R hR)
        rw [hcn] at this
        exact this.mp rfl) rfl
      (Or.inr ⟨l, r, L, R, rfl, hL, hR, hdj, hno⟩)
    refine ⟨hgood, ?_, Or.inr ⟨hg, hheap, hno⟩⟩
    rw [hg, sig_snoc_new hheap]
    rfl

/-- The set of a group does not change when the memo is extended. -/
theorem sig_le {m m' : memo} (hW : Wf m) (hle : m.le m') {p : Ptr} (hp : p < m.heap.length) :
    m'.sig p = m.sig p := by
  have hlen := hle.len
  have hsplit : m'.heap = m'.heap.take m.heap.length ++ m'.heap.drop m.heap.length :=
    (List.take_append_drop _ _).symm
  have hcongr : sigs (m'.heap.take m.heap.length) = sigs m.heap := by
    unfold sigs
    apply foldl_sigStep_congr
    rw [List.forall₂_iff_get]
    refine ⟨by simp [hlen], ?_⟩
    intro i h1 h2
    simp only [List.get_eq_getElem]
    have hG : m.heap[i]? = some m.heap[i] := List.getElem?_eq_getElem h2
    obtain ⟨G', hG', _, hpre⟩ := hle.heap i _ hG
    have : (m'.heap.take m.heap.length)[i] = G' := by
      rw [List.getElem_take]
      exact (List.getElem?_eq_some.mp hG').2
    rw [this]
    obtain ⟨e, rest, he, _⟩ := hW.names i _ hG
    obtain ⟨t, ht⟩ := hpre
    rw [← ht, he]
    rfl
  unfold memo.sig
  have h2 : sigs m'.heap = (m'.heap.drop m.heap.length).foldl sigStep (sigs m.heap) := by
    conv_lhs => rw [hsplit]
    unfold sigs
    rw [List.foldl_append]
    have hc2 : List.foldl sigStep [] (m'.heap.take m.heap.length) = List.foldl sigStep [] m.heap :=
      hcongr
    rw [hc2]
  have h3 := foldl_sigStep_extends (m'.heap.drop m.heap.length) (sigs m.heap)
  rw [← h2] at h3
  have hp' : p < (sigs m.heap).length := by rw [sigs_length]; exact hp
  have h4 : (sigs m.heap)[p]? = some (sigs m.heap)[p] := List.getElem?_eq_getElem hp'
  have h5 := getElem?_of_prefix h3 h4
  simp [List.getD_eq_getElem?_getD, h4, h5]

theorem absent_of_le {m m' : memo} (hW : Wf m) (hle : m.le m') {A : Finset Ptr}
    (h : Absent m' A) : Absent m A := by
  intro t T hT he
  obtain ⟨T', hT', _⟩ := hle.heap t T hT
  exact h t T' hT' (by rw [sig_le hW hle (List.getElem?_eq_some.mp hT).1]; exact he)

/-! ## A rule firing on a good memo -/

theorem alloc_of_sig {m : memo} {p : Ptr} (h : (m.sig p).Nonempty) :
    ∃ G, m.heap[p]? = some G := by
  by_contra hc
  have hlen : m.heap.length ≤ p := by
    by_contra hlt
    exact hc ⟨m.heap[p], List.getElem?_eq_getElem (not_le.mp hlt)⟩
  rw [sig_unalloc hlen] at h
  exact Finset.not_nonempty_empty h

theorem lt_of_heap {m : memo} {p : Ptr} {G : grp} (h : m.heap[p]? = some G) :
    p < m.heap.length := (List.getElem?_eq_some.mp h).1

theorem newGrps_mono {RQ RQ' : Ptr → Ptr → Ptr → Prop} (hi : ∀ y x r, RQ y x r → RQ' y x r)
    {m m' : memo} (h : NewGrps RQ m m') : NewGrps RQ' m m' := by
  intro p X hp hX
  obtain ⟨y, x, r, hrq, rest⟩ := h p X hp hX
  exact ⟨y, x, r, hi y x r hrq, rest⟩

theorem newExprs_mono {g : Ptr} {CM CM' : Ptr → Ptr → Prop} {RQ RQ' : Ptr → Ptr → Ptr → Prop}
    (hc : ∀ l r, CM l r → CM' l r) (hi : ∀ y x r, RQ y x r → RQ' y x r)
    {m m' : memo} (h : NewExprs g CM RQ m m') : NewExprs g CM' RQ' m m' := by
  intro G G' hG hG' e he
  rcases h G G' hG hG' e he with h1 | ⟨l, r, h2, h3⟩ | ⟨y, x, r, t, h2, h3⟩
  · exact Or.inl h1
  · exact Or.inr (Or.inl ⟨l, r, hc l r h2, h3⟩)
  · exact Or.inr (Or.inr ⟨y, x, r, t, hi y x r h2, h3⟩)

theorem newGrps_refl (RQ : Ptr → Ptr → Ptr → Prop) (m : memo) : NewGrps RQ m m := by
  intro p X hp hX
  exact absurd (lt_of_heap hX) (not_lt.mpr hp)

theorem newExprs_refl (g : Ptr) (CM : Ptr → Ptr → Prop) (RQ : Ptr → Ptr → Ptr → Prop)
    (m : memo) : NewExprs g CM RQ m m := by
  intro G G' hG hG' e he
  rw [hG] at hG'
  cases hG'
  exact Or.inl he

/-- Groups created in two stages. -/
theorem newGrps_trans {RQ : Ptr → Ptr → Ptr → Prop} {m m2 m' : memo} (hW : Wf m)
    (hle : m.le m2) (h1 : NewGrps RQ m m2)
    (hkeep : ∀ (p : Ptr) (X : grp), m.heap.length ≤ p → m2.heap[p]? = some X →
      m'.heap[p]? = some X)
    (h2 : NewGrps RQ m2 m')
    (hRQ : ∀ y x r, RQ y x r → x < m.heap.length ∧ r < m.heap.length) : NewGrps RQ m m' := by
  intro p X hp hX
  by_cases hlt : p < m2.heap.length
  · have hX2 : m2.heap[p]? = some m2.heap[p] := List.getElem?_eq_getElem hlt
    have := hkeep p _ hp hX2
    rw [hX] at this
    cases this
    exact h1 p _ hp hX2
  · obtain ⟨y, x, r, hrq, he, hd, ha⟩ := h2 p X (not_lt.mp hlt) hX
    refine ⟨y, x, r, hrq, he, hd, ?_⟩
    obtain ⟨hx, hr⟩ := hRQ y x r hrq
    rw [sig_le hW hle hx, sig_le hW hle hr] at ha
    exact absent_of_le hW hle ha

/-- Expressions gained in two stages. -/
theorem newExprs_trans {g : Ptr} {CM : Ptr → Ptr → Prop} {RQ : Ptr → Ptr → Ptr → Prop}
    {s : String} {m m2 m' : memo} (hm : Good s m) (hW2 : Wf m2) (hle : m.le m2) (hle2 : m2.le m')
    (h1 : NewExprs g CM RQ m m2) (h2 : NewExprs g CM RQ m2 m')
    (hRQ : ∀ y x r, RQ y x r → x < m.heap.length ∧ r < m.heap.length) :
    NewExprs g CM RQ m m' := by
  intro G G' hG hG' e he
  obtain ⟨G2, hG2, _⟩ := hle.heap g G hG
  rcases h2 G2 G' hG2 hG' e he with h3 | h3 | ⟨y, x, r, t, hrq, he', hs⟩
  · rcases h1 G G2 hG hG2 e h3 with h4 | h4 | ⟨y, x, r, t, hrq, he', hs⟩
    · exact Or.inl h4
    · exact Or.inr (Or.inl h4)
    · refine Or.inr (Or.inr ⟨y, x, r, t, hrq, he', ?_⟩)
      obtain ⟨hx, _⟩ := hRQ y x r hrq
      have hne : (m2.sig t).Nonempty := by
        rw [hs]
        exact (hm.ne x _ (List.getElem?_eq_getElem hx)).mono Finset.subset_union_left
      obtain ⟨T, hT⟩ := alloc_of_sig hne
      rw [sig_le hW2 hle2 (lt_of_heap hT)]
      exact hs
  · exact Or.inr (Or.inl h3)
  · refine Or.inr (Or.inr ⟨y, x, r, t, hrq, he', ?_⟩)
    obtain ⟨hx, hr⟩ := hRQ y x r hrq
    rw [hs, sig_le hm.wf hle hx, sig_le hm.wf hle hr]

theorem Good.child_ne {s : String} {m : memo} (h : Good s m) {p l r : Ptr} {G : grp}
    (hG : m.heap[p]? = some G) (hj : expr.ofJoin ⟨some p, some l, some r⟩ ∈ G.exprs) :
    l ≠ p ∧ r ≠ p := by
  obtain ⟨l', r', L, R, he, hL, hR, hd, hu⟩ := h.expr_shape hG hj
  cases he
  have hnl := h.ne l L hL
  have hnr := h.ne r R hR
  constructor
  · intro e
    have := ssubset_union_left hnr hd
    rw [hu, ← e] at this
    exact (ssubset_irrefl _) this
  · intro e
    have := ssubset_union_right hnl hd
    rw [hu, ← e] at this
    exact (ssubset_irrefl _) this

theorem good_find_of_constructJoin {s : String} (hs : IsAorC s) {m m1 : memo} (h : Good s m)
    {l r g : Ptr} (hc : m.constructJoin ⟨none, some l, some r⟩ = .ok (m1, g)) :
    m1.findJoin ⟨none, some l, some r⟩ = some g := by
  obtain ⟨L, R, hL, hR, hcase⟩ := constructJoin_cases hc
  obtain ⟨_, h1, hL'⟩ := deref_ok_iff.mp hL
  obtain ⟨_, h2, hR'⟩ := deref_ok_iff.mp hR
  cases h1
  cases h2
  have hac : isAC L.name R.name = false := isAC_of_ne hs (h.noName l L hL') (h.noName r R hR')
  rcases hcase with ⟨hac', _⟩ | ⟨_, hf, he⟩ | ⟨_, hf, hg, _, _, _, hj⟩
  · rw [hac] at hac'
    cases hac'
  · rw [he]
    exact hf
  · unfold memo.findJoin
    rw [hj, hg]
    exact mapGet_mapSet_self _ _ _

/-- One round of the associate loop on a good memo: the request
`constructJoin(x, r)` and the rule firing for `(y, t)` both return, and the
memo stays good. -/
theorem assoc_step {s : String} (hs : IsAorC s) {m : memo} (h : Good s m) {g L R y x : Ptr}
    {G LL RR : grp} (hG : m.heap[g]? = some G)
    (hj : expr.ofJoin ⟨some g, some L, some R⟩ ∈ G.exprs) (hL : m.heap[L]? = some LL)
    (hR : m.heap[R]? = some RR) (hlj : expr.ofJoin ⟨some L, some y, some x⟩ ∈ LL.exprs)
    (hsafe : ReqSafe m x R) (msg : String → String) :
    ∃ m1 t m2, m.constructJoin ⟨none, some x, some R⟩ = .ok (m1, t) ∧
      join.derive m1 ⟨some g, some L, some R⟩ ⟨none, some y, some t⟩ msg = .ok m2 ∧
      Good s m2 ∧ m.le m2 ∧ Frame g m m2 ∧
      m2.findJoin ⟨none, some x, some R⟩ = some t ∧
      m2.findJoin ⟨none, some y, some t⟩ = some g ∧
      m2.sig t = m.sig x ∪ m.sig R ∧
      (∀ (p : Ptr) (X : grp), m.heap.length ≤ p → m2.heap[p]? = some X →
        p = t ∧ X.exprs = [expr.ofJoin ⟨some p, some x, some R⟩] ∧ X.done = false ∧
          Absent m (m.sig x ∪ m.sig R)) ∧
      (∀ G2 : grp, m2.heap[g]? = some G2 → ∀ e ∈ G2.exprs,
        e ∈ G.exprs ∨ e = expr.ofJoin ⟨some g, some y, some t⟩) := by
  obtain ⟨_, _, _, _, he1, _, _, hdLR, huLR⟩ := h.expr_shape hG hj
  cases he1
  obtain ⟨_, _, Y, X, he2, hY, hX, hdyx, huyx⟩ := h.expr_shape hL hlj
  cases he2
  have hxL : m.sig x ⊆ m.sig L := by rw [← huyx]; exact Finset.subset_union_right
  have hyL : m.sig y ⊆ m.sig L := by rw [← huyx]; exact Finset.subset_union_left
  have hdxR : Disjoint (m.sig x) (m.sig R) := Disjoint.mono_left hxL hdLR
  have hdyR : Disjoint (m.sig y) (m.sig R) := Disjoint.mono_left hyL hdLR
  obtain ⟨m1, t, hc, hg1, hsig, hcase⟩ := good_constructJoin hs h hX hR hdxR hsafe
  have hle1 : m.le m1 := memo.le_constructJoin hc
  have hkeep1 : ∀ (p : Ptr) (Z : grp), m.heap[p]? = some Z → m1.heap[p]? = some Z := by
    intro p Z hZ
    rcases hcase with ⟨he, _⟩ | ⟨_, hheap, _⟩
    · rw [he]; exact hZ
    · rw [hheap]; exact (getElem?_snoc _ _ _ _).mpr (Or.inl hZ)
  have hglt : g < m.heap.length := lt_of_heap hG
  have hne : (m1.sig t).Nonempty := by
    rw [hsig]
    exact (h.ne x X hX).mono Finset.subset_union_left
  obtain ⟨T, hT⟩ := alloc_of_sig hne
  have hu1 : m1.sig y ∪ m1.sig t = m1.sig g := by
    rw [sig_le h.wf hle1 (lt_of_heap hY), sig_le h.wf hle1 hglt, hsig, ← huLR, ← huyx,
      Finset.union_assoc]
  have hd1 : Disjoint (m1.sig y) (m1.sig t) := by
    rw [sig_le h.wf hle1 (lt_of_heap hY), hsig]
    exact Finset.disjoint_union_right.mpr ⟨hdyx, hdyR⟩
  obtain ⟨m2, hd⟩ := derive_ok hg1 (j := ⟨some g, some L, some R⟩) msg (hkeep1 g G hG) hj
    (hkeep1 y Y hY) hT hu1
  have hg2 : Good s m2 := good_derive hg1 (j := ⟨some g, some L, some R⟩) rfl (hkeep1 g G hG)
    hd1 hu1 hd
  have hle2 : m1.le m2 := memo.le_derive hd
  have hfr : Frame g m m2 := frame_trans hglt (frame_constructJoin g hc)
    (frame_derive (j := ⟨some g, some L, some R⟩) rfl hd)
  refine ⟨m1, t, m2, hc, hd, hg2, memo.le_trans hle1 hle2, hfr,
    hle2.joins _ _ (good_find_of_constructJoin hs h hc), ?_, ?_, ?_, ?_⟩
  · obtain ⟨p, hp, hf⟩ := derive_registered hd
    cases hp
    exact hf
  · rw [sig_le hg1.wf hle2 (lt_of_heap hT)]
    exact hsig
  · intro p Z hp hZ
    have hpg : p ≠ g := fun e => by
      rw [e] at hp
      exact Nat.lt_irrefl _ (Nat.lt_of_lt_of_le hglt hp)
    have hZ1 : m1.heap[p]? = some Z := by
      rcases derive_cases hd with ⟨_, _, _, he⟩ | ⟨_, _, g', G', hg', _, hheap, _⟩
      · rw [← he]; exact hZ
      · cases hg'
        rw [hheap] at hZ
        rcases getElem?_set_cases _ _ _ _ _ hZ with ⟨e, _⟩ | ⟨_, hq⟩
        · exact absurd e hpg
        · exact hq
    rcases hcase with ⟨he, _⟩ | ⟨ht, hheap, hab⟩
    · rw [he] at hZ1
      exact absurd (lt_of_heap hZ1) (not_lt.mpr hp)
    · rw [hheap] at hZ1
      rcases (getElem?_snoc _ _ _ _).mp hZ1 with hq | ⟨hq, hz⟩
      · exact absurd (lt_of_heap hq) (not_lt.mpr hp)
      · subst hz
        refine ⟨hq.trans ht.symm, ?_, rfl, hab⟩
        rw [hq]
  · intro G2 hG2 e he
    rcases derive_cases hd with ⟨_, _, _, he2⟩ | ⟨_, _, g', G', hg', hG', hheap, _⟩
    · rw [he2] at hG2
      rw [hkeep1 g G hG] at hG2
      cases hG2
      exact Or.inl he
    · cases hg'
      rw [hkeep1 g G hG] at hG'
      cases hG'
      rw [hheap] at hG2
      rcases getElem?_set_cases _ _ _ _ _ hG2 with ⟨_, hz, _⟩ | ⟨hq, _⟩
      swap
      · exact absurd rfl hq
      subst hz
      rcases List.mem_append.mp he with h1 | h1
      · exact Or.inl h1
      · exact Or.inr (List.mem_singleton.mp h1)

/-- The associate loop on a good memo returns and keeps the memo good when
every request is safe; the groups it creates and the expressions it appends
are those of its requests. -/
theorem assoc_good {s : String} (hs : IsAorC s) {g L R : Ptr} (es : List expr) :
    ∀ {m : memo} {G LL RR : grp}, Good s m → m.heap[g]? = some G →
      expr.ofJoin ⟨some g, some L, some R⟩ ∈ G.exprs → m.heap[L]? = some LL →
      m.heap[R]? = some RR → (∀ e ∈ es, e ∈ LL.exprs) →
      (∀ y x, expr.ofJoin ⟨some L, some y, some x⟩ ∈ es → ReqSafe m x R) →
      ∃ m', join.associate ⟨some g, some L, some R⟩ es m = .ok m' ∧ Good s m' ∧
        NewGrps (fun y x r => r = R ∧ expr.ofJoin ⟨some L, some y, some x⟩ ∈ es) m m' ∧
        NewExprs g (fun _ _ => False)
          (fun y x r => r = R ∧ expr.ofJoin ⟨some L, some y, some x⟩ ∈ es) m m' ∧
        ∀ y x, expr.ofJoin ⟨some L, some y, some x⟩ ∈ es →
          ∃ t, m'.findJoin ⟨none, some x, some R⟩ = some t ∧
            m'.findJoin ⟨none, some y, some t⟩ = some g := by
  induction es with
  | nil =>
    intro m G LL RR h hG hj hL hR _ _
    exact ⟨m, rfl, h, newGrps_refl _ _, newExprs_refl _ _ _ _, fun y x hx => by cases hx⟩
  | cons e rest ih =>
    intro m G LL RR h hG hj hL hR hes hsafe
    cases e with
    | ofRel r0 =>
      obtain ⟨m', hm', hgood, hng, hne, hpost⟩ := ih h hG hj hL hR
        (fun e he => hes e (List.mem_cons_of_mem _ he))
        (fun y x hx => hsafe y x (List.mem_cons_of_mem _ hx))
      refine ⟨m', by simpa [join.associate] using hm', hgood,
        newGrps_mono (fun y x r hr => ⟨hr.1, List.mem_cons_of_mem _ hr.2⟩) hng,
        newExprs_mono (fun _ _ hf => hf) (fun y x r hr => ⟨hr.1, List.mem_cons_of_mem _ hr.2⟩) hne,
        ?_⟩
      intro y x hx
      rcases List.mem_cons.mp hx with hx | hx
      · cases hx
      · exact hpost y x hx
    | ofJoin lj =>
      have hlj : expr.ofJoin lj ∈ LL.exprs := hes _ (List.mem_cons_self _ _)
      obtain ⟨y, x, _, _, he2, _, _, _, _⟩ := h.expr_shape hL hlj
      subst he2
      obtain ⟨hLg, hRg⟩ := h.child_ne hG hj
      obtain ⟨_, _, _, _, he1, _, _, hdLR, huLR⟩ := h.expr_shape hG hj
      cases he1
      have hshape : ∀ y' x', expr.ofJoin ⟨some L, some y', some x'⟩ ∈ expr.ofJoin
          ⟨some L, some y, some x⟩ :: rest → (∃ X', m.heap[x']? = some X') ∧
            Disjoint (m.sig x') (m.sig R) := by
        intro y' x' hx'
        obtain ⟨_, _, _, X', he, _, hX', _, hu'⟩ := h.expr_shape hL (hes _ hx')
        cases he
        refine ⟨⟨X', hX'⟩, Disjoint.mono_left ?_ hdLR⟩
        rw [← hu']
        exact Finset.subset_union_right
      obtain ⟨m1, t, m2, hc, hd, hg2, hle, hfr, hf1, hf2, hsig, hnew, hexp⟩ :=
        assoc_step hs h hG hj hL hR hlj (hsafe y x (List.mem_cons_self _ _))
          (fun _ => "associate collision!")
      obtain ⟨G2, hG2, _, _, hpre⟩ := hfr.own G hG
      have hsafe2 : ∀ y' x', expr.ofJoin ⟨some L, some y', some x'⟩ ∈ rest →
          ReqSafe m2 x' R := by
        intro y' x' hx' t' T' hT' hs'
        obtain ⟨⟨X', hX'⟩, hdx⟩ := hshape y' x' (List.mem_cons_of_mem _ hx')
        rw [sig_le h.wf hle (lt_of_heap hX'), sig_le h.wf hle (lt_of_heap hR)] at hs'
        by_cases hlt : t' < m.heap.length
        · rw [sig_le h.wf hle hlt] at hs'
          exact hle.joins _ _ (hsafe y' x' (List.mem_cons_of_mem _ hx') t' _
            (List.getElem?_eq_getElem hlt) hs')
        · obtain ⟨ht, _⟩ := hnew t' T' (not_lt.mp hlt) hT'
          rw [ht, hsig] at hs'
          have hxx := union_left_cancel (hshape y x (List.mem_cons_self _ _)).2 hdx hs'
          obtain ⟨X, hX⟩ := (hshape y x (List.mem_cons_self _ _)).1
          have := h.inj x x' _ _ hX hX' hxx
          rw [← this, ht]
          exact hf1
      obtain ⟨m', hm', hgood, hng, hne, hpost⟩ := ih hg2 hG2 (hpre.subset hj)
        (hfr.other L LL hLg hL) (hfr.other R RR hRg hR)
        (fun e he => hes e (List.mem_cons_of_mem _ he)) hsafe2
      have hle2 : m2.le m' := memo.le_stepRel.associate _ rest hm'
      have hfr2 : Frame g m2 m' := frame_associate _ rfl rest (lt_of_heap hG2) hm'
      have hglt : g < m.heap.length := lt_of_heap hG
      have hRQ : ∀ y' x' r, (r = R ∧ expr.ofJoin ⟨some L, some y', some x'⟩ ∈ expr.ofJoin
          ⟨some L, some y, some x⟩ :: rest) → x' < m.heap.length ∧ r < m.heap.length := by
        intro y' x' r hr
        rw [hr.1]
        obtain ⟨X', hX'⟩ := (hshape y' x' hr.2).1
        exact ⟨lt_of_heap hX', lt_of_heap hR⟩
      refine ⟨m', ?_, hgood, ?_, ?_, ?_⟩
      · simp only [join.associate, hc, hd]
        exact hm'
      · refine newGrps_trans h.wf hle ?_ ?_
          (newGrps_mono (fun y x r hr => ⟨hr.1, List.mem_cons_of_mem _ hr.2⟩) hng) hRQ
        · intro p X hp hX
          obtain ⟨_, h1, h2, h3⟩ := hnew p X hp hX
          exact ⟨y, x, R, ⟨rfl, List.mem_cons_self _ _⟩, h1, h2, h3⟩
        · intro p X hp hX
          refine hfr2.other p X ?_ hX
          intro e
          rw [e] at hp
          exact Nat.lt_irrefl _ (Nat.lt_of_lt_of_le hglt hp)
      · refine newExprs_trans h hg2.wf hle hle2 ?_
          (newExprs_mono (fun _ _ hf => hf)
            (fun y x r hr => ⟨hr.1, List.mem_cons_of_mem _ hr.2⟩) hne) hRQ
        intro G0 G0' h0 h0' e he
        rw [hG] at h0
        cases h0
        rcases hexp G0' h0' e he with h1 | h1
        · exact Or.inl h1
        · exact Or.inr (Or.inr ⟨y, x, R, t, ⟨rfl, List.mem_cons_self _ _⟩, h1, hsig⟩)
      · intro y' x' hx'
        rcases List.mem_cons.mp hx' with hx' | hx'
        · cases hx'
          exact ⟨t, hle2.joins _ _ hf1, hle2.joins _ _ hf2⟩
        · exact hpost y' x' hx'

theorem derive_len {m m' : memo} {j d : join} {msg : String → String}
    (h : join.derive m j d msg = .ok m') : m'.heap.length = m.heap.length := by
  rcases derive_cases h with ⟨_, _, _, he⟩ | ⟨_, _, g, G, _, _, hheap, _⟩
  · rw [he]
  · rw [hheap, List.length_set]

/-- Firing both rules on a join of a good memo: `join.explore` returns and
keeps the memo good when every request is safe. -/
theorem fire_good {s : String} (hs : IsAorC s) {m : memo} (h : Good s m) {g L R : Ptr}
    {G LL : grp} (hG : m.heap[g]? = some G)
    (hj : expr.ofJoin ⟨some g, some L, some R⟩ ∈ G.exprs) (hL : m.heap[L]? = some LL)
    (hsafe : ∀ y x, expr.ofJoin ⟨some L, some y, some x⟩ ∈ LL.exprs → ReqSafe m x R) :
    ∃ m', join.explore m ⟨some g, some L, some R⟩ = .ok m' ∧ Good s m' ∧
      NewGrps (fun y x r => r = R ∧ expr.ofJoin ⟨some L, some y, some x⟩ ∈ LL.exprs) m m' ∧
      NewExprs g (fun l r => l = L ∧ r = R)
        (fun y x r => r = R ∧ expr.ofJoin ⟨some L, some y, some x⟩ ∈ LL.exprs) m m' ∧
      m'.findJoin ⟨none, some R, some L⟩ = some g ∧
      ∀ y x, expr.ofJoin ⟨some L, some y, some x⟩ ∈ LL.exprs →
        ∃ t, m'.findJoin ⟨none, some x, some R⟩ = some t ∧
          m'.findJoin ⟨none, some y, some t⟩ = some g := by
  obtain ⟨_, _, LL', RR, he1, hL', hR, hdLR, huLR⟩ := h.expr_shape hG hj
  cases he1
  rw [hL] at hL'
  cases hL'
  obtain ⟨hLg, hRg⟩ := h.child_ne hG hj
  have hu : m.sig R ∪ m.sig L = m.sig g := by rw [Finset.union_comm]; exact huLR
  obtain ⟨m1, hd⟩ := derive_ok h (j := ⟨some g, some L, some R⟩)
    (fun s => "commute collision: " ++ s) hG hj hR hL hu
  have hg1 : Good s m1 := good_derive h (j := ⟨some g, some L, some R⟩) rfl hG hdLR.symm hu hd
  have hle1 : m.le m1 := memo.le_derive hd
  have hfr1 : Frame g m m1 := frame_derive (j := ⟨some g, some L, some R⟩) rfl hd
  have hlen : m1.heap.length = m.heap.length := derive_len hd
  obtain ⟨G1, hG1, _, _, hpre⟩ := hfr1.own G hG
  have hL1 := hfr1.other L LL hLg hL
  have hR1 := hfr1.other R RR hRg hR
  have hshape : ∀ y x, expr.ofJoin ⟨some L, some y, some x⟩ ∈ LL.exprs →
      x < m.heap.length := by
    intro y x hx
    obtain ⟨_, _, _, X', he, _, hX', _, _⟩ := h.expr_shape hL hx
    cases he
    exact lt_of_heap hX'
  have hsafe1 : ∀ y x, expr.ofJoin ⟨some L, some y, some x⟩ ∈ LL.exprs → ReqSafe m1 x R := by
    intro y x hx t T hT hs'
    have hlt : t < m.heap.length := by rw [← hlen]; exact lt_of_heap hT
    rw [sig_le h.wf hle1 hlt, sig_le h.wf hle1 (hshape y x hx),
      sig_le h.wf hle1 (lt_of_heap hR)] at hs'
    exact hle1.joins _ _ (hsafe y x hx t _ (List.getElem?_eq_getElem hlt) hs')
  obtain ⟨m', hm', hgood, hng, hne, hpost⟩ := assoc_good hs LL.exprs hg1 hG1 (hpre.subset hj)
    hL1 hR1 (fun e he => he) hsafe1
  have hle2 : m1.le m' := memo.le_stepRel.associate _ _ hm'
  have hRQ : ∀ y x r, (r = R ∧ expr.ofJoin ⟨some L, some y, some x⟩ ∈ LL.exprs) →
      x < m.heap.length ∧ r < m.heap.length := by
    intro y x r hr
    rw [hr.1]
    exact ⟨hshape y x hr.2, lt_of_heap hR⟩
  refine ⟨m', ?_, hgood, ?_, ?_, ?_, hpost⟩
  · simp only [join.explore, hd, deref_some hL1]
    exact hm'
  · refine newGrps_trans h.wf hle1 ?_ ?_ hng hRQ
    · intro p X hp hX
      rw [← hlen] at hp
      exact absurd (lt_of_heap hX) (not_lt.mpr hp)
    · intro p X hp hX
      rw [← hlen] at hp
      exact absurd (lt_of_heap hX) (not_lt.mpr hp)
  · refine newExprs_trans h hg1.wf hle1 hle2 ?_
      (newExprs_mono (fun _ _ hf => hf.elim) (fun _ _ _ hr => hr) hne) hRQ
    intro G0 G0' h0 h0' e he
    rw [hG] at h0
    cases h0
    rcases derive_cases hd with ⟨_, _, _, he2⟩ | ⟨_, _, g', G', hg', hG', hheap, _⟩
    · rw [he2, hG] at h0'
      cases h0'
      exact Or.inl he
    · cases hg'
      rw [hG] at hG'
      cases hG'
      rw [hheap] at h0'
      rcases getElem?_set_cases _ _ _ _ _ h0' with ⟨_, hz, _⟩ | ⟨hq, _⟩
      swap
      · exact absurd rfl hq
      subst hz
      rcases List.mem_append.mp he with h1 | h1
      · exact Or.inl h1
      · exact Or.inr (Or.inl ⟨L, R, ⟨rfl, rfl⟩, List.mem_singleton.mp h1⟩)
  · obtain ⟨p, hp, hf⟩ := derive_registered hd
    cases hp
    exact hle2.joins _ _ hf

/-! ## The second loop of a pass on a good memo -/

theorem pairs_mono {m : memo} {g lo hi lo' hi' l r : Nat} (h1 : lo' ≤ lo) (h2 : hi ≤ hi')
    (h : Pairs m g lo hi l r) : Pairs m g lo' hi' l r := by
  obtain ⟨i, G, hlo, hhi, hG, he⟩ := h
  exact ⟨i, G, Nat.le_trans h1 hlo, Nat.lt_of_lt_of_le hhi h2, hG, he⟩

theorem reqs_mono {m : memo} {g lo hi lo' hi' y x r : Nat} (h1 : lo' ≤ lo) (h2 : hi ≤ hi')
    (h : Reqs m g lo hi y x r) : Reqs m g lo' hi' y x r := by
  obtain ⟨l, L, hp, hL, he⟩ := h
  exact ⟨l, L, pairs_mono h1 h2 hp, hL, he⟩

theorem pairs_split {m : memo} {g i hi l r : Nat} {G : grp} (hG : m.heap[g]? = some G)
    (h : Pairs m g i hi l r) :
    G.exprs[i]? = some (expr.ofJoin ⟨some g, some l, some r⟩) ∨ Pairs m g (i + 1) hi l r := by
  obtain ⟨i', G', hlo, hhi, hG', he⟩ := h
  rw [hG] at hG'
  cases hG'
  rcases Nat.eq_or_lt_of_le hlo with e | e
  · rw [e]
    exact Or.inl he
  · exact Or.inr ⟨i', G, e, hhi, hG, he⟩

theorem pairs_le {m m1 : memo} {g lo hi l r : Nat} {G G1 : grp} (hG : m.heap[g]? = some G)
    (hG1 : m1.heap[g]? = some G1) (hpre : G.exprs <+: G1.exprs) (h : Pairs m g lo hi l r) :
    Pairs m1 g lo hi l r := by
  obtain ⟨i, G', hlo, hhi, hG', he⟩ := h
  rw [hG] at hG'
  cases hG'
  exact ⟨i, G1, hlo, hhi, hG1, getElem?_of_prefix hpre he⟩

theorem pairs_ge {m m1 : memo} {g lo hi l r : Nat} {G G1 : grp} (hG : m.heap[g]? = some G)
    (hG1 : m1.heap[g]? = some G1) (hpre : G.exprs <+: G1.exprs) (hhi : hi ≤ G.exprs.length)
    (h : Pairs m1 g lo hi l r) : Pairs m g lo hi l r := by
  obtain ⟨i, G', hlo, hlt, hG', he⟩ := h
  rw [hG1] at hG'
  cases hG'
  have hi' : i < G.exprs.length := Nat.lt_of_lt_of_le hlt hhi
  have h1 : G.exprs[i]? = some G.exprs[i] := List.getElem?_eq_getElem hi'
  have h2 := getElem?_of_prefix hpre h1
  rw [he] at h2
  exact ⟨i, G, hlo, hlt, hG, by rw [h1, ← Option.some.inj h2]⟩

theorem Good.pairs_shape {s : String} {m : memo} (h : Good s m) {g lo hi l r : Nat}
    (hp : Pairs m g lo hi l r) : ∃ G L R, m.heap[g]? = some G ∧
      expr.ofJoin ⟨some g, some l, some r⟩ ∈ G.exprs ∧ m.heap[l]? = some L ∧
      m.heap[r]? = some R ∧ l ≠ g ∧ r ≠ g ∧ Disjoint (m.sig l) (m.sig r) ∧
      m.sig l ∪ m.sig r = m.sig g := by
  obtain ⟨i, G, _, _, hG, he⟩ := hp
  have hmem := List.getElem?_mem he
  obtain ⟨_, _, L, R, he1, hL, hR, hd, hu⟩ := h.expr_shape hG hmem
  cases he1
  obtain ⟨h1, h2⟩ := h.child_ne hG hmem
  exact ⟨G, L, R, hG, hmem, hL, hR, h1, h2, hd, hu⟩

theorem Good.reqs_shape {s : String} {m : memo} (h : Good s m) {g lo hi y x r : Nat}
    (hq : Reqs m g lo hi y x r) : ∃ Y X R, m.heap[y]? = some Y ∧ m.heap[x]? = some X ∧
      m.heap[r]? = some R ∧ Disjoint (m.sig x) (m.sig r) ∧ Disjoint (m.sig y) (m.sig x) ∧
      Disjoint (m.sig y) (m.sig r) ∧ m.sig y ∪ (m.sig x ∪ m.sig r) = m.sig g := by
  obtain ⟨l, L, hp, hL, he⟩ := hq
  obtain ⟨G, L', R, hG, _, hL', hR, _, _, hd, hu⟩ := h.pairs_shape hp
  obtain ⟨_, _, Y, X, he1, hY, hX, hd2, hu2⟩ := h.expr_shape hL he
  cases he1
  have hxL : m.sig x ⊆ m.sig l := by rw [← hu2]; exact Finset.subset_union_right
  have hyL : m.sig y ⊆ m.sig l := by rw [← hu2]; exact Finset.subset_union_left
  exact ⟨Y, X, R, hY, hX, hR, Disjoint.mono_left hxL hd, hd2, Disjoint.mono_left hyL hd,
    by rw [← hu, ← hu2, Finset.union_assoc]⟩

theorem reqs_le {s : String} {m m1 : memo} (h : Good s m) {g lo hi y x r : Nat} {G G1 : grp}
    (hG : m.heap[g]? = some G) (hG1 : m1.heap[g]? = some G1) (hpre : G.exprs <+: G1.exprs)
    (hother : ∀ (p : Ptr) (X : grp), p ≠ g → m.heap[p]? = some X → m1.heap[p]? = some X)
    (hq : Reqs m g lo hi y x r) : Reqs m1 g lo hi y x r := by
  obtain ⟨l, L, hp, hL, he⟩ := hq
  obtain ⟨_, _, _, _, _, _, _, hlg, _⟩ := h.pairs_shape hp
  exact ⟨l, L, pairs_le hG hG1 hpre hp, hother l L hlg hL, he⟩

theorem reqs_ge {s : String} {m m1 : memo} (h : Good s m) {g lo hi y x r : Nat} {G G1 : grp}
    (hG : m.heap[g]? = some G) (hG1 : m1.heap[g]? = some G1) (hpre : G.exprs <+: G1.exprs)
    (hother : ∀ (p : Ptr) (X : grp), p ≠ g → m.heap[p]? = some X → m1.heap[p]? = some X)
    (hhi : hi ≤ G.exprs.length) (hq : Reqs m1 g lo hi y x r) : Reqs m g lo hi y x r := by
  obtain ⟨l, L, hp, hL, he⟩ := hq
  have hp' := pairs_ge hG hG1 hpre hhi hp
  obtain ⟨_, L', _, _, _, hL', _, hlg, _⟩ := h.pairs_shape hp'
  have := hother l L' hlg hL'
  rw [hL] at this
  cases this
  exact ⟨l, L, hp', hL', he⟩

/-- The second loop of a pass on a good memo: it returns and keeps the memo
good when every request is safe and two requests for a set that no group joins
are the same request. -/
theorem loop_good {s : String} (hs : IsAorC s) {g : Ptr} :
    ∀ (rem i : Nat) {m : memo} {G : grp}, Good s m → m.heap[g]? = some G →
      i + rem ≤ G.exprs.length →
      (∀ y x r, Reqs m g i (i + rem) y x r → ReqSafe m x r) →
      (∀ y x r y' x' r', Reqs m g i (i + rem) y x r → Reqs m g i (i + rem) y' x' r' →
        m.sig x ∪ m.sig r = m.sig x' ∪ m.sig r' → Absent m (m.sig x ∪ m.sig r) →
        x = x' ∧ r = r') →
      ∃ m', exploreExprs g rem i m = .ok m' ∧ Good s m' ∧ Frame g m m' ∧
        NewGrps (Reqs m g i (i + rem)) m m' ∧
        NewExprs g (Pairs m g i (i + rem)) (Reqs m g i (i + rem)) m m' ∧
        (∀ l r, Pairs m g i (i + rem) l r → m'.findJoin ⟨none, some r, some l⟩ = some g) ∧
        ∀ y x r, Reqs m g i (i + rem) y x r →
          ∃ t, m'.findJoin ⟨none, some x, some r⟩ = some t ∧
            m'.findJoin ⟨none, some y, some t⟩ = some g := by
  intro rem
  induction rem with
  | zero =>
    intro i m G h hG _ _ _
    refine ⟨m, rfl, h, frame_refl _ _, newGrps_refl _ _, newExprs_refl _ _ _ _, ?_, ?_⟩
    · rintro l r ⟨i', _, h1, h2, _⟩
      omega
    · rintro y x r ⟨_, _, ⟨i', _, h1, h2, _⟩, _⟩
      omega
  | succ rem ih =>
    intro i m G h hG hlen hsafe hclash
    have hi : i < G.exprs.length := by omega
    have he : G.exprs[i]? = some G.exprs[i] := List.getElem?_eq_getElem hi
    have hrange : i + 1 + rem = i + (rem + 1) := by omega
    cases hei : G.exprs[i] with
    | ofRel r0 =>
      rw [hei] at he
      obtain ⟨m', hm', hgood, hfr, hng, hne, hcom, hpost⟩ := ih (i + 1) h hG (by omega)
        (fun y x r hq => hsafe y x r (reqs_mono (Nat.le_succ i) (by omega) hq))
        (fun y x r y' x' r' hq hq' => hclash y x r y' x' r'
          (reqs_mono (Nat.le_succ i) (by omega) hq) (reqs_mono (Nat.le_succ i) (by omega) hq'))
      have hsplit : ∀ l r, Pairs m g i (i + (rem + 1)) l r →
          Pairs m g (i + 1) (i + 1 + rem) l r := by
        intro l r hp
        rcases pairs_split hG hp with h1 | h1
        · rw [he] at h1
          cases h1
        · rw [hrange]
          exact h1
      have hsplitq : ∀ y x r, Reqs m g i (i + (rem + 1)) y x r →
          Reqs m g (i + 1) (i + 1 + rem) y x r := by
        rintro y x r ⟨l, L, hp, hL, hx⟩
        exact ⟨l, L, hsplit l r hp, hL, hx⟩
      refine ⟨m', ?_, hgood, hfr,
        newGrps_mono (fun y x r hq => reqs_mono (Nat.le_succ i) (by omega) hq) hng,
        newExprs_mono (fun l r hp => pairs_mono (Nat.le_succ i) (by omega) hp)
          (fun y x r hq => reqs_mono (Nat.le_succ i) (by omega) hq) hne,
        fun l r hp => hcom l r (hsplit l r hp), fun y x r hq => hpost y x r (hsplitq y x r hq)⟩
      simp only [exploreExprs, deref_some hG, List.get?_eq_getElem?, he, expr.explore]
      exact hm'
    | ofJoin j =>
      rw [hei] at he
      have hmem : expr.ofJoin j ∈ G.exprs := List.getElem?_mem he
      obtain ⟨l, r, L, R, he1, hL, hR, hdLR, huLR⟩ := h.expr_shape hG hmem
      subst he1
      obtain ⟨hlg, hrg⟩ := h.child_ne hG hmem
      have hp0 : Pairs m g i (i + (rem + 1)) l r := ⟨i, G, Nat.le_refl _, by omega, hG, he⟩
      have hq0 : ∀ y x r', (r' = r ∧ expr.ofJoin ⟨some l, some y, some x⟩ ∈ L.exprs) →
          Reqs m g i (i + (rem + 1)) y x r' := by
        rintro y x r' ⟨rfl, hx⟩
        exact ⟨l, L, hp0, hL, hx⟩
      obtain ⟨m1, hm1, hg1, hng1, hne1, hcom1, hpost1⟩ := fire_good hs h hG hmem hL
        (fun y x hx => hsafe y x r (hq0 y x r ⟨rfl, hx⟩))
      have hle1 : m.le m1 := memo.le_stepRel.joinExplore hm1
      have hfr1 : Frame g m m1 := frame_joinExplore (j := ⟨some g, some l, some r⟩) rfl
        (lt_of_heap hG) hm1
      obtain ⟨G1, hG1, _, _, hpre⟩ := hfr1.own G hG
      have hback : ∀ y x r', Reqs m1 g (i + 1) (i + 1 + rem) y x r' →
          Reqs m g i (i + (rem + 1)) y x r' := fun y x r' hq =>
        reqs_mono (Nat.le_succ i) (by omega)
          (reqs_ge h hG hG1 hpre hfr1.other (by omega) hq)
      have hRQ : ∀ y x r', Reqs m g i (i + (rem + 1)) y x r' →
          x < m.heap.length ∧ r' < m.heap.length := by
        intro y x r' hq
        obtain ⟨_, _, _, _, hX, hR', _⟩ := h.reqs_shape hq
        exact ⟨lt_of_heap hX, lt_of_heap hR'⟩
      have hsafe1 : ∀ y x r', Reqs m1 g (i + 1) (i + 1 + rem) y x r' → ReqSafe m1 x r' := by
        intro y x r' hq t T hT hs'
        have hq' := hback y x r' hq
        obtain ⟨hxlt, hrlt⟩ := hRQ y x r' hq'
        rw [sig_le h.wf hle1 hxlt, sig_le h.wf hle1 hrlt] at hs'
        by_cases hlt : t < m.heap.length
        · rw [sig_le h.wf hle1 hlt] at hs'
          exact hle1.joins _ _ (hsafe y x r' hq' t _ (List.getElem?_eq_getElem hlt) hs')
        · obtain ⟨y0, x0, r0, hrq0, hex, _, hab⟩ := hng1 t T (not_lt.mp hlt) hT
          have hq0' := hq0 y0 x0 r0 hrq0
          obtain ⟨hx0, hr0⟩ := hRQ y0 x0 r0 hq0'
          have hmem0 : expr.ofJoin ⟨some t, some x0, some r0⟩ ∈ T.exprs := by
            rw [hex]
            exact List.mem_singleton.mpr rfl
          obtain ⟨_, _, hl0, hr0', _, hu0⟩ := hg1.part t T _ hT hmem0
          simp only [Option.some.injEq] at hl0 hr0'
          subst hl0
          subst hr0'
          rw [← hu0, sig_le h.wf hle1 hx0, sig_le h.wf hle1 hr0] at hs'
          obtain ⟨e1, e2⟩ := hclash y0 x0 r0 y x r' hq0' hq' hs' hab
          subst e1
          subst e2
          exact hg1.wf.expReg t T _ hT hmem0
      have hclash1 : ∀ y x r' y' x' r'', Reqs m1 g (i + 1) (i + 1 + rem) y x r' →
          Reqs m1 g (i + 1) (i + 1 + rem) y' x' r'' →
          m1.sig x ∪ m1.sig r' = m1.sig x' ∪ m1.sig r'' → Absent m1 (m1.sig x ∪ m1.sig r') →
          x = x' ∧ r' = r'' := by
        intro y x r' y' x' r'' hq hq' hs' hab
        have hqa := hback y x r' hq
        have hqb := hback y' x' r'' hq'
        obtain ⟨hx, hr⟩ := hRQ y x r' hqa
        obtain ⟨hx', hr'⟩ := hRQ y' x' r'' hqb
        rw [sig_le h.wf hle1 hx, sig_le h.wf hle1 hr] at hs' hab
        rw [sig_le h.wf hle1 hx', sig_le h.wf hle1 hr'] at hs'
        exact hclash y x r' y' x' r'' hqa hqb hs' (absent_of_le h.wf hle1 hab)
      obtain ⟨m', hm', hgood, hfr2, hng, hne, hcom, hpost⟩ := ih (i + 1) hg1 hG1
        (Nat.le_trans (by omega) hpre.length_le) hsafe1 hclash1
      have hle2 : m1.le m' := memo.le_stepRel.exploreExprs g rem (i + 1) hm'
      have hglt : g < m.heap.length := lt_of_heap hG
      refine ⟨m', ?_, hgood, frame_trans hglt hfr1 hfr2, ?_, ?_, ?_, ?_⟩
      · simp only [exploreExprs, deref_some hG, List.get?_eq_getElem?, he, expr.explore, hm1]
        exact hm'
      · refine newGrps_trans h.wf hle1 (newGrps_mono hq0 hng1) ?_ (newGrps_mono hback hng) hRQ
        intro p X hp hX
        refine hfr2.other p X ?_ hX
        intro e
        rw [e] at hp
        exact Nat.lt_irrefl _ (Nat.lt_of_lt_of_le hglt hp)
      · refine newExprs_trans h hg1.wf hle1 hle2
          (newExprs_mono (fun l' r' hp => ?_) hq0 hne1)
          (newExprs_mono (fun l' r' hp => ?_) hback hne) hRQ
        · obtain ⟨e1, e2⟩ := hp
          rw [e1, e2]
          exact hp0
        · exact pairs_mono (Nat.le_succ i) (by omega) (pairs_ge hG hG1 hpre (by omega) hp)
      · intro l' r' hp
        rcases pairs_split hG hp with h1 | h1
        · rw [he] at h1
          cases h1
          exact hle2.joins _ _ hcom1
        · rw [← hrange] at h1
          exact hcom l' r' (pairs_le hG hG1 hpre h1)
      · rintro y x r' ⟨l', L', hp, hL', hx⟩
        rcases pairs_split hG hp with h1 | h1
        · rw [he] at h1
          cases h1
          rw [hL] at hL'
          cases hL'
          obtain ⟨t, h1, h2⟩ := hpost1 y x hx
          exact ⟨t, hle2.joins _ _ h1, hle2.joins _ _ h2⟩
        · rw [← hrange] at h1
          exact hpost y x r' (reqs_le h hG hG1 hpre hfr1.other ⟨l', L', h1, hL', hx⟩)

/-! ## Work below a group -/

theorem sub_refl (N : Ptr) (m : memo) : Sub N m m :=
  ⟨memo.le_refl m, fun _ _ h _ => h, fun _ h1 h2 => absurd h2 (not_lt.mpr h1),
    fun _ G h1 h2 => ⟨G, h1, h2⟩⟩

theorem sub_trans {N : Ptr} {m m1 m2 : memo} (hW : Wf m) (hW1 : Wf m1)
    (hN : N < m.heap.length) (h1 : Sub N m m1) (h2 : Sub N m1 m2) : Sub N m m2 := by
  have hsN : m1.sig N = m.sig N := sig_le hW h1.le hN
  refine ⟨memo.le_trans h1.le h2.le, ?_, ?_, ?_⟩
  · intro t T hT hn
    refine h2.keep t T (h1.keep t T hT hn) ?_
    rw [sig_le hW h1.le (lt_of_heap hT), hsN]
    exact hn
  · intro p hp hp2
    by_cases hlt : p < m1.heap.length
    · rw [sig_le hW1 h2.le hlt]
      exact h1.fresh p hp hlt
    · have := h2.fresh p (not_lt.mp hlt) hp2
      rw [hsN] at this
      exact this
  · intro q G hG hd
    obtain ⟨G1, hG1, hd1⟩ := h1.done q G hG hd
    exact h2.done q G1 hG1 hd1

theorem sub_mono {N Q : Ptr} {m m' : memo} (hs : m.sig Q ⊆ m.sig N) (h : Sub Q m m') :
    Sub N m m' :=
  ⟨h.le, fun t T hT hn => h.keep t T hT (fun hc => hn (hc.trans hs)),
    fun p h1 h2 => lt_of_lt_of_le (h.fresh p h1 h2) hs, h.done⟩

/-- A group that joins base relations of a done group is done. -/
theorem Good.done_below {s : String} {m : memo} (h : Good s m) {N t : Ptr} {T : grp}
    (hN : DoneAt m N) (hT : m.heap[t]? = some T) (hs : m.sig t ⊆ m.sig N) :
    T.done = true := by
  obtain ⟨G, hG, hd⟩ := hN
  rcases eq_or_ssubset_of_subset hs with he | hss
  · have := h.inj t N T G hT hG he
    subst this
    rw [hT] at hG
    cases hG
    exact hd
  · obtain ⟨l, r, L, R, hL, _, hl, _, _, hLd, _⟩ :=
      h.complete N G hG hd (m.sig t) (h.ne t T hT) hss
    have := h.inj l t L T hL hT hl
    subst this
    rw [hT] at hL
    cases hL
    exact hLd

/-- A subset of the base relations of a done group is joined by a group. -/
theorem Good.exists_below {s : String} {m : memo} (h : Good s m) {N : Ptr} (hN : DoneAt m N)
    {A : Finset Ptr} (hA : A.Nonempty) (hs : A ⊆ m.sig N) :
    ∃ t T, m.heap[t]? = some T ∧ m.sig t = A := by
  obtain ⟨G, hG, hd⟩ := hN
  rcases eq_or_ssubset_of_subset hs with he | hss
  · exact ⟨N, G, hG, he.symm⟩
  · obtain ⟨l, r, L, R, hL, _, hl, _⟩ := h.complete N G hG hd A hA hss
    exact ⟨l, L, hL, hl⟩

/-- Both children of an expression of a done group are done. -/
theorem Good.child_done {s : String} {m : memo} (h : Good s m) {p y x : Ptr} {P : grp}
    (hP : m.heap[p]? = some P) (hd : P.done = true)
    (he : expr.ofJoin ⟨some p, some y, some x⟩ ∈ P.exprs) : DoneAt m y ∧ DoneAt m x := by
  obtain ⟨_, _, Y, X, he1, hY, hX, hdj, hu⟩ := h.expr_shape hP he
  cases he1
  have hy : m.sig y ⊆ m.sig p := by rw [← hu]; exact Finset.subset_union_left
  have hx : m.sig x ⊆ m.sig p := by rw [← hu]; exact Finset.subset_union_right
  exact ⟨⟨Y, hY, h.done_below ⟨P, hP, hd⟩ hY hy⟩, ⟨X, hX, h.done_below ⟨P, hP, hd⟩ hX hx⟩⟩

theorem doneAt_of_doneLe {m m' : memo} (h : DoneLe m m') {p : Ptr} (hp : DoneAt m p) :
    DoneAt m' p := by
  obtain ⟨G, hG, hd⟩ := hp
  exact h p G hG hd

/-! ## A group closed under both rules holds every split -/

/-- A group whose expressions are closed under the commute and the associate
rule, and whose children are done, holds every ordered split of its base
relations. -/
theorem complete_of_closed {s : String} {m : memo} (h : Good s m) {N : Ptr} {G : grp}
    (hG : m.heap[N]? = some G) {l0 r0 : Ptr}
    (h0 : expr.ofJoin ⟨some N, some l0, some r0⟩ ∈ G.exprs)
    (hdone : ∀ l r, expr.ofJoin ⟨some N, some l, some r⟩ ∈ G.exprs → DoneAt m l ∧ DoneAt m r)
    (hcom : ∀ l r, expr.ofJoin ⟨some N, some l, some r⟩ ∈ G.exprs →
      m.findJoin ⟨none, some r, some l⟩ = some N)
    (hassoc : ∀ (l r y x : Ptr) (L : grp), expr.ofJoin ⟨some N, some l, some r⟩ ∈ G.exprs →
      m.heap[l]? = some L → expr.ofJoin ⟨some l, some y, some x⟩ ∈ L.exprs →
      ∃ t, m.findJoin ⟨none, some x, some r⟩ = some t ∧
        m.findJoin ⟨none, some y, some t⟩ = some N) :
    ∀ A : Finset Ptr, A.Nonempty → A ⊂ m.sig N →
      ∃ l r L R, m.heap[l]? = some L ∧ m.heap[r]? = some R ∧ m.sig l = A ∧
        m.sig r = m.sig N \ A ∧ expr.ofJoin ⟨some N, some l, some r⟩ ∈ G.exprs ∧
        L.done = true ∧ R.done = true := by
  have reg : ∀ l r, m.findJoin ⟨none, some l, some r⟩ = some N →
      expr.ofJoin ⟨some N, some l, some r⟩ ∈ G.exprs := by
    intro l r hf
    obtain ⟨G', hG', hm⟩ := h.inv.reg _ _ hf
    rw [hG] at hG'
    cases hG'
    exact hm
  have comm : ∀ l r, expr.ofJoin ⟨some N, some l, some r⟩ ∈ G.exprs →
      expr.ofJoin ⟨some N, some r, some l⟩ ∈ G.exprs := fun l r hm => reg r l (hcom l r hm)
  have rsig : ∀ l r, expr.ofJoin ⟨some N, some l, some r⟩ ∈ G.exprs →
      m.sig r = m.sig N \ m.sig l := by
    intro l r hm
    obtain ⟨_, _, _, _, he, _, _, hd, hu⟩ := h.expr_shape hG hm
    cases he
    rw [← hu, union_sdiff_of_disjoint hd]
  have shrink : ∀ l r, expr.ofJoin ⟨some N, some l, some r⟩ ∈ G.exprs →
      ∀ U : Finset Ptr, U.Nonempty → U ⊆ m.sig l →
        ∃ u t, expr.ofJoin ⟨some N, some u, some t⟩ ∈ G.exprs ∧ m.sig u = U := by
    intro l r hm U hU hs
    rcases eq_or_ssubset_of_subset hs with he | hss
    · exact ⟨l, r, hm, he.symm⟩
    · obtain ⟨L, hL, hLd⟩ := (hdone l r hm).1
      obtain ⟨u, v, _, _, _, _, hu, _, hmem, _⟩ := h.complete l L hL hLd U hU hss
      obtain ⟨t, _, hf⟩ := hassoc l r u v L hm hL hmem
      exact ⟨u, t, reg u t hf, hu⟩
  have finish : ∀ l r, expr.ofJoin ⟨some N, some l, some r⟩ ∈ G.exprs →
      ∃ L R, m.heap[l]? = some L ∧ m.heap[r]? = some R ∧
        m.sig r = m.sig N \ m.sig l ∧ expr.ofJoin ⟨some N, some l, some r⟩ ∈ G.exprs ∧
        L.done = true ∧ R.done = true := by
    intro l r hm
    obtain ⟨⟨L, hL, hLd⟩, ⟨R, hR, hRd⟩⟩ := hdone l r hm
    exact ⟨L, R, hL, hR, rsig l r hm, hm, hLd, hRd⟩
  obtain ⟨_, _, L0, _, he0, hL0, _, _, hu0⟩ := h.expr_shape hG h0
  cases he0
  obtain ⟨e, he⟩ := h.ne l0 L0 hL0
  obtain ⟨u1, t1, hm1, hs1⟩ := shrink l0 r0 h0 {e} (Finset.singleton_nonempty e)
    (Finset.singleton_subset_iff.mpr he)
  have hm1' := comm u1 t1 hm1
  have hst1 : m.sig t1 = m.sig N \ {e} := by rw [rsig u1 t1 hm1, hs1]
  intro A hA hss
  by_cases hea : e ∈ A
  · have hA' : (m.sig N \ A).Nonempty := by
      rw [Finset.sdiff_nonempty]
      exact hss.2
    have hsub : m.sig N \ A ⊆ m.sig t1 := by
      rw [hst1]
      exact Finset.sdiff_subset_sdiff (Finset.Subset.refl _) (Finset.singleton_subset_iff.mpr hea)
    obtain ⟨u, t, hm, hu⟩ := shrink t1 u1 hm1' _ hA' hsub
    obtain ⟨L, R, hL, hR, hr, hmem, hLd, hRd⟩ := finish t u (comm u t hm)
    have hst : m.sig t = A := by
      rw [rsig u t hm, hu]
      exact Finset.sdiff_sdiff_eq_self hss.1
    refine ⟨t, u, L, R, hL, hR, hst, ?_, hmem, hLd, hRd⟩
    rw [hu]
  · have hsub : A ⊆ m.sig t1 := by
      rw [hst1]
      intro a ha
      rw [Finset.mem_sdiff, Finset.mem_singleton]
      exact ⟨hss.1 ha, fun hc => hea (hc ▸ ha)⟩
    obtain ⟨u, t, hm, hu⟩ := shrink t1 u1 hm1' A hA hsub
    obtain ⟨L, R, hL, hR, hr, hmem, hLd, hRd⟩ := finish u t hm
    refine ⟨u, t, L, R, hL, hR, hu, ?_, hmem, hLd, hRd⟩
    rw [hr, hu]

/-! ## The first loop of a pass -/

/-- Forcing one group below `N`: it is done already, or it holds a single pair
`(w, B)` and the loop `for !done` on it returns. -/
theorem child_forced {s : String} {c : Nat} (ih : ForceSpec s c) {m0 m : memo} {N B q : Ptr}
    {G Q : grp} (h : Good s m) (hG : m.heap[N]? = some G) (hc : (m.sig N).card ≤ c)
    (hB : DoneAt m B) (hP : PendFrom m0 m N B) (hQ : m.heap[q]? = some Q)
    (hq : m.sig q ⊂ m.sig N) :
    ∃ m1, Forced (some q) m m1 ∧ Good s m1 ∧ Sub N m m1 ∧ m1.heap[N]? = some G ∧
      PendFrom m0 m1 N B ∧ DoneAt m1 q := by
  by_cases hd : Q.done = true
  · exact ⟨m, forced_done hQ hd, h, sub_refl N m, hG, hP, ⟨Q, hQ, hd⟩⟩
  rcases hP q Q hQ hq with hd' | ⟨_, w, hex, hw⟩
  · exact absurd hd' hd
  have hpre : CorePre s m q w B := by
    refine ⟨h, ⟨Q.name, ?_⟩, hw, hB, ?_⟩
    · have hdf : Q.done = false := by simpa using hd
      rw [hQ]
      cases Q
      simp only at hex hdf
      subst hex
      subst hdf
      rfl
    · intro t T hT hlt
      rcases hP t T hT (lt_trans hlt hq) with h1 | ⟨_, h2⟩
      · exact Or.inl h1
      · exact Or.inr ⟨hT, h2⟩
  obtain ⟨m1, hf, hg1, hsub, hdq⟩ := ih m q w B
    (lt_of_lt_of_le (Finset.card_lt_card hq) hc) hpre
  have hsN : m1.sig N = m.sig N := sig_le h.wf hsub.le (lt_of_heap hG)
  have hsq : m1.sig q = m.sig q := sig_le h.wf hsub.le (lt_of_heap hQ)
  refine ⟨m1, hf, hg1, sub_mono hq.1 hsub, hsub.keep N G hG hq.2, ?_, hdq⟩
  intro t T hT hlt
  by_cases htl : t < m.heap.length
  · have hst : m1.sig t = m.sig t := sig_le h.wf hsub.le htl
    by_cases hsq' : m.sig t ⊆ m.sig q
    · exact Or.inl (hg1.done_below hdq hT (by rw [hst, hsq]; exact hsq'))
    · have hT0 : m.heap[t]? = some m.heap[t] := List.getElem?_eq_getElem htl
      have := hsub.keep t _ hT0 hsq'
      rw [hT] at this
      cases this
      rw [hst, hsN] at hlt
      rcases hP t _ hT0 hlt with h1 | ⟨h2, w', hex', hw'⟩
      · exact Or.inl h1
      · exact Or.inr ⟨h2, w', hex', doneAt_of_doneLe hsub.done hw'⟩
  · have := hsub.fresh t (not_lt.mp htl) (lt_of_heap hT)
    exact Or.inl (hg1.done_below hdq hT (by rw [hsq]; exact this.1))

/-- The first loop of a pass over `N` returns when the groups below `N` are
done or hold a single pair `(w, B)`; afterwards the children of the
expressions it visited are done. -/
theorem children_good {s : String} {c : Nat} (ih : ForceSpec s c) {m0 : memo} {N B : Ptr}
    {G : grp} : ∀ (rem i : Nat) (m : memo), Good s m → m.heap[N]? = some G →
      (m.sig N).card ≤ c → i + rem ≤ G.exprs.length → DoneAt m B → PendFrom m0 m N B →
      ∃ m', Childrened N rem i m m' ∧ Good s m' ∧ Sub N m m' ∧ m'.heap[N]? = some G ∧
        PendFrom m0 m' N B ∧
        ∀ l r, Pairs m N i (i + rem) l r → DoneAt m' l ∧ DoneAt m' r := by
  intro rem
  induction rem with
  | zero =>
    intro i m h hG _ _ _ hP
    refine ⟨m, childrened_zero _ _ _, h, sub_refl _ _, hG, hP, ?_⟩
    rintro l r ⟨i', _, h1, h2, _⟩
    omega
  | succ rem ih2 =>
    intro i m h hG hc hlen hB hP
    have hi : i < G.exprs.length := by omega
    have he : G.exprs[i]? = some G.exprs[i] := List.getElem?_eq_getElem hi
    have hrange : i + 1 + rem = i + (rem + 1) := by omega
    cases hei : G.exprs[i] with
    | ofRel r0 =>
      rw [hei] at he
      obtain ⟨m', hch, hg', hsub, hG', hP', hdone⟩ := ih2 (i + 1) m h hG hc (by omega) hB hP
      refine ⟨m', childrened_rel hG he hch, hg', hsub, hG', hP', ?_⟩
      intro l r hp
      rcases pairs_split hG hp with h1 | h1
      · rw [he] at h1
        cases h1
      · rw [← hrange] at h1
        exact hdone l r h1
    | ofJoin j =>
      rw [hei] at he
      have hmem : expr.ofJoin j ∈ G.exprs := List.getElem?_mem he
      obtain ⟨l, r, L, R, he1, hL, hR, hdLR, huLR⟩ := h.expr_shape hG hmem
      subst he1
      have hl : m.sig l ⊂ m.sig N := by
        rw [← huLR]
        exact ssubset_union_left (h.ne r R hR) hdLR
      have hr : m.sig r ⊂ m.sig N := by
        rw [← huLR]
        exact ssubset_union_right (h.ne l L hL) hdLR
      have hNlt : N < m.heap.length := lt_of_heap hG
      obtain ⟨m1, hf1, hg1, hsub1, hG1, hP1, hd1⟩ := child_forced ih h hG hc hB hP hL hl
      have hsN1 : m1.sig N = m.sig N := sig_le h.wf hsub1.le hNlt
      obtain ⟨R1, hR1, _⟩ := hsub1.le.heap r R hR
      have hr1 : m1.sig r ⊂ m1.sig N := by
        rw [hsN1, sig_le h.wf hsub1.le (lt_of_heap hR)]
        exact hr
      obtain ⟨m2, hf2, hg2, hsub2, hG2, hP2, hd2⟩ := child_forced ih hg1 hG1
        (by rw [hsN1]; exact hc) (doneAt_of_doneLe hsub1.done hB) hP1 hR1 hr1
      have hsub12 : Sub N m m2 := sub_trans h.wf hg1.wf hNlt hsub1 hsub2
      have hsN2 : m2.sig N = m.sig N := sig_le h.wf hsub12.le hNlt
      obtain ⟨m', hch, hg', hsub3, hG', hP', hdone⟩ := ih2 (i + 1) m2 hg2 hG2
        (by rw [hsN2]; exact hc) (by omega) (doneAt_of_doneLe hsub12.done hB) hP2
      refine ⟨m', childrened_join hG he hf1 hf2 hch, hg',
        sub_trans h.wf hg2.wf hNlt hsub12 hsub3, hG', hP', ?_⟩
      intro l' r' hp
      rcases pairs_split hG hp with h1 | h1
      · rw [he] at h1
        cases h1
        exact ⟨doneAt_of_doneLe hsub3.done (doneAt_of_doneLe hsub2.done hd1),
          doneAt_of_doneLe hsub3.done hd2⟩
      · obtain ⟨i', G0, h2, h3, h4, h5⟩ := h1
        rw [hG] at h4
        cases h4
        exact hdone l' r' ⟨i', G, h2, by omega, hG2, h5⟩

/-! ## One pass over a group -/

theorem pairs_of_mem {m : memo} {N l r : Ptr} {G : grp} (hG : m.heap[N]? = some G)
    (h : expr.ofJoin ⟨some N, some l, some r⟩ ∈ G.exprs) :
    Pairs m N 0 G.exprs.length l r := by
  obtain ⟨i, hi⟩ := List.getElem?_of_mem h
  exact ⟨i, G, Nat.zero_le _, (List.getElem?_eq_some.mp hi).1, hG, hi⟩

theorem mem_of_pairs {m : memo} {N l r lo hi : Nat} {G : grp} (hG : m.heap[N]? = some G)
    (h : Pairs m N lo hi l r) : expr.ofJoin ⟨some N, some l, some r⟩ ∈ G.exprs := by
  obtain ⟨i, G', _, _, hG', he⟩ := h
  rw [hG] at hG'
  cases hG'
  exact List.getElem?_mem he

/-- The set a request asks for is a proper part of the base relations of the
group. -/
theorem Good.reqs_below {s : String} {m : memo} (h : Good s m) {g lo hi y x r : Nat}
    (hq : Reqs m g lo hi y x r) : m.sig x ∪ m.sig r ⊂ m.sig g := by
  obtain ⟨Y, X, R, hY, hX, hR, hd1, hd2, hd3, hu⟩ := h.reqs_shape hq
  rw [← hu]
  exact ssubset_union_right (h.ne y Y hY) (Finset.disjoint_union_right.mpr ⟨hd2, hd3⟩)

/-- A pass over `N`: when the groups below `N` that are not done hold a single
pair `(w, B)` and are children of expressions of `N`, the pass returns; if it
adds no expression, `N` holds every split of its base relations. -/
theorem pass_good {s : String} (hs : IsAorC s) {c : Nat} (ih : ForceSpec s c) {m : memo}
    {N B l0 r0 : Ptr} {G : grp} (h : Good s m) (hG : m.heap[N]? = some G)
    (hc : (m.sig N).card ≤ c) (h0 : expr.ofJoin ⟨some N, some l0, some r0⟩ ∈ G.exprs)
    (hB : DoneAt m B) (hP : PendFrom m m N B)
    (hchild : ∀ (t : Ptr) (T : grp), m.heap[t]? = some T → m.sig t ⊂ m.sig N →
      T.done = false → ∃ l r, expr.ofJoin ⟨some N, some l, some r⟩ ∈ G.exprs ∧ (t = l ∨ t = r))
    (hclash : ∀ m1, Good s m1 → Sub N m m1 → m1.heap[N]? = some G →
      ∀ y x r y' x' r', Reqs m1 N 0 G.exprs.length y x r →
        Reqs m1 N 0 G.exprs.length y' x' r' →
        m1.sig x ∪ m1.sig r = m1.sig x' ∪ m1.sig r' → Absent m1 (m1.sig x ∪ m1.sig r) →
        x = x' ∧ r = r') :
    ∃ m1 m2 G2, Explored N m m2 (G.exprs.length == G2.exprs.length) ∧
      m2.heap[N]? = some G2 ∧ Good s m1 ∧ Good s m2 ∧ Sub N m m1 ∧ m1.heap[N]? = some G ∧
      Frame N m1 m2 ∧ Sub N m1 m2 ∧
      (∀ (t : Ptr) (T : grp), m1.heap[t]? = some T → m1.sig t ⊂ m1.sig N → T.done = true) ∧
      NewGrps (Reqs m1 N 0 G.exprs.length) m1 m2 ∧
      NewExprs N (Pairs m1 N 0 G.exprs.length) (Reqs m1 N 0 G.exprs.length) m1 m2 ∧
      (∀ l r, Pairs m1 N 0 G.exprs.length l r →
        m2.findJoin ⟨none, some r, some l⟩ = some N) ∧
      (∀ y x r, Reqs m1 N 0 G.exprs.length y x r →
        ∃ t, m2.findJoin ⟨none, some x, some r⟩ = some t ∧
          m2.findJoin ⟨none, some y, some t⟩ = some N) ∧
      (G.exprs.length = G2.exprs.length → Good s (setDone m2 N true)) := by
  obtain ⟨m1, hch, hg1, hsub1, hG1, hP1, hdone1⟩ := children_good ih G.exprs.length 0 m h hG hc
    (by omega) hB hP
  rw [Nat.zero_add] at hdone1
  have hNlt : N < m.heap.length := lt_of_heap hG
  have hsN1 : m1.sig N = m.sig N := sig_le h.wf hsub1.le hNlt
  have hall : ∀ (t : Ptr) (T : grp), m1.heap[t]? = some T → m1.sig t ⊂ m1.sig N →
      T.done = true := by
    intro t T hT hlt
    rcases hP1 t T hT hlt with hd | ⟨hT0, _⟩
    · exact hd
    · by_contra hd
      have hdf : T.done = false := by simpa using hd
      rw [sig_le h.wf hsub1.le (lt_of_heap hT0), hsN1] at hlt
      obtain ⟨l, r, hmem, hlr⟩ := hchild t T hT0 hlt hdf
      obtain ⟨⟨L, hL, hLd⟩, ⟨R, hR, hRd⟩⟩ := hdone1 l r (pairs_of_mem hG hmem)
      rcases hlr with e | e
      · rw [← e, hT] at hL
        cases hL
        exact hd hLd
      · rw [← e, hT] at hR
        cases hR
        exact hd hRd
  have hsafe : ∀ y x r, Reqs m1 N 0 (0 + G.exprs.length) y x r → ReqSafe m1 x r := by
    intro y x r hq t T hT hs'
    obtain ⟨Y, X, R, hY, hX, hR, hd1, _, _, _⟩ := hg1.reqs_shape hq
    have hb := hg1.reqs_below hq
    rw [← hs'] at hb
    exact hg1.found hX hR hT (hall t T hT hb) hd1 hs'.symm
  obtain ⟨m2, hm2, hg2, hfr, hng, hne, hcom, hpost⟩ := loop_good hs G.exprs.length 0 hg1 hG1
    (by omega) hsafe (by
      rw [Nat.zero_add]
      exact hclash m1 hg1 hsub1 hG1)
  rw [Nat.zero_add] at hng hne hcom hpost
  obtain ⟨G2, hG2, _, _, hpre⟩ := hfr.own G hG1
  have hle12 : m1.le m2 := memo.le_stepRel.exploreExprs N _ 0 hm2
  have hsub2 : Sub N m1 m2 := by
    refine ⟨hle12, ?_, ?_, doneLe_stepRel.exploreExprs N _ 0 hm2⟩
    · intro t T hT hn
      refine hfr.other t T ?_ hT
      intro e
      rw [e] at hn
      exact hn (Finset.Subset.refl _)
    · intro p hp hp2
      have hX : m2.heap[p]? = some m2.heap[p] := List.getElem?_eq_getElem hp2
      obtain ⟨y, x, r, hq, hex, _, _⟩ := hng p _ hp hX
      have hmem : expr.ofJoin ⟨some p, some x, some r⟩ ∈ (m2.heap[p]).exprs := by
        rw [hex]
        exact List.mem_singleton.mpr rfl
      obtain ⟨_, _, hl0, hr0, _, hu0⟩ := hg2.part p _ _ hX hmem
      simp only [Option.some.injEq] at hl0 hr0
      subst hl0
      subst hr0
      obtain ⟨_, _, _, _, hX', hR', _⟩ := hg1.reqs_shape hq
      rw [← hu0, sig_le hg1.wf hle12 (lt_of_heap hX'), sig_le hg1.wf hle12 (lt_of_heap hR')]
      exact hg1.reqs_below hq
  refine ⟨m1, m2, G2, explored_intro hG hch hm2 hG2, hG2, hg1, hg2, hsub1, hG1, hfr, hsub2, hall,
    hng, hne, hcom, hpost, ?_⟩
  intro hlen
  have hex : G2.exprs = G.exprs := (hpre.eq_of_length hlen).symm
  have hmem1 : ∀ l r, expr.ofJoin ⟨some N, some l, some r⟩ ∈ G2.exprs →
      Pairs m1 N 0 G.exprs.length l r := by
    intro l r hm
    rw [hex] at hm
    exact pairs_of_mem hG1 hm
  have hmem0 : ∀ l r, expr.ofJoin ⟨some N, some l, some r⟩ ∈ G2.exprs →
      Pairs m N 0 G.exprs.length l r := by
    intro l r hm
    rw [hex] at hm
    exact pairs_of_mem hG hm
  have hkeep : ∀ l r, expr.ofJoin ⟨some N, some l, some r⟩ ∈ G2.exprs →
      l ≠ N ∧ r ≠ N := fun l r hm => hg2.child_ne hG2 hm
  refine good_setDone_true hg2 hG2 (complete_of_closed hg2 hG2 (hpre.subset h0) ?_ ?_ ?_)
  · intro l r hm
    obtain ⟨⟨L, hL, hLd⟩, ⟨R, hR, hRd⟩⟩ := hdone1 l r (hmem0 l r hm)
    obtain ⟨hl, hr⟩ := hkeep l r hm
    exact ⟨⟨L, hfr.other l L hl hL, hLd⟩, ⟨R, hfr.other r R hr hR, hRd⟩⟩
  · intro l r hm
    exact hcom l r (hmem1 l r hm)
  · intro l r y x L hm hL hx
    have hp := hmem1 l r hm
    obtain ⟨_, L1, _, _, _, hL1, _, hlN, _⟩ := hg1.pairs_shape hp
    have := hfr.other l L1 hlN hL1
    rw [hL] at this
    cases this
    exact hpost y x r ⟨l, L, hp, hL1, hx⟩

/-! ## The late passes -/

theorem allExist_le {m m' : memo} {N : Ptr} (hW : Wf m) (hle : m.le m')
    (hN : N < m.heap.length) (h : AllExist m N) : AllExist m' N := by
  intro A hA hss
  rw [sig_le hW hle hN] at hss
  obtain ⟨t, T, hT, hs⟩ := h A hA hss
  obtain ⟨T', hT', _⟩ := hle.heap t T hT
  exact ⟨t, T', hT', by rw [sig_le hW hle (lt_of_heap hT)]; exact hs⟩

/-- When every set below `N` is joined by a group, work below `N` allocates
no group. -/
theorem no_new_of_allExist {s : String} {m m' : memo} {N : Ptr} (hW : Wf m) (hg : Good s m')
    (hle : m.le m') (h : AllExist m N)
    (hf : ∀ p : Ptr, m.heap.length ≤ p → p < m'.heap.length → m'.sig p ⊂ m.sig N) :
    m'.heap.length = m.heap.length := by
  by_contra hne
  have hlt : m.heap.length < m'.heap.length := lt_of_le_of_ne hle.len (Ne.symm hne)
  have hP : m'.heap[m.heap.length]? = some m'.heap[m.heap.length] :=
    List.getElem?_eq_getElem hlt
  have hss := hf _ (Nat.le_refl _) hlt
  obtain ⟨t, T, hT, hs⟩ := h _ (hg.ne _ _ hP) hss
  obtain ⟨T', hT', _⟩ := hle.heap t T hT
  have hst : m'.sig t = m'.sig m.heap.length := by
    rw [sig_le hW hle (lt_of_heap hT)]
    exact hs
  have := hg.inj t _ T' _ hT' hP hst
  have hlt2 := lt_of_heap hT
  rw [this] at hlt2
  exact Nat.lt_irrefl _ hlt2

/-- A group that holds a join holds joins only. -/
theorem Good.all_joins {s : String} {m : memo} (h : Good s m) {N l0 r0 : Ptr} {G : grp}
    (hG : m.heap[N]? = some G) (h0 : expr.ofJoin ⟨some N, some l0, some r0⟩ ∈ G.exprs) :
    ∀ e ∈ G.exprs, ∃ l r, e = expr.ofJoin ⟨some N, some l, some r⟩ ∧ l < m.heap.length ∧
      r < m.heap.length := by
  intro e he
  cases e with
  | ofRel r =>
    exfalso
    have hat := h.atom N G r hG he
    obtain ⟨_, _, L, R, he1, hL, hR, hd, hu⟩ := h.expr_shape hG h0
    cases he1
    have hc : (m.sig l0 ∪ m.sig r0).card = 1 := by rw [hu, hat, Finset.card_singleton]
    rw [Finset.card_union_of_disjoint hd] at hc
    have h1 := Finset.card_pos.mpr (h.ne l0 L hL)
    have h2 := Finset.card_pos.mpr (h.ne r0 R hR)
    omega
  | ofJoin j =>
    obtain ⟨l, r, L, R, he1, hL, hR, _, _⟩ := h.expr_shape hG he
    exact ⟨l, r, by rw [he1], lt_of_heap hL, lt_of_heap hR⟩

/-- A group holds at most as many joins as there are ordered pairs of groups. -/
theorem Good.exprs_bound {s : String} {m : memo} (h : Good s m) {N l0 r0 : Ptr} {G : grp}
    (hG : m.heap[N]? = some G) (h0 : expr.ofJoin ⟨some N, some l0, some r0⟩ ∈ G.exprs) :
    G.exprs.length ≤ m.heap.length * m.heap.length := by
  have hall := h.all_joins hG h0
  let f : expr → Nat × Nat := fun e =>
    match e with
    | expr.ofJoin j => (j.l.getD 0, j.r.getD 0)
    | expr.ofRel _ => (0, 0)
  have hnd : (G.exprs.map f).Nodup := by
    refine List.Nodup.map_on ?_ (h.wf.nodup N G hG)
    intro x hx y hy hxy
    obtain ⟨l, r, rfl, _, _⟩ := hall x hx
    obtain ⟨l', r', rfl, _, _⟩ := hall y hy
    simp only [f, Option.getD_some, Prod.mk.injEq] at hxy
    rw [hxy.1, hxy.2]
  have hsub : (G.exprs.map f).toFinset ⊆
      Finset.range m.heap.length ×ˢ Finset.range m.heap.length := by
    intro p hp
    rw [List.mem_toFinset, List.mem_map] at hp
    obtain ⟨e, he, rfl⟩ := hp
    obtain ⟨l, r, rfl, hl, hr⟩ := hall e he
    simp only [f, Option.getD_some, Finset.mem_product, Finset.mem_range]
    exact ⟨hl, hr⟩
  have hcard := Finset.card_le_card hsub
  rw [List.toFinset_card_of_nodup hnd, List.length_map, Finset.card_product,
    Finset.card_range] at hcard
  exact hcard

/-- One late pass: it returns; if it adds no expression `N` holds every split,
and otherwise the next pass starts from a late state again, with more
expressions in `N` and the same groups. -/
theorem late_step {s : String} (hs : IsAorC s) {c : Nat} (ih : ForceSpec s c) {m : memo}
    {N B : Ptr} {G : grp} (h : Late s N B m G) (hc : (m.sig N).card ≤ c) :
    ∃ m2 G2, Explored N m m2 (G.exprs.length == G2.exprs.length) ∧ Good s m2 ∧ Sub N m m2 ∧
      (G.exprs.length = G2.exprs.length → Good s (setDone m2 N true)) ∧
      (G.exprs.length ≠ G2.exprs.length → Late s N B m2 G2 ∧
        G.exprs.length < G2.exprs.length ∧ m2.heap.length = m.heap.length) := by
  obtain ⟨l0, r0, h0⟩ := h.hasJoin
  have hNlt : N < m.heap.length := lt_of_heap h.hG
  have hclash : ∀ m1, Good s m1 → Sub N m m1 → m1.heap[N]? = some G →
      ∀ y x r y' x' r', Reqs m1 N 0 G.exprs.length y x r →
        Reqs m1 N 0 G.exprs.length y' x' r' →
        m1.sig x ∪ m1.sig r = m1.sig x' ∪ m1.sig r' → Absent m1 (m1.sig x ∪ m1.sig r) →
        x = x' ∧ r = r' := by
    intro m1 hg1 hsub1 _ y x r y' x' r' hq _ _ hab
    exfalso
    obtain ⟨_, X, _, _, hX, _⟩ := hg1.reqs_shape hq
    obtain ⟨t, T, hT, hst⟩ := allExist_le h.good.wf hsub1.le hNlt h.all _
      ((hg1.ne x X hX).mono Finset.subset_union_left) (hg1.reqs_below hq)
    exact hab t T hT hst
  obtain ⟨m1, m2, G2, hexp, hG2, hg1, hg2, hsub1, hG1, hfr, hsub2, hall, hng, _, _, _, hfin⟩ :=
    pass_good hs ih h.good h.hG hc h0 h.hB h.pend h.child hclash
  have hsub : Sub N m m2 := sub_trans h.good.wf hg1.wf hNlt hsub1 hsub2
  refine ⟨m2, G2, hexp, hg2, hsub, hfin, ?_⟩
  intro hne
  obtain ⟨G2', hG2', _, hd2, hpre⟩ := hfr.own G hG1
  rw [hG2] at hG2'
  cases hG2'
  have hall1 : AllExist m1 N := allExist_le h.good.wf hsub1.le hNlt h.all
  have hlen1 : m1.heap.length = m.heap.length :=
    no_new_of_allExist h.good.wf hg1 hsub1.le h.all hsub1.fresh
  have hlen2 : m2.heap.length = m1.heap.length :=
    no_new_of_allExist hg1.wf hg2 hsub2.le hall1 hsub2.fresh
  have hall2 : ∀ (t : Ptr) (T : grp), m2.heap[t]? = some T → m2.sig t ⊂ m2.sig N →
      T.done = true := by
    intro t T hT hlt
    have htl : t < m1.heap.length := by rw [← hlen2]; exact lt_of_heap hT
    have hT1 : m1.heap[t]? = some m1.heap[t] := List.getElem?_eq_getElem htl
    rw [sig_le hg1.wf hsub2.le htl, sig_le hg1.wf hsub2.le (lt_of_heap hG1)] at hlt
    have hne' : t ≠ N := by
      intro e
      rw [e] at hlt
      exact (ssubset_irrefl _) hlt
    have := hfr.other t _ hne' hT1
    rw [hT] at this
    cases this
    exact hall t _ hT1 hlt
  refine ⟨⟨hg2, hG2, by rw [hd2]; exact h.nd, ⟨l0, r0, hpre.subset h0⟩,
    doneAt_of_doneLe hsub.done h.hB, ?_, ?_, allExist_le h.good.wf hsub.le hNlt h.all⟩,
    lt_of_le_of_ne hpre.length_le hne, by rw [hlen2, hlen1]⟩
  · intro t T hT hlt
    exact Or.inl (hall2 t T hT hlt)
  · intro t T hT hlt hd
    rw [hall2 t T hT hlt] at hd
    cases hd

/-- The late passes end: after at most `k` of them a pass adds no expression. -/
theorem late_good {s : String} (hs : IsAorC s) {c : Nat} (ih : ForceSpec s c) {N B : Ptr} :
    ∀ (k : Nat) (m : memo) (G : grp), Late s N B m G → (m.sig N).card ≤ c →
      m.heap.length * m.heap.length ≤ G.exprs.length + k →
      ∃ m', Conv N m m' ∧ Good s (setDone m' N true) ∧ Sub N m m' := by
  intro k
  induction k with
  | zero =>
    intro m G h hc hk
    obtain ⟨m2, G2, hexp, hg2, hsub, hfin, hmore⟩ := late_step hs ih h hc
    by_cases hlen : G.exprs.length = G2.exprs.length
    · rw [show (G.exprs.length == G2.exprs.length) = true from by simp [hlen]] at hexp
      exact ⟨m2, Conv.last h.hG h.nd hexp, hfin hlen, hsub⟩
    · exfalso
      obtain ⟨hl2, hlt, hheap⟩ := hmore hlen
      obtain ⟨l0, r0, h0⟩ := hl2.hasJoin
      have := hg2.exprs_bound hl2.hG h0
      rw [hheap] at this
      omega
  | succ k ih2 =>
    intro m G h hc hk
    obtain ⟨m2, G2, hexp, hg2, hsub, hfin, hmore⟩ := late_step hs ih h hc
    by_cases hlen : G.exprs.length = G2.exprs.length
    · rw [show (G.exprs.length == G2.exprs.length) = true from by simp [hlen]] at hexp
      exact ⟨m2, Conv.last h.hG h.nd hexp, hfin hlen, hsub⟩
    · obtain ⟨hl2, hlt, hheap⟩ := hmore hlen
      rw [show (G.exprs.length == G2.exprs.length) = false from by simp [hlen]] at hexp
      have hNlt : N < m.heap.length := lt_of_heap h.hG
      obtain ⟨m', hconv, hgood, hsub'⟩ := ih2 m2 G2 hl2
        (by rw [sig_le h.good.wf hsub.le hNlt]; exact hc) (by rw [hheap]; omega)
      exact ⟨m', Conv.more h.hG h.nd hexp hconv, hgood,
        sub_trans h.good.wf hg2.wf hNlt hsub hsub'⟩

/-! ## The first pass over a group created by the associate rule -/

theorem joined_le {m m' : memo} (hW : Wf m) (hle : m.le m') {S : Finset Ptr}
    (h : Joined m S) : Joined m' S := by
  obtain ⟨t, T, hT, hs⟩ := h
  obtain ⟨T', hT', _⟩ := hle.heap t T hT
  exact ⟨t, T', hT', by rw [sig_le hW hle (lt_of_heap hT)]; exact hs⟩

/-- The groups a second loop allocates join proper parts of the base relations
of the group it runs on. -/
theorem sub_of_loop {s : String} {m m' : memo} {N rem i : Nat} (h : Good s m) (h' : Good s m')
    (hr : exploreExprs N rem i m = .ok m') (hfr : Frame N m m')
    (hng : NewGrps (Reqs m N i (i + rem)) m m') : Sub N m m' := by
  have hle : m.le m' := memo.le_stepRel.exploreExprs N rem i hr
  refine ⟨hle, ?_, ?_, doneLe_stepRel.exploreExprs N rem i hr⟩
  · intro t T hT hn
    refine hfr.other t T ?_ hT
    intro e
    rw [e] at hn
    exact hn (Finset.Subset.refl _)
  · intro p hp hp2
    have hX : m'.heap[p]? = some m'.heap[p] := List.getElem?_eq_getElem hp2
    obtain ⟨y, x, r, hq, hex, _, _⟩ := hng p _ hp hX
    have hmem : expr.ofJoin ⟨some p, some x, some r⟩ ∈ (m'.heap[p]).exprs := by
      rw [hex]
      exact List.mem_singleton.mpr rfl
    obtain ⟨_, _, hl0, hr0, _, hu0⟩ := h'.part p _ _ hX hmem
    simp only [Option.some.injEq] at hl0 hr0
    subst hl0
    subst hr0
    obtain ⟨_, _, _, _, hX', hR', _⟩ := h.reqs_shape hq
    rw [← hu0, sig_le h.wf hle (lt_of_heap hX'), sig_le h.wf hle (lt_of_heap hR')]
    exact h.reqs_below hq

theorem ssubset_of_union_ssubset {W X A : Finset Ptr} (h1 : Disjoint W A)
    (h2 : W ∪ A ⊂ X ∪ A) : W ⊂ X := by
  refine Finset.ssubset_iff_subset_ne.mpr ⟨?_, ?_⟩
  · intro a ha
    have := h2.1 (Finset.mem_union_left A ha)
    rcases Finset.mem_union.mp this with h | h
    · exact h
    · exact absurd h (Finset.disjoint_left.mp h1 ha)
  · intro e
    rw [e] at h2
    exact (ssubset_irrefl _) h2

/-- A done group holds, for every nonempty proper part `U` of its base
relations, an expression whose right child joins `U`. -/
theorem Good.right_child {s : String} {m : memo} (h : Good s m) {p : Ptr} {P : grp}
    (hP : m.heap[p]? = some P) (hd : P.done = true) {U : Finset Ptr} (hU : U.Nonempty)
    (hss : U ⊂ m.sig p) :
    ∃ y x, expr.ofJoin ⟨some p, some y, some x⟩ ∈ P.exprs ∧ m.sig x = U := by
  have hne : (m.sig p \ U).Nonempty := by
    rw [Finset.sdiff_nonempty]
    exact hss.2
  have hlt : m.sig p \ U ⊂ m.sig p := by
    refine Finset.ssubset_iff_subset_ne.mpr ⟨Finset.sdiff_subset, ?_⟩
    intro e
    obtain ⟨a, ha⟩ := hU
    have h1 : a ∈ m.sig p \ U := by rw [e]; exact hss.1 ha
    exact (Finset.mem_sdiff.mp h1).2 ha
  obtain ⟨y, x, _, _, _, _, _, hx, hmem, _⟩ := h.complete p P hP hd _ hne hlt
  exact ⟨y, x, hmem, by rw [hx, Finset.sdiff_sdiff_eq_self hss.1]⟩

/-- The only pair of a group that holds a single expression. -/
theorem pairs_single {m : memo} {N X A lo hi l r : Nat} {nm : String} {d : Bool}
    (hG : m.heap[N]? = some ⟨nm, [expr.ofJoin ⟨some N, some X, some A⟩], d⟩)
    (h : Pairs m N lo hi l r) : l = X ∧ r = A := by
  have hm := mem_of_pairs hG h
  simp only [List.mem_singleton, expr.ofJoin.injEq, join.mk.injEq, Option.some.injEq,
    true_and] at hm
  exact hm

theorem reqs_single {m : memo} {N X A lo hi y x r : Nat} {nm : String} {d : Bool} {XX : grp}
    (hG : m.heap[N]? = some ⟨nm, [expr.ofJoin ⟨some N, some X, some A⟩], d⟩)
    (hX : m.heap[X]? = some XX) (h : Reqs m N lo hi y x r) :
    r = A ∧ expr.ofJoin ⟨some X, some y, some x⟩ ∈ XX.exprs := by
  obtain ⟨l, L, hp, hL, hx⟩ := h
  obtain ⟨e1, e2⟩ := pairs_single hG hp
  subst e1
  subst e2
  rw [hX] at hL
  cases hL
  exact ⟨rfl, hx⟩

/-- The second loop of the first pass over a group that holds the single pair
`(X, A)`. -/
theorem core_pass1 {s : String} (hs : IsAorC s) {m : memo} {N X A : Ptr}
    (hpre : CorePre s m N X A) :
    ∃ m1 G1, exploreExprs N 1 0 m = .ok m1 ∧ AfterFirst s N X A m1 G1 ∧ Sub N m m1 ∧
      G1.exprs.length ≠ 1 := by
  obtain ⟨h, ⟨nm, hG⟩, ⟨XX, hX, hXd⟩, ⟨AA, hA, hAd⟩, hP⟩ := hpre
  have hmem0 : expr.ofJoin ⟨some N, some X, some A⟩ ∈
      (grp.mk nm [expr.ofJoin ⟨some N, some X, some A⟩] false).exprs := List.mem_singleton.mpr rfl
  obtain ⟨_, _, _, _, he0, _, _, hdXA, huXA⟩ := h.expr_shape hG hmem0
  cases he0
  have hNlt : N < m.heap.length := lt_of_heap hG
  have hp0 : Pairs m N 0 (0 + 1) X A := ⟨0, _, Nat.le_refl _, by omega, hG, rfl⟩
  have hreq : ∀ y x, expr.ofJoin ⟨some X, some y, some x⟩ ∈ XX.exprs →
      Reqs m N 0 (0 + 1) y x A := fun y x hx => ⟨X, XX, hp0, hX, hx⟩
  have hsafe : ∀ y x r, Reqs m N 0 (0 + 1) y x r → ReqSafe m x r := by
    intro y x r hq t T hT hs'
    obtain ⟨_, X', _, _, hX', hR', hd1, _, _, _⟩ := h.reqs_shape hq
    have hb := h.reqs_below hq
    rw [← hs'] at hb
    obtain ⟨e, _⟩ := reqs_single hG hX hq
    subst e
    rcases hP t T hT hb with hd | ⟨_, w, hex, W, hW, _⟩
    · exact h.found hX' hR' hT hd hd1 hs'.symm
    · have hmem : expr.ofJoin ⟨some t, some w, some r⟩ ∈ T.exprs := by
        rw [hex]
        exact List.mem_singleton.mpr rfl
      obtain ⟨_, _, hl0, hr0, hdw, huw⟩ := h.part t T _ hT hmem
      simp only [Option.some.injEq] at hl0 hr0
      subst hl0
      subst hr0
      rw [← huw] at hs'
      have := h.inj _ _ W X' hW hX' (union_left_cancel hdw hd1 hs')
      subst this
      exact h.wf.expReg t T _ hT hmem
  have hclash : ∀ y x r y' x' r', Reqs m N 0 (0 + 1) y x r → Reqs m N 0 (0 + 1) y' x' r' →
      m.sig x ∪ m.sig r = m.sig x' ∪ m.sig r' → Absent m (m.sig x ∪ m.sig r) →
      x = x' ∧ r = r' := by
    intro y x r y' x' r' hq hq' hs' _
    obtain ⟨_, X1, _, _, hX1, _, hd1, _, _, _⟩ := h.reqs_shape hq
    obtain ⟨_, X2, _, _, hX2, _, hd2, _, _, _⟩ := h.reqs_shape hq'
    obtain ⟨e, _⟩ := reqs_single hG hX hq
    obtain ⟨e', _⟩ := reqs_single hG hX hq'
    subst e
    subst e'
    exact ⟨h.inj x x' X1 X2 hX1 hX2 (union_left_cancel hd1 hd2 hs'), rfl⟩
  obtain ⟨m1, hm1, hg1, hfr, hng, hne, hcom, hpost⟩ := loop_good hs 1 0 h hG (by simp)
    hsafe hclash
  have hsub : Sub N m m1 := sub_of_loop h hg1 hm1 hfr hng
  have hle := hsub.le
  obtain ⟨G1, hG1, _, hd1, hpre⟩ := hfr.own _ hG
  have hsN : m1.sig N = m.sig N := sig_le h.wf hle hNlt
  have hsX : m1.sig X = m.sig X := sig_le h.wf hle (lt_of_heap hX)
  have hsA : m1.sig A = m.sig A := sig_le h.wf hle (lt_of_heap hA)
  have hreg : ∀ l r, m1.findJoin ⟨none, some l, some r⟩ = some N →
      expr.ofJoin ⟨some N, some l, some r⟩ ∈ G1.exprs := by
    intro l r hf
    obtain ⟨G', hG', hm⟩ := hg1.inv.reg _ _ hf
    rw [hG1] at hG'
    cases hG'
    exact hm
  have hmemAX := hreg A X (hcom X A hp0)
  have hmemXA : expr.ofJoin ⟨some N, some X, some A⟩ ∈ G1.exprs := hpre.subset hmem0
  have hXA : X ≠ A := by
    intro e
    rw [e] at hdXA
    exact (h.ne A AA hA).ne_empty (Finset.disjoint_self_iff_empty _ |>.mp hdXA)
  have hdoneX : DoneAt m1 X := doneAt_of_doneLe hsub.done ⟨XX, hX, hXd⟩
  have hdoneA : DoneAt m1 A := doneAt_of_doneLe hsub.done ⟨AA, hA, hAd⟩
  have hpend : PendFrom m1 m1 N A := by
    intro t T hT hlt
    by_cases htl : t < m.heap.length
    · have hT0 : m.heap[t]? = some m.heap[t] := List.getElem?_eq_getElem htl
      rw [sig_le h.wf hle htl, hsN] at hlt
      have hne' : t ≠ N := by
        intro e
        rw [e] at hlt
        exact (ssubset_irrefl _) hlt
      have := hfr.other t _ hne' hT0
      rw [hT] at this
      cases this
      rcases hP t _ hT0 hlt with hd | ⟨_, w, hex, hw⟩
      · exact Or.inl hd
      · exact Or.inr ⟨hT, w, hex, doneAt_of_doneLe hsub.done hw⟩
    · obtain ⟨y, x, r, hq, hex, _, _⟩ := hng t T (not_lt.mp htl) hT
      obtain ⟨e, hx⟩ := reqs_single hG hX hq
      subst e
      exact Or.inr ⟨hT, x, hex, doneAt_of_doneLe hsub.done (h.child_done hX hXd hx).2⟩
  refine ⟨m1, G1, hm1, ⟨hg1, hG1, hd1, hmemXA, hmemAX, hdoneX, hdoneA, hpend, ?_, ?_, ?_⟩, hsub,
    ?_⟩
  · intro t T hT hlt hnd
    rcases hpend t T hT hlt with hd | ⟨_, w, hex, W, hW, _⟩
    · rw [hd] at hnd
      cases hnd
    · have hmem : expr.ofJoin ⟨some t, some w, some A⟩ ∈ T.exprs := by
        rw [hex]
        exact List.mem_singleton.mpr rfl
      obtain ⟨_, _, hl0, hr0, hdw, huw⟩ := hg1.part t T _ hT hmem
      simp only [Option.some.injEq] at hl0 hr0
      subst hl0
      subst hr0
      have hwX : m1.sig w ⊂ m.sig X := by
        refine ssubset_of_union_ssubset (A := m.sig A) (by rw [← hsA]; exact hdw) ?_
        have hwt : m1.sig w ∪ m.sig A = m1.sig t := by rw [← hsA]; exact huw
        rw [hwt, huXA, ← hsN]
        exact hlt
      obtain ⟨y, x, hx, hsx⟩ := h.right_child hX hXd (hg1.ne w W hW) hwX
      obtain ⟨_, _, _, X', he, _, hX', _, _⟩ := h.expr_shape hX hx
      cases he
      obtain ⟨X1, hX1, _⟩ := hle.heap x X' hX'
      have hxw : x = w := hg1.inj x w X1 W hX1 hW (by
        rw [sig_le h.wf hle (lt_of_heap hX')]
        exact hsx)
      subst hxw
      obtain ⟨t', hf1, hf2⟩ := hpost y x A (hreq y x hx)
      rw [hg1.wf.expReg t T _ hT hmem] at hf1
      cases hf1
      exact ⟨y, t, hreg y t hf2, Or.inr rfl⟩
  · intro l r hmem
    rcases hne _ G1 hG hG1 _ hmem with h1 | ⟨l', r', hp, he⟩ | ⟨y, x, r', t, hq, he, hst⟩
    · simp only [List.mem_singleton, expr.ofJoin.injEq, join.mk.injEq, Option.some.injEq,
        true_and] at h1
      rw [h1.2]
      exact Or.inr (Finset.Subset.refl _)
    · obtain ⟨e1, e2⟩ := pairs_single hG hp
      simp only [expr.ofJoin.injEq, join.mk.injEq, Option.some.injEq, true_and] at he
      rw [he.1, he.2, e1, e2]
      exact Or.inl ⟨rfl, rfl⟩
    · obtain ⟨e, _⟩ := reqs_single hG hX hq
      simp only [expr.ofJoin.injEq, join.mk.injEq, Option.some.injEq, true_and] at he
      refine Or.inr ?_
      rw [he.2, hst, hsA, e]
      exact Finset.subset_union_right
  · intro U hU hss
    rw [hsX] at hss
    obtain ⟨y, x, hx, hsx⟩ := h.right_child hX hXd hU hss
    obtain ⟨t, hf1, _⟩ := hpost y x A (hreq y x hx)
    obtain ⟨T, _, _, hT, _, _, _, _, hu⟩ := hg1.reg_sig hf1
    obtain ⟨_, _, _, X0, he, _, hX0, _, _⟩ := h.expr_shape hX hx
    cases he
    refine ⟨t, T, hT, ?_⟩
    rw [← hu, sig_le h.wf hle (lt_of_heap hX0), hsx]
  · intro hlen
    obtain ⟨e, he⟩ := List.length_eq_one.mp hlen
    rw [he] at hmemAX hmemXA
    rw [List.mem_singleton] at hmemAX hmemXA
    rw [← hmemXA] at hmemAX
    simp only [expr.ofJoin.injEq, join.mk.injEq, Option.some.injEq, true_and] at hmemAX
    exact hXA hmemAX.2

/-! ## The second pass -/

/-- In the second pass, a request for a set that no group joins comes from the
commuted pair `(A, X)`. -/
theorem absent_req {s : String} {N X A : Ptr} {m1 m1' : memo} {G1 : grp}
    (h1 : AfterFirst s N X A m1 G1) (hg : Good s m1') (hsub : Sub N m1 m1')
    (hG : m1'.heap[N]? = some G1) {y x r : Ptr} (hq : Reqs m1' N 0 G1.exprs.length y x r)
    (hab : Absent m1' (m1'.sig x ∪ m1'.sig r)) :
    r = X ∧ ∃ AA, m1'.heap[A]? = some AA ∧ expr.ofJoin ⟨some A, some y, some x⟩ ∈ AA.exprs := by
  have hb := hg.reqs_below hq
  obtain ⟨_, X', R, _, hX', hR, hd1, _, _, _⟩ := hg.reqs_shape hq
  obtain ⟨l, L, hp, hL, hx⟩ := hq
  have hmem := mem_of_pairs hG hp
  rcases h1.form l r hmem with ⟨e1, e2⟩ | hsub'
  · subst e1
    subst e2
    exact ⟨rfl, L, hL, hx⟩
  · exfalso
    have hle := hsub.le
    have hW := h1.good.wf
    obtain ⟨_, _, XX, AA, he0, hXX, hAA, hdXA, huXA⟩ := h1.good.expr_shape h1.hG h1.mem0
    cases he0
    obtain ⟨_, _, _, R1, he1, _, hR1, _, _⟩ := h1.good.expr_shape h1.hG hmem
    cases he1
    have hsr : m1'.sig r = m1.sig r := sig_le hW hle (lt_of_heap hR1)
    have hsN : m1'.sig N = m1.sig N := sig_le hW hle (lt_of_heap h1.hG)
    rw [hsr] at hb hab hd1
    rw [hsN, ← huXA] at hb
    have hAS : m1.sig A ⊆ m1'.sig x ∪ m1.sig r := hsub'.trans Finset.subset_union_right
    have hSU : (m1'.sig x ∪ m1.sig r) \ m1.sig A ∪ m1.sig A = m1'.sig x ∪ m1.sig r :=
      Finset.sdiff_union_of_subset hAS
    have hUne : ((m1'.sig x ∪ m1.sig r) \ m1.sig A).Nonempty := by
      obtain ⟨a, ha⟩ := hg.ne x X' hX'
      refine ⟨a, Finset.mem_sdiff.mpr ⟨Finset.mem_union_left _ ha, ?_⟩⟩
      intro haA
      exact Finset.disjoint_left.mp hd1 ha (hsub' haA)
    have hUss : (m1'.sig x ∪ m1.sig r) \ m1.sig A ⊂ m1.sig X := by
      refine ssubset_of_union_ssubset (A := m1.sig A) Finset.sdiff_disjoint ?_
      rw [hSU]
      exact hb
    have hj := joined_le hW hle (h1.exist _ hUne hUss)
    rw [hSU] at hj
    obtain ⟨t, T, hT, hst⟩ := hj
    exact hab t T hT hst

/-- The second pass over `N`: it returns; if it adds no expression `N` holds
every split, and otherwise the late passes start. -/
theorem core_pass2 {s : String} (hs : IsAorC s) {c : Nat} (ih : ForceSpec s c) {N X A : Ptr}
    {m1 : memo} {G1 : grp} (h1 : AfterFirst s N X A m1 G1) (hc : (m1.sig N).card ≤ c) :
    ∃ m2 G2, Explored N m1 m2 (G1.exprs.length == G2.exprs.length) ∧ Good s m2 ∧
      Sub N m1 m2 ∧ (G1.exprs.length = G2.exprs.length → Good s (setDone m2 N true)) ∧
      (G1.exprs.length ≠ G2.exprs.length → Late s N X m2 G2) := by
  have hNlt : N < m1.heap.length := lt_of_heap h1.hG
  have hW := h1.good.wf
  have hclash : ∀ m1', Good s m1' → Sub N m1 m1' → m1'.heap[N]? = some G1 →
      ∀ y x r y' x' r', Reqs m1' N 0 G1.exprs.length y x r →
        Reqs m1' N 0 G1.exprs.length y' x' r' →
        m1'.sig x ∪ m1'.sig r = m1'.sig x' ∪ m1'.sig r' → Absent m1' (m1'.sig x ∪ m1'.sig r) →
        x = x' ∧ r = r' := by
    intro m1' hg hsub hG y x r y' x' r' hq hq' hs' hab
    obtain ⟨e, _⟩ := absent_req h1 hg hsub hG hq hab
    obtain ⟨e', _⟩ := absent_req h1 hg hsub hG hq' (by rw [← hs']; exact hab)
    subst e
    subst e'
    obtain ⟨_, X1, _, _, hX1, _, hd1, _, _, _⟩ := hg.reqs_shape hq
    obtain ⟨_, X2, _, _, hX2, _, hd2, _, _, _⟩ := hg.reqs_shape hq'
    exact ⟨hg.inj x x' X1 X2 hX1 hX2 (union_left_cancel hd1 hd2 hs'), rfl⟩
  obtain ⟨m1', m2, G2, hexp, hG2, hg1', hg2, hsub1, hG1', hfr, hsub2, hall, hng, _, _, hpost,
    hfin⟩ := pass_good hs ih h1.good h1.hG hc h1.mem0 h1.doneA h1.pend h1.child hclash
  have hsub : Sub N m1 m2 := sub_trans hW hg1'.wf hNlt hsub1 hsub2
  refine ⟨m2, G2, hexp, hg2, hsub, hfin, ?_⟩
  intro _
  obtain ⟨G2', hG2', _, hd2, hpre⟩ := hfr.own G1 hG1'
  rw [hG2] at hG2'
  cases hG2'
  have hW1 := hg1'.wf
  have hNlt1 : N < m1'.heap.length := lt_of_heap hG1'
  have hsN2 : m2.sig N = m1'.sig N := sig_le hW1 hsub2.le hNlt1
  have hsN1 : m1'.sig N = m1.sig N := sig_le hW hsub1.le hNlt
  have hold : ∀ (t : Ptr) (T : grp), t < m1'.heap.length → m2.heap[t]? = some T →
      m2.sig t ⊂ m2.sig N → T.done = true := by
    intro t T htl hT hlt
    have hT1 : m1'.heap[t]? = some m1'.heap[t] := List.getElem?_eq_getElem htl
    rw [sig_le hW1 hsub2.le htl, hsN2] at hlt
    have hne' : t ≠ N := by
      intro e
      rw [e] at hlt
      exact (ssubset_irrefl _) hlt
    have := hfr.other t _ hne' hT1
    rw [hT] at this
    cases this
    exact hall t _ hT1 hlt
  have hreg : ∀ l r, m2.findJoin ⟨none, some l, some r⟩ = some N →
      expr.ofJoin ⟨some N, some l, some r⟩ ∈ G2.exprs := by
    intro l r hf
    obtain ⟨G', hG', hm⟩ := hg2.inv.reg _ _ hf
    rw [hG2] at hG'
    cases hG'
    exact hm
  obtain ⟨AA, hAA, hAd⟩ := doneAt_of_doneLe hsub1.done h1.doneA
  refine ⟨hg2, hG2, by rw [hd2]; exact h1.nd, ⟨X, A, hpre.subset h1.mem0⟩,
    doneAt_of_doneLe hsub.done h1.doneX, ?_, ?_, ?_⟩
  · intro t T hT hlt
    by_cases htl : t < m1'.heap.length
    · exact Or.inl (hold t T htl hT hlt)
    · obtain ⟨y, x, r, hq, hex, _, hab⟩ := hng t T (not_lt.mp htl) hT
      obtain ⟨e, AA', hAA', hx⟩ := absent_req h1 hg1' hsub1 hG1' hq hab
      subst e
      rw [hAA] at hAA'
      cases hAA'
      exact Or.inr ⟨hT, x, hex, doneAt_of_doneLe hsub2.done (hg1'.child_done hAA hAd hx).2⟩
  · intro t T hT hlt hnd
    by_cases htl : t < m1'.heap.length
    · rw [hold t T htl hT hlt] at hnd
      cases hnd
    · obtain ⟨y, x, r, hq, hex, _, _⟩ := hng t T (not_lt.mp htl) hT
      have hmem : expr.ofJoin ⟨some t, some x, some r⟩ ∈ T.exprs := by
        rw [hex]
        exact List.mem_singleton.mpr rfl
      obtain ⟨t', hf1, hf2⟩ := hpost y x r hq
      rw [hg2.wf.expReg t T _ hT hmem] at hf1
      cases hf1
      exact ⟨y, t, hreg y t hf2, Or.inr rfl⟩
  · intro A0 hA0 hss
    rw [hsN2, hsN1] at hss
    obtain ⟨_, _, XX, AA0, he0, hXX, hAA0, hdXA, huXA⟩ := h1.good.expr_shape h1.hG h1.mem0
    cases he0
    rw [← huXA] at hss
    have hle := hsub.le
    by_cases hdis : Disjoint A0 (m1.sig X)
    · refine joined_le hW hle (h1.good.exists_below h1.doneA hA0 ?_)
      intro a ha
      rcases Finset.mem_union.mp (hss.1 ha) with h | h
      · exact absurd h (Finset.disjoint_left.mp hdis ha)
      · exact h
    by_cases hXs : m1.sig X ⊆ A0
    · by_cases hemp : A0 \ m1.sig X = ∅
      · refine joined_le hW hle ⟨X, XX, hXX, ?_⟩
        exact Finset.Subset.antisymm hXs (Finset.sdiff_eq_empty_iff_subset.mp hemp)
      · have hUne : (A0 \ m1.sig X).Nonempty := Finset.nonempty_iff_ne_empty.mpr hemp
        have hsA1 : m1'.sig A = m1.sig A := sig_le hW hsub1.le (lt_of_heap hAA0)
        have hsX1 : m1'.sig X = m1.sig X := sig_le hW hsub1.le (lt_of_heap hXX)
        have hUsub : A0 \ m1.sig X ⊆ m1.sig A := by
          intro a ha
          obtain ⟨ha1, ha2⟩ := Finset.mem_sdiff.mp ha
          rcases Finset.mem_union.mp (hss.1 ha1) with h | h
          · exact absurd h ha2
          · exact h
        have hUss : A0 \ m1.sig X ⊂ m1'.sig A := by
          rw [hsA1]
          refine Finset.ssubset_iff_subset_ne.mpr ⟨hUsub, ?_⟩
          intro e
          apply hss.2
          intro a ha
          rcases Finset.mem_union.mp ha with h | h
          · exact hXs h
          · rw [← e] at h
            exact (Finset.mem_sdiff.mp h).1
        obtain ⟨y, x, hx, hsx⟩ := hg1'.right_child hAA hAd hUne hUss
        obtain ⟨_, _, _, X0, he, _, hX0, _, _⟩ := hg1'.expr_shape hAA hx
        cases he
        obtain ⟨t, hf1, _⟩ := hpost y x X ⟨A, AA, pairs_of_mem hG1' h1.memAX, hAA, hx⟩
        obtain ⟨T, _, _, hT, _, _, _, _, hu⟩ := hg2.reg_sig hf1
        refine ⟨t, T, hT, ?_⟩
        rw [← hu, sig_le hW1 hsub2.le (lt_of_heap hX0), hsx,
          sig_le hW hle (lt_of_heap hXX)]
        exact Finset.sdiff_union_of_subset hXs
    · have hUne : (A0 ∩ m1.sig X).Nonempty := Finset.not_disjoint_iff_nonempty_inter.mp hdis
      have hUss : A0 ∩ m1.sig X ⊂ m1.sig X := by
        refine Finset.ssubset_iff_subset_ne.mpr ⟨Finset.inter_subset_right, ?_⟩
        intro e
        apply hXs
        rw [← e]
        exact Finset.inter_subset_left
      obtain ⟨t1, T1, hT1, hst1⟩ := joined_le hW hsub1.le (h1.exist _ hUne hUss)
      have hbelow : m1'.sig t1 ⊂ m1'.sig N := by
        rw [hst1, hsN1, ← huXA]
        refine Finset.ssubset_iff_subset_ne.mpr
          ⟨Finset.union_subset_union hUss.1 (Finset.Subset.refl _), ?_⟩
        intro e
        apply hUss.2
        intro a ha
        have h2 : a ∈ A0 ∩ m1.sig X ∪ m1.sig A := by
          rw [e]
          exact Finset.mem_union_left _ ha
        rcases Finset.mem_union.mp h2 with h | h
        · exact h
        · exact absurd h (Finset.disjoint_left.mp hdXA ha)
      have hdone1 := hall t1 T1 hT1 hbelow
      refine joined_le hW1 hsub2.le (hg1'.exists_below ⟨T1, hT1, hdone1⟩ hA0 ?_)
      rw [hst1]
      intro a ha
      rcases Finset.mem_union.mp (hss.1 ha) with h | h
      · exact Finset.mem_union_left _ (Finset.mem_inter.mpr ⟨ha, h⟩)
      · exact Finset.mem_union_right _ h

/-! ## The loop `for !done` on a group created by the associate rule -/

theorem setDone_length (m : memo) (p : Ptr) (d : Bool) :
    (setDone m p d).heap.length = m.heap.length := by
  unfold setDone
  cases hp : m.heap[p]? with
  | none => simp only [List.get?_eq_getElem?, hp]
  | some G => simp only [List.get?_eq_getElem?, hp, List.length_set]

theorem sig_setDone (m : memo) (p : Ptr) (d : Bool) (q : Ptr) :
    (setDone m p d).sig q = m.sig q := by
  unfold setDone
  cases hp : m.heap[p]? with
  | none =>
    simp only [List.get?_eq_getElem?, hp]
  | some G =>
    simp only [List.get?_eq_getElem?, hp]
    exact @sig_set m _ p G ⟨G.name, G.exprs, d⟩ hp rfl rfl q

theorem sub_setDone {m : memo} {N : Ptr} {G : grp} (hG : m.heap[N]? = some G) :
    Sub N m (setDone m N true) := by
  refine ⟨memo.le_setDone m N true, ?_, ?_, ?_⟩
  · intro t T hT hn
    have hne : t ≠ N := by
      intro e
      rw [e] at hn
      exact hn (Finset.Subset.refl _)
    rw [setDone_heap_ne m true hne]
    exact hT
  · intro p hp hp2
    rw [setDone_length] at hp2
    exact absurd hp2 (not_lt.mpr hp)
  · intro q Q hQ hd
    by_cases hq : q = N
    · subst hq
      exact ⟨_, setDone_heap_self m true hQ, rfl⟩
    · exact ⟨Q, by rw [setDone_heap_ne m true hq]; exact hQ, hd⟩

theorem sub_close {N : Ptr} {m m' : memo} (hsub : Sub N m m') {G' : grp}
    (hG' : m'.heap[N]? = some G') : Sub N m (setDone m' N true) := by
  refine ⟨memo.le_trans hsub.le (memo.le_setDone m' N true), ?_, ?_, ?_⟩
  · intro t T hT hn
    have hne : t ≠ N := by
      intro e
      rw [e] at hn
      exact hn (Finset.Subset.refl _)
    rw [setDone_heap_ne m' true hne]
    exact hsub.keep t T hT hn
  · intro p hp hp2
    rw [setDone_length] at hp2
    rw [sig_setDone]
    exact hsub.fresh p hp hp2
  · intro q Q hQ hd
    obtain ⟨Q', hQ', hd'⟩ := hsub.done q Q hQ hd
    exact (sub_setDone hG').done q Q' hQ' hd'

/-- The passes over a group `N` that holds the single pair `(X, A)`, from the
second loop of the first pass on: the first pass adds an expression, and the
later passes end with one that adds none. -/
theorem core_good {s : String} (hs : IsAorC s) {c : Nat} (ih : ForceSpec s c) {m : memo}
    {N X A : Ptr} (hpre : CorePre s m N X A) (hc : (m.sig N).card ≤ c) :
    ∃ m1 G1 m', exploreExprs N 1 0 m = .ok m1 ∧ m1.heap[N]? = some G1 ∧
      G1.exprs.length ≠ 1 ∧ Conv N m1 m' ∧ Good s (setDone m' N true) ∧ Sub N m m' := by
  obtain ⟨m1, G1, hm1, h1, hsub1, hlen⟩ := core_pass1 hs hpre
  obtain ⟨h, ⟨nm, hG⟩, _⟩ := hpre
  have hNlt : N < m.heap.length := lt_of_heap hG
  have hc1 : (m1.sig N).card ≤ c := by rw [sig_le h.wf hsub1.le hNlt]; exact hc
  obtain ⟨m2, G2, hexp, hg2, hsub2, hfin, hlate⟩ := core_pass2 hs ih h1 hc1
  have hsub12 : Sub N m m2 := sub_trans h.wf h1.good.wf hNlt hsub1 hsub2
  by_cases hl : G1.exprs.length = G2.exprs.length
  · rw [show (G1.exprs.length == G2.exprs.length) = true from by simp [hl]] at hexp
    exact ⟨m1, G1, m2, hm1, h1.hG, hlen, Conv.last h1.hG h1.nd hexp, hfin hl, hsub12⟩
  · rw [show (G1.exprs.length == G2.exprs.length) = false from by simp [hl]] at hexp
    have hl2 := hlate hl
    obtain ⟨m', hconv, hgood, hsub3⟩ := late_good hs ih (m2.heap.length * m2.heap.length) m2 G2
      hl2 (by rw [sig_le h.wf hsub12.le hNlt]; exact hc) (by omega)
    exact ⟨m1, G1, m', hm1, h1.hG, hlen, Conv.more h1.hG h1.nd hexp hconv, hgood,
      sub_trans h.wf hg2.wf hNlt hsub12 hsub3⟩

/-- The loop `for !N.done { N.done = N.explore(m) }` returns for a group `N`
that holds the single pair `(X, A)` with both children done. -/
theorem force_of_core {s : String} (hs : IsAorC s) {c : Nat} (ih : ForceSpec s c) {m : memo}
    {N X A : Ptr} (hpre : CorePre s m N X A) (hc : (m.sig N).card ≤ c) :
    ∃ m', Forced (some N) m m' ∧ Good s m' ∧ Sub N m m' ∧ DoneAt m' N := by
  obtain ⟨m1, G1, m', hm1, hG1, hlen, hconv, hgood, hsub⟩ := core_good hs ih hpre hc
  obtain ⟨h, ⟨nm, hG⟩, ⟨XX, hX, hXd⟩, ⟨AA, hA, hAd⟩, _⟩ := hpre
  have hch : Childrened N (grp.mk nm [expr.ofJoin ⟨some N, some X, some A⟩] false).exprs.length
      0 m m :=
    childrened_join (j := ⟨some N, some X, some A⟩) hG rfl (forced_done hX hXd)
      (forced_done hA hAd) (childrened_zero _ _ _)
  have hexp := explored_intro hG hch hm1 hG1
  rw [show ((grp.mk nm [expr.ofJoin ⟨some N, some X, some A⟩] false).exprs.length ==
    G1.exprs.length) = false from by
      simp only [List.length_singleton, beq_eq_false_iff_ne, ne_eq]
      exact fun e => hlen e.symm] at hexp
  obtain ⟨G1', hG1', hd1⟩ := conv_heap hconv
  have hsame := setDone_same hG1'
  rw [hd1] at hsame
  have hf : Forced (some N) m (setDone m' N true) :=
    forced_step hG rfl hexp (by rw [hsame]; exact forced_of_conv hconv)
  obtain ⟨G', hG', _⟩ := hsub.le.heap N _ hG
  exact ⟨setDone m' N true, hf, hgood, sub_close hsub hG',
    ⟨_, setDone_heap_self m' true hG', rfl⟩⟩

/-- The loop `for !done` returns on every group created by the associate
rule, whatever the number of base relations it joins. -/
theorem forceSpec_all {s : String} (hs : IsAorC s) : ∀ c, ForceSpec s c := by
  intro c
  induction c with
  | zero =>
    intro m N X A hlt _
    exact absurd hlt (Nat.not_lt_zero _)
  | succ c ih =>
    intro m N X A hlt hpre
    exact force_of_core hs ih hpre (Nat.lt_succ_iff.mp hlt)

/-! ## Exploring a join tree that no pass has visited -/

theorem isTree_alloc {m : memo} {t : JTree} {p : Ptr} (h : IsTree m t p) :
    ∃ P, m.heap[p]? = some P := by
  cases t with
  | leaf i =>
    obtain ⟨nm, r, hP⟩ := h
    exact ⟨_, hP⟩
  | node tl tr =>
    obtain ⟨nm, l, r, hP, _⟩ := h
    exact ⟨_, hP⟩

/-- A tree that no pass has visited stays one when the memo is extended
without a change to the groups below its root and without a new group that
joins base relations of the root only. -/
theorem isTree_mono {s : String} {m m' : memo} (hg : Good s m) (hle : m.le m') :
    ∀ (t : JTree) (p : Ptr), IsTree m t p →
      (∀ (u : Ptr) (U : grp), m.heap[u]? = some U → m.sig u ⊆ m.sig p →
        m'.heap[u]? = some U) →
      (∀ u : Ptr, m.heap.length ≤ u → u < m'.heap.length → ¬ (m'.sig u ⊆ m.sig p)) →
      IsTree m' t p := by
  intro t
  induction t with
  | leaf i =>
    intro p h hk _
    obtain ⟨nm, r, hP⟩ := h
    exact ⟨nm, r, hk p _ hP (Finset.Subset.refl _)⟩
  | node tl tr ihl ihr =>
    intro p h hk hn
    obtain ⟨nm, l, r, hP, hl, hr, hb⟩ := h
    have hmem : expr.ofJoin ⟨some p, some l, some r⟩ ∈
        (grp.mk nm [expr.ofJoin ⟨some p, some l, some r⟩] false).exprs :=
      List.mem_singleton.mpr rfl
    obtain ⟨_, _, L, R, he, hL, hR, hd, hu⟩ := hg.expr_shape hP hmem
    cases he
    have hlp : m.sig l ⊆ m.sig p := by rw [← hu]; exact Finset.subset_union_left
    have hrp : m.sig r ⊆ m.sig p := by rw [← hu]; exact Finset.subset_union_right
    have hsp : m'.sig p = m.sig p := sig_le hg.wf hle (lt_of_heap hP)
    have hsl : m'.sig l = m.sig l := sig_le hg.wf hle (lt_of_heap hL)
    have hsr : m'.sig r = m.sig r := sig_le hg.wf hle (lt_of_heap hR)
    refine ⟨nm, l, r, hk p _ hP (Finset.Subset.refl _),
      ihl l hl (fun u U hU hs => hk u U hU (hs.trans hlp))
        (fun u h1 h2 hc => hn u h1 h2 (hc.trans hlp)),
      ihr r hr (fun u U hU hs => hk u U hU (hs.trans hrp))
        (fun u h1 h2 hc => hn u h1 h2 (hc.trans hrp)), ?_⟩
    intro t T hT hlt
    rw [hsp] at hlt
    rw [hsl, hsr]
    by_cases htl : t < m.heap.length
    · rw [sig_le hg.wf hle htl] at hlt ⊢
      exact hb t _ (List.getElem?_eq_getElem htl) hlt
    · exact absurd hlt.1 (hn t (not_lt.mp htl) (lt_of_heap hT))

/-- A pass over the group of a base relation returns true at once. -/
theorem atom_conv {s : String} {m : memo} (hg : Good s m) {p : Ptr} {nm : String} {r : rel}
    (hP : m.heap[p]? = some ⟨nm, [expr.ofRel r], false⟩) :
    Conv p m m ∧ Good s (setDone m p true) := by
  have hch : Childrened p (grp.mk nm [expr.ofRel r] false).exprs.length 0 m m :=
    childrened_rel (r := r) hP rfl (childrened_zero _ _ _)
  have hex : exploreExprs p (grp.mk nm [expr.ofRel r] false).exprs.length 0 m = .ok m := by
    simp [exploreExprs, deref_some hP, expr.explore]
  have hexp := explored_intro hP hch hex hP
  simp only [beq_self_eq_true] at hexp
  refine ⟨Conv.last hP rfl hexp, good_setDone_true hg hP ?_⟩
  intro A hA hss
  exfalso
  rw [hg.atom p _ r hP (List.mem_singleton.mpr rfl)] at hss
  exact hA.ne_empty (Finset.ssubset_singleton_iff.mp hss)

theorem conv_le {g : Ptr} {m m' : memo} (h : Conv g m m') : m.le m' := by
  induction h with
  | last _ _ h =>
    obtain ⟨fuel, hf⟩ := h
    exact memo.le_stepRel.explore fuel hf
  | more _ _ h _ ih =>
    obtain ⟨fuel, hf⟩ := h
    exact memo.le_trans (memo.le_stepRel.explore fuel hf) ih

theorem conv_done {g : Ptr} {m m' : memo} (h : Conv g m m') : DoneAt (setDone m' g true) g := by
  obtain ⟨G, hG, _⟩ := conv_heap h
  obtain ⟨G', hG', _⟩ := (conv_le h).heap g G hG
  exact ⟨_, setDone_heap_self m' true hG', rfl⟩

/-- The passes over the root of a join tree that no pass has visited end with
a pass that returns true. -/
theorem tree_conv {s : String} (hs : IsAorC s) : ∀ (t : JTree) (m : memo) (p : Ptr),
    Good s m → IsTree m t p →
    ∃ m', Conv p m m' ∧ Good s (setDone m' p true) ∧ Sub p m (setDone m' p true) := by
  intro t
  induction t with
  | leaf i =>
    intro m p hg h
    obtain ⟨nm, r, hP⟩ := h
    obtain ⟨h1, h2⟩ := atom_conv hg hP
    exact ⟨m, h1, h2, sub_setDone hP⟩
  | node tl tr ihl ihr =>
    intro m p hg h
    obtain ⟨nm, l, r, hP, hl, hr, hb⟩ := h
    have hmem : expr.ofJoin ⟨some p, some l, some r⟩ ∈
        (grp.mk nm [expr.ofJoin ⟨some p, some l, some r⟩] false).exprs :=
      List.mem_singleton.mpr rfl
    obtain ⟨_, _, L, R, he, hL, hR, hd, hu⟩ := hg.expr_shape hP hmem
    cases he
    have hNlt : p < m.heap.length := lt_of_heap hP
    have hlp : m.sig l ⊂ m.sig p := by
      rw [← hu]
      exact ssubset_union_left (hg.ne r R hR) hd
    have hrp : m.sig r ⊂ m.sig p := by
      rw [← hu]
      exact ssubset_union_right (hg.ne l L hL) hd
    -- the left child
    obtain ⟨ml, hconvl, hgl, hsubl⟩ := ihl m l hg hl
    have hfl : Forced (some l) m (setDone ml l true) := forced_of_conv hconvl
    have hdl := conv_done hconvl
    have hW := hg.wf
    have hs1 : ∀ u : Ptr, u < m.heap.length → (setDone ml l true).sig u = m.sig u :=
      fun u hu => sig_le hW hsubl.le hu
    have hr1 : IsTree (setDone ml l true) tr r := by
      refine isTree_mono hg hsubl.le tr r hr ?_ ?_
      · intro u U hU hs'
        refine hsubl.keep u U hU ?_
        intro hc
        obtain ⟨a, ha⟩ := hg.ne u U hU
        exact Finset.disjoint_left.mp hd (hc ha) (hs' ha)
      · intro u h1 h2 hc
        obtain ⟨a, ha⟩ := hgl.ne u _ (List.getElem?_eq_getElem h2)
        exact Finset.disjoint_left.mp hd ((hsubl.fresh u h1 h2).1 ha) (hc ha)
    -- the right child
    obtain ⟨mr, hconvr, hgr, hsubr⟩ := ihr _ r hgl hr1
    have hfr : Forced (some r) (setDone ml l true) (setDone mr r true) := forced_of_conv hconvr
    have hdr := conv_done hconvr
    have hsub1 : Sub p m (setDone ml l true) := sub_mono hlp.1 hsubl
    have hsub2 : Sub p (setDone ml l true) (setDone mr r true) :=
      sub_mono (by rw [hs1 r (lt_of_heap hR), hs1 p hNlt]; exact hrp.1) hsubr
    have hsub12 := sub_trans hW hgl.wf hNlt hsub1 hsub2
    have hs2 : ∀ u : Ptr, u < m.heap.length → (setDone mr r true).sig u = m.sig u :=
      fun u hu => sig_le hW hsub12.le hu
    have hP1 := hsubl.keep p _ hP hlp.2
    have hP2 := hsubr.keep p _ hP1 (by
      rw [hs1 r (lt_of_heap hR), hs1 p hNlt]
      exact hrp.2)
    have hdl2 : DoneAt (setDone mr r true) l := doneAt_of_doneLe hsubr.done hdl
    have hpend : PendFrom (setDone mr r true) (setDone mr r true) p r := by
      intro t T hT hlt
      left
      rw [hs2 p hNlt] at hlt
      by_cases htl : t < m.heap.length
      · rw [hs2 t htl] at hlt
        rcases hb t _ (List.getElem?_eq_getElem htl) hlt with h1 | h1
        · exact hgr.done_below hdl2 hT (by rw [hs2 t htl, hs2 l (lt_of_heap hL)]; exact h1)
        · exact hgr.done_below hdr hT (by rw [hs2 t htl, hs2 r (lt_of_heap hR)]; exact h1)
      · by_cases htl1 : t < (setDone ml l true).heap.length
        · have h1 := hsubl.fresh t (not_lt.mp htl) htl1
          refine hgr.done_below hdl2 hT ?_
          rw [sig_le hgl.wf hsubr.le htl1, hs2 l (lt_of_heap hL)]
          exact h1.1
        · have h1 := hsubr.fresh t (not_lt.mp htl1) (lt_of_heap hT)
          refine hgr.done_below hdr hT ?_
          rw [hs2 r (lt_of_heap hR), ← hs1 r (lt_of_heap hR)]
          exact h1.1
    have hpre : CorePre s (setDone mr r true) p l r := ⟨hgr, ⟨nm, hP2⟩, hdl2, hdr, hpend⟩
    obtain ⟨m3, G3, m', hm3, hG3, hlen, hconv, hgood, hsub3⟩ :=
      core_good hs (forceSpec_all hs _) hpre (Nat.le_refl _)
    have hch : Childrened p
        (grp.mk nm [expr.ofJoin ⟨some p, some l, some r⟩] false).exprs.length 0 m
        (setDone mr r true) :=
      childrened_join (j := ⟨some p, some l, some r⟩) hP rfl hfl hfr (childrened_zero _ _ _)
    have hexp := explored_intro hP hch hm3 hG3
    rw [show ((grp.mk nm [expr.ofJoin ⟨some p, some l, some r⟩] false).exprs.length ==
      G3.exprs.length) = false from by
        simp only [List.length_singleton, beq_eq_false_iff_ne, ne_eq]
        exact fun e => hlen e.symm] at hexp
    obtain ⟨G', hG', _⟩ := hsub3.le.heap p _ hP2
    exact ⟨m', Conv.more hP rfl hexp hconv, hgood,
      sub_trans hW hgr.wf hNlt hsub12 (sub_close hsub3 hG')⟩

/-! ## Building a join tree on a fresh memo -/

theorem good_empty (s : String) : Good s memo.empty := by
  have hnone : ∀ (p : Ptr) (G : grp), memo.empty.heap[p]? = some G → False := by
    intro p G h
    simp [memo.empty] at h
  exact ⟨inv_empty, wf_empty, fun p G h => (hnone p G h).elim, fun p G h => (hnone p G h).elim,
    fun p G h => (hnone p G h).elim, fun p _ G _ h => (hnone p G h).elim,
    fun p G _ h => (hnone p G h).elim, fun p G _ h => (hnone p G h).elim,
    fun p G h => (hnone p G h).elim⟩

theorem good_addRel {s : String} {m : memo} (h : Good s m) {r : rel} (hn : r.name ≠ s)
    (hf : mapGet m.internedRels r = none) :
    Good s (m.addRel r).1 ∧ (m.addRel r).2 = m.heap.length ∧
      (m.addRel r).1.heap = m.heap ++
        [⟨r.name, [expr.ofRel { r with grp := some m.heap.length }], false⟩] ∧
      (m.addRel r).1.internedRels = mapSet m.internedRels r m.heap.length := by
  rcases addRel_cases m r with ⟨g, hg, _⟩ | ⟨_, h2, hheap, _, hrels, _⟩
  · rw [hf] at hg
    cases hg
  · exact ⟨good_of_snoc h (inv_addRel h.inv r) (wf_addRel h.wf r) hheap hn rfl
      (Or.inl ⟨_, rfl⟩), h2, hheap, hrels⟩

/-- Interning a list of distinct relations on a memo that holds base relations
only: each gets a new group, in order. -/
theorem internRels_spec {s : String} : ∀ (rs : List rel) (m : memo), Good s m → AllAtoms m →
    rs.Nodup → (∀ r ∈ rs, r.name ≠ s) → (∀ r ∈ rs, mapGet m.internedRels r = none) →
    Good s (internRels rs m).1 ∧ AllAtoms (internRels rs m).1 ∧
      (internRels rs m).2 = List.range' m.heap.length rs.length ∧
      (internRels rs m).1.heap.length = m.heap.length + rs.length := by
  intro rs
  induction rs with
  | nil =>
    intro m h ha _ _ _
    exact ⟨h, ha, rfl, rfl⟩
  | cons r rs ih =>
    intro m h ha hnd hn hf
    obtain ⟨hg1, hp, hheap, hrels⟩ := good_addRel h (hn r (List.mem_cons_self _ _))
      (hf r (List.mem_cons_self _ _))
    have ha1 : AllAtoms (m.addRel r).1 := by
      intro p G hG
      rw [hheap] at hG
      rcases (getElem?_snoc _ _ _ _).mp hG with h1 | ⟨_, h1⟩
      · exact ha p G h1
      · exact ⟨_, _, h1.symm⟩
    have hlen1 : (m.addRel r).1.heap.length = m.heap.length + 1 := by
      rw [hheap, List.length_append, List.length_singleton]
    obtain ⟨h1, h2, h3, h4⟩ := ih (m.addRel r).1 hg1 ha1 (List.nodup_cons.mp hnd).2
      (fun r' hr' => hn r' (List.mem_cons_of_mem _ hr'))
      (fun r' hr' => by
        rw [hrels, mapGet_mapSet_ne]
        · exact hf r' (List.mem_cons_of_mem _ hr')
        · intro e
          rw [e] at hnd
          exact (List.nodup_cons.mp hnd).1 hr')
    refine ⟨h1, h2, ?_, ?_⟩
    · show (m.addRel r).2 :: (internRels rs (m.addRel r).1).2 = _
      rw [h3, hp, hlen1]
      rfl
    · show (internRels rs (m.addRel r).1).1.heap.length = _
      rw [h4, hlen1, List.length_cons]
      omega

theorem leaves_ne_nil (t : JTree) : t.leaves ≠ [] := by
  induction t with
  | leaf i => simp [JTree.leaves]
  | node l r ihl _ =>
    simp only [JTree.leaves, ne_eq, List.append_eq_nil, not_and]
    exact fun h => absurd h ihl

theorem leaves_nonempty (t : JTree) : t.leaves.toFinset.Nonempty := by
  obtain ⟨a, ha⟩ := List.exists_mem_of_ne_nil _ (leaves_ne_nil t)
  exact ⟨a, List.mem_toFinset.mpr ha⟩

/-- Building a join tree over distinct base relations whose groups no other
group touches: every `constructJoin` allocates a new group, and the result is a
tree that no pass has visited. -/
theorem buildTree_spec {s : String} (hs : IsAorC s) (n : Nat) : ∀ (t : JTree) (m : memo),
    Good s m → t.leaves.Nodup →
    (∀ i ∈ t.leaves, i < n ∧ ∃ nm r, m.heap[i]? = some ⟨nm, [expr.ofRel r], false⟩) →
    (∀ (u : Ptr) (U : grp), m.heap[u]? = some U → ¬ Disjoint (m.sig u) t.leaves.toFinset →
      u ∈ t.leaves) →
    ∃ m' root, buildTree (List.range n) t m = .ok (m', root) ∧ Good s m' ∧ IsTree m' t root ∧
      m'.sig root = t.leaves.toFinset ∧ m.le m' ∧
      (∀ (u : Ptr) (U : grp), m.heap[u]? = some U → m'.heap[u]? = some U) ∧
      (∀ u : Ptr, m.heap.length ≤ u → u < m'.heap.length → m'.sig u ⊆ t.leaves.toFinset) := by
  intro t
  induction t with
  | leaf i =>
    intro m hg _ hleaf _
    obtain ⟨hi, nm, r, hP⟩ := hleaf i (List.mem_singleton.mpr rfl)
    refine ⟨m, i, ?_, hg, ⟨nm, r, hP⟩, ?_, memo.le_refl m, fun _ _ h => h,
      fun u h1 h2 => absurd h2 (not_lt.mpr h1)⟩
    · simp only [buildTree, List.getElem?_range hi]
    · rw [hg.atom i _ r hP (List.mem_singleton.mpr rfl)]
      simp [JTree.leaves]
  | node tl tr ihl ihr =>
    intro m hg hnd hleaf hclean
    simp only [JTree.leaves] at hnd hleaf hclean ⊢
    obtain ⟨hndl, hndr, hdisj⟩ := List.nodup_append.mp hnd
    have hfd : Disjoint tl.leaves.toFinset tr.leaves.toFinset := by
      rw [Finset.disjoint_left]
      intro a ha hb
      exact hdisj (List.mem_toFinset.mp ha) (List.mem_toFinset.mp hb)
    have hW := hg.wf
    -- a group of `m` that meets the leaves is one of the leaf groups
    have hatom : ∀ (u : Ptr) (U : grp), m.heap[u]? = some U →
        ¬ Disjoint (m.sig u) (tl.leaves ++ tr.leaves).toFinset →
        m.sig u = {u} ∧ u ∈ tl.leaves ++ tr.leaves := by
      intro u U hU hnd'
      have hmem := hclean u U hU hnd'
      obtain ⟨_, nm, r, hP⟩ := hleaf u hmem
      exact ⟨hg.atom u _ r hP (List.mem_singleton.mpr rfl), hmem⟩
    have hcl : ∀ (u : Ptr) (U : grp), m.heap[u]? = some U →
        ¬ Disjoint (m.sig u) tl.leaves.toFinset → u ∈ tl.leaves := by
      intro u U hU hnd'
      have h1 : ¬ Disjoint (m.sig u) (tl.leaves ++ tr.leaves).toFinset := by
        intro hc
        apply hnd'
        rw [List.toFinset_append] at hc
        exact Disjoint.mono_right Finset.subset_union_left hc
      obtain ⟨hs1, _⟩ := hatom u U hU h1
      rw [hs1, Finset.disjoint_singleton_left, not_not] at hnd'
      exact List.mem_toFinset.mp hnd'
    obtain ⟨m1, pl, hb1, hg1, ht1, hsl, hle1, hold1, hnew1⟩ := ihl m hg hndl
      (fun i hi => hleaf i (List.mem_append_left _ hi)) hcl
    have hW1 := hg1.wf
    have hcr : ∀ (u : Ptr) (U : grp), m1.heap[u]? = some U →
        ¬ Disjoint (m1.sig u) tr.leaves.toFinset → u ∈ tr.leaves := by
      intro u U hU hnd'
      by_cases hul : u < m.heap.length
      · rw [sig_le hW hle1 hul] at hnd'
        have h1 : ¬ Disjoint (m.sig u) (tl.leaves ++ tr.leaves).toFinset := by
          intro hc
          apply hnd'
          rw [List.toFinset_append] at hc
          exact Disjoint.mono_right Finset.subset_union_right hc
        obtain ⟨hs1, _⟩ := hatom u _ (List.getElem?_eq_getElem hul) h1
        rw [hs1, Finset.disjoint_singleton_left, not_not] at hnd'
        exact List.mem_toFinset.mp hnd'
      · exact absurd (Disjoint.mono_left (hnew1 u (not_lt.mp hul) (lt_of_heap hU)) hfd) hnd'
    obtain ⟨m2, pr, hb2, hg2, ht2, hsr, hle2, hold2, hnew2⟩ := ihr m1 hg1 hndr
      (fun i hi => by
        obtain ⟨h1, nm, r, hP⟩ := hleaf i (List.mem_append_right _ hi)
        exact ⟨h1, nm, r, hold1 i _ hP⟩) hcr
    have hW2 := hg2.wf
    have hle12 := memo.le_trans hle1 hle2
    obtain ⟨PL1, hPL1⟩ := isTree_alloc ht1
    have hPL := hold2 pl PL1 hPL1
    obtain ⟨PR, hPR⟩ := isTree_alloc ht2
    have hspl : m2.sig pl = tl.leaves.toFinset := by
      rw [sig_le hW1 hle2 (lt_of_heap hPL1)]
      exact hsl
    have hnel := leaves_nonempty tl
    have hner := leaves_nonempty tr
    -- where the groups of `m2` lie
    have hwhere : ∀ (t : Ptr) (T : grp), m2.heap[t]? = some T →
        (m2.sig t = {t} ∧ (t ∈ tl.leaves ∨ t ∈ tr.leaves)) ∨
        Disjoint (m2.sig t) (tl.leaves ++ tr.leaves).toFinset ∨
        m2.sig t ⊆ tl.leaves.toFinset ∨ m2.sig t ⊆ tr.leaves.toFinset := by
      intro t T hT
      by_cases h1 : t < m.heap.length
      · rw [sig_le hW hle12 h1]
        by_cases h2 : Disjoint (m.sig t) (tl.leaves ++ tr.leaves).toFinset
        · exact Or.inr (Or.inl h2)
        · obtain ⟨h3, h4⟩ := hatom t _ (List.getElem?_eq_getElem h1) h2
          exact Or.inl ⟨h3, List.mem_append.mp h4⟩
      · by_cases h2 : t < m1.heap.length
        · rw [sig_le hW1 hle2 h2]
          exact Or.inr (Or.inr (Or.inl (hnew1 t (not_lt.mp h1) h2)))
        · exact Or.inr (Or.inr (Or.inr (hnew2 t (not_lt.mp h2) (lt_of_heap hT))))
    have hsmall : ∀ (t : Ptr) (T : grp), m2.heap[t]? = some T →
        m2.sig t ⊆ tl.leaves.toFinset ∪ tr.leaves.toFinset →
        m2.sig t ⊆ tl.leaves.toFinset ∨ m2.sig t ⊆ tr.leaves.toFinset := by
      intro t T hT hsub
      rcases hwhere t T hT with ⟨h1, h2 | h2⟩ | h1 | h1 | h1
      · left
        rw [h1, Finset.singleton_subset_iff]
        exact List.mem_toFinset.mpr h2
      · right
        rw [h1, Finset.singleton_subset_iff]
        exact List.mem_toFinset.mpr h2
      · exfalso
        obtain ⟨a, ha⟩ := hg2.ne t T hT
        rw [List.toFinset_append] at h1
        exact Finset.disjoint_left.mp h1 ha (hsub ha)
      · exact Or.inl h1
      · exact Or.inr h1
    have habs : ∀ (t : Ptr) (T : grp), m2.heap[t]? = some T →
        m2.sig t ≠ m2.sig pl ∪ m2.sig pr := by
      intro t T hT he
      rw [hspl, hsr] at he
      obtain ⟨a, ha⟩ := hnel
      obtain ⟨b, hb⟩ := hner
      rcases hsmall t T hT (by rw [he]) with h1 | h1
      · rw [he] at h1
        exact Finset.disjoint_left.mp hfd (h1 (Finset.mem_union_right _ hb)) hb
      · rw [he] at h1
        exact Finset.disjoint_left.mp hfd ha (h1 (Finset.mem_union_left _ ha))
    obtain ⟨m3, g, hc, hg3, hsig, hcase⟩ := good_constructJoin hs hg2 hPL hPR
      (by rw [hspl, hsr]; exact hfd) (fun t T hT he => absurd he (habs t T hT))
    rcases hcase with ⟨_, hf⟩ | ⟨hgl, hheap, _⟩
    · exfalso
      obtain ⟨G, _, _, hG, _, _, _, _, hu⟩ := hg2.reg_sig hf
      exact habs g G hG hu.symm
    have hle23 : m2.le m3 := memo.le_constructJoin hc
    have hold3 : ∀ (u : Ptr) (U : grp), m2.heap[u]? = some U → m3.heap[u]? = some U := by
      intro u U hU
      rw [hheap]
      exact (getElem?_snoc _ _ _ _).mpr (Or.inl hU)
    have hlen3 : m3.heap.length = m2.heap.length + 1 := by
      rw [hheap, List.length_append, List.length_singleton]
    have hsg : m3.sig g = tl.leaves.toFinset ∪ tr.leaves.toFinset := by
      rw [hsig, hspl, hsr]
    have hs3 : ∀ u : Ptr, u < m2.heap.length → m3.sig u = m2.sig u :=
      fun u hu => sig_le hW2 hle23 hu
    have hnew3 : ∀ u : Ptr, m2.heap.length ≤ u → u < m3.heap.length → u = g := by
      intro u h1 h2
      rw [hgl]
      have h2' : u < m2.heap.length + 1 := by rw [← hlen3]; exact h2
      exact Nat.le_antisymm (Nat.lt_succ_iff.mp h2') h1
    refine ⟨m3, g, ?_, hg3, ⟨canonName PL1.name PR.name, pl, pr, ?_, ?_, ?_, ?_⟩, ?_,
      memo.le_trans hle12 hle23,
      fun u U hU => hold3 u U (hold2 u U (hold1 u U hU)), ?_⟩
    · simp only [buildTree, hb1, hb2]
      exact hc
    · rw [hheap, hgl]
      exact (getElem?_snoc _ _ _ _).mpr (Or.inr ⟨rfl, rfl⟩)
    · refine isTree_mono hg1 (memo.le_trans hle2 hle23) tl pl ht1
        (fun u U hU _ => hold3 u U (hold2 u U hU)) ?_
      intro u h1 h2 hc'
      rw [hsl] at hc'
      by_cases h3 : u < m2.heap.length
      · rw [hs3 u h3] at hc'
        obtain ⟨a, ha⟩ := hg2.ne u _ (List.getElem?_eq_getElem h3)
        exact Finset.disjoint_left.mp hfd (hc' ha) (hnew2 u h1 h3 ha)
      · rw [hnew3 u (not_lt.mp h3) h2, hsg] at hc'
        obtain ⟨b, hb⟩ := hner
        exact Finset.disjoint_left.mp hfd (hc' (Finset.mem_union_right _ hb)) hb
    · refine isTree_mono hg2 hle23 tr pr ht2 (fun u U hU _ => hold3 u U hU) ?_
      intro u h1 h2 hc'
      rw [hnew3 u h1 h2, hsg, hsr] at hc'
      obtain ⟨a, ha⟩ := hnel
      exact Finset.disjoint_left.mp hfd ha (hc' (Finset.mem_union_left _ ha))
    · intro t T hT hlt
      rw [hs3 pl (lt_of_heap hPL), hs3 pr (lt_of_heap hPR), hspl, hsr]
      rw [hsg] at hlt
      by_cases h3 : t < m2.heap.length
      · rw [hs3 t h3] at hlt ⊢
        exact hsmall t _ (List.getElem?_eq_getElem h3) hlt.1
      · rw [hnew3 t (not_lt.mp h3) (lt_of_heap hT), hsg] at hlt
        exact absurd hlt (ssubset_irrefl _)
    · rw [hsg, List.toFinset_append]
    · intro u h1 h2
      rw [List.toFinset_append]
      by_cases h3 : u < m2.heap.length
      · rw [hs3 u h3]
        by_cases h4 : u < m1.heap.length
        · rw [sig_le hW1 hle2 h4]
          exact (hnew1 u h1 h4).trans Finset.subset_union_left
        · exact (hnew2 u (not_lt.mp h4) h3).trans Finset.subset_union_right
      · rw [hnew3 u (not_lt.mp h3) h2, hsg]

/-- C9 (amended): for every list of pairwise distinct base relations whose
names do not include both `a` and `c`, interned with `addRel` on a fresh memo,
and every join tree in which each of them is a leaf at most once, built over
their groups with `constructJoin`, the loop `for !done { done =
root.explore(m) }` ends with a call that returns true: every `constructJoin`
of the construction returns, no pass raises a consistency violation, and the
passes do not go on for ever. -/
theorem driver_terminates (rels : List rel) (t : JTree) (hnd : rels.Nodup)
    (hl : t.leaves.Nodup) (hb : ∀ i ∈ t.leaves, i < rels.length)
    (hac : ¬ ("a" ∈ rels.map rel.name ∧ "c" ∈ rels.map rel.name)) :
    ∃ m0 root, buildTree (internRels rels memo.empty).2 t (internRels rels memo.empty).1 =
        .ok (m0, root) ∧
      ∃ fuel k m', driver fuel root k m0 = .ok m' := by
  obtain ⟨s, hs, hall⟩ := exists_isAorC_ne (rels.map rel.name) hac
  have hatoms : AllAtoms memo.empty := by
    intro p G h
    simp [memo.empty] at h
  obtain ⟨hg, ha, hps, hlen⟩ := internRels_spec (s := s) rels memo.empty (good_empty s) hatoms
    hnd (fun r hr => hall r.name (List.mem_map_of_mem _ hr)) (fun r _ => rfl)
  have hlen0 : (internRels rels memo.empty).1.heap.length = rels.length := by
    rw [hlen]
    simp [memo.empty]
  have hps0 : (internRels rels memo.empty).2 = List.range rels.length := by
    rw [hps, List.range_eq_range']
    rfl
  rw [hps0]
  obtain ⟨m0, root, hbuild, hg0, htree, _⟩ := buildTree_spec hs rels.length t _ hg hl
    (fun i hi => by
      have hlt := hb i hi
      have hP : (internRels rels memo.empty).1.heap[i]? =
          some (internRels rels memo.empty).1.heap[i] :=
        List.getElem?_eq_getElem (by rw [hlen0]; exact hlt)
      obtain ⟨nm, r, he⟩ := ha i _ hP
      exact ⟨hlt, nm, r, by rw [hP, he]⟩)
    (fun u U hU hnd' => by
      obtain ⟨nm, r, he⟩ := ha u U hU
      subst he
      rw [hg.atom u _ r hU (List.mem_singleton.mpr rfl), Finset.disjoint_singleton_left,
        not_not] at hnd'
      exact List.mem_toFinset.mp hnd')
  obtain ⟨m', hconv, _⟩ := tree_conv hs t m0 root hg0 htree
  obtain ⟨fuel, k, hd⟩ := driver_of_conv hconv
  exact ⟨m0, root, hbuild, fuel, k, m', hd⟩

/-- Witness for `driver_terminates`: the bushy tree `(w.x).(y.z)` over the
relations `w`, `x`, `y`, `z`. -/
theorem driver_terminates_witness :
    ∃ m0 root,
      buildTree (internRels [⟨none, 1, "w"⟩, ⟨none, 2, "x"⟩, ⟨none, 3, "y"⟩, ⟨none, 4, "z"⟩]
          memo.empty).2
        (JTree.node (JTree.node (JTree.leaf 0) (JTree.leaf 1))
          (JTree.node (JTree.leaf 2) (JTree.leaf 3)))
        (internRels [⟨none, 1, "w"⟩, ⟨none, 2, "x"⟩, ⟨none, 3, "y"⟩, ⟨none, 4, "z"⟩]
          memo.empty).1 = .ok (m0, root) ∧
      ∃ fuel k m', driver fuel root k m0 = .ok m' :=
  driver_terminates [⟨none, 1, "w"⟩, ⟨none, 2, "x"⟩, ⟨none, 3, "y"⟩, ⟨none, 4, "z"⟩]
    (JTree.node (JTree.node (JTree.leaf 0) (JTree.leaf 1))
      (JTree.node (JTree.leaf 2) (JTree.leaf 3)))
    (by decide) (by decide) (by decide) (by decide)

end MiniExplorer
